import Mathlib

/-!
# ECE391 MP3 kernel: filesystem reader, user-pointer checks, system-call
# dispatch, descriptors, processes, scheduler, paging, terminals, IRQs, RTC

A shallow embedding of the C sources under `student-distrib/`.

Conventions of the embedding.

* `uint32_t` values are natural numbers; every C operation that can wrap is
  written with an explicit reduction modulo `2^32` (`add32`, `sub32`).
* `int32_t` values are integers; `toInt32` is the reinterpretation of a
  32-bit pattern as a signed value and `ofInt32` the converse.
* Memory is a map from addresses to bytes.  A pointer is an address, `NULL`
  is address `0`.  Pointer increments inside a buffer are plain additions.
* A call that can end in more than one way (return, jump into another
  process, `panic_msg`) returns a value of an outcome type that carries the
  kernel data at that point.
* Page-directory and page-table entries are their 32-bit `val`; a bit-field
  is read and written with `get_bits` and `set_bits`.
-/

set_option autoImplicit false

namespace MP3

/-! ## Machine arithmetic -/

/-- Two to the power 32, the number of `uint32_t` values. -/
def WORD : Nat := 4294967296

/-- Truncation of a natural number to `uint32_t`. -/
def u32 (n : Nat) : Nat := n % WORD

/-- Addition of `uint32_t` values. -/
def add32 (a b : Nat) : Nat := (a + b) % WORD

/-- Subtraction of `uint32_t` values. -/
def sub32 (a b : Nat) : Nat := (a + WORD - b % WORD) % WORD

/-- Reinterpretation of a `uint32_t` bit pattern as `int32_t`. -/
def toInt32 (n : Nat) : Int :=
  if n % WORD < 2147483648 then ((n % WORD : Nat) : Int) else ((n % WORD : Nat) : Int) - 4294967296

/-- Reinterpretation of an `int32_t` as a `uint32_t` bit pattern. -/
def ofInt32 (z : Int) : Nat := (z % 4294967296).toNat

/-- Byte-addressed memory. -/
abbrev Mem := Nat → Nat

/-- Modelled from the spec: `lib.c` is not among the sources.  This is the
C routine `memcpy(dst, src, n)`, the source bytes given as a function of the
index. -/
def memcpy (mem : Mem) (dst : Nat) (src : Nat → Nat) (n : Nat) : Mem :=
  fun a => if dst ≤ a ∧ a < dst + n then src (a - dst) else mem a

/-! ## mm.h / mm.c : the user window -/

def PAGE_4M_SIZE : Nat := 4194304
def USER_VMEM_START : Nat := 0x08000000
def USER_VMEM_END : Nat := USER_VMEM_START + PAGE_4M_SIZE

/-- Source `check_user_bounds` (mm.c): does the buffer fit in the user page. -/
def check_user_bounds (buf len : Nat) : Int :=
  let buf_int := u32 buf
  if buf_int < USER_VMEM_START then -1
  else if buf_int > USER_VMEM_END then -1
  else
    let max_len := sub32 USER_VMEM_END buf_int
    if u32 len ≤ max_len then 0 else -1

/-- The `for` loop of `check_user_str_bounds`, as a recursion on the number
of iterations still to run (`max_len+1` minus the counter `i`); `str` is the
walking pointer.  Leaving the loop by its condition gives `-2`. -/
def check_user_str_loop (mem : Mem) : Nat → Nat → Int
  | 0, _ => -2
  | n + 1, str =>
    if u32 str ≥ USER_VMEM_END then -1
    else if mem str = 0 then 0
    else check_user_str_loop mem n (str + 1)

/-- Source `check_user_str_bounds` (mm.c).  The loop bound `max_len+1` is
computed in `uint32_t`. -/
def check_user_str_bounds (mem : Mem) (str max_len : Nat) : Int :=
  if u32 str < USER_VMEM_START then -1
  else check_user_str_loop mem (add32 max_len 1) str

/-! ## fs.h / fs.c : the read-only filesystem -/

def FS_BLOCK_SIZE : Nat := 4096
def FS_MAX_DENTRIES : Nat := 63
def FS_MAX_DBLKS : Nat := 1023
def FS_DENTRY_SIZE : Nat := 64
def FS_MAX_FNAME_LEN : Nat := 32
def FS_DATA_BLK_BITS : Nat := 12
def FS_DENTRY_RTC : Nat := 0
def FS_DENTRY_DIR : Nat := 1
def FS_DENTRY_FILE : Nat := 2

/-- Source `dentry_t`: a 64-byte directory entry. -/
structure dentry_t where
  filename : Nat → Nat
  type : Nat
  inode : Nat
  reserved : Nat → Nat

/-- Source `inode_t`: a file length and its table of data-block indices. -/
structure inode_t where
  file_length : Nat
  data_blks : Nat → Nat

/-- The filesystem module in memory: the boot block (`fs_boot_blk`), the
inode blocks (`inode_start`) and the data blocks (`fs_data_blk_start`). -/
structure fs_image where
  num_dentries : Nat
  num_inode : Nat
  num_data_blk : Nat
  dentries : Nat → dentry_t
  inodes : Nat → inode_t
  data : Nat → Nat → Nat

/-- The `while` loop of `read_data`.  `i` counts the bytes read so far,
`offset` is the file position and `buf` the write pointer.  The result is
`none` when the fuel is exhausted while the loop condition still holds. -/
def read_data_loop (img : fs_image) (in_ptr : inode_t) (length : Nat) :
    Nat → Nat → Nat → Nat → Mem → Option (Int × Mem)
  | fuel, i, offset, buf, mem =>
    if i < length ∧ offset < in_ptr.file_length then
      let blk_idx := offset >>> FS_DATA_BLK_BITS
      if blk_idx ≥ FS_MAX_DBLKS then some (-1, mem)
      else
        let blk_idx := in_ptr.data_blks blk_idx
        if blk_idx ≥ img.num_data_blk then some (-1, mem)
        else
          let start := offset &&& (FS_BLOCK_SIZE - 1)
          let count := sub32 length i
          let count := if count > sub32 FS_BLOCK_SIZE start then sub32 FS_BLOCK_SIZE start else count
          let count := if count > sub32 in_ptr.file_length offset
            then sub32 in_ptr.file_length offset else count
          let mem := memcpy mem buf (fun j => img.data blk_idx (start + j)) count
          match fuel with
          | 0 => none
          | fuel + 1 =>
            read_data_loop img in_ptr length fuel (add32 i count) (add32 offset count)
              (buf + count) mem
    else some (toInt32 i, mem)

/-- Source `read_data` (fs.c).  Every iteration copies at least one byte, so
`length` iterations are enough fuel. -/
def read_data (img : fs_image) (mem : Mem) (inode offset buf length : Nat) :
    Option (Int × Mem) :=
  if inode ≥ img.num_inode then some (-1, mem)
  else if buf = 0 then some (-1, mem)
  else read_data_loop img (img.inodes inode) length length 0 offset buf mem

/-- How the inner loop of `read_dentry_by_name` is left: by
`goto next_outer_loop`, by `goto match`, or by running through all
`FS_MAX_FNAME_LEN` bytes. -/
inductive fname_scan where
  | next_outer_loop
  | matched
  | full
  deriving DecidableEq, Repr

/-- The inner `for` loop of `read_dentry_by_name`, as a recursion on the
number of iterations still to run; `j` is the byte index. -/
def fname_loop (fname : Nat → Nat) (curr : dentry_t) : Nat → Nat → fname_scan
  | 0, _ => fname_scan.full
  | n + 1, j =>
    if fname j ≠ curr.filename j then fname_scan.next_outer_loop
    else if fname j = 0 then fname_scan.matched
    else fname_loop fname curr n (j + 1)

/-- The outer `for` loop of `read_dentry_by_name`, as a recursion on the
number of directory entries still to visit; `i` is the entry index.  The
result is the index of the entry copied out, if any. -/
def read_dentry_by_name_loop (img : fs_image) (fname : Nat → Nat) : Nat → Nat → Option Nat
  | 0, _ => none
  | n + 1, i =>
    match fname_loop fname (img.dentries i) FS_MAX_FNAME_LEN 0 with
    | fname_scan.next_outer_loop => read_dentry_by_name_loop img fname n (i + 1)
    | fname_scan.matched => some i
    | fname_scan.full =>
      if fname FS_MAX_FNAME_LEN ≠ 0 then read_dentry_by_name_loop img fname n (i + 1)
      else some i

/-- Source `read_dentry_by_name` (fs.c).  A pointer argument is `none` when
it is `NULL`; `fname` gives the bytes `fname[0], fname[1], ...` and `dentry`
the contents of the caller's struct.  The result is the return value and the
contents of the caller's struct afterwards. -/
def read_dentry_by_name (img : fs_image) (fname : Option (Nat → Nat)) (dentry : Option dentry_t) :
    Int × Option dentry_t :=
  match fname, dentry with
  | some fname, some d =>
    match read_dentry_by_name_loop img fname img.num_dentries 0 with
    | some i => (0, some (img.dentries i))
    | none => (-1, some d)
  | _, _ => (-1, dentry)

/-- Source `read_dentry_by_index` (fs.c). -/
def read_dentry_by_index (img : fs_image) (index : Nat) (dentry : Option dentry_t) :
    Int × Option dentry_t :=
  match dentry with
  | none => (-1, none)
  | some d =>
    if index ≥ img.num_dentries then (-1, some d)
    else (0, some (img.dentries index))

/-! ## idt.h / idt.c / syscall.c : system-call dispatch -/

/-- Source `iret_context_base_t`: the registers saved on interrupt entry. -/
structure iret_context_base_t where
  ds : Nat
  es : Nat
  fs : Nat
  gs : Nat
  eax : Nat
  ebx : Nat
  ecx : Nat
  edx : Nat
  ebp : Nat
  esi : Nat
  edi : Nat
  error_code : Nat
  eip : Nat
  cs : Nat
  cs_pad : Nat
  eflags : Nat

def NUM_SYSCALLS : Nat := 10

/-- Source `syscall_t`: a handler takes three `int32_t` arguments and
returns an `int32_t`.  It runs in a world `σ`, which it may change, and it
may fail to return (`none`), as `halt` does. -/
abbrev syscall_t (σ : Type) := Int → Int → Int → σ → Option (Int × σ)

/-- The names of the eight handlers of the shipped table. -/
inductive syscall_fn where
  | syscall_halt
  | syscall_execute
  | syscall_read
  | syscall_write
  | syscall_open
  | syscall_close
  | syscall_getargs
  | syscall_vidmap
  deriving DecidableEq, Repr

/-- Source `syscall_tbl` (syscall.c): `NUM_SYSCALLS` slots of which the
initialiser fills the first eight; the other two are null.  `impl` gives the
code of each named handler. -/
def syscall_tbl {σ : Type} (impl : syscall_fn → syscall_t σ) : Nat → Option (syscall_t σ)
  | 0 => some (impl syscall_fn.syscall_halt)
  | 1 => some (impl syscall_fn.syscall_execute)
  | 2 => some (impl syscall_fn.syscall_read)
  | 3 => some (impl syscall_fn.syscall_write)
  | 4 => some (impl syscall_fn.syscall_open)
  | 5 => some (impl syscall_fn.syscall_close)
  | 6 => some (impl syscall_fn.syscall_getargs)
  | 7 => some (impl syscall_fn.syscall_vidmap)
  | _ => none

/-- Source `syscall_handler` (idt.c).  `tbl` is the current contents of the
global `syscall_tbl`. -/
def syscall_handler {σ : Type} (tbl : Nat → Option (syscall_t σ))
    (context : iret_context_base_t) (w : σ) : Option (iret_context_base_t × σ) :=
  let sysnum := context.eax
  if sysnum = 0 ∨ sysnum > NUM_SYSCALLS then
    some ({ context with eax := ofInt32 (-1) }, w)
  else
    match tbl (sysnum - 1) with
    | none => some ({ context with eax := ofInt32 (-1) }, w)
    | some handler =>
      let arg1 := toInt32 context.ebx
      let arg2 := toInt32 context.ecx
      let arg3 := toInt32 context.edx
      match handler arg1 arg2 arg3 w with
      | none => none
      | some (ret_val, w') => some ({ context with eax := ofInt32 ret_val }, w')

/-! ## fd.h, process.h, terminal.h : kernel data -/

def FD_PER_PROC : Nat := 8
def NUM_PROCESSES : Nat := 6
def ARG_LENGTH : Nat := 128
def KERNEL_STACK_SIZE : Nat := 8192
def USER_PROG_START : Nat := 0x08048000
def KEYBOARD_BUFFER_SIZE : Nat := 128
def NUM_TERMINALS : Nat := 3

/-- The five `fd_driver_t` structs of the kernel, by name. -/
inductive fd_driver_t where
  | term_stdin_fd_driver
  | term_stdout_fd_driver
  | file_fd_driver
  | directory_fd_driver
  | rtc_fd_driver
  deriving DecidableEq, Repr

/-- A pointer to an `fd_info_t`: the pid of the PCB holding it and its index
in that PCB's `fds` array. -/
abbrev fd_ptr := Nat × Nat

/-- Source `rtc_driver_data_t` (rtc.c), the layout the RTC driver gives to
`driver_data`: the links of the doubly-linked list of open RTC descriptors
(`none` is `NULL`; a node is named by the descriptor holding it), the mask
and the fired flag. -/
structure rtc_driver_data_t where
  next : Option fd_ptr
  prev : Option fd_ptr
  mask : Nat
  fired : Nat
  deriving DecidableEq

/-- Source `fd_info_t` (fd.h). -/
structure fd_info_t where
  file_ops : Option fd_driver_t
  inode : Nat
  file_pos : Nat
  present : Nat
  flags : Nat
  driver_data : rtc_driver_data_t
  deriving DecidableEq

/-- The all-zero `fd_info_t` that `memset(fd_info, 0, sizeof(fd_info_t))` leaves. -/
def fd_info_zero : fd_info_t := ⟨none, 0, 0, 0, 0, ⟨none, none, 0, 0⟩⟩

/-- The code addresses a `context_t` can hold: the entry thunk, or an
address saved by `swap_context`. -/
inductive code_ptr where
  | proc_entry0
  | saved (eip : Nat)
  deriving DecidableEq

/-- Source `context_t` (swtch.h). -/
structure context_t where
  esp : Nat
  eip : code_ptr
  deriving DecidableEq

/-- Source `pcb_t` (process.h).  `parent` holds the pid of the parent's PCB,
`none` for `NULL`. -/
structure pcb_t where
  parent : Option Nat
  context : context_t
  present : Nat
  running : Nat
  vidmap : Nat
  flags : Nat
  exit_code : Int
  fds : Nat → fd_info_t
  args : Nat → Nat
  inode : Nat
  terminal_id : Int

/-- Source `terminal_t` (terminal.h). -/
structure terminal_t where
  screen_x : Int
  screen_y : Int
  keyboard_buffer : Nat → Nat
  buffer_index : Int
  term_in_flag : Int

/-- The kernel data the modelled functions work on: the PCBs at the bases of
the kernel stacks (by pid), the array `terminals`, and the globals
`rtc_driver_data_head` and `rtc_driver_counter`. -/
structure kernel_t where
  pcbs : Nat → pcb_t
  terminals : Int → terminal_t
  rtc_driver_data_head : Option fd_ptr
  rtc_driver_counter : Nat

/-- The descriptor a pointer refers to. -/
def get_fd (k : kernel_t) (p : fd_ptr) : fd_info_t := (k.pcbs p.1).fds p.2

/-- A store through a descriptor pointer. -/
def set_fd (k : kernel_t) (p : fd_ptr) (f : fd_info_t) : kernel_t :=
  let pcb : pcb_t := { (k.pcbs p.1) with fds := Function.update (k.pcbs p.1).fds p.2 f }
  { k with pcbs := Function.update k.pcbs p.1 pcb }

/-- A store to a terminal. -/
def set_term (k : kernel_t) (tid : Int) (t : terminal_t) : kernel_t :=
  { k with terminals := Function.update k.terminals tid t }

/-- What can happen while the processor sits in `hlt`: each entry is the
effect on the kernel data of everything that runs until the halted code is
resumed (interrupt handlers, other processes).  None of it touches the
memory of the halted process. -/
abbrev irq_env := List (kernel_t → kernel_t)

/-- The loop `while(!cond) asm volatile("hlt");`.  The result is `none` when
the condition is still false after the last wake-up on record. -/
def hlt_until (cond : kernel_t → Bool) : irq_env → kernel_t → Option kernel_t
  | [], k => if cond k then some k else none
  | irq :: env, k => if cond k then some k else hlt_until cond env (irq k)

/-- Source `fd_read_t` (fd.h), with the context the functions read:
the wake-ups on record, the filesystem image, the kernel data, the memory and
the pid of the running process.  A null `fd_info` is `none`.  The result is
`none` when the call does not return. -/
abbrev fd_read_t :=
  irq_env → fs_image → kernel_t → Mem → Nat → Option fd_ptr → Nat → Int → Option (Int × kernel_t × Mem)

/-! ## terminal.c : the stdin and stdout drivers -/

/-- Source `term_clear_keyboard_buffer` (terminal.c); `none` is the panic. -/
def term_clear_keyboard_buffer (k : kernel_t) (terminal_id : Int) : Option kernel_t :=
  if terminal_id < 0 ∨ terminal_id ≥ NUM_TERMINALS then none
  else
    some (set_term k terminal_id
      { (k.terminals terminal_id) with keyboard_buffer := fun _ => 0, buffer_index := 0 })

/-- The copy loop of `term_read`, as a recursion on `nbytes - i`. -/
def term_read_loop (term : terminal_t) (buf : Nat) : Nat → Nat → Mem → Nat × Mem
  | 0, i, mem => (i, mem)
  | n + 1, i, mem =>
    if (i : Int) ≥ term.buffer_index then (i, mem)
    else term_read_loop term buf n (i + 1) (Function.update mem (buf + i) (term.keyboard_buffer i))

/-- Source `term_read` (terminal.c). -/
def term_read : fd_read_t := fun env _img k mem cur _fd_info buf nbytes =>
  if buf = 0 ∨ nbytes < 0 then some (-1, k, mem)
  else
    let tid := (k.pcbs cur).terminal_id
    match hlt_until (fun k => decide ((k.terminals tid).term_in_flag ≠ 0)) env k with
    | none => none
    | some k =>
      let r := term_read_loop (k.terminals tid) buf nbytes.toNat 0 mem
      match term_clear_keyboard_buffer k (k.pcbs cur).terminal_id with
      | none => none
      | some k =>
        some ((r.1 : Int), set_term k tid { (k.terminals tid) with term_in_flag := 0 }, r.2)

/-- Source `term_noread` (terminal.c). -/
def term_noread : fd_read_t := fun _env _img k mem _cur _fd_info _buf _nbytes =>
  some (-1, k, mem)

/-! ## fs.c : the regular-file and directory drivers -/

/-- Source `file_read` (fs.c). -/
def file_read : fd_read_t := fun _env img k mem _cur fd_info buf nbytes =>
  match fd_info with
  | none => some (-1, k, mem)
  | some p =>
    if buf = 0 then some (-1, k, mem)
    else if nbytes < 0 then some (-1, k, mem)
    else
      match read_data img mem (get_fd k p).inode (get_fd k p).file_pos buf (ofInt32 nbytes) with
      | none => none
      | some (count_read, mem) =>
        if count_read > 0 then
          some (count_read,
            set_fd k p { (get_fd k p) with
              file_pos := add32 (get_fd k p).file_pos (ofInt32 count_read) }, mem)
        else some (count_read, k, mem)

/-- Source `directory_read` (fs.c).  `dentry` is the uninitialised local
the entry is copied into. -/
def directory_read (dentry : dentry_t) : fd_read_t := fun _env img k mem _cur fd_info buf nbytes =>
  match fd_info with
  | none => some (-1, k, mem)
  | some p =>
    if buf = 0 then some (-1, k, mem)
    else if nbytes < 0 then some (-1, k, mem)
    else if (get_fd k p).file_pos ≥ img.num_dentries then some (0, k, mem)
    else
      let index := (get_fd k p).file_pos
      let k := set_fd k p { (get_fd k p) with file_pos := add32 (get_fd k p).file_pos 1 }
      match read_dentry_by_index img index (some dentry) with
      | (r, some dentry) =>
        if r ≠ 0 then some (-1, k, mem)
        else
          let nbytes := if nbytes > 32 then 32 else nbytes
          some (nbytes, k, memcpy mem buf dentry.filename nbytes.toNat)
      | (_, none) => some (-1, k, mem)

/-! ## rtc.c : the RTC driver -/

def RTC_BASE_RATE : Nat := 1024

/-- Source `freq_to_mask` (rtc.c). -/
def freq_to_mask (freq : Nat) : Nat := sub32 (RTC_BASE_RATE / freq) 1

/-- Source `rtc_read` (rtc.c). -/
def rtc_read : fd_read_t := fun env _img k mem _cur fd_info buf nbytes =>
  match fd_info with
  | none => some (-1, k, mem)
  | some p =>
    if buf = 0 ∨ nbytes < 0 then some (-1, k, mem)
    else
      let rtc_data : rtc_driver_data_t := { (get_fd k p).driver_data with fired := 0 }
      let k := set_fd k p { (get_fd k p) with driver_data := rtc_data }
      match hlt_until (fun k => decide ((get_fd k p).driver_data.fired ≠ 0)) env k with
      | none => none
      | some k =>
        some (0, set_fd k p { (get_fd k p) with file_pos := add32 (get_fd k p).file_pos 1 }, mem)

/-! ## fd.c : the descriptor system calls -/

/-- The `read` member of each shipped `fd_driver_t`. -/
def fd_driver_read (dentry : dentry_t) : fd_driver_t → fd_read_t
  | fd_driver_t.term_stdin_fd_driver => term_read
  | fd_driver_t.term_stdout_fd_driver => term_noread
  | fd_driver_t.file_fd_driver => file_read
  | fd_driver_t.directory_fd_driver => directory_read dentry
  | fd_driver_t.rtc_fd_driver => rtc_read

/-- Source `syscall_read` (fd.c).  `read_of` gives the `read` member of each
driver struct; a present descriptor with a null `file_ops` makes the call
undefined (`none`). -/
def syscall_read (read_of : fd_driver_t → fd_read_t) (env : irq_env) (img : fs_image)
    (k : kernel_t) (mem : Mem) (cur : Nat) (fd arg2 nbytes : Int) :
    Option (Int × kernel_t × Mem) :=
  let buf := ofInt32 arg2
  if nbytes < 0 ∨ fd < 0 ∨ fd ≥ FD_PER_PROC ∨ buf = 0 then some (-1, k, mem)
  else if check_user_bounds buf (ofInt32 nbytes) ≠ 0 then some (-1, k, mem)
  else
    let fd_info : fd_ptr := (cur, fd.toNat)
    if (get_fd k fd_info).present = 0 then some (-1, k, mem)
    else
      match (get_fd k fd_info).file_ops with
      | none => none
      | some drv => read_of drv env img k mem cur (some fd_info) buf nbytes

/-- Source `rtc_open` (rtc.c): initialise the descriptor and push its
`driver_data` on the front of the list of open RTC descriptors. -/
def rtc_open (k : kernel_t) (fd_info : Option fd_ptr) (filename : Option (Nat → Nat)) :
    Int × kernel_t :=
  match fd_info, filename with
  | some p, some _ =>
    let k := set_fd k p { (get_fd k p) with
      file_ops := some fd_driver_t.rtc_fd_driver, inode := 0, file_pos := 0 }
    let k :=
      match k.rtc_driver_data_head with
      | some h =>
        let head_data : rtc_driver_data_t := { (get_fd k h).driver_data with prev := some p }
        set_fd k h { (get_fd k h) with driver_data := head_data }
      | none => k
    let rtc_data : rtc_driver_data_t :=
      { next := k.rtc_driver_data_head, prev := none, mask := freq_to_mask 2, fired := 1 }
    let k := set_fd k p { (get_fd k p) with driver_data := rtc_data }
    (0, { k with rtc_driver_data_head := some p })
  | _, _ => (-1, k)

/-- Source `directory_open` (fs.c). -/
def directory_open (k : kernel_t) (fd_info : Option fd_ptr) (filename : Option (Nat → Nat)) :
    Int × kernel_t :=
  match fd_info, filename with
  | some p, some _ =>
    (0, set_fd k p { (get_fd k p) with
      file_ops := some fd_driver_t.directory_fd_driver, inode := 0, file_pos := 0 })
  | _, _ => (-1, k)

/-- Source `file_open` (fs.c).  `dentry` is the uninitialised local the
directory entry is read into. -/
def file_open (dentry : dentry_t) (img : fs_image) (k : kernel_t) (fd_info : Option fd_ptr)
    (filename : Option (Nat → Nat)) : Int × kernel_t :=
  match fd_info, filename with
  | some p, some fname =>
    match read_dentry_by_name img (some fname) (some dentry) with
    | (r, some dentry) =>
      if r ≠ 0 then (-1, k)
      else if dentry.type = FS_DENTRY_RTC then
        if dentry.inode ≠ 0 then (-1, k) else rtc_open k (some p) (some fname)
      else if dentry.type = FS_DENTRY_DIR then
        if dentry.inode ≠ 0 then (-1, k) else directory_open k (some p) (some fname)
      else if dentry.type = FS_DENTRY_FILE then
        (0, set_fd k p { (get_fd k p) with
          file_ops := some fd_driver_t.file_fd_driver, inode := dentry.inode, file_pos := 0 })
      else (-1, k)
    | (_, none) => (-1, k)
  | _, _ => (-1, k)

/-- The scan of `syscall_open` for an absent slot, as a recursion on
`FD_PER_PROC - i`: the value of `i` when the loop is left. -/
def open_scan (fds : Nat → fd_info_t) : Nat → Nat → Nat
  | 0, i => i
  | n + 1, i => if (fds i).present = 0 then i else open_scan fds n (i + 1)

/-- Source `syscall_open` (fd.c). -/
def syscall_open (dentry : dentry_t) (img : fs_image) (k : kernel_t) (mem : Mem) (cur : Nat)
    (arg1 _arg2 _arg3 : Int) : Int × kernel_t :=
  let filename := ofInt32 arg1
  if filename = 0 then (-1, k)
  else if check_user_str_bounds mem filename FS_MAX_FNAME_LEN ≠ 0 then (-1, k)
  else
    let i := open_scan (k.pcbs cur).fds FD_PER_PROC 0
    if i = FD_PER_PROC then (-1, k)
    else
      let fd_info : fd_ptr := (cur, i)
      let k := set_fd k fd_info fd_info_zero
      let k := set_fd k fd_info { (get_fd k fd_info) with present := 1 }
      match file_open dentry img k (some fd_info) (some (fun j => mem (filename + j))) with
      | (r, k) =>
        if r ≠ 0 then (-1, set_fd k fd_info { (get_fd k fd_info) with present := 0 })
        else ((i : Int), k)

/-! ## process.c : process allocation, execute, getargs -/

/-- The index of the first NUL of `s` at or after `i`, looking at no more
than `n` bytes; `i + n` when there is none. -/
def strnlen (s : Nat → Nat) : Nat → Nat → Nat
  | 0, i => i
  | n + 1, i => if s i = 0 then i else strnlen s n (i + 1)

/-- Modelled from the spec: `lib.c` is not among the sources.  This is the
C routine `strncpy(dest, src, n)` on byte arrays: the bytes of `src` before
its first NUL are copied, the rest of the first `n` bytes of `dest` is
filled with NULs. -/
def strncpy (dest src : Nat → Nat) (n : Nat) : Nat → Nat :=
  fun a => if a < n then (if a < strnlen src n 0 then src a else 0) else dest a

/-- Modelled from the spec: `lib.c` is not among the sources.  This is the
C routine `strlen` applied to an array of `bound` bytes; it is undefined
(`none`) when the array holds no NUL. -/
def strlen (s : Nat → Nat) (bound : Nat) : Option Nat :=
  if strnlen s bound 0 < bound then some (strnlen s bound 0) else none

/-- The little-endian `uint32_t` stored at address `a`. -/
def le32 (m : Mem) (a : Nat) : Nat :=
  m a + 256 * m (a + 1) + 65536 * m (a + 2) + 16777216 * m (a + 3)

/-- The uninitialised locals of `alloc_process`: the arrays `prog_name` and
`arg_buffer`, the struct `dentry`, and the stack memory holding `magic`,
whose address `&magic` is `magic_off + 1` (not null). -/
structure alloc_locals where
  prog_name : Nat → Nat
  arg_buffer : Nat → Nat
  dentry : dentry_t
  stack : Mem
  magic_off : Nat

/-- A store to a PCB. -/
def set_pcb (k : kernel_t) (pid : Nat) (pcb : pcb_t) : kernel_t :=
  { k with pcbs := Function.update k.pcbs pid pcb }

/-- The scan of `alloc_process` for a non-present PCB, as a recursion on
`NUM_PROCESSES - i`: the value of `i` when the loop is left.  The PCB of
index `i` is the one at the base of stack `kernel_stacks_start - (i+1)`. -/
def alloc_scan (pcbs : Nat → pcb_t) : Nat → Nat → Nat
  | 0, i => i
  | n + 1, i => if (pcbs i).present ≠ 0 then alloc_scan pcbs n (i + 1) else i

/-- The loops `while (i < ARG_LENGTH && (cmdline[i] == ' ' || cmdline[i] == '\t')) ++i;`
of `alloc_process`, as a recursion on `ARG_LENGTH - i`. -/
def skip_spaces (cmdline : Nat → Nat) : Nat → Nat → Nat
  | 0, i => i
  | n + 1, i => if cmdline i = 32 ∨ cmdline i = 9 then skip_spaces cmdline n (i + 1) else i

/-- The loop of `alloc_process` that copies the program name, as a
recursion on `ARG_LENGTH - i`: the final `i`, `j` and `prog_name`. -/
def copy_prog_name (cmdline : Nat → Nat) : Nat → Nat → Nat → (Nat → Nat) → Nat × Nat × (Nat → Nat)
  | 0, i, j, prog_name => (i, j, prog_name)
  | n + 1, i, j, prog_name =>
    if cmdline i = 0 ∨ cmdline i = 32 ∨ cmdline i = 9 then (i, j, Function.update prog_name j 0)
    else copy_prog_name cmdline n (i + 1) (j + 1) (Function.update prog_name j (cmdline i))

/-- The loop of `alloc_process` that copies the arguments, as a recursion
on `ARG_LENGTH - i`: the final `i`, `j` and `arg_buffer`. -/
def copy_args (cmdline : Nat → Nat) : Nat → Nat → Nat → (Nat → Nat) → Nat × Nat × (Nat → Nat)
  | 0, i, j, arg_buffer => (i, j, arg_buffer)
  | n + 1, i, j, arg_buffer =>
    if cmdline i = 0 then (i, j, arg_buffer)
    else copy_args cmdline n (i + 1) (j + 1) (Function.update arg_buffer j (cmdline i))

/-- The values `alloc_process` holds after its four parsing loops. -/
structure parsed_cmdline where
  i : Nat
  j : Nat
  prog_name : Nat → Nat
  arg_buffer : Nat → Nat

/-- The four parsing loops of `alloc_process`, in order. -/
def parse_cmdline (loc : alloc_locals) (cmdline : Nat → Nat) : parsed_cmdline :=
  let i := skip_spaces cmdline ARG_LENGTH 0
  let r := copy_prog_name cmdline (ARG_LENGTH - i) i 0 loc.prog_name
  let i := skip_spaces cmdline (ARG_LENGTH - r.1) r.1
  let a := copy_args cmdline (ARG_LENGTH - i) i 0 loc.arg_buffer
  ⟨a.1, a.2.1, r.2.2, a.2.2⟩

/-- The tail of `alloc_process` after a successful lookup: the checks on the
file and the initialisation of the PCB `pcb` of index `pid`.  The two calls
of `term_open` (terminal.c) set `inode` and `file_pos` of their descriptor
to 0 and return 0. -/
def alloc_finish (loc : alloc_locals) (img : fs_image) (k : kernel_t) (pid : Nat) (pcb : pcb_t)
    (dentry : dentry_t) : Option (Option Nat × kernel_t) :=
  if dentry.type ≠ FS_DENTRY_FILE then some (none, set_pcb k pid { pcb with present := 0 })
  else
    match read_data img loc.stack dentry.inode 0 (loc.magic_off + 1) 4 with
    | none => none
    | some (r, stack) =>
      if (4 : Nat) ≠ ofInt32 r then some (none, set_pcb k pid { pcb with present := 0 })
      else if le32 stack (loc.magic_off + 1) ≠ 0x464c457f then
        some (none, set_pcb k pid { pcb with present := 0 })
      else if (img.inodes dentry.inode).file_length > sub32 USER_VMEM_END USER_PROG_START then
        some (none, set_pcb k pid { pcb with present := 0 })
      else
        let stdin : fd_info_t := { (pcb.fds 0) with
          present := 1, file_ops := some fd_driver_t.term_stdin_fd_driver,
          inode := 0, file_pos := 0 }
        let stdout : fd_info_t := { (pcb.fds 1) with
          present := 1, file_ops := some fd_driver_t.term_stdout_fd_driver,
          inode := 0, file_pos := 0 }
        let fds : Nat → fd_info_t := fun n =>
          if n = 0 then stdin
          else if n = 1 then stdout
          else if n < FD_PER_PROC then { (pcb.fds n) with present := 0 }
          else pcb.fds n
        some (some pid, set_pcb k pid { pcb with
          inode := dentry.inode, fds := fds,
          context := ⟨0x800000 - (pid + 1) * KERNEL_STACK_SIZE + KERNEL_STACK_SIZE,
            code_ptr.proc_entry0⟩ })

/-- Source `alloc_process` (process.c).  `parent` is the pid of the parent's
PCB (`none` for `NULL`), `cmdline` gives the bytes `cmdline[0], cmdline[1],
...`.  The result is the pid of the new PCB (`none` for `NULL`) and the kernel
data afterwards; the outer `none` stands for a call that does not return
(the panic). -/
def alloc_process (loc : alloc_locals) (img : fs_image) (k : kernel_t) (parent : Option Nat)
    (cmdline : Nat → Nat) (terminal : Int) : Option (Option Nat × kernel_t) :=
  let pid := alloc_scan k.pcbs NUM_PROCESSES 0
  if pid = NUM_PROCESSES then some (none, k)
  else
    let pcb : pcb_t := { (k.pcbs pid) with
      terminal_id := terminal, present := 1, running := 1, vidmap := 0, parent := parent }
    let ps := parse_cmdline loc cmdline
    if ps.i = ARG_LENGTH then some (none, set_pcb k pid { pcb with present := 0 })
    else if ps.j ≥ ARG_LENGTH then none
    else
      let arg_buffer := Function.update ps.arg_buffer ps.j 0
      let pcb : pcb_t := { pcb with args := strncpy pcb.args arg_buffer ARG_LENGTH }
      match read_dentry_by_name img (some ps.prog_name) (some loc.dentry) with
      | (r, some dentry) =>
        if r ≠ 0 then some (none, set_pcb k pid { pcb with present := 0 })
        else alloc_finish loc img k pid pcb dentry
      | (_, none) => some (none, set_pcb k pid { pcb with present := 0 })

/-- How `syscall_execute` goes on: it returns a value, or it has switched to
the child it allocated. -/
inductive execute_outcome where
  | returned (ret : Int) (k : kernel_t)
  | switched (child : Nat) (k : kernel_t)

/-- Source `syscall_execute` (process.c), up to the context switch into the
child. -/
def syscall_execute (loc : alloc_locals) (img : fs_image) (k : kernel_t) (mem : Mem) (cur : Nat)
    (arg1 _arg2 _arg3 : Int) : Option execute_outcome :=
  let command := ofInt32 arg1
  if command = 0 then some (execute_outcome.returned (-1) k)
  else if check_user_str_bounds mem command (ARG_LENGTH - 1) ≠ 0 then
    some (execute_outcome.returned (-1) k)
  else
    match alloc_process loc img k (some cur) (fun j => mem (command + j))
        (k.pcbs cur).terminal_id with
    | none => none
    | some (none, k) => some (execute_outcome.returned (-1) k)
    | some (some child, k) =>
      some (execute_outcome.switched child (set_pcb k cur { (k.pcbs cur) with running := 0 }))

/-- Source `syscall_getargs` (process.c).  The result is the return value
and the memory afterwards; `none` when `strlen` runs off the `args` array. -/
def syscall_getargs (k : kernel_t) (mem : Mem) (cur : Nat) (arg1 arg2 _arg3 : Int) :
    Option (Int × Mem) :=
  let buf := ofInt32 arg1
  let nbytes := arg2
  if buf = 0 ∨ nbytes < 0 then some (-1, mem)
  else if check_user_bounds buf (ofInt32 nbytes) = -1 then some (-1, mem)
  else if (k.pcbs cur).present = 0 then some (-1, mem)
  else
    match strlen (k.pcbs cur).args ARG_LENGTH with
    | none => none
    | some arglen =>
      if add32 arglen 1 > ofInt32 nbytes ∨ arglen = 0 then some (-1, mem)
      else
        some (0, memcpy mem buf (strncpy (fun _ => 0) (k.pcbs cur).args (ofInt32 nbytes))
          (ofInt32 nbytes))

/-! ## process.h : kernel stacks and PCB pointers -/

/-- Source `kernel_stacks_start` (process.h): the kernel stacks grow downward
from the end of the kernel page. -/
def kernel_stacks_start : Nat := 0x800000

/-- Source `pid_to_pcb` (process.h): `&(kernel_stacks_start - (pid+1))->pcb`,
pointer arithmetic in units of `sizeof(kernel_stack_t) = KERNEL_STACK_SIZE`
on 32-bit addresses. -/
def pid_to_pcb (pid : Nat) : Nat :=
  sub32 kernel_stacks_start (u32 (add32 pid 1 * KERNEL_STACK_SIZE))

/-- Source `pcb_to_pid` (process.h):
`(kernel_stacks_start - ((kernel_stack_t*) pcb)) - 1`, the pointer
difference being the signed byte difference divided by the element size. -/
def pcb_to_pid (pcb : Nat) : Nat :=
  ofInt32 (Int.tdiv (toInt32 (sub32 kernel_stacks_start pcb)) (KERNEL_STACK_SIZE : Int) - 1)

/-- Source `get_current_pcb` (process.h), as a function of the stack pointer
it reads: `(esp-1) & ~(KERNEL_STACK_SIZE-1)`. -/
def get_current_pcb (esp : Nat) : Nat :=
  sub32 esp 1 &&& u32 (WORD - 1 - (KERNEL_STACK_SIZE - 1))

/-- The value `(uint32_t)(((kernel_stack_t*)pcb) + 1)` that `jump_to_process`
and `switch_to_process` (process.c) store in `tss.esp0`. -/
def tss_esp0 (pcb : Nat) : Nat := add32 pcb KERNEL_STACK_SIZE

/-! ## rtc.c : `rtc_write` -/

/-- Source `rtc_write` (rtc.c).  `buf` is an address in `mem`, the rate is
the `uint32_t` read there.  The three tests of the first `if` have no
effect on the state, so the order in which they are made does not matter. -/
def rtc_write (k : kernel_t) (mem : Mem) (fd_info : Option fd_ptr) (buf : Nat) (nbytes : Int) :
    Int × kernel_t :=
  match fd_info with
  | none => (-1, k)
  | some p =>
    if nbytes ≠ 4 ∨ buf = 0 then (-1, k)
    else
      let rate := u32 (le32 mem buf)
      if (sub32 rate 1 &&& rate) ≠ 0 ∨ rate > 1024 ∨ rate < 2 then (-1, k)
      else
        let rtc_data : rtc_driver_data_t :=
          { (get_fd k p).driver_data with mask := freq_to_mask rate }
        (4, set_fd k p { (get_fd k p) with driver_data := rtc_data })

/-! ## fs.c : one pass through the loop of `read_data` -/

/-- One pass through the body of the `while` loop of `read_data` (fs.c),
entered with the loop condition true: `none` is a `return -1`, otherwise the
result lists `count` and the values of `i`, `offset`, `buf` and the memory at
the end of the pass. -/
def read_data_body (img : fs_image) (in_ptr : inode_t) (length i offset buf : Nat) (mem : Mem) :
    Option (Nat × Nat × Nat × Nat × Mem) :=
  let blk_idx := offset >>> FS_DATA_BLK_BITS
  if blk_idx ≥ FS_MAX_DBLKS then none
  else
    let blk_idx := in_ptr.data_blks blk_idx
    if blk_idx ≥ img.num_data_blk then none
    else
      let start := offset &&& (FS_BLOCK_SIZE - 1)
      let count := sub32 length i
      let count := if count > sub32 FS_BLOCK_SIZE start then sub32 FS_BLOCK_SIZE start else count
      let count := if count > sub32 in_ptr.file_length offset
        then sub32 in_ptr.file_length offset else count
      some (count, add32 i count, add32 offset count, buf + count,
        memcpy mem buf (fun j => img.data blk_idx (start + j)) count)

/-! ## process.c : the scheduler -/

/-- The `for` loop of `do_schedule` (process.c), as a recursion on
`NUM_PROCESSES - i`: the pid of the first PCB found present and running
(where the loop is left by `break`), or `none` when the loop runs to its end
with `switched` still 0. -/
def sched_scan (pcbs : Nat → pcb_t) (curr_pid : Nat) : Nat → Nat → Option Nat
  | 0, _ => none
  | n + 1, i =>
    let next := add32 (add32 curr_pid i) 1 % NUM_PROCESSES
    if (pcbs next).present ≠ 0 ∧ (pcbs next).running ≠ 0 then some next
    else sched_scan pcbs curr_pid n (i + 1)

/-- What `do_schedule` does first: the `panic_msg` of its entry test, a call
of `jump_to_process` or of `switch_to_process` on the PCB of a pid, or the
`sti; hlt; cli` taken when no process was found. -/
inductive sched_pass where
  | panic
  | jump_to (pid : Nat)
  | switch_to (pid : Nat)
  | hlt
  deriving DecidableEq, Repr

/-- Source `do_schedule` (process.c), for the current pid
`curr_pid = pcb_to_pid(get_current_pcb())`: the entry test, which panics on
a switch from a PCB that is not present, and the first pass through the body
of the `do` loop. -/
def do_schedule (k : kernel_t) (curr_pid : Nat) (jump : Bool) : sched_pass :=
  if jump = false ∧ (k.pcbs curr_pid).present = 0 then sched_pass.panic
  else
    match sched_scan k.pcbs curr_pid NUM_PROCESSES 0 with
    | some next => if jump then sched_pass.jump_to next else sched_pass.switch_to next
    | none => sched_pass.hlt

/-! ## mm.h / mm.c : the page directory and the page tables -/

def PAGE_SIZE : Nat := 4096
def USER_VIDMAP : Nat := 0x09000000
def VIDEO : Nat := 0xB8000
def VIDEO_MEM_SIZE : Nat := 4096
def VGA_MEM_BASE : Nat := 0xB8000

/-- Reading a bit-field of a 32-bit entry: the `width` bits from bit `lo`. -/
def get_bits (val lo width : Nat) : Nat := val / 2 ^ lo % 2 ^ width

/-- Assigning to a bit-field of a 32-bit entry: the value is truncated to
`width` bits, the bits below `lo` and from `lo + width` up stay. -/
def set_bits (val lo width x : Nat) : Nat :=
  val % 2 ^ lo + x % 2 ^ width * 2 ^ lo + val / 2 ^ (lo + width) * 2 ^ (lo + width)

/-- The tables `kernel_page_dir`, `low_page_table` and
`user_vidmap_page_table` (mm.c); every entry is the `val` of its `pd_ent_t`
or `pt_ent_t`.  The fields used below are `pd_ent_t.base_4m` (bits 22..31),
`pt_ent_t.present` (bit 0) and `pt_ent_t.base` (bits 12..31). -/
structure paging_t where
  kernel_page_dir : Nat → Nat
  low_page_table : Nat → Nat
  user_vidmap_page_table : Nat → Nat

/-- Source `set_user_page` (mm.c).  The reload of `cr3` that ends it changes
no table and is not part of the state. -/
def set_user_page (k : kernel_t) (pg : paging_t) (pid : Nat) : paging_t :=
  let pcb := k.pcbs pid
  let address : Int := toInt32 (u32 (add32 pid 2 * PAGE_4M_SIZE))
  let pd_ent := set_bits (pg.kernel_page_dir 32) 22 10 (ofInt32 (address >>> 22))
  let idx := (USER_VIDMAP &&& (PAGE_4M_SIZE - 1)) >>> 12
  let pt_ent := set_bits (pg.user_vidmap_page_table idx) 0 1 pcb.vidmap
  let pt_ent := set_bits pt_ent 12 20 (ofInt32 (((VIDEO >>> 12 : Nat) : Int) + pcb.terminal_id + 2))
  { pg with
    kernel_page_dir := Function.update pg.kernel_page_dir 32 pd_ent,
    user_vidmap_page_table := Function.update pg.user_vidmap_page_table idx pt_ent }

/-- The address of `video_buffers[terminal_id]` (terminal.c):
`video_buffers = 2 + (video_mem_block*) VGA_MEM_BASE`, blocks of
`VIDEO_MEM_SIZE` bytes. -/
def video_buffers (terminal_id : Int) : Nat :=
  ofInt32 (((VGA_MEM_BASE + 2 * VIDEO_MEM_SIZE : Nat) : Int) + terminal_id * (VIDEO_MEM_SIZE : Nat))

/-! ## terminal.c : keyboard input and the screen -/

def NUM_COLS : Nat := 80
def NUM_ROWS : Nat := 25
def ATTRIB : Nat := 0x7

/-- Modelled from the spec: `lib.c` is not among the sources.  This is the
C routine `memmove(dst, src, n)` on byte-addressed memory. -/
def memmove (mem : Mem) (dst src n : Nat) : Mem :=
  fun a => if dst ≤ a ∧ a < dst + n then mem (src + (a - dst)) else mem a

/-- Modelled from the spec: `lib.c` is not among the sources.  This is the
routine `memset_word(dst, word, n)`, which stores the 16-bit value `word`,
low byte first, `n` times from `dst` on. -/
def memset_word (mem : Mem) (dst word n : Nat) : Mem :=
  fun a =>
    if dst ≤ a ∧ a < dst + 2 * n then (if (a - dst) % 2 = 0 then word % 256 else word / 256 % 256)
    else mem a

/-- The end of `term_putc` (terminal.c): the scroll taken when the cursor has
left the last row.  `term_update_cursor`, which follows, only writes to I/O
ports. -/
def term_putc_scroll (terminal_id : Int) (k : kernel_t) (vmem : Mem) : kernel_t × Mem :=
  let term := k.terminals terminal_id
  let video_buf := video_buffers terminal_id
  if term.screen_y ≥ NUM_ROWS then
    let vmem := memmove vmem video_buf (video_buf + (NUM_COLS <<< 1))
      ((NUM_ROWS - 1) * NUM_COLS * 2)
    let vmem := memset_word vmem (video_buf + (((NUM_ROWS - 1) * NUM_COLS) <<< 1))
      (32 ||| (ATTRIB <<< 8)) NUM_COLS
    (set_term k terminal_id { term with screen_y := ((NUM_ROWS - 1 : Nat) : Int) }, vmem)
  else (k, vmem)

/-- Source `term_putc` (terminal.c) for a character other than a tab and a
terminal id in range: the newline branch or the store of the character and
its attribute, then the scroll. -/
def term_putc_char (c : Nat) (terminal_id : Int) (k : kernel_t) (vmem : Mem) : kernel_t × Mem :=
  let term := k.terminals terminal_id
  let video_buf := video_buffers terminal_id
  if c = 10 ∨ c = 13 then
    term_putc_scroll terminal_id
      (set_term k terminal_id { term with screen_y := term.screen_y + 1, screen_x := 0 }) vmem
  else
    let pos := ofInt32 ((video_buf : Int) + ((NUM_COLS : Int) * term.screen_y + term.screen_x) * 2)
    let vmem := Function.update vmem pos c
    let vmem := Function.update vmem (add32 pos 1) ATTRIB
    let screen_x := term.screen_x + 1
    let screen_y := term.screen_y + Int.tdiv screen_x (NUM_COLS : Int)
    let screen_x := Int.tmod screen_x (NUM_COLS : Int)
    term_putc_scroll terminal_id
      (set_term k terminal_id { term with screen_y := screen_y, screen_x := screen_x }) vmem

/-- Source `term_putc` (terminal.c).  `vmem` is the memory holding the video
buffers; `none` is the panic.  The four calls `term_putc(' ', terminal_id)`
of the tab branch run `term_putc_char`, a space being no tab and the id
having passed the range test. -/
def term_putc (c : Nat) (terminal_id : Int) (k : kernel_t) (vmem : Mem) :
    Option (kernel_t × Mem) :=
  if terminal_id < 0 ∨ terminal_id ≥ NUM_TERMINALS then none
  else if c = 9 then
    let s := term_putc_char 32 terminal_id k vmem
    let s := term_putc_char 32 terminal_id s.1 s.2
    let s := term_putc_char 32 terminal_id s.1 s.2
    let s := term_putc_char 32 terminal_id s.1 s.2
    some (term_putc_scroll terminal_id s.1 s.2)
  else some (term_putc_char c terminal_id k vmem)

/-- Source `term_recv_byte` (terminal.c).  `c` is the byte received; `none`
is the panic, and also stands for a store in front of `keyboard_buffer`,
which a negative `buffer_index` would cause. -/
def term_recv_byte (c : Nat) (terminal_id : Int) (k : kernel_t) (vmem : Mem) :
    Option (kernel_t × Mem) :=
  if terminal_id < 0 ∨ terminal_id ≥ NUM_TERMINALS then none
  else
    let cleared : Option kernel_t :=
      if (k.terminals terminal_id).term_in_flag = 1 then
        match term_clear_keyboard_buffer k terminal_id with
        | none => none
        | some k => some (set_term k terminal_id { (k.terminals terminal_id) with term_in_flag := 0 })
      else some k
    match cleared with
    | none => none
    | some k =>
      let term := k.terminals terminal_id
      if c ≠ 0 ∧ (term.buffer_index < (KEYBOARD_BUFFER_SIZE : Int) - 1 ∨
          (term.buffer_index = (KEYBOARD_BUFFER_SIZE : Int) - 1 ∧ c = 10)) then
        if term.buffer_index < 0 then none
        else
          let k := set_term k terminal_id { term with
            keyboard_buffer := Function.update term.keyboard_buffer term.buffer_index.toNat c,
            buffer_index := term.buffer_index + 1 }
          match term_putc c terminal_id k vmem with
          | none => none
          | some (k, vmem) =>
            if c = 10 then
              some (set_term k terminal_id { (k.terminals terminal_id) with term_in_flag := 1 }, vmem)
            else some (k, vmem)
      else some (k, vmem)

/-! ## idt.h / idt.c : registration of IRQ handlers -/

def IDT_NUM_PIC_IRQ : Nat := 16

/-- Source `irq_handler_node_t` (idt.h): the handler, a function pointer, and
the link to the next node; 0 is `NULL`. -/
structure irq_handler_node_t where
  handler : Nat
  next : Nat

/-- The memory holding the handler nodes, by address, and the array
`irq_handlers` (idt.c) of list heads, by IRQ line. -/
structure irq_state where
  nodes : Nat → irq_handler_node_t
  irq_handlers : Nat → Nat

/-- The `while` loop of `irq_register_handler`, started at `curr`:
`some true` when it meets `node` (the panic), `some false` when it reaches
`NULL`, `none` when it is still walking after `fuel` further nodes. -/
def irq_walk (nodes : Nat → irq_handler_node_t) (node : Nat) : Nat → Nat → Option Bool
  | 0, curr => if curr ≠ 0 then (if curr = node then some true else none) else some false
  | fuel + 1, curr =>
    if curr ≠ 0 then
      if curr = node then some true else irq_walk nodes node fuel (nodes curr).next
    else some false

/-- How a call of `irq_register_handler` ends: in `panic_msg`, by returning
with the state it leaves, or not within the fuel given to its loop. -/
inductive irq_outcome where
  | panic
  | done (s : irq_state)
  | walking

/-- Whether a call ended in the panic. -/
def irq_outcome.panicked : irq_outcome → Bool
  | irq_outcome.panic => true
  | _ => false

/-- The state a call returned with, if it returned. -/
def irq_outcome.state : irq_outcome → Option irq_state
  | irq_outcome.done s => some s
  | _ => none

/-- Source `irq_register_handler` (idt.c). -/
def irq_register_handler (fuel : Nat) (s : irq_state) (irq node : Nat) : irq_outcome :=
  if irq ≥ IDT_NUM_PIC_IRQ then irq_outcome.panic
  else if node = 0 then irq_outcome.panic
  else if (s.nodes node).handler = 0 then irq_outcome.panic
  else if (s.nodes node).next ≠ 0 then irq_outcome.panic
  else
    match irq_walk s.nodes node fuel (s.irq_handlers irq) with
    | none => irq_outcome.walking
    | some true => irq_outcome.panic
    | some false =>
      irq_outcome.done
        { nodes := Function.update s.nodes node
            { (s.nodes node) with next := s.irq_handlers irq },
          irq_handlers := Function.update s.irq_handlers irq node }

/-! ## process.c, idt.c : process termination -/

def EXCEPTION_STATUS : Int := 256
def TERMINATED_STATUS : Int := 257
def USER_CS : Nat := 0x0023
def IDT_NUM_EXCEP : Nat := 20

/-- Source `term_close` (terminal.c). -/
def term_close (k : kernel_t) (_fd_info : Option fd_ptr) : Int × kernel_t := (0, k)

/-- Source `file_close` (fs.c). -/
def file_close (k : kernel_t) (fd_info : Option fd_ptr) : Int × kernel_t :=
  match fd_info with
  | none => (-1, k)
  | some _ => (0, k)

/-- Source `directory_close` (fs.c). -/
def directory_close (k : kernel_t) (fd_info : Option fd_ptr) : Int × kernel_t :=
  match fd_info with
  | none => (-1, k)
  | some _ => (0, k)

/-- Source `rtc_close` (rtc.c): unlink the descriptor from the list of open
RTC descriptors. -/
def rtc_close (k : kernel_t) (fd_info : Option fd_ptr) : Int × kernel_t :=
  match fd_info with
  | none => (-1, k)
  | some p =>
    let old_prev := (get_fd k p).driver_data.prev
    let old_next := (get_fd k p).driver_data.next
    let k :=
      match old_prev with
      | some q =>
        let prev_data : rtc_driver_data_t := { (get_fd k q).driver_data with next := old_next }
        set_fd k q { (get_fd k q) with driver_data := prev_data }
      | none => { k with rtc_driver_data_head := old_next }
    let k :=
      match old_next with
      | some q =>
        let next_data : rtc_driver_data_t := { (get_fd k q).driver_data with prev := old_prev }
        set_fd k q { (get_fd k q) with driver_data := next_data }
      | none => k
    (0, k)

/-- The `close` member of each shipped `fd_driver_t`. -/
def fd_driver_close : fd_driver_t → kernel_t → Option fd_ptr → Int × kernel_t
  | fd_driver_t.term_stdin_fd_driver => term_close
  | fd_driver_t.term_stdout_fd_driver => term_close
  | fd_driver_t.file_fd_driver => file_close
  | fd_driver_t.directory_fd_driver => directory_close
  | fd_driver_t.rtc_fd_driver => rtc_close

/-- How the loop that closes the descriptors of a PCB ends: it has run
through all of them, or it has met a present descriptor whose `file_ops` is
null, which the source calls through without a test; each with the kernel
data at that point. -/
inductive close_outcome where
  | closed (k : kernel_t)
  | fault (k : kernel_t)

/-- The kernel data an outcome carries. -/
def close_outcome.data : close_outcome → kernel_t
  | close_outcome.closed k => k
  | close_outcome.fault k => k

/-- The loop of `kill_curr_process` and `kill_term_process` that closes the
descriptors of the PCB of `pid`, as a recursion on `FD_PER_PROC - i`. -/
def close_fds (pid : Nat) : Nat → Nat → kernel_t → close_outcome
  | 0, _, k => close_outcome.closed k
  | n + 1, i, k =>
    if ((k.pcbs pid).fds i).present ≠ 0 then
      match ((k.pcbs pid).fds i).file_ops with
      | none => close_outcome.fault k
      | some drv => close_fds pid n (i + 1) (fd_driver_close drv k (some (pid, i))).2
    else close_fds pid n (i + 1) k

/-- Source `jump_to_process` (process.c): `some pid` when the context of the
PCB is restored, which does not return; `none` when the call returns -1. -/
def jump_to_process (k : kernel_t) (pcb : Option Nat) : Option Nat :=
  match pcb with
  | none => none
  | some pid => if (k.pcbs pid).present = 0 then none else some pid

/-- How `kill_curr_process` ends: it returns, it has jumped into the process
of a pid, it has called `panic_msg`, or it has called through a null
`file_ops`; each with the kernel data at that point. -/
inductive kill_outcome where
  | returned (k : kernel_t)
  | jumped (pid : Nat) (k : kernel_t)
  | panic (k : kernel_t)
  | fault (k : kernel_t)

/-- The kernel data an outcome carries. -/
def kill_outcome.data : kill_outcome → kernel_t
  | kill_outcome.returned k => k
  | kill_outcome.jumped _ k => k
  | kill_outcome.panic k => k
  | kill_outcome.fault k => k

/-- The string literal `"shell"`. -/
def shell_cmdline : Nat → Nat := fun j => [115, 104, 101, 108, 108].getD j 0

/-- Source `kill_curr_process` (process.c); `cur` is the pid of
`get_current_pcb()`.  The outer `none` is a call that does not return from
`alloc_process`. -/
def kill_curr_process (loc : alloc_locals) (img : fs_image) (k : kernel_t) (cur : Nat)
    (exit_code : Int) : Option kill_outcome :=
  if (k.pcbs cur).present = 0 then some (kill_outcome.returned k)
  else
    let k := set_pcb k cur { (k.pcbs cur) with exit_code := exit_code, running := 0 }
    match close_fds cur FD_PER_PROC 0 k with
    | close_outcome.fault k => some (kill_outcome.fault k)
    | close_outcome.closed k =>
      match (k.pcbs cur).parent with
      | some parent =>
        let k := set_pcb k parent { (k.pcbs parent) with running := 1 }
        match jump_to_process k (some parent) with
        | some pid => some (kill_outcome.jumped pid k)
        | none => some (kill_outcome.returned k)
      | none =>
        let k := set_pcb k cur { (k.pcbs cur) with present := 0 }
        match alloc_process loc img k none shell_cmdline (k.pcbs cur).terminal_id with
        | none => none
        | some (none, k) => some (kill_outcome.panic k)
        | some (some new_shell, k) =>
          match jump_to_process k (some new_shell) with
          | some pid => some (kill_outcome.jumped pid k)
          | none => some (kill_outcome.returned k)

/-- Source `syscall_halt` (process.c).  When `kill_curr_process` returns,
`syscall_halt` returns 0. -/
def syscall_halt (loc : alloc_locals) (img : fs_image) (k : kernel_t) (cur : Nat)
    (arg1 _arg2 _arg3 : Int) : Option kill_outcome :=
  let ret_val := ofInt32 arg1 % 256
  kill_curr_process loc img k cur (ret_val : Int)

/-- Source `exception_handler_all` (idt.c).  When `kill_curr_process`
returns, the handler stays in its `hlt` loop. -/
def exception_handler_all (loc : alloc_locals) (img : fs_image) (k : kernel_t) (cur : Nat)
    (vect : Nat) (context : iret_context_base_t) : Option kill_outcome :=
  if vect ≥ IDT_NUM_EXCEP then some (kill_outcome.panic k)
  else if context.cs = USER_CS then kill_curr_process loc img k cur EXCEPTION_STATUS
  else some (kill_outcome.panic k)

/-- The state of the loop of `kill_term_process`: running with the kernel
data and `need_to_jump`, stopped in `panic_msg`, or stopped in a call
through a null `file_ops`. -/
inductive term_loop where
  | going (k : kernel_t) (need_to_jump : Bool)
  | panic (k : kernel_t)
  | fault (k : kernel_t)

/-- The kernel data a loop state carries. -/
def term_loop.data : term_loop → kernel_t
  | term_loop.going k _ => k
  | term_loop.panic k => k
  | term_loop.fault k => k

/-- One pass through the loop of `kill_term_process` (process.c), for the
PCB of pid `i`. -/
def kill_term_step (loc : alloc_locals) (img : fs_image) (curr_pcb : Nat)
    (active_terminal_id : Int) (exit_code : Int) (i : Nat) : term_loop → Option term_loop
  | term_loop.panic k => some (term_loop.panic k)
  | term_loop.fault k => some (term_loop.fault k)
  | term_loop.going k need_to_jump =>
    if (k.pcbs i).running ≠ 0 ∧ (k.pcbs i).present ≠ 0 ∧
        (k.pcbs i).terminal_id = active_terminal_id then
      let need_to_jump := if curr_pcb = i then true else need_to_jump
      let k := set_pcb k i { (k.pcbs i) with exit_code := exit_code, running := 0 }
      match close_fds i FD_PER_PROC 0 k with
      | close_outcome.fault k => some (term_loop.fault k)
      | close_outcome.closed k =>
        match (k.pcbs i).parent with
        | some parent =>
          some (term_loop.going (set_pcb k parent { (k.pcbs parent) with running := 1 })
            need_to_jump)
        | none =>
          let k := set_pcb k i { (k.pcbs i) with present := 0 }
          match alloc_process loc img k none shell_cmdline (k.pcbs i).terminal_id with
          | none => none
          | some (none, k) => some (term_loop.panic k)
          | some (some _, k) => some (term_loop.going k need_to_jump)
    else some (term_loop.going k need_to_jump)

/-- The loop of `kill_term_process` over the pids `0 .. n-1`. -/
def kill_term_loop (loc : alloc_locals) (img : fs_image) (curr_pcb : Nat)
    (active_terminal_id : Int) (exit_code : Int) : Nat → kernel_t → Option term_loop
  | 0, k => some (term_loop.going k false)
  | n + 1, k =>
    match kill_term_loop loc img curr_pcb active_terminal_id exit_code n k with
    | none => none
    | some s => kill_term_step loc img curr_pcb active_terminal_id exit_code n s

/-- How `kill_term_process` ends: it returns, it is in `do_schedule(1)`,
which does not return, in `panic_msg`, or in a call through a null
`file_ops`. -/
inductive kill_term_outcome where
  | returned (k : kernel_t)
  | scheduled (k : kernel_t) (pass : sched_pass)
  | panic (k : kernel_t)
  | fault (k : kernel_t)

/-- The kernel data an outcome carries. -/
def kill_term_outcome.data : kill_term_outcome → kernel_t
  | kill_term_outcome.returned k => k
  | kill_term_outcome.scheduled k _ => k
  | kill_term_outcome.panic k => k
  | kill_term_outcome.fault k => k

/-- Whether `kill_term_process` has run its loop to the end. -/
def kill_term_outcome.completed : kill_term_outcome → Bool
  | kill_term_outcome.returned _ => true
  | kill_term_outcome.scheduled _ _ => true
  | _ => false

/-- Source `kill_term_process` (process.c); `cur` is the pid of
`get_current_pcb()` and `active_terminal_id` the value of
`get_active_terminal_id()`. -/
def kill_term_process (loc : alloc_locals) (img : fs_image) (k : kernel_t) (cur : Nat)
    (active_terminal_id : Int) (exit_code : Int) : Option kill_term_outcome :=
  match kill_term_loop loc img cur active_terminal_id exit_code NUM_PROCESSES k with
  | none => none
  | some (term_loop.panic k) => some (kill_term_outcome.panic k)
  | some (term_loop.fault k) => some (kill_term_outcome.fault k)
  | some (term_loop.going k need_to_jump) =>
    if need_to_jump then some (kill_term_outcome.scheduled k (do_schedule k cur true))
    else some (kill_term_outcome.returned k)

/-- The end of `syscall_execute` (process.c), run when `switch_to_process`
has returned in the parent: the value returned and the kernel data. -/
def syscall_execute_resume (k : kernel_t) (child : Nat) : Int × kernel_t :=
  let exit_code := (k.pcbs child).exit_code
  (exit_code, set_pcb k child { (k.pcbs child) with present := 0 })

/-! ## fs.c : `fs_init` -/

/-- The three pointers `fs_init` sets: `fs_boot_blk`, `inode_start` and
`fs_data_blk_start` (fs.c). -/
structure fs_pointers where
  fs_boot_blk : Nat
  inode_start : Nat
  fs_data_blk_start : Nat
  deriving DecidableEq

/-- Source `fs_init` (fs.c).  `img` is what the module holds at `fs_start`;
`none` is the panic.  The four `sizeof` tests at the start compare constants
that are equal.  `fs_end - fs_start` is a difference of `uint8_t` pointers, a
signed 32-bit number, shifted right arithmetically and converted to
`uint32_t`; the sum of the block counts is computed in `uint32_t`. -/
def fs_init (img : fs_image) (fs_start fs_end : Nat) : Option fs_pointers :=
  if fs_start = 0 ∨ fs_end = 0 then none
  else
    let num_blocks := ofInt32 (toInt32 (sub32 fs_end fs_start) >>> (12 : Nat))
    if num_blocks < 1 then none
    else if num_blocks < add32 (add32 1 img.num_inode) img.num_data_blk then none
    else
      let inode_start := add32 fs_start FS_BLOCK_SIZE
      some ⟨fs_start, inode_start, add32 inode_start (u32 (FS_BLOCK_SIZE * img.num_inode))⟩

/-! ## fd.c : `syscall_close` -/

/-- Source `syscall_close` (fd.c).  `close_of` gives the `close` member of
each driver struct; a present descriptor with a null `file_ops` makes the
call undefined (`none`). -/
def syscall_close (close_of : fd_driver_t → kernel_t → Option fd_ptr → Int × kernel_t)
    (k : kernel_t) (cur : Nat) (fd _arg2 _arg3 : Int) : Option (Int × kernel_t) :=
  if fd < 2 ∨ fd ≥ FD_PER_PROC then some (-1, k)
  else
    let fd_info : fd_ptr := (cur, fd.toNat)
    if (get_fd k fd_info).present = 0 then some (-1, k)
    else
      match (get_fd k fd_info).file_ops with
      | none => none
      | some drv =>
        match close_of drv k (some fd_info) with
        | (r, k) =>
          if r ≠ 0 then some (-1, k)
          else some (0, set_fd k fd_info { (get_fd k fd_info) with present := 0 })

/-! ## terminal.c, keyboard.c : clearing the screen and backspace -/

/-- Source `term_clear_screen` (terminal.c).  `term_update_cursor` only
writes to I/O ports. -/
def term_clear_screen (terminal_id : Int) (k : kernel_t) (vmem : Mem) : kernel_t × Mem :=
  if terminal_id < 0 ∨ terminal_id ≥ NUM_TERMINALS then (k, vmem)
  else
    let vmem := memset_word vmem (video_buffers terminal_id) (32 ||| 0x700) (NUM_ROWS * NUM_COLS)
    (set_term k terminal_id { (k.terminals terminal_id) with screen_x := 0, screen_y := 0 }, vmem)

/-- The `for` loop of `term_bksp`, as a recursion on `iters - i`: the cursor
steps back one cell, to the end of the row above from column 0 of a lower
row, and a blank with its attribute is stored at the cell it lands on. -/
def term_bksp_loop (terminal_id : Int) : Nat → kernel_t → Mem → kernel_t × Mem
  | 0, k, vmem => (k, vmem)
  | n + 1, k, vmem =>
    let term := k.terminals terminal_id
    let term : terminal_t :=
      if term.screen_x = 0 ∧ term.screen_y > 0 then
        { term with screen_y := term.screen_y - 1, screen_x := (NUM_COLS : Int) - 1 }
      else { term with screen_x := term.screen_x - 1 }
    let pos := ofInt32 ((video_buffers terminal_id : Int) +
      ((NUM_COLS : Int) * term.screen_y + term.screen_x) * 2)
    let vmem := Function.update vmem pos 32
    let vmem := Function.update vmem (add32 pos 1) ATTRIB
    term_bksp_loop terminal_id n (set_term k terminal_id term) vmem

/-- Source `term_bksp` (terminal.c); `none` is the panic.  `update_cursor`
only writes to I/O ports. -/
def term_bksp (terminal_id : Int) (k : kernel_t) (vmem : Mem) : Option (kernel_t × Mem) :=
  if terminal_id < 0 ∨ terminal_id ≥ NUM_TERMINALS then none
  else
    let term := k.terminals terminal_id
    if term.buffer_index > 0 then
      let term : terminal_t := { term with buffer_index := term.buffer_index - 1 }
      let iters := if term.keyboard_buffer term.buffer_index.toNat = 9 then 4 else 1
      some (term_bksp_loop terminal_id iters (set_term k terminal_id term) vmem)
    else some (k, vmem)

/-- The case `BACKSPACE_SCANCODE` of `keyboard_handler` (keyboard.c);
`active_terminal_id` is the global of terminal.c. -/
def keyboard_handler_backspace (active_terminal_id : Int) (k : kernel_t) (vmem : Mem) :
    Option (kernel_t × Mem) :=
  if (k.terminals active_terminal_id).buffer_index > 0 then term_bksp active_terminal_id k vmem
  else some (k, vmem)

/-! ## rtc.c : `rtc_handler` -/

/-- The `while` loop of `rtc_handler`, started at `curr`: every descriptor on
the list whose mask has no bit in common with the counter is marked as
fired.  The result is `none` when the walk is not at `NULL` after `fuel`
nodes. -/
def rtc_handler_walk : Nat → Option fd_ptr → kernel_t → Option kernel_t
  | _, none, k => some k
  | 0, some _, _ => none
  | fuel + 1, some p, k =>
    let k :=
      if k.rtc_driver_counter &&& (get_fd k p).driver_data.mask = 0 then
        let rtc_data : rtc_driver_data_t := { (get_fd k p).driver_data with fired := 1 }
        set_fd k p { (get_fd k p) with driver_data := rtc_data }
      else k
    rtc_handler_walk fuel (get_fd k p).driver_data.next k

/-- Source `rtc_handler` (rtc.c): the walk over the open RTC descriptors and
the increment of `rtc_driver_counter`.  Left out are the port writes that
acknowledge the interrupt and the call of `test_interrupts`, which only
happens while a test has set `enable_rtc_test` and draws on the screen. -/
def rtc_handler (fuel : Nat) (k : kernel_t) : Option kernel_t :=
  match rtc_handler_walk fuel k.rtc_driver_data_head k with
  | none => none
  | some k => some { k with rtc_driver_counter := add32 k.rtc_driver_counter 1 }

/-! ## A small filesystem image used for concrete evaluations -/

/-- The bytes of a NUL-padded string, given as the list of its characters. -/
def bytes_of (l : List Nat) : Nat → Nat := fun j => l.getD j 0

/-- A five-entry image: the directory `.`, the device `rtc`, the executable
`cat` (inode 1, 5000 bytes in data blocks 1 and 2, starting with the ELF
magic), a text file whose name fills all 32 bytes (inode 2, 10 bytes in
data block 3) and `shell`, a second name of inode 1. -/
def sample_image : fs_image where
  num_dentries := 5
  num_inode := 3
  num_data_blk := 4
  dentries := fun i =>
    match i with
    | 0 => ⟨bytes_of [46], 1, 0, fun _ => 0⟩
    | 1 => ⟨bytes_of [114, 116, 99], 0, 0, fun _ => 0⟩
    | 2 => ⟨bytes_of [99, 97, 116], 2, 1, fun _ => 0⟩
    | 3 => ⟨fun j => if j < 32 then 97 + j % 26 else 0, 2, 2, fun _ => 0⟩
    | 4 => ⟨bytes_of [115, 104, 101, 108, 108], 2, 1, fun _ => 0⟩
    | _ => ⟨fun _ => 0, 0, 0, fun _ => 0⟩
  inodes := fun i =>
    match i with
    | 1 => ⟨5000, fun b => match b with | 0 => 1 | 1 => 2 | _ => 0⟩
    | 2 => ⟨10, fun _ => 3⟩
    | _ => ⟨0, fun _ => 0⟩
  data := fun b off =>
    if b = 1 then (match off with | 0 => 127 | 1 => 69 | 2 => 76 | 3 => 70 | _ => off % 251)
    else (b + off) % 256

/-- Source `test_syscall_cp3_aux` (tests.c): sets `test_syscall_cp3_var`,
here the whole world, to 1 and returns 5. -/
def test_syscall_cp3_aux : syscall_t Nat := fun _ _ _ _ => some (5, 1)

/-- The register context `fire_syscall(eax, 0x123, 0x456, 0x789)` of tests.c
presents to the dispatcher. -/
def fire_syscall_context (eax : Nat) : iret_context_base_t :=
  ⟨0x2B, 0x2B, 0x2B, 0x2B, eax, 0x123, 0x456, 0x789, 0, 0, 0, 0, 0, 0x23, 0, 0x202⟩

/-- A directory entry of zero bytes. -/
def absent_dentry : dentry_t := ⟨fun _ => 0, 0, 0, fun _ => 0⟩

/-- An absent PCB, all fields zero. -/
def absent_pcb : pcb_t :=
  { parent := none, context := ⟨0, code_ptr.saved 0⟩, present := 0, running := 0, vidmap := 0,
    flags := 0, exit_code := 0, fds := fun _ => fd_info_zero, args := fun _ => 0, inode := 0,
    terminal_id := 0 }

/-- A running process on terminal 0 started as `cat hello`: stdin, stdout
and, in slot 2, the regular file of inode 1 at position 0. -/
def sample_pcb : pcb_t :=
  { parent := none, context := ⟨0x800000, code_ptr.proc_entry0⟩, present := 1, running := 1,
    vidmap := 0, flags := 0, exit_code := 0,
    fds := fun i =>
      match i with
      | 0 => ⟨some fd_driver_t.term_stdin_fd_driver, 0, 0, 1, 0, ⟨none, none, 0, 0⟩⟩
      | 1 => ⟨some fd_driver_t.term_stdout_fd_driver, 0, 0, 1, 0, ⟨none, none, 0, 0⟩⟩
      | 2 => ⟨some fd_driver_t.file_fd_driver, 1, 0, 1, 0, ⟨none, none, 0, 0⟩⟩
      | _ => fd_info_zero,
    args := bytes_of [104, 101, 108, 108, 111], inode := 1, terminal_id := 0 }

/-- Kernel data with `sample_pcb` as pid 0 and no other process; every
terminal holds the completed line `hi\n`. -/
def sample_kernel : kernel_t :=
  { pcbs := fun pid => if pid = 0 then sample_pcb else absent_pcb,
    terminals := fun _ => ⟨0, 0, bytes_of [104, 105, 10], 3, 1⟩,
    rtc_driver_data_head := none, rtc_driver_counter := 0 }

/-- The process of `sample_pcb` with an open RTC descriptor in slot 2. -/
def rtc_pcb : pcb_t :=
  { sample_pcb with
    fds := fun i =>
      match i with
      | 0 => ⟨some fd_driver_t.term_stdin_fd_driver, 0, 0, 1, 0, ⟨none, none, 0, 0⟩⟩
      | 1 => ⟨some fd_driver_t.term_stdout_fd_driver, 0, 0, 1, 0, ⟨none, none, 0, 0⟩⟩
      | 2 => ⟨some fd_driver_t.rtc_fd_driver, 0, 0, 1, 0, ⟨none, none, 511, 1⟩⟩
      | _ => fd_info_zero }

/-- Kernel data with `rtc_pcb` as pid 0; its slot 2 is the only node of the
RTC list. -/
def rtc_kernel : kernel_t :=
  { pcbs := fun pid => if pid = 0 then rtc_pcb else absent_pcb,
    terminals := fun _ => ⟨0, 0, fun _ => 0, 0, 0⟩,
    rtc_driver_data_head := some (0, 2), rtc_driver_counter := 0 }

/-- User memory holding the given NUL-terminated string at the start of the
user window. -/
def user_string (l : List Nat) : Mem :=
  fun a => if 134217728 ≤ a then bytes_of l (a - 134217728) else 0

/-- Kernel data before any process exists. -/
def boot_kernel : kernel_t :=
  { pcbs := fun _ => absent_pcb, terminals := fun _ => ⟨0, 0, fun _ => 0, 0, 0⟩,
    rtc_driver_data_head := none, rtc_driver_counter := 0 }

/-- Stack locals filled with the byte 0xAA. -/
def stale_locals : alloc_locals :=
  ⟨fun _ => 170, fun _ => 170, ⟨fun _ => 170, 2863311530, 2863311530, fun _ => 170⟩,
    fun _ => 170, 8388000⟩

/-- The tables as `paging_init` (mm.c) leaves them, with `low_page_table` at
0x403000 and `user_vidmap_page_table` at 0x404000: entry 32 of the directory
is the user 4 MiB page, entry 0 of the vidmap table the user video page, not
present. -/
def boot_paging : paging_t where
  kernel_page_dir := fun i =>
    if i = 0 then 0x403103 else if i = 1 then 0x400183 else if i = 32 then 0x8000087
    else if i = 36 then 0x404107 else 0
  low_page_table := fun i => if 0xB8 ≤ i ∧ i ≤ 0xBC then i * 4096 + 0x10B else 0
  user_vidmap_page_table := fun i => if i = 0 then 0xB800E else 0

/-- Kernel data in which every terminal has an empty line buffer and the
cursor in the last row; pid 0 is the sample process on terminal 0. -/
def idle_kernel : kernel_t :=
  { sample_kernel with terminals := fun _ => ⟨79, 24, fun _ => 0, 0, 0⟩ }

/-- No handler registered on any line; every node of memory has a handler
and a null link, as a driver's static node has before it is registered. -/
def no_handlers : irq_state where
  nodes := fun _ => ⟨1, 0⟩
  irq_handlers := fun _ => 0

/-- The state after `irq_register_handler(4, a)` and
`irq_register_handler(5, b)` from `no_handlers`, for the nodes `a` at
address 100 and `b` at address 200: each of the two lines holds one node. -/
def two_lines : irq_state :=
  match (irq_register_handler 0 no_handlers 4 100).state.bind
      (fun s => (irq_register_handler 0 s 5 200).state) with
  | some s => s
  | none => no_handlers

/-- The sample process as pid 0 and, as pid 1 on the same terminal, a child
it has started with `execute` and is waiting for. -/
def parent_child_kernel : kernel_t :=
  { sample_kernel with
    pcbs := fun pid =>
      if pid = 0 then { sample_pcb with running := 0 }
      else if pid = 1 then { sample_pcb with parent := some 0 }
      else absent_pcb }

/-- The sample image with a header that claims 0xFFFFFFFF inode blocks and
no data block. -/
def wrapped_image : fs_image :=
  { sample_image with num_inode := 4294967295, num_data_blk := 0 }

/-- Byte `b` of an inode block as it lies in memory (fs.h, `inode_t`, packed,
little-endian): the four bytes of `file_length`, then those of `data_blks[0]`
and so on. -/
def inode_block_byte (ino : inode_t) (b : Nat) : Nat :=
  let word := if b / 4 = 0 then ino.file_length else ino.data_blks (b / 4 - 1)
  word / 256 ^ (b % 4) % 256

/-- What `fs_boot_blk->dentries[index]` denotes for `index >= 63`, a place
past the boot block, whose 4096 bytes are its 64-byte header and 63 entries
of 64 bytes: the 64 bytes at offset `64 * (index - 63)` of the inode blocks,
read as a `dentry_t` (fs.h). -/
def dentry_past_boot_blk (img : fs_image) (index : Nat) : dentry_t :=
  let off := FS_DENTRY_SIZE * (index - FS_MAX_DENTRIES)
  let byte := fun o =>
    inode_block_byte (img.inodes ((off + o) / FS_BLOCK_SIZE)) ((off + o) % FS_BLOCK_SIZE)
  { filename := fun j => byte j,
    type := byte 32 + 256 * byte 33 + 65536 * byte 34 + 16777216 * byte 35,
    inode := byte 36 + 256 * byte 37 + 65536 * byte 38 + 16777216 * byte 39,
    reserved := fun j => byte (40 + j) }

/-- The sample image with `num_dentries = 100` in its header.  The places of
the entries 63 to 99 lie past the boot block, in the block of inode 0 (entry
70 at its byte 448); that inode is all zero in the sample image, and so is
every entry of index 5 or more. -/
def long_directory_image : fs_image :=
  { sample_image with num_dentries := 100 }

/-- The state `syscall_open` leaves between `fd_info->present = 1` and the
assignment of `file_ops` in `file_open` (fd.c): the process of `sample_pcb`
with slot 3 zeroed and marked present. -/
def half_open_kernel : kernel_t :=
  { sample_kernel with
    pcbs := fun pid =>
      if pid = 0 then
        { sample_pcb with
          fds := fun i => if i = 3 then { fd_info_zero with present := 1 } else sample_pcb.fds i }
      else absent_pcb }

/-- The state after `a` has been typed on terminal 0 of the boot state. -/
def typed_a : Option (kernel_t × Mem) := term_recv_byte 97 0 boot_kernel (fun _ => 0)

/-! ## Vocabulary of the statements -/

/-- The number of bytes one iteration of the loop of `read_data` copies. -/
def read_data_count (in_ptr : inode_t) (length i offset : Nat) : Nat :=
  min (min (length - i) (4096 - offset % 4096)) (in_ptr.file_length - offset)

/-- The bytes still to be delivered from loop state `(i, offset)`. -/
def read_data_rest (in_ptr : inode_t) (length i offset : Nat) : Nat :=
  min (length - i) (in_ptr.file_length - min offset in_ptr.file_length)

/-- The matching relation of claim C2: the two byte strings agree up to and
including the first NUL found within the first 32 bytes, or all 32 bytes agree
and `fname[32]` is NUL. -/
def name_matches (fname : Nat → Nat) (d : dentry_t) : Prop :=
  (∃ k, k < 32 ∧ fname k = 0 ∧ (∀ j, j < k → fname j ≠ 0) ∧ (∀ j, j ≤ k → fname j = d.filename j)) ∨
  ((∀ j, j < 32 → fname j = d.filename j) ∧ fname 32 = 0)

/-- Whether the scan of one directory entry ends in the copy-out. -/
def entry_hit (fname : Nat → Nat) (d : dentry_t) : Prop :=
  fname_loop fname d FS_MAX_FNAME_LEN 0 = fname_scan.matched ∨
  (fname_loop fname d FS_MAX_FNAME_LEN 0 = fname_scan.full ∧ fname FS_MAX_FNAME_LEN = 0)

/-- Some byte among the first `n` is zero, lies below the end of the user
window, and is preceded by non-zero bytes only. -/
def str_terminated (mem : Mem) (str n : Nat) : Prop :=
  ∃ k, k < n ∧ (∀ j, j < k → mem (str + j) ≠ 0) ∧ mem (str + k) = 0 ∧ str + k < USER_VMEM_END

/-- The walk over the first `n` bytes reaches the end of the user window
before it finds a zero byte. -/
def str_leaves_page (mem : Mem) (str n : Nat) : Prop :=
  ∃ k, k < n ∧ (∀ j, j < k → mem (str + j) ≠ 0) ∧ USER_VMEM_END ≤ str + k

/-- The first `n` bytes all lie below the end of the user window and are
non-zero. -/
def str_too_long (mem : Mem) (str n : Nat) : Prop :=
  ∀ k, k < n → str + k < USER_VMEM_END ∧ mem (str + k) ≠ 0

/-- The contract of a `read` driver call that returned `res`: the return
value is -1 or lies in `[0, n]`, and memory outside `[buf, buf+n)` is as before. -/
def read_contract (mem : Mem) (buf : Nat) (n : Int) (res : Int × kernel_t × Mem) : Prop :=
  (res.1 = -1 ∨ (0 ≤ res.1 ∧ res.1 ≤ n)) ∧
  ∀ a, ¬ (buf ≤ a ∧ a < buf + n.toNat) → res.2.2 a = mem a

/-- The driver `file_open` selects for a directory entry, `none` when it
rejects the entry (unknown type, or a non-zero inode on an RTC or directory
entry). -/
def driver_of_dentry (d : dentry_t) : Option fd_driver_t :=
  if d.type = 0 then (if d.inode = 0 then some fd_driver_t.rtc_fd_driver else none)
  else if d.type = 1 then (if d.inode = 0 then some fd_driver_t.directory_fd_driver else none)
  else if d.type = 2 then some fd_driver_t.file_fd_driver
  else none

/-- The descriptor the open of an entry with driver `drv` leaves in the slot
it initialises, given the slot's previous contents `f` and the head of the
RTC list. -/
def opened_fd (drv : fd_driver_t) (d : dentry_t) (f : fd_info_t) (head : Option fd_ptr) :
    fd_info_t :=
  { file_ops := some drv,
    inode := if drv = fd_driver_t.file_fd_driver then d.inode else 0,
    file_pos := 0, present := f.present, flags := f.flags,
    driver_data := if drv = fd_driver_t.rtc_fd_driver then ⟨head, none, freq_to_mask 2, 1⟩
      else f.driver_data }

/-- The kernel data `syscall_open` hands to `file_open`: slot `i` of the
running process cleared and marked present. -/
def open_prepared (k : kernel_t) (cur i : Nat) : kernel_t :=
  set_fd (set_fd k (cur, i) fd_info_zero) (cur, i)
    { (get_fd (set_fd k (cur, i) fd_info_zero) (cur, i)) with present := 1 }

/-- Kernel data that differs from `k` at most in one PCB, absent before
and after. -/
def same_but_absent (k k' : kernel_t) : Prop :=
  k' = k ∨ ∃ pid pcb, (k.pcbs pid).present = 0 ∧ pcb.present = 0 ∧ k' = set_pcb k pid pcb

/-- A space or a tab. -/
def is_ws (c : Nat) : Prop := c = 32 ∨ c = 9

/-- The PCB `alloc_process` works on once the command line is parsed: the
slot's previous contents with the five fields set at the start and the
argument string copied in. -/
def alloc_pcb (loc : alloc_locals) (k : kernel_t) (parent : Option Nat) (cmdline : Nat → Nat)
    (terminal : Int) : pcb_t :=
  { (k.pcbs (alloc_scan k.pcbs NUM_PROCESSES 0)) with
    terminal_id := terminal, present := 1, running := 1, vidmap := 0, parent := parent,
    args := strncpy (k.pcbs (alloc_scan k.pcbs NUM_PROCESSES 0)).args
      (Function.update (parse_cmdline loc cmdline).arg_buffer (parse_cmdline loc cmdline).j 0)
      ARG_LENGTH }

/-- The program name of a command line: its bytes `[s0, e0)` followed by NULs. -/
def name_bytes (cmdline : Nat → Nat) (s0 e0 : Nat) : Nat → Nat :=
  fun t => if t < e0 - s0 then cmdline (s0 + t) else 0

/-- Of an execute that returned: the value, the caller's running flag and
the number of present slots among the caller's eight. -/
def returned_summary (o : Option execute_outcome) (cur : Nat) : Option (Int × Nat × Nat) :=
  match o with
  | some (execute_outcome.returned r k) =>
    some (r, (k.pcbs cur).running,
      ((List.range 8).filter (fun n => ((k.pcbs cur).fds n).present ≠ 0)).length)
  | _ => none

/-- When `syscall_getargs` succeeds. -/
def getargs_ok (k : kernel_t) (cur : Nat) (arg1 arg2 : Int) (z : Nat) : Prop :=
  ofInt32 arg1 ≠ 0 ∧ 0 ≤ arg2 ∧
  (0x08000000 ≤ ofInt32 arg1 ∧ ofInt32 arg1 + arg2.toNat ≤ 0x08400000) ∧
  (k.pcbs cur).present ≠ 0 ∧ z ≠ 0 ∧ (z : Int) + 1 ≤ arg2

/-- The condition under which `rtc_write` accepts its arguments: both
pointers non-null, exactly four bytes, and the rate read at `buf` a power of
two between 2 and 1024. -/
def rtc_write_accepts (mem : Mem) (fd_info : Option fd_ptr) (buf : Nat) (nbytes : Int) : Prop :=
  fd_info ≠ none ∧ buf ≠ 0 ∧ nbytes = 4 ∧ (∃ e, u32 (le32 mem buf) = 2 ^ e) ∧
    2 ≤ u32 (le32 mem buf) ∧ u32 (le32 mem buf) ≤ 1024

/-- Memory holding the little-endian `uint32_t` value `v` at address 64. -/
def rate_mem (v : Nat) : Mem := fun a =>
  if a = 64 then v % 256 else if a = 65 then v / 256 % 256
  else if a = 66 then v / 65536 % 256 else if a = 67 then v / 16777216 % 256 else 0

/-- Successive reads through one descriptor: the calls ask for `ns[0]`,
`ns[1]`, ... bytes, each into the buffer right behind the bytes delivered so
far.  The result lists the return values and gives the kernel data and the
memory after the last call. -/
def read_seq (rd : fd_read_t) (env : irq_env) (img : fs_image) (cur : Nat) (p : fd_ptr) :
    List Nat → Nat → kernel_t → Mem → Option (List Int × kernel_t × Mem)
  | [], _, k, mem => some ([], k, mem)
  | n :: ns, buf, k, mem =>
    match rd env img k mem cur (some p) buf (n : Int) with
    | none => none
    | some (r, k, mem) =>
      match read_seq rd env img cur p ns (buf + r.toNat) k mem with
      | none => none
      | some (rs, k, mem) => some (r :: rs, k, mem)

/-- Byte number `q` of the file of inode `inode`. -/
def file_byte (img : fs_image) (inode q : Nat) : Nat :=
  img.data ((img.inodes inode).data_blks (q / 4096)) (q % 4096)

/-- A well-formed file: the inode exists, its length is a 32-bit value, and
every block-table position of the file is below 1023 and holds the index of
a data block of the image. -/
def well_formed_file (img : fs_image) (inode : Nat) : Prop :=
  inode < img.num_inode ∧ (img.inodes inode).file_length < 4294967296 ∧
  ∀ q, q < (img.inodes inode).file_length →
    q / 4096 < 1023 ∧ (img.inodes inode).data_blks (q / 4096) < img.num_data_blk

/-- A PCB the scheduler may select: present and running. -/
def runnable (pcbs : Nat → pcb_t) (p : Nat) : Bool :=
  decide ((pcbs p).present ≠ 0 ∧ (pcbs p).running ≠ 0)

/-- The pids of the runnable PCBs, in increasing order. -/
def runnable_set (pcbs : Nat → pcb_t) : List Nat :=
  (List.range NUM_PROCESSES).filter (fun p => runnable pcbs p)

/-- The pids chosen by `n` successive selections of the scheduler, the first
made from pid `c` and each later one from the pid chosen before, the PCB flags
staying as they are. -/
def selections (pcbs : Nat → pcb_t) : Nat → Nat → List Nat
  | 0, _ => []
  | n + 1, c =>
    match sched_scan pcbs c NUM_PROCESSES 0 with
    | none => []
    | some next => next :: selections pcbs n next

/-- A process table in which pid `p < 6` is runnable exactly when bit `p` of
`m` is set. -/
def mask_pcbs (m : Nat) : Nat → pcb_t := fun p =>
  { absent_pcb with present := (if m.testBit p then 1 else 0), running := 1 }

/-- The bit mask of the runnable pids of a process table. -/
def runnable_mask (pcbs : Nat → pcb_t) : Nat :=
  ((List.range NUM_PROCESSES).map (fun p => if runnable pcbs p then 2 ^ p else 0)).sum

/-- The cursor of terminal `t` is on the screen. -/
def cursor_on_screen (k : kernel_t) (t : Int) : Prop :=
  0 ≤ (k.terminals t).screen_x ∧ (k.terminals t).screen_x < 80 ∧
  0 ≤ (k.terminals t).screen_y ∧ (k.terminals t).screen_y < 25

/-- Feeding the bytes of a list to `term_recv_byte`, one call after the
other. -/
def feed (terminal_id : Int) : List Nat → kernel_t → Mem → Option (kernel_t × Mem)
  | [], k, vmem => some (k, vmem)
  | b :: bs, k, vmem =>
    match term_recv_byte b terminal_id k vmem with
    | none => none
    | some (k, vmem) => feed terminal_id bs k vmem

/-- Kernel data that differs from `k` at most in the cursor of terminal
`t`: the PCBs, the RTC list and the line buffer of `t` are those of `k`. -/
def same_line (t : Int) (k k2 : kernel_t) : Prop :=
  k2.pcbs = k.pcbs ∧
  (k2.terminals t).keyboard_buffer = (k.terminals t).keyboard_buffer ∧
  (k2.terminals t).buffer_index = (k.terminals t).buffer_index ∧
  (k2.terminals t).term_in_flag = (k.terminals t).term_in_flag

/-- The chain of links from `p` runs through exactly the nodes of `l`, in
order, and ends in `NULL`. -/
def is_list (nodes : Nat → irq_handler_node_t) : Nat → List Nat → Bool
  | p, [] => decide (p = 0)
  | p, a :: l => decide (p ≠ 0) && decide (p = a) && is_list nodes (nodes a).next l

/-- The condition under which `irq_register_handler` panics, `l` being the
handler list of line `irq`. -/
def irq_rejects (s : irq_state) (irq node : Nat) (l : List Nat) : Prop :=
  irq ≥ 16 ∨ node = 0 ∨ (s.nodes node).handler = 0 ∨ (s.nodes node).next ≠ 0 ∨ node ∈ l

/-- Every present descriptor of every present process has a driver. -/
def fds_have_drivers (k : kernel_t) : Prop :=
  ∀ q i, (k.pcbs q).present ≠ 0 → i < 8 → ((k.pcbs q).fds i).present ≠ 0 →
    ((k.pcbs q).fds i).file_ops ≠ none

/-- Kernel data with the same processes as `k`: every PCB has its parent,
flags, exit code and terminal, and every descriptor its present bit and
driver; descriptors may differ in their other fields. -/
def same_processes (k k2 : kernel_t) : Prop :=
  ∀ q, (k2.pcbs q).parent = (k.pcbs q).parent ∧ (k2.pcbs q).present = (k.pcbs q).present ∧
    (k2.pcbs q).running = (k.pcbs q).running ∧ (k2.pcbs q).exit_code = (k.pcbs q).exit_code ∧
    (k2.pcbs q).terminal_id = (k.pcbs q).terminal_id ∧
    ∀ i, ((k2.pcbs q).fds i).present = ((k.pcbs q).fds i).present ∧
      ((k2.pcbs q).fds i).file_ops = ((k.pcbs q).fds i).file_ops

/-- The test of `kill_term_process` on the PCB of pid `i`: running, present
and on the active terminal. -/
def on_active_terminal (k : kernel_t) (active_terminal_id : Int) (i : Nat) : Prop :=
  (k.pcbs i).running ≠ 0 ∧ (k.pcbs i).present ≠ 0 ∧ (k.pcbs i).terminal_id = active_terminal_id

/-- The values of `(i, offset)` at the end of each completed pass through the
loop of `read_data` that starts in state `(i, offset)`, in order; `fuel`
bounds the number of passes listed. -/
def read_data_trace (img : fs_image) (in_ptr : inode_t) (length : Nat) :
    Nat → Nat → Nat → Nat → Mem → List (Nat × Nat)
  | 0, _, _, _, _ => []
  | fuel + 1, i, offset, buf, mem =>
    if i < length ∧ offset < in_ptr.file_length then
      match read_data_body img in_ptr length i offset buf mem with
      | none => []
      | some r => (r.2.1, r.2.2.1) :: read_data_trace img in_ptr length fuel r.2.1 r.2.2.1
          r.2.2.2.1 r.2.2.2.2
    else []

/-- Memory holds at `a` the characters of `l` followed by a NUL. -/
def holds_string (mem : Mem) (a : Nat) (l : List Nat) : Prop :=
  ∀ j, j ≤ l.length → mem (a + j) = bytes_of l j

/-- The `next` links from `start` run through exactly the descriptors of
`l`, in order, and end in `NULL`; the `prev` link of the first descriptor is
`prev`, that of every other one is the descriptor before it. -/
def rtc_chain (k : kernel_t) : Option fd_ptr → Option fd_ptr → List fd_ptr → Prop
  | start, _, [] => start = none
  | start, prev, p :: l =>
    start = some p ∧ (get_fd k p).driver_data.prev = prev ∧
      rtc_chain k (get_fd k p).driver_data.next (some p) l

/-- The list at `rtc_driver_data_head` is the doubly-linked list of the
descriptors of `l`, each once, and the `prev` link of its head is `NULL`. -/
def rtc_list (k : kernel_t) (l : List fd_ptr) : Prop :=
  l.Nodup ∧ rtc_chain k k.rtc_driver_data_head none l

/-- A call of `rtc_open`, with its descriptor and file name, or of
`rtc_close`, with its descriptor. -/
inductive rtc_call where
  | rtc_open (p : fd_ptr) (filename : Nat → Nat)
  | rtc_close (p : fd_ptr)

/-- The kernel data after a sequence of calls. -/
def rtc_calls : List rtc_call → kernel_t → kernel_t
  | [], k => k
  | rtc_call.rtc_open p filename :: cs, k => rtc_calls cs (rtc_open k (some p) (some filename)).2
  | rtc_call.rtc_close p :: cs, k => rtc_calls cs (rtc_close k (some p)).2

/-- The open RTC descriptors after a call, the most recently opened first. -/
def rtc_opened (l : List fd_ptr) : rtc_call → List fd_ptr
  | rtc_call.rtc_open p _ => p :: l
  | rtc_call.rtc_close p => l.erase p

/-- The open RTC descriptors after a sequence of calls. -/
def rtc_opened_all : List rtc_call → List fd_ptr → List fd_ptr
  | [], l => l
  | c :: cs, l => rtc_opened_all cs (rtc_opened l c)

/-- Every call of the sequence opens a descriptor that is not open or
closes one that is, `l` being the descriptors open at its start. -/
def rtc_admissible : List rtc_call → List fd_ptr → Prop
  | [], _ => True
  | rtc_call.rtc_open p filename :: cs, l =>
    p ∉ l ∧ rtc_admissible cs (rtc_opened l (rtc_call.rtc_open p filename))
  | rtc_call.rtc_close p :: cs, l =>
    p ∈ l ∧ rtc_admissible cs (rtc_opened l (rtc_call.rtc_close p))

/-- The kernel data after `n` RTC interrupts; `none` when a walk of the
handler does not end. -/
def rtc_ticks (fuel : Nat) : Nat → kernel_t → Option kernel_t
  | 0, k => some k
  | n + 1, k =>
    match rtc_handler fuel k with
    | none => none
    | some k => rtc_ticks fuel n k

/-- The interrupt number `t` from `k` on (the next one is number 0) marks the
descriptor `p` as fired: when its flag is cleared before that interrupt, as
`rtc_read` clears it, the flag is set after it. -/
def rtc_marks (fuel : Nat) (k : kernel_t) (p : fd_ptr) (t : Nat) : Bool :=
  match rtc_ticks fuel t k with
  | none => false
  | some kt =>
    let rtc_data : rtc_driver_data_t := { (get_fd kt p).driver_data with fired := 0 }
    match rtc_handler fuel (set_fd kt p { (get_fd kt p) with driver_data := rtc_data }) with
    | none => false
    | some k2 => decide ((get_fd k2 p).driver_data.fired ≠ 0)

/-! ## Theorems -/

theorem USER_VMEM_START_eq : USER_VMEM_START = 134217728 := rfl

theorem USER_VMEM_END_eq : USER_VMEM_END = 138412032 := rfl

theorem u32_of_lt {n : Nat} (h : n < 4294967296) : u32 n = n := by
  unfold u32 WORD; exact Nat.mod_eq_of_lt h

theorem sub32_of_le {a b : Nat} (h : b ≤ a) (ha : a < 4294967296) : sub32 a b = a - b := by
  unfold sub32 WORD; omega

theorem add32_of_lt {a b : Nat} (h : a + b < 4294967296) : add32 a b = a + b := by
  unfold add32 WORD; omega

/-- The two outcomes of `check_user_bounds` on 32-bit arguments. -/
theorem check_user_bounds_cases (ptr len : Nat) (hp : ptr < 4294967296)
    (hl : len < 4294967296) :
    ((134217728 ≤ ptr ∧ ptr + len ≤ 138412032) ∧ check_user_bounds ptr len = 0) ∨
    (¬ (134217728 ≤ ptr ∧ ptr + len ≤ 138412032) ∧ check_user_bounds ptr len = -1) := by
  simp only [check_user_bounds, u32_of_lt hp, u32_of_lt hl, USER_VMEM_START_eq,
    USER_VMEM_END_eq]
  by_cases h1 : ptr < 134217728
  · rw [if_pos h1]
    exact Or.inr ⟨by omega, rfl⟩
  · rw [if_neg h1]
    by_cases h2 : ptr > 138412032
    · rw [if_pos h2]
      exact Or.inr ⟨by omega, rfl⟩
    · rw [if_neg h2, sub32_of_le (by omega) (by omega)]
      by_cases h3 : len ≤ 138412032 - ptr
      · rw [if_pos h3]
        exact Or.inl ⟨by omega, rfl⟩
      · rw [if_neg h3]
        exact Or.inr ⟨by omega, rfl⟩

/-- C3: `check_user_bounds(ptr, len)` returns 0 exactly when
`0x08000000 <= ptr` and `ptr + len <= 0x08400000` (the sum taken over the
natural numbers), and -1 otherwise, for all 32-bit `ptr` and `len`. -/
theorem check_user_bounds_spec (ptr len : Nat) (hp : ptr < 4294967296)
    (hl : len < 4294967296) :
    (check_user_bounds ptr len = 0 ↔ (0x08000000 ≤ ptr ∧ ptr + len ≤ 0x08400000)) ∧
    (¬ (0x08000000 ≤ ptr ∧ ptr + len ≤ 0x08400000) → check_user_bounds ptr len = -1) := by
  rcases check_user_bounds_cases ptr len hp hl with ⟨h, hr⟩ | ⟨h, hr⟩
  · rw [hr]
    exact ⟨⟨fun _ => h, fun _ => rfl⟩, fun hn => absurd h hn⟩
  · rw [hr]
    exact ⟨⟨fun h0 => absurd h0 (by decide), fun hy => absurd hy h⟩, fun _ => rfl⟩

theorem check_user_bounds_spec_witness :
    (check_user_bounds 0x08000010 16 = 0 ↔
      (0x08000000 ≤ 0x08000010 ∧ 0x08000010 + 16 ≤ 0x08400000)) ∧
    (¬ (0x08000000 ≤ 0x08000010 ∧ 0x08000010 + 16 ≤ 0x08400000) →
      check_user_bounds 0x08000010 16 = -1) :=
  check_user_bounds_spec 0x08000010 16 (by decide) (by decide)

/-! ### `read_data` -/

theorem memcpy_inside (mem : Mem) (dst : Nat) (src : Nat → Nat) (n j : Nat) (h : j < n) :
    memcpy mem dst src n (dst + j) = src j := by
  unfold memcpy
  rw [if_pos ⟨Nat.le_add_right _ _, by omega⟩, Nat.add_sub_cancel_left]

theorem memcpy_outside (mem : Mem) (dst : Nat) (src : Nat → Nat) (n a : Nat)
    (h : ¬ (dst ≤ a ∧ a < dst + n)) : memcpy mem dst src n a = mem a := by
  unfold memcpy
  rw [if_neg h]

/-- One iteration of the loop of `read_data` whose checks all pass. -/
theorem read_data_loop_step (img : fs_image) (in_ptr : inode_t) (length fuel i offset buf : Nat)
    (mem : Mem) (hlen : length < 4294967296) (hL : in_ptr.file_length < 4294967296)
    (hi : i < length) (ho : offset < in_ptr.file_length)
    (hb : offset / 4096 < 1023) (hd : in_ptr.data_blks (offset / 4096) < img.num_data_blk) :
    read_data_loop img in_ptr length (fuel + 1) i offset buf mem =
      read_data_loop img in_ptr length fuel (i + read_data_count in_ptr length i offset)
        (offset + read_data_count in_ptr length i offset)
        (buf + read_data_count in_ptr length i offset)
        (memcpy mem buf (fun j => img.data (in_ptr.data_blks (offset / 4096))
          (offset % 4096 + j)) (read_data_count in_ptr length i offset)) := by
  have hs : offset >>> FS_DATA_BLK_BITS = offset / 4096 := by
    unfold FS_DATA_BLK_BITS; rw [Nat.shiftRight_eq_div_pow]
  have hm : offset &&& (FS_BLOCK_SIZE - 1) = offset % 4096 := by
    unfold FS_BLOCK_SIZE
    exact Nat.and_pow_two_sub_one_eq_mod offset 12
  have hmlt : offset % 4096 < 4096 := Nat.mod_lt _ (by decide)
  have h1 : sub32 length i = length - i := sub32_of_le (Nat.le_of_lt hi) hlen
  have h2 : sub32 FS_BLOCK_SIZE (offset % 4096) = 4096 - offset % 4096 := by
    unfold FS_BLOCK_SIZE; exact sub32_of_le (Nat.le_of_lt hmlt) (by decide)
  have h3 : sub32 in_ptr.file_length offset = in_ptr.file_length - offset :=
    sub32_of_le (Nat.le_of_lt ho) hL
  have hc : (if (if length - i > 4096 - offset % 4096 then 4096 - offset % 4096 else length - i)
        > in_ptr.file_length - offset then in_ptr.file_length - offset
      else (if length - i > 4096 - offset % 4096 then 4096 - offset % 4096 else length - i))
      = read_data_count in_ptr length i offset := by
    unfold read_data_count
    split <;> split <;> omega
  have hcle : read_data_count in_ptr length i offset ≤ length - i := by
    unfold read_data_count; omega
  have hcle2 : read_data_count in_ptr length i offset ≤ in_ptr.file_length - offset := by
    unfold read_data_count; omega
  rw [read_data_loop]
  simp only [hs, hm, h1, h2, h3, hc]
  rw [if_pos ⟨hi, ho⟩, if_neg (by unfold FS_MAX_DBLKS; omega), if_neg (by omega)]
  rw [add32_of_lt (by omega), add32_of_lt (by omega)]

/-- The loop of `read_data` leaves at once when its condition fails. -/
theorem read_data_loop_exit (img : fs_image) (in_ptr : inode_t) (length fuel i offset buf : Nat)
    (mem : Mem) (h : ¬ (i < length ∧ offset < in_ptr.file_length)) :
    read_data_loop img in_ptr length fuel i offset buf mem = some (toInt32 i, mem) := by
  rw [read_data_loop, if_neg h]

/-- Loop invariant of `read_data` on a well-formed file. -/
theorem read_data_loop_spec (img : fs_image) (in_ptr : inode_t) (length : Nat)
    (hlen : length < 4294967296) (hL : in_ptr.file_length < 4294967296) :
    ∀ (fuel i offset buf : Nat) (mem : Mem), i ≤ length →
      read_data_rest in_ptr length i offset ≤ fuel →
      (∀ p, offset ≤ p → p < offset + read_data_rest in_ptr length i offset →
        p / 4096 < 1023 ∧ in_ptr.data_blks (p / 4096) < img.num_data_blk) →
      ∃ mem', read_data_loop img in_ptr length fuel i offset buf mem
          = some (toInt32 (i + read_data_rest in_ptr length i offset), mem') ∧
        (∀ j, j < read_data_rest in_ptr length i offset →
          mem' (buf + j) = img.data (in_ptr.data_blks ((offset + j) / 4096))
            ((offset + j) % 4096)) ∧
        (∀ a, ¬ (buf ≤ a ∧ a < buf + read_data_rest in_ptr length i offset) →
          mem' a = mem a) := by
  intro fuel
  induction fuel with
  | zero =>
    intro i offset buf mem _ hf _
    have hr : read_data_rest in_ptr length i offset = 0 := Nat.le_zero.mp hf
    have hc : ¬ (i < length ∧ offset < in_ptr.file_length) := by
      unfold read_data_rest at hr; omega
    refine ⟨mem, ?_, ?_, fun _ _ => rfl⟩
    · rw [read_data_loop_exit _ _ _ _ _ _ _ _ hc, hr, Nat.add_zero]
    · intro j hj; omega
  | succ fuel ih =>
    intro i offset buf mem hi hf hblk
    by_cases hc : i < length ∧ offset < in_ptr.file_length
    · obtain ⟨hc1, hc2⟩ := hc
      have hr1 : 1 ≤ read_data_rest in_ptr length i offset := by
        unfold read_data_rest; omega
      obtain ⟨hb, hd⟩ := hblk offset (Nat.le_refl _) (by omega)
      have hmlt : offset % 4096 < 4096 := Nat.mod_lt _ (by decide)
      have hcnt1 : 1 ≤ read_data_count in_ptr length i offset := by
        unfold read_data_count; omega
      have hcntr : read_data_count in_ptr length i offset ≤ read_data_rest in_ptr length i offset := by
        unfold read_data_count read_data_rest; omega
      have hcntb : read_data_count in_ptr length i offset ≤ 4096 - offset % 4096 := by
        unfold read_data_count; omega
      have hrest : read_data_rest in_ptr length (i + read_data_count in_ptr length i offset)
          (offset + read_data_count in_ptr length i offset)
          = read_data_rest in_ptr length i offset - read_data_count in_ptr length i offset := by
        unfold read_data_rest
        unfold read_data_count read_data_rest at hcntr
        unfold read_data_count
        omega
      generalize hcdef : read_data_count in_ptr length i offset = c at *
      generalize hrdef : read_data_rest in_ptr length i offset = r at *
      have hile : i + c ≤ length := by
        have : r ≤ length - i := by rw [← hrdef]; unfold read_data_rest; omega
        omega
      obtain ⟨mem', he, hin, hout⟩ := ih (i + c) (offset + c) (buf + c)
        (memcpy mem buf (fun j => img.data (in_ptr.data_blks (offset / 4096))
          (offset % 4096 + j)) c) hile (by rw [hrest]; omega)
        (by
          intro p hp1 hp2
          rw [hrest] at hp2
          exact hblk p (by omega) (by omega))
      refine ⟨mem', ?_, ?_, ?_⟩
      · rw [read_data_loop_step img in_ptr length fuel i offset buf mem hlen hL hc1 hc2 hb hd,
          hcdef, he, hrest]
        have : i + c + (r - c) = i + r := by omega
        rw [this]
      · intro j hj
        by_cases hjc : j < c
        · rw [hout (buf + j) (by omega), memcpy_inside _ _ _ _ _ hjc]
          have e1 : (offset + j) / 4096 = offset / 4096 := by omega
          have e2 : (offset + j) % 4096 = offset % 4096 + j := by omega
          rw [e1, e2]
        · have hj2 := hin (j - c) (by rw [hrest]; omega)
          have e1 : buf + c + (j - c) = buf + j := by omega
          have e2 : offset + c + (j - c) = offset + j := by omega
          rw [e1, e2] at hj2
          exact hj2
      · intro a ha
        rw [hout a (by rw [hrest]; omega), memcpy_outside _ _ _ _ _ (by omega)]
    · have hr : read_data_rest in_ptr length i offset = 0 := by
        unfold read_data_rest; omega
      refine ⟨mem, ?_, ?_, fun _ _ => rfl⟩
      · rw [read_data_loop_exit _ _ _ _ _ _ _ _ hc, hr, Nat.add_zero]
      · intro j hj; omega

theorem toInt32_of_lt {n : Nat} (h : n < 2147483648) : toInt32 n = (n : Int) := by
  unfold toInt32 WORD
  rw [Nat.mod_eq_of_lt (by omega), if_pos h]

/-- C1: `read_data` on a well-formed file.  For an inode below `num_inode`
with file length `L`, a 32-bit offset, a non-null buffer and `n <= 2^31-1`,
let `k = min(n, L - min(offset, L))`.  If every block-table position touched
by bytes `[offset, offset+k)` is below 1023 and holds a data-block index below
`num_data_blk`, then `read_data` returns exactly `k`, byte `j < k` of the
buffer is byte `(offset+j) mod 4096` of data block
`data_blks[(offset+j) div 4096]`, and no byte outside `[buf, buf+k)` is written. -/
theorem read_data_well_formed (img : fs_image) (mem : Mem) (inode offset buf n : Nat)
    (hino : inode < img.num_inode)
    (hL : (img.inodes inode).file_length < 4294967296)
    (hbuf : buf ≠ 0) (hn : n ≤ 2147483647)
    (hblk : ∀ p, offset ≤ p →
      p < offset + min n ((img.inodes inode).file_length
        - min offset (img.inodes inode).file_length) →
      p / 4096 < 1023 ∧ (img.inodes inode).data_blks (p / 4096) < img.num_data_blk) :
    ∃ mem', read_data img mem inode offset buf n
        = some (((min n ((img.inodes inode).file_length
            - min offset (img.inodes inode).file_length) : Nat) : Int), mem') ∧
      (∀ j, j < min n ((img.inodes inode).file_length
          - min offset (img.inodes inode).file_length) →
        mem' (buf + j) = img.data ((img.inodes inode).data_blks ((offset + j) / 4096))
          ((offset + j) % 4096)) ∧
      (∀ a, ¬ (buf ≤ a ∧ a < buf + min n ((img.inodes inode).file_length
          - min offset (img.inodes inode).file_length)) → mem' a = mem a) := by
  have hr : read_data_rest (img.inodes inode) n 0 offset
      = min n ((img.inodes inode).file_length - min offset (img.inodes inode).file_length) := by
    unfold read_data_rest; rw [Nat.sub_zero]
  obtain ⟨mem', he, hin, hout⟩ := read_data_loop_spec img (img.inodes inode) n (by omega) hL
    n 0 offset buf mem (Nat.zero_le _) (by rw [hr]; exact Nat.min_le_left _ _)
    (by rw [hr]; exact hblk)
  rw [hr] at he hin hout
  refine ⟨mem', ?_, hin, hout⟩
  unfold read_data
  rw [if_neg (by omega), if_neg hbuf, he, Nat.zero_add, toInt32_of_lt]
  have := Nat.min_le_left n ((img.inodes inode).file_length
    - min offset (img.inodes inode).file_length)
  omega

theorem read_data_well_formed_witness :
    1 < sample_image.num_inode ∧
    ∃ mem', read_data sample_image (fun _ => 0) 1 4090 134217984 10 = some ((10 : Int), mem') ∧
      (∀ j, j < 10 → mem' (134217984 + j)
        = sample_image.data ((sample_image.inodes 1).data_blks ((4090 + j) / 4096))
          ((4090 + j) % 4096)) ∧
      (∀ a, ¬ (134217984 ≤ a ∧ a < 134217984 + 10) → mem' a = 0) :=
  ⟨by decide,
    read_data_well_formed sample_image (fun _ => 0) 1 4090 134217984 10 (by decide) (by decide)
      (by decide) (by decide) (by
        intro p hp1 hp2
        have hp3 : p < 4100 := hp2
        have hq : p / 4096 = 0 ∨ p / 4096 = 1 := by omega
        rcases hq with hq | hq <;> rw [hq] <;> decide)⟩

/-! ### `read_dentry_by_name` -/

theorem fname_loop_matched (fname : Nat → Nat) (curr : dentry_t) :
    ∀ n j, fname_loop fname curr n j = fname_scan.matched ↔
      ∃ k, j ≤ k ∧ k < j + n ∧ fname k = 0 ∧ (∀ l, j ≤ l → l < k → fname l ≠ 0) ∧
        (∀ l, j ≤ l → l ≤ k → fname l = curr.filename l) := by
  intro n
  induction n with
  | zero =>
    intro j
    simp only [fname_loop]
    constructor
    · intro h; cases h
    · rintro ⟨k, h1, h2, _⟩; omega
  | succ n ih =>
    intro j
    rw [fname_loop]
    by_cases h1 : fname j ≠ curr.filename j
    · rw [if_pos h1]
      constructor
      · intro h; cases h
      · rintro ⟨k, hk1, _, _, _, hk5⟩
        exact absurd (hk5 j (Nat.le_refl _) hk1) h1
    · rw [if_neg h1]
      have h1' : fname j = curr.filename j := not_not.mp h1
      by_cases h2 : fname j = 0
      · rw [if_pos h2]
        constructor
        · intro _
          refine ⟨j, Nat.le_refl _, by omega, h2, fun l hl1 hl2 => by omega, fun l hl1 hl2 => ?_⟩
          have : l = j := by omega
          rw [this]; exact h1'
        · intro _; rfl
      · rw [if_neg h2, ih (j + 1)]
        constructor
        · rintro ⟨k, hk1, hk2, hk3, hk4, hk5⟩
          refine ⟨k, by omega, by omega, hk3, fun l hl1 hl2 => ?_, fun l hl1 hl2 => ?_⟩
          · by_cases hlj : l = j
            · rw [hlj]; exact h2
            · exact hk4 l (by omega) hl2
          · by_cases hlj : l = j
            · rw [hlj]; exact h1'
            · exact hk5 l (by omega) hl2
        · rintro ⟨k, hk1, hk2, hk3, hk4, hk5⟩
          have hkj : k ≠ j := fun e => h2 (e ▸ hk3)
          exact ⟨k, by omega, by omega, hk3, fun l hl1 hl2 => hk4 l (by omega) hl2,
            fun l hl1 hl2 => hk5 l (by omega) hl2⟩

theorem fname_loop_full (fname : Nat → Nat) (curr : dentry_t) :
    ∀ n j, fname_loop fname curr n j = fname_scan.full ↔
      ∀ l, j ≤ l → l < j + n → (fname l = curr.filename l ∧ fname l ≠ 0) := by
  intro n
  induction n with
  | zero =>
    intro j
    simp only [fname_loop, true_iff]
    intro l h1 h2; omega
  | succ n ih =>
    intro j
    rw [fname_loop]
    by_cases h1 : fname j ≠ curr.filename j
    · rw [if_pos h1]
      constructor
      · intro h; cases h
      · intro h
        exact absurd (h j (Nat.le_refl _) (by omega)).1 h1
    · rw [if_neg h1]
      have h1' : fname j = curr.filename j := not_not.mp h1
      by_cases h2 : fname j = 0
      · rw [if_pos h2]
        constructor
        · intro h; cases h
        · intro h
          exact absurd h2 (h j (Nat.le_refl _) (by omega)).2
      · rw [if_neg h2, ih (j + 1)]
        constructor
        · intro h l hl1 hl2
          by_cases hlj : l = j
          · rw [hlj]; exact ⟨h1', h2⟩
          · exact h l (by omega) (by omega)
        · intro h l hl1 hl2
          exact h l (by omega) (by omega)

theorem entry_hit_iff (fname : Nat → Nat) (d : dentry_t) :
    entry_hit fname d ↔ name_matches fname d := by
  unfold entry_hit name_matches FS_MAX_FNAME_LEN
  rw [fname_loop_matched, fname_loop_full]
  constructor
  · rintro (⟨k, _, hk2, hk3, hk4, hk5⟩ | ⟨h, h32⟩)
    · exact Or.inl ⟨k, by omega, hk3, fun j hj => hk4 j (Nat.zero_le _) hj,
        fun j hj => hk5 j (Nat.zero_le _) hj⟩
    · exact Or.inr ⟨fun j hj => (h j (Nat.zero_le _) (by omega)).1, h32⟩
  · rintro (⟨k, hk1, hk2, hk3, hk4⟩ | ⟨h, h32⟩)
    · exact Or.inl ⟨k, Nat.zero_le _, by omega, hk2, fun l _ hl => hk3 l hl,
        fun l _ hl => hk4 l hl⟩
    · by_cases hz : ∃ k, k < 32 ∧ fname k = 0
      · obtain ⟨k, hk1, hk2, hk3⟩ : ∃ k, k < 32 ∧ fname k = 0 ∧ ∀ j, j < k → fname j ≠ 0 := by
          classical
          refine ⟨Nat.find hz, (Nat.find_spec hz).1, (Nat.find_spec hz).2, fun j hj hj0 => ?_⟩
          exact Nat.find_min hz hj ⟨Nat.lt_trans hj (Nat.find_spec hz).1, hj0⟩
        exact Or.inl ⟨k, Nat.zero_le _, by omega, hk2, fun l _ hl => hk3 l hl,
          fun l _ hl => h l (by omega)⟩
      · refine Or.inr ⟨fun l _ hl => ⟨h l (by omega), fun h0 => hz ⟨l, by omega, h0⟩⟩, h32⟩

theorem read_dentry_by_name_loop_some (img : fs_image) (fname : Nat → Nat) :
    ∀ n i r, read_dentry_by_name_loop img fname n i = some r ↔
      (i ≤ r ∧ r < i + n ∧ entry_hit fname (img.dentries r) ∧
        ∀ l, i ≤ l → l < r → ¬ entry_hit fname (img.dentries l)) := by
  intro n
  induction n with
  | zero =>
    intro i r
    simp only [read_dentry_by_name_loop]
    constructor
    · intro h; cases h
    · rintro ⟨h1, h2, _⟩; omega
  | succ n ih =>
    intro i r
    rw [read_dentry_by_name_loop]
    have hskip : ¬ entry_hit fname (img.dentries i) →
        (read_dentry_by_name_loop img fname n (i + 1) = some r ↔
          (i ≤ r ∧ r < i + (n + 1) ∧ entry_hit fname (img.dentries r) ∧
            ∀ l, i ≤ l → l < r → ¬ entry_hit fname (img.dentries l))) := by
      intro hno
      rw [ih (i + 1) r]
      constructor
      · rintro ⟨h1, h2, h3, h4⟩
        refine ⟨by omega, by omega, h3, fun l hl1 hl2 => ?_⟩
        by_cases hli : l = i
        · rw [hli]; exact hno
        · exact h4 l (by omega) hl2
      · rintro ⟨h1, h2, h3, h4⟩
        have hri : r ≠ i := fun e => hno (e ▸ h3)
        exact ⟨by omega, by omega, h3, fun l hl1 hl2 => h4 l (by omega) hl2⟩
    have hhit : entry_hit fname (img.dentries i) →
        ((some i = some r) ↔
          (i ≤ r ∧ r < i + (n + 1) ∧ entry_hit fname (img.dentries r) ∧
            ∀ l, i ≤ l → l < r → ¬ entry_hit fname (img.dentries l))) := by
      intro hyes
      constructor
      · intro h
        have : i = r := Option.some.inj h
        subst this
        exact ⟨Nat.le_refl _, by omega, hyes, fun l hl1 hl2 => by omega⟩
      · rintro ⟨h1, h2, h3, h4⟩
        by_cases hri : i = r
        · rw [hri]
        · exact absurd hyes (h4 i (Nat.le_refl _) (by omega))
    cases hs : fname_loop fname (img.dentries i) FS_MAX_FNAME_LEN 0 with
    | next_outer_loop =>
      exact hskip (by unfold entry_hit; rw [hs]; simp)
    | matched =>
      exact hhit (Or.inl hs)
    | full =>
      by_cases h32 : fname FS_MAX_FNAME_LEN ≠ 0
      · simp only [if_pos h32]
        exact hskip (by unfold entry_hit; rw [hs]; simp; exact h32)
      · simp only [if_neg h32]
        exact hhit (Or.inr ⟨hs, not_not.mp h32⟩)

/-- C2: `read_dentry_by_name(fname, out)` with non-null arguments returns 0
iff some entry with index below `num_dentries` has a matching name; on
success `out` is a copy of the lowest-index matching entry, otherwise the
result is -1 and `out` is unchanged.  A query of 33 non-NUL characters never
matches; a query of exactly 32 characters matches a 32-byte name stored
without terminator. -/
theorem read_dentry_by_name_spec (img : fs_image) (fname : Nat → Nat) (out : dentry_t) :
    ((read_dentry_by_name img (some fname) (some out)).1 = 0 ↔
      ∃ i, i < img.num_dentries ∧ name_matches fname (img.dentries i)) ∧
    (∀ i, i < img.num_dentries → name_matches fname (img.dentries i) →
      (∀ l, l < i → ¬ name_matches fname (img.dentries l)) →
      read_dentry_by_name img (some fname) (some out) = (0, some (img.dentries i))) ∧
    ((¬ ∃ i, i < img.num_dentries ∧ name_matches fname (img.dentries i)) →
      read_dentry_by_name img (some fname) (some out) = (-1, some out)) ∧
    ((∀ j, j ≤ 32 → fname j ≠ 0) →
      read_dentry_by_name img (some fname) (some out) = (-1, some out)) ∧
    (∀ i, i < img.num_dentries → (∀ j, j < 32 → fname j ≠ 0) → fname 32 = 0 →
      (∀ j, j < 32 → (img.dentries i).filename j = fname j) →
      (read_dentry_by_name img (some fname) (some out)).1 = 0) := by
  have hsome : ∀ r, read_dentry_by_name_loop img fname img.num_dentries 0 = some r →
      read_dentry_by_name img (some fname) (some out) = (0, some (img.dentries r)) := by
    intro r hr
    simp only [read_dentry_by_name, hr]
  have hnone : read_dentry_by_name_loop img fname img.num_dentries 0 = none →
      read_dentry_by_name img (some fname) (some out) = (-1, some out) := by
    intro hr
    simp only [read_dentry_by_name, hr]
  have hfirst : ∀ i, i < img.num_dentries → name_matches fname (img.dentries i) →
      (∀ l, l < i → ¬ name_matches fname (img.dentries l)) →
      read_dentry_by_name_loop img fname img.num_dentries 0 = some i := by
    intro i hi hm hl
    rw [read_dentry_by_name_loop_some]
    exact ⟨Nat.zero_le _, by omega, (entry_hit_iff _ _).mpr hm,
      fun l _ hl2 hh => hl l hl2 ((entry_hit_iff _ _).mp hh)⟩
  have hno : (¬ ∃ i, i < img.num_dentries ∧ name_matches fname (img.dentries i)) →
      read_dentry_by_name_loop img fname img.num_dentries 0 = none := by
    intro hne
    cases hr : read_dentry_by_name_loop img fname img.num_dentries 0 with
    | none => rfl
    | some r =>
      obtain ⟨_, h2, h3, _⟩ := (read_dentry_by_name_loop_some img fname _ _ _).mp hr
      exact absurd ⟨r, by omega, (entry_hit_iff _ _).mp h3⟩ hne
  have hiff : (read_dentry_by_name img (some fname) (some out)).1 = 0 ↔
      ∃ i, i < img.num_dentries ∧ name_matches fname (img.dentries i) := by
    constructor
    · intro h0
      by_contra hne
      rw [hnone (hno hne)] at h0
      have h0' : (-1 : Int) = 0 := h0
      exact absurd h0' (by decide)
    · intro hex
      cases hr : read_dentry_by_name_loop img fname img.num_dentries 0 with
      | none =>
        obtain ⟨i, hi, hm⟩ := hex
        have hcontra : ¬ ∃ r, read_dentry_by_name_loop img fname img.num_dentries 0 = some r := by
          rintro ⟨r, hr2⟩; rw [hr] at hr2; cases hr2
        exfalso
        apply hcontra
        classical
        have hex2 : ∃ i, i < img.num_dentries ∧ name_matches fname (img.dentries i) := ⟨i, hi, hm⟩
        refine ⟨Nat.find hex2, hfirst _ (Nat.find_spec hex2).1 (Nat.find_spec hex2).2 ?_⟩
        intro l hl hml
        exact Nat.find_min hex2 hl ⟨Nat.lt_trans hl (Nat.find_spec hex2).1, hml⟩
      | some r => rw [hsome r hr]
  refine ⟨hiff, fun i hi hm hl => hsome i (hfirst i hi hm hl), fun hne => hnone (hno hne), ?_, ?_⟩
  · intro hlong
    apply hnone
    apply hno
    rintro ⟨i, _, hm⟩
    rcases hm with ⟨k, hk1, hk2, _⟩ | ⟨_, h32⟩
    · exact hlong k (by omega) hk2
    · exact hlong 32 (Nat.le_refl _) h32
  · intro i hi _ h32 hagree
    exact hiff.mpr ⟨i, hi, Or.inr ⟨fun j hj => (hagree j hj).symm, h32⟩⟩

theorem read_dentry_by_name_spec_witness :
    read_dentry_by_name sample_image (some (bytes_of [99, 97, 116]))
        (some ⟨fun _ => 0, 0, 0, fun _ => 0⟩)
      = (0, some (sample_image.dentries 2)) :=
  (read_dentry_by_name_spec sample_image (bytes_of [99, 97, 116])
      ⟨fun _ => 0, 0, 0, fun _ => 0⟩).2.1 2 (by decide)
    (Or.inl ⟨3, by decide, by decide, by decide, by decide⟩)
    (by
      intro l hl hm
      have hne : bytes_of [99, 97, 116] 0 ≠ (sample_image.dentries l).filename 0 := by
        have : l = 0 ∨ l = 1 := by omega
        rcases this with h | h <;> rw [h] <;> decide
      rcases hm with ⟨k, _, _, _, hk⟩ | ⟨h, _⟩
      · exact hne (hk 0 (Nat.zero_le _))
      · exact hne (h 0 (by decide)))

/-! ### `check_user_str_bounds` -/

theorem check_user_str_loop_cases (mem : Mem) :
    ∀ n str, str < 4294967296 →
      (check_user_str_loop mem n str = 0 ∧ str_terminated mem str n) ∨
      (check_user_str_loop mem n str = -1 ∧ str_leaves_page mem str n) ∨
      (check_user_str_loop mem n str = -2 ∧ str_too_long mem str n) := by
  intro n
  induction n with
  | zero =>
    intro str _
    refine Or.inr (Or.inr ⟨rfl, fun k hk => ?_⟩)
    omega
  | succ n ih =>
    intro str hstr
    rw [check_user_str_loop, u32_of_lt hstr]
    by_cases h1 : str ≥ USER_VMEM_END
    · rw [if_pos h1]
      exact Or.inr (Or.inl ⟨rfl, 0, Nat.succ_pos _, fun j hj => by omega, h1⟩)
    · rw [if_neg h1]
      by_cases h2 : mem str = 0
      · rw [if_pos h2]
        exact Or.inl ⟨rfl, 0, Nat.succ_pos _, fun j hj => by omega, h2, by omega⟩
      · rw [if_neg h2]
        have hlt : str + 1 < 4294967296 := by
          rw [USER_VMEM_END_eq] at h1; omega
        have shift : ∀ j, str + 1 + j = str + (j + 1) := fun j => by omega
        rcases ih (str + 1) hlt with ⟨hr, k, hk1, hk2, hk3, hk4⟩ | ⟨hr, k, hk1, hk2, hk3⟩ | ⟨hr, hall⟩
        · refine Or.inl ⟨hr, k + 1, by omega, fun j hj => ?_, by rw [← shift]; exact hk3,
            by rw [← shift]; exact hk4⟩
          cases j with
          | zero => exact h2
          | succ j => rw [← shift]; exact hk2 j (by omega)
        · refine Or.inr (Or.inl ⟨hr, k + 1, by omega, fun j hj => ?_, by rw [← shift]; exact hk3⟩)
          cases j with
          | zero => exact h2
          | succ j => rw [← shift]; exact hk2 j (by omega)
        · refine Or.inr (Or.inr ⟨hr, fun k hk => ?_⟩)
          cases k with
          | zero => exact ⟨by omega, h2⟩
          | succ k =>
            have := hall k (by omega)
            rw [shift] at this
            exact this

theorem str_terminated_not_leaves (mem : Mem) (str n : Nat) (h0 : str_terminated mem str n) :
    ¬ str_leaves_page mem str n := by
  rintro ⟨k1, _, hk1, hk2⟩
  obtain ⟨k0, _, _, hz, hin⟩ := h0
  exact hk1 k0 (by omega) hz

theorem str_terminated_not_long (mem : Mem) (str n : Nat) (h0 : str_terminated mem str n) :
    ¬ str_too_long mem str n := by
  intro h2
  obtain ⟨k0, hk, _, hz, _⟩ := h0
  exact (h2 k0 hk).2 hz

theorem str_leaves_not_long (mem : Mem) (str n : Nat) (h1 : str_leaves_page mem str n) :
    ¬ str_too_long mem str n := by
  intro h2
  obtain ⟨k1, hk, _, hout⟩ := h1
  have := (h2 k1 hk).1
  omega

/-- The three results of `check_user_str_bounds` when `max_len + 1` does not
wrap: 0 for a terminated string of at most `max_len` bytes inside the user
window, -1 when the pointer is below the window or the walk leaves it, -2
when the first `max_len + 1` bytes are all non-zero and inside the window. -/
theorem check_user_str_bounds_below_max (mem : Mem) (str max_len : Nat)
    (hs : str < 4294967296) (hm : max_len < 4294967295) :
    (check_user_str_bounds mem str max_len = 0 ↔
      (USER_VMEM_START ≤ str ∧ str_terminated mem str (max_len + 1))) ∧
    (check_user_str_bounds mem str max_len = -1 ↔
      (str < USER_VMEM_START ∨ str_leaves_page mem str (max_len + 1))) ∧
    (check_user_str_bounds mem str max_len = -2 ↔
      (USER_VMEM_START ≤ str ∧ str_too_long mem str (max_len + 1))) := by
  unfold check_user_str_bounds
  rw [u32_of_lt hs, add32_of_lt (by omega)]
  by_cases h1 : str < USER_VMEM_START
  · rw [if_pos h1]
    refine ⟨⟨fun h => absurd h (by decide), fun h => by omega⟩, ⟨fun _ => Or.inl h1, fun _ => rfl⟩,
      ⟨fun h => absurd h (by decide), fun h => by omega⟩⟩
  · rw [if_neg h1]
    have h1' : USER_VMEM_START ≤ str := Nat.le_of_not_lt h1
    rcases check_user_str_loop_cases mem (max_len + 1) str hs with ⟨hr, hp⟩ | ⟨hr, hp⟩ | ⟨hr, hp⟩
    · rw [hr]
      refine ⟨⟨fun _ => ⟨h1', hp⟩, fun _ => rfl⟩, ⟨fun h => absurd h (by decide), ?_⟩,
        ⟨fun h => absurd h (by decide), ?_⟩⟩
      · rintro (h | h)
        · omega
        · exact absurd h (str_terminated_not_leaves _ _ _ hp)
      · rintro ⟨_, h⟩
        exact absurd h (str_terminated_not_long _ _ _ hp)
    · rw [hr]
      refine ⟨⟨fun h => absurd h (by decide), ?_⟩, ⟨fun _ => Or.inr hp, fun _ => rfl⟩,
        ⟨fun h => absurd h (by decide), ?_⟩⟩
      · rintro ⟨_, h⟩
        exact absurd hp (str_terminated_not_leaves _ _ _ h)
      · rintro ⟨_, h⟩
        exact absurd h (str_leaves_not_long _ _ _ hp)
    · rw [hr]
      refine ⟨⟨fun h => absurd h (by decide), ?_⟩, ⟨fun h => absurd h (by decide), ?_⟩,
        ⟨fun _ => ⟨h1', hp⟩, fun _ => rfl⟩⟩
      · rintro ⟨_, h⟩
        exact absurd hp (str_terminated_not_long _ _ _ h)
      · rintro (h | h)
        · omega
        · exact absurd hp (str_leaves_not_long _ _ _ h)

theorem check_user_str_bounds_below_max_witness :
    check_user_str_bounds (fun a => if a < 134217731 then 99 else 0) 134217728 32 = 0 :=
  ((check_user_str_bounds_below_max (fun a => if a < 134217731 then 99 else 0) 134217728 32
      (by decide) (by decide)).1).mpr
    ⟨by decide, 3, by decide, by
      intro j hj
      have : 134217728 + j < 134217731 := by omega
      simp only [this, if_true]
      decide, by decide, by decide⟩

/-- C4, at `max_len = 0xFFFFFFFF`: the loop bound `max_len+1` wraps to 0, the
loop body never runs and the result is -2, although the empty string at the
start of the user window is NUL-terminated, inside the window and no longer
than `max_len`. -/
theorem check_user_str_bounds_wraps_at_max :
    check_user_str_bounds (fun _ => 0) 0x08000000 0xFFFFFFFF = -2 ∧
    (0x08000000 ≤ 0x08000000 ∧ ∃ k, k ≤ 0xFFFFFFFF ∧
      (∀ j, j < k → (fun _ => 0 : Mem) (0x08000000 + j) ≠ 0) ∧
      (fun _ => 0 : Mem) (0x08000000 + k) = 0 ∧ 0x08000000 + k < 0x08400000) :=
  ⟨by decide, by decide, 0, by decide, fun j hj => absurd hj (Nat.not_lt_zero j), rfl, by decide⟩

/-! ### `syscall_handler` -/

/-- C5: `syscall_handler`.  If the saved `eax` is 0, exceeds `NUM_SYSCALLS`
or names a null slot (as numbers 9 and 10 do in the shipped table), -1 is
stored in the saved `eax`, the world is untouched and the result does not
depend on any handler.  Otherwise the slot `eax-1` is run once on the saved
`ebx`, `ecx`, `edx`, and its return value is stored in the saved `eax`.  No
other field of the saved context is written. -/
theorem syscall_handler_spec {σ : Type} (tbl : Nat → Option (syscall_t σ))
    (context : iret_context_base_t) (w : σ) :
    ((context.eax = 0 ∨ context.eax > 10 ∨ tbl (context.eax - 1) = none) →
      syscall_handler tbl context w = some ({ context with eax := 4294967295 }, w)) ∧
    (∀ handler, context.eax ≠ 0 → context.eax ≤ 10 → tbl (context.eax - 1) = some handler →
      syscall_handler tbl context w =
        (handler (toInt32 context.ebx) (toInt32 context.ecx) (toInt32 context.edx) w).map
          (fun r => ({ context with eax := ofInt32 r.1 }, r.2))) ∧
    (∀ impl : syscall_fn → syscall_t σ,
      syscall_tbl impl 8 = none ∧ syscall_tbl impl 9 = none ∧
      ∀ n, n < 8 → (syscall_tbl impl n).isSome = true) := by
  refine ⟨?_, ?_, ?_⟩
  · intro h
    unfold syscall_handler NUM_SYSCALLS
    by_cases h1 : context.eax = 0 ∨ context.eax > 10
    · simp only [if_pos h1]; rfl
    · simp only [if_neg h1]
      have h2 : tbl (context.eax - 1) = none := by
        rcases h with h | h | h
        · exact absurd (Or.inl h) h1
        · exact absurd (Or.inr h) h1
        · exact h
      rw [h2]; rfl
  · intro handler h0 h10 hs
    unfold syscall_handler NUM_SYSCALLS
    have h1 : ¬ (context.eax = 0 ∨ context.eax > 10) := by omega
    simp only [if_neg h1]
    rw [hs]
    cases hh : handler (toInt32 context.ebx) (toInt32 context.ecx) (toInt32 context.edx) w with
    | none => simp [hh]
    | some r => simp [hh]
  · intro impl
    refine ⟨rfl, rfl, fun n hn => ?_⟩
    have : n = 0 ∨ n = 1 ∨ n = 2 ∨ n = 3 ∨ n = 4 ∨ n = 5 ∨ n = 6 ∨ n = 7 := by omega
    rcases this with h | h | h | h | h | h | h | h <;> rw [h] <;> rfl

theorem syscall_handler_spec_witness :
    syscall_handler (fun i => if i = 0 then some test_syscall_cp3_aux else none)
        (fire_syscall_context 1) 0
      = some ({ fire_syscall_context 1 with eax := 5 }, 1) ∧
    syscall_handler (fun i => if i = 0 then some test_syscall_cp3_aux else none)
        (fire_syscall_context 2) 0
      = some ({ fire_syscall_context 2 with eax := 4294967295 }, 0) :=
  ⟨(syscall_handler_spec (fun i => if i = 0 then some test_syscall_cp3_aux else none)
      (fire_syscall_context 1) 0).2.1 test_syscall_cp3_aux (by decide) (by decide) rfl,
   (syscall_handler_spec (fun i => if i = 0 then some test_syscall_cp3_aux else none)
      (fire_syscall_context 2) 0).1 (Or.inr (Or.inr rfl))⟩

/-! ### Safety of the `read` drivers -/

theorem read_data_loop_bad_index (img : fs_image) (in_ptr : inode_t) (length fuel i offset buf : Nat)
    (mem : Mem) (hi : i < length) (ho : offset < in_ptr.file_length)
    (hb : ¬ offset / 4096 < 1023) :
    read_data_loop img in_ptr length fuel i offset buf mem = some (-1, mem) := by
  have hs : offset >>> FS_DATA_BLK_BITS = offset / 4096 := by
    unfold FS_DATA_BLK_BITS; rw [Nat.shiftRight_eq_div_pow]
  rw [read_data_loop]
  simp only [hs]
  rw [if_pos ⟨hi, ho⟩, if_pos (by unfold FS_MAX_DBLKS; omega)]

theorem read_data_loop_bad_block (img : fs_image) (in_ptr : inode_t) (length fuel i offset buf : Nat)
    (mem : Mem) (hi : i < length) (ho : offset < in_ptr.file_length)
    (hb : offset / 4096 < 1023) (hd : ¬ in_ptr.data_blks (offset / 4096) < img.num_data_blk) :
    read_data_loop img in_ptr length fuel i offset buf mem = some (-1, mem) := by
  have hs : offset >>> FS_DATA_BLK_BITS = offset / 4096 := by
    unfold FS_DATA_BLK_BITS; rw [Nat.shiftRight_eq_div_pow]
  rw [read_data_loop]
  simp only [hs]
  rw [if_pos ⟨hi, ho⟩, if_neg (by unfold FS_MAX_DBLKS; omega), if_pos (by omega)]

/-- On any image the loop of `read_data` returns: its result is -1 or a byte
count between `i` and `length`, and it writes inside the caller's buffer only. -/
theorem read_data_loop_safe (img : fs_image) (in_ptr : inode_t) (length : Nat)
    (hlen : length < 4294967296) (hL : in_ptr.file_length < 4294967296) :
    ∀ (fuel i offset buf : Nat) (mem : Mem), i ≤ length → length - i ≤ fuel →
      ∃ r mem', read_data_loop img in_ptr length fuel i offset buf mem = some (r, mem') ∧
        (r = -1 ∨ ∃ i', i ≤ i' ∧ i' ≤ length ∧ r = toInt32 i') ∧
        (∀ a, ¬ (buf ≤ a ∧ a < buf + (length - i)) → mem' a = mem a) := by
  intro fuel
  induction fuel with
  | zero =>
    intro i offset buf mem hi hf
    have hc : ¬ (i < length ∧ offset < in_ptr.file_length) := by omega
    exact ⟨toInt32 i, mem, read_data_loop_exit _ _ _ _ _ _ _ _ hc,
      Or.inr ⟨i, Nat.le_refl _, hi, rfl⟩, fun _ _ => rfl⟩
  | succ fuel ih =>
    intro i offset buf mem hi hf
    by_cases hc : i < length ∧ offset < in_ptr.file_length
    · obtain ⟨hc1, hc2⟩ := hc
      by_cases hb : offset / 4096 < 1023
      · by_cases hd : in_ptr.data_blks (offset / 4096) < img.num_data_blk
        · have hmlt : offset % 4096 < 4096 := Nat.mod_lt _ (by decide)
          have hcnt1 : 1 ≤ read_data_count in_ptr length i offset := by
            unfold read_data_count; omega
          have hcntr : read_data_count in_ptr length i offset ≤ length - i := by
            unfold read_data_count; omega
          rw [read_data_loop_step img in_ptr length fuel i offset buf mem hlen hL hc1 hc2 hb hd]
          generalize read_data_count in_ptr length i offset = c at *
          obtain ⟨r, mem', he, hr, hout⟩ := ih (i + c) (offset + c) (buf + c)
            (memcpy mem buf (fun j => img.data (in_ptr.data_blks (offset / 4096))
              (offset % 4096 + j)) c) (by omega) (by omega)
          refine ⟨r, mem', he, ?_, ?_⟩
          · rcases hr with hr | ⟨i', h1, h2, h3⟩
            · exact Or.inl hr
            · exact Or.inr ⟨i', by omega, h2, h3⟩
          · intro a ha
            rw [hout a (by omega), memcpy_outside _ _ _ _ _ (by omega)]
        · exact ⟨-1, mem, read_data_loop_bad_block _ _ _ _ _ _ _ _ hc1 hc2 hb hd,
            Or.inl rfl, fun _ _ => rfl⟩
      · exact ⟨-1, mem, read_data_loop_bad_index _ _ _ _ _ _ _ _ hc1 hc2 hb,
          Or.inl rfl, fun _ _ => rfl⟩
    · exact ⟨toInt32 i, mem, read_data_loop_exit _ _ _ _ _ _ _ _ hc,
        Or.inr ⟨i, Nat.le_refl _, hi, rfl⟩, fun _ _ => rfl⟩

/-- On any image `read_data` returns -1 or a count in `[0, length]` and
writes inside `[buf, buf+length)` only. -/
theorem read_data_safe (img : fs_image) (mem : Mem) (inode offset buf length : Nat)
    (hlen : length < 2147483648)
    (himg : ∀ i, (img.inodes i).file_length < 4294967296) :
    ∃ r mem', read_data img mem inode offset buf length = some (r, mem') ∧
      (r = -1 ∨ (0 ≤ r ∧ r ≤ (length : Int))) ∧
      (∀ a, ¬ (buf ≤ a ∧ a < buf + length) → mem' a = mem a) := by
  unfold read_data
  by_cases h1 : inode ≥ img.num_inode
  · rw [if_pos h1]
    exact ⟨-1, mem, rfl, Or.inl rfl, fun _ _ => rfl⟩
  · rw [if_neg h1]
    by_cases h2 : buf = 0
    · rw [if_pos h2]
      exact ⟨-1, mem, rfl, Or.inl rfl, fun _ _ => rfl⟩
    · rw [if_neg h2]
      obtain ⟨r, mem', he, hr, hout⟩ := read_data_loop_safe img (img.inodes inode) length
        (by omega) (himg inode) length 0 offset buf mem (Nat.zero_le _) (by omega)
      refine ⟨r, mem', he, ?_, ?_⟩
      · rcases hr with hr | ⟨i', _, h2, h3⟩
        · exact Or.inl hr
        · right
          rw [h3, toInt32_of_lt (by omega)]
          omega
      · intro a ha
        exact hout a (by rw [Nat.sub_zero]; exact ha)

theorem term_read_loop_safe (term : terminal_t) (buf : Nat) :
    ∀ (n i : Nat) (mem : Mem),
      i ≤ (term_read_loop term buf n i mem).1 ∧ (term_read_loop term buf n i mem).1 ≤ i + n ∧
      ∀ a, ¬ (buf + i ≤ a ∧ a < buf + i + n) → (term_read_loop term buf n i mem).2 a = mem a := by
  intro n
  induction n with
  | zero =>
    intro i mem
    exact ⟨Nat.le_refl _, Nat.le_refl _, fun _ _ => rfl⟩
  | succ n ih =>
    intro i mem
    rw [term_read_loop]
    by_cases h : (i : Int) ≥ term.buffer_index
    · rw [if_pos h]
      exact ⟨Nat.le_refl _, by omega, fun _ _ => rfl⟩
    · rw [if_neg h]
      obtain ⟨h1, h2, h3⟩ := ih (i + 1) (Function.update mem (buf + i) (term.keyboard_buffer i))
      refine ⟨by omega, by omega, fun a ha => ?_⟩
      rw [h3 a (by omega), Function.update_noteq (by omega)]

theorem ofInt32_of_nonneg {z : Int} (h0 : 0 ≤ z) (h1 : z < 4294967296) : ofInt32 z = z.toNat := by
  unfold ofInt32
  rw [Int.emod_eq_of_lt h0 h1]

theorem term_read_safe (env : irq_env) (img : fs_image) (k : kernel_t) (mem : Mem) (cur : Nat)
    (p : Option fd_ptr) (buf : Nat) (n : Int) (res : Int × kernel_t × Mem)
    (h : term_read env img k mem cur p buf n = some res) : read_contract mem buf n res := by
  unfold term_read at h
  by_cases h1 : buf = 0 ∨ n < 0
  · rw [if_pos h1] at h
    cases h
    exact ⟨Or.inl rfl, fun _ _ => rfl⟩
  · rw [if_neg h1] at h
    simp only at h
    cases hw : hlt_until (fun k' => decide ((k'.terminals (k.pcbs cur).terminal_id).term_in_flag ≠ 0))
        env k with
    | none => rw [hw] at h; cases h
    | some k1 =>
      rw [hw] at h
      simp only at h
      cases hc : term_clear_keyboard_buffer k1 (k1.pcbs cur).terminal_id with
      | none => rw [hc] at h; cases h
      | some k2 =>
        rw [hc] at h
        simp only at h
        cases h
        obtain ⟨_, h2, h3⟩ := term_read_loop_safe (k1.terminals (k.pcbs cur).terminal_id) buf
          n.toNat 0 mem
        refine ⟨Or.inr ⟨Int.natCast_nonneg _, ?_⟩, fun a ha => h3 a (by omega)⟩
        simp only
        omega

theorem file_read_safe (env : irq_env) (img : fs_image) (k : kernel_t) (mem : Mem) (cur : Nat)
    (p : Option fd_ptr) (buf : Nat) (n : Int) (res : Int × kernel_t × Mem)
    (hn : n < 2147483648) (himg : ∀ i, (img.inodes i).file_length < 4294967296)
    (h : file_read env img k mem cur p buf n = some res) : read_contract mem buf n res := by
  unfold file_read at h
  cases p with
  | none =>
    cases h
    exact ⟨Or.inl rfl, fun _ _ => rfl⟩
  | some p =>
    simp only at h
    by_cases h1 : buf = 0
    · rw [if_pos h1] at h
      cases h
      exact ⟨Or.inl rfl, fun _ _ => rfl⟩
    · rw [if_neg h1] at h
      by_cases h2 : n < 0
      · rw [if_pos h2] at h
        cases h
        exact ⟨Or.inl rfl, fun _ _ => rfl⟩
      · rw [if_neg h2] at h
        have hof : ofInt32 n = n.toNat := ofInt32_of_nonneg (by omega) (by omega)
        rw [hof] at h
        obtain ⟨r, mem', he, hr, hout⟩ := read_data_safe img mem (get_fd k p).inode
          (get_fd k p).file_pos buf n.toNat (by omega) himg
        rw [he] at h
        simp only at h
        have hr' : r = -1 ∨ (0 ≤ r ∧ r ≤ n) := by
          rcases hr with hr | ⟨hr1, hr2⟩
          · exact Or.inl hr
          · exact Or.inr ⟨hr1, by omega⟩
        by_cases h3 : r > 0
        · rw [if_pos h3] at h
          cases h
          exact ⟨hr', hout⟩
        · rw [if_neg h3] at h
          cases h
          exact ⟨hr', hout⟩

theorem directory_read_safe (dentry : dentry_t) (env : irq_env) (img : fs_image) (k : kernel_t)
    (mem : Mem) (cur : Nat) (p : Option fd_ptr) (buf : Nat) (n : Int)
    (res : Int × kernel_t × Mem)
    (h : directory_read dentry env img k mem cur p buf n = some res) :
    read_contract mem buf n res := by
  unfold directory_read at h
  cases p with
  | none =>
    cases h
    exact ⟨Or.inl rfl, fun _ _ => rfl⟩
  | some p =>
    simp only at h
    by_cases h1 : buf = 0
    · rw [if_pos h1] at h
      cases h
      exact ⟨Or.inl rfl, fun _ _ => rfl⟩
    · rw [if_neg h1] at h
      by_cases h2 : n < 0
      · rw [if_pos h2] at h
        cases h
        exact ⟨Or.inl rfl, fun _ _ => rfl⟩
      · rw [if_neg h2] at h
        by_cases h3 : (get_fd k p).file_pos ≥ img.num_dentries
        · rw [if_pos h3] at h
          cases h
          exact ⟨Or.inr ⟨Int.le_refl _, by omega⟩, fun _ _ => rfl⟩
        · rw [if_neg h3] at h
          unfold read_dentry_by_index at h
          simp only [if_neg h3] at h
          by_cases h4 : n > 32
          · simp only [if_pos h4] at h
            split at h
            · cases h
              exact ⟨Or.inl rfl, fun _ _ => rfl⟩
            · cases h
              refine ⟨Or.inr ⟨show (0 : Int) ≤ 32 by decide, show (32 : Int) ≤ n by omega⟩,
                fun a ha => ?_⟩
              exact memcpy_outside _ _ _ _ _ (by
                have : (32 : Int).toNat = 32 := rfl
                omega)
          · simp only [if_neg h4] at h
            split at h
            · cases h
              exact ⟨Or.inl rfl, fun _ _ => rfl⟩
            · cases h
              exact ⟨Or.inr ⟨show (0 : Int) ≤ n by omega, Int.le_refl _⟩,
                fun a ha => memcpy_outside _ _ _ _ _ ha⟩

theorem rtc_read_safe (env : irq_env) (img : fs_image) (k : kernel_t) (mem : Mem) (cur : Nat)
    (p : Option fd_ptr) (buf : Nat) (n : Int) (res : Int × kernel_t × Mem)
    (h : rtc_read env img k mem cur p buf n = some res) : read_contract mem buf n res := by
  unfold rtc_read at h
  cases p with
  | none =>
    cases h
    exact ⟨Or.inl rfl, fun _ _ => rfl⟩
  | some p =>
    simp only at h
    by_cases h1 : buf = 0 ∨ n < 0
    · rw [if_pos h1] at h
      cases h
      exact ⟨Or.inl rfl, fun _ _ => rfl⟩
    · rw [if_neg h1] at h
      split at h
      · cases h
      · cases h
        exact ⟨Or.inr ⟨Int.le_refl _, by omega⟩, fun _ _ => rfl⟩

theorem ofInt32_lt (z : Int) : ofInt32 z < 4294967296 := by
  unfold ofInt32
  have h1 := Int.emod_nonneg z (show (4294967296 : Int) ≠ 0 by decide)
  have h2 := Int.emod_lt_of_pos z (show (0 : Int) < 4294967296 by decide)
  omega

theorem fd_driver_read_safe (dentry : dentry_t) (drv : fd_driver_t) (env : irq_env)
    (img : fs_image) (k : kernel_t) (mem : Mem) (cur : Nat) (p : Option fd_ptr) (buf : Nat)
    (n : Int) (res : Int × kernel_t × Mem) (hn : n < 2147483648)
    (himg : ∀ i, (img.inodes i).file_length < 4294967296)
    (h : fd_driver_read dentry drv env img k mem cur p buf n = some res) :
    read_contract mem buf n res := by
  cases drv with
  | term_stdin_fd_driver => exact term_read_safe env img k mem cur p buf n res h
  | term_stdout_fd_driver =>
    have h' : some ((-1 : Int), k, mem) = some res := h
    cases h'
    exact ⟨Or.inl rfl, fun _ _ => rfl⟩
  | file_fd_driver => exact file_read_safe env img k mem cur p buf n res hn himg h
  | directory_fd_driver => exact directory_read_safe dentry env img k mem cur p buf n res h
  | rtc_fd_driver => exact rtc_read_safe env img k mem cur p buf n res h

/-- C6: `syscall_read` returns -1, whatever the drivers are, when
`nbytes < 0`, `fd` is outside `[0,8)`, `buf` is null, `[buf, buf+nbytes)` is
not inside the user window, or slot `fd` is absent.  For a present slot it
hands the call to the `read` member of the slot's driver; and whenever the
`read` member of one of the five shipped drivers returns, its result is -1
or lies in `[0, nbytes]` and memory outside `[buf, buf+nbytes)` is unchanged. -/
theorem syscall_read_safe (dentry : dentry_t) (env : irq_env) (img : fs_image) (k : kernel_t)
    (mem : Mem) (cur : Nat) (fd arg2 nbytes : Int)
    (hn : nbytes < 2147483648) (himg : ∀ i, (img.inodes i).file_length < 4294967296) :
    (∀ read_of : fd_driver_t → fd_read_t,
      (nbytes < 0 ∨ fd < 0 ∨ fd ≥ 8 ∨ ofInt32 arg2 = 0 ∨
        ¬ (0x08000000 ≤ ofInt32 arg2 ∧ ofInt32 arg2 + nbytes.toNat ≤ 0x08400000) ∨
        ((k.pcbs cur).fds fd.toNat).present = 0) →
      syscall_read read_of env img k mem cur fd arg2 nbytes = some (-1, k, mem)) ∧
    (∀ drv, 0 ≤ nbytes → 0 ≤ fd → fd < 8 → ofInt32 arg2 ≠ 0 →
      (0x08000000 ≤ ofInt32 arg2 ∧ ofInt32 arg2 + nbytes.toNat ≤ 0x08400000) →
      ((k.pcbs cur).fds fd.toNat).present ≠ 0 →
      ((k.pcbs cur).fds fd.toNat).file_ops = some drv →
      syscall_read (fd_driver_read dentry) env img k mem cur fd arg2 nbytes
        = fd_driver_read dentry drv env img k mem cur (some (cur, fd.toNat)) (ofInt32 arg2)
            nbytes) ∧
    (∀ drv p buf res,
      fd_driver_read dentry drv env img k mem cur p buf nbytes = some res →
      read_contract mem buf nbytes res) := by
  have hcases : ¬ (nbytes < 0) →
      ((134217728 ≤ ofInt32 arg2 ∧ ofInt32 arg2 + nbytes.toNat ≤ 138412032) ∧
        check_user_bounds (ofInt32 arg2) (ofInt32 nbytes) = 0) ∨
      (¬ (134217728 ≤ ofInt32 arg2 ∧ ofInt32 arg2 + nbytes.toNat ≤ 138412032) ∧
        check_user_bounds (ofInt32 arg2) (ofInt32 nbytes) = -1) := by
    intro h0
    have hof : ofInt32 nbytes = nbytes.toNat := ofInt32_of_nonneg (by omega) (by omega)
    rw [hof]
    exact check_user_bounds_cases (ofInt32 arg2) nbytes.toNat (ofInt32_lt arg2) (by omega)
  refine ⟨?_, ?_, ?_⟩
  · intro read_of hbad
    unfold syscall_read FD_PER_PROC
    simp only
    by_cases h1 : nbytes < 0 ∨ fd < 0 ∨ fd ≥ ((8 : Nat) : Int) ∨ ofInt32 arg2 = 0
    · rw [if_pos h1]
    · rw [if_neg h1]
      have h0 : ¬ nbytes < 0 := fun h => h1 (Or.inl h)
      rcases hcases h0 with ⟨hw, hc⟩ | ⟨hw, hc⟩
      · rw [hc, if_neg (by decide)]
        have hp : (get_fd k (cur, fd.toNat)).present = 0 := by
          rcases hbad with h | h | h | h | h | h
          · exact absurd (Or.inl h) h1
          · exact absurd (Or.inr (Or.inl h)) h1
          · exact absurd (Or.inr (Or.inr (Or.inl h))) h1
          · exact absurd (Or.inr (Or.inr (Or.inr h))) h1
          · exact absurd hw h
          · exact h
        rw [if_pos hp]
      · rw [hc, if_pos (by decide)]
  · intro drv h0 hfd0 hfd8 hbuf hwin hpres hops
    unfold syscall_read FD_PER_PROC
    simp only
    have h1 : ¬ (nbytes < 0 ∨ fd < 0 ∨ fd ≥ ((8 : Nat) : Int) ∨ ofInt32 arg2 = 0) := by
      rintro (h | h | h | h)
      · omega
      · omega
      · omega
      · exact hbuf h
    rw [if_neg h1]
    rcases hcases (by omega) with ⟨_, hc⟩ | ⟨hw, _⟩
    · rw [hc, if_neg (by decide)]
      have hp : ¬ (get_fd k (cur, fd.toNat)).present = 0 := hpres
      rw [if_neg hp]
      have ho : (get_fd k (cur, fd.toNat)).file_ops = some drv := hops
      rw [ho]
    · exact absurd hwin hw
  · intro drv p buf res h
    exact fd_driver_read_safe dentry drv env img k mem cur p buf nbytes res hn himg h

theorem sample_image_lengths : ∀ i, (sample_image.inodes i).file_length < 4294967296 := by
  intro i
  match i with
  | 0 => decide
  | 1 => decide
  | 2 => decide
  | n + 3 => exact (by decide : (0 : Nat) < 4294967296)

theorem syscall_read_safe_witness :
    syscall_read (fd_driver_read absent_dentry) [] sample_image sample_kernel (fun _ => 0) 0
        0 134217728 8
      = term_read [] sample_image sample_kernel (fun _ => 0) 0 (some (0, 0)) 134217728 8 ∧
    (∀ res, term_read [] sample_image sample_kernel (fun _ => 0) 0 (some (0, 0)) 134217728 8
        = some res → read_contract (fun _ => 0) 134217728 8 res) ∧
    (syscall_read (fd_driver_read absent_dentry) [] sample_image sample_kernel (fun _ => 0) 0
        0 134217728 8).map
      (fun r => (r.1, r.2.2 134217728, r.2.2 134217729, r.2.2 134217730, r.2.2 134217731))
      = some (3, 104, 105, 10, 0) :=
  ⟨(syscall_read_safe absent_dentry [] sample_image sample_kernel (fun _ => 0) 0 0 134217728 8
      (by decide) sample_image_lengths).2.1 fd_driver_t.term_stdin_fd_driver (by decide)
      (by decide) (by decide) (by decide) (by decide) (by decide) rfl,
    fun res h =>
      (syscall_read_safe absent_dentry [] sample_image sample_kernel (fun _ => 0) 0 0 134217728 8
        (by decide) sample_image_lengths).2.2 fd_driver_t.term_stdin_fd_driver (some (0, 0))
        134217728 res h,
    by decide⟩

/-! ### `syscall_open` -/

theorem get_fd_set_fd (k : kernel_t) (p q : fd_ptr) (f : fd_info_t) :
    get_fd (set_fd k p f) q = if q = p then f else get_fd k q := by
  obtain ⟨p1, p2⟩ := p
  obtain ⟨q1, q2⟩ := q
  unfold get_fd set_fd
  simp only
  by_cases h1 : q1 = p1
  · subst h1
    rw [Function.update_same]
    simp only
    by_cases h2 : q2 = p2
    · subst h2
      rw [Function.update_same, if_pos rfl]
    · rw [Function.update_noteq h2, if_neg (by intro h; exact h2 (congrArg Prod.snd h))]
  · rw [Function.update_noteq h1, if_neg (by intro h; exact h1 (congrArg Prod.fst h))]

theorem set_fd_head (k : kernel_t) (p : fd_ptr) (f : fd_info_t) :
    (set_fd k p f).rtc_driver_data_head = k.rtc_driver_data_head := rfl

theorem get_fd_head_update (k : kernel_t) (h : Option fd_ptr) (q : fd_ptr) :
    get_fd { k with rtc_driver_data_head := h } q = get_fd k q := rfl

theorem open_scan_spec (fds : Nat → fd_info_t) :
    ∀ n s, s ≤ open_scan fds n s ∧ open_scan fds n s ≤ s + n ∧
      (∀ j, s ≤ j → j < open_scan fds n s → (fds j).present ≠ 0) ∧
      (open_scan fds n s < s + n → (fds (open_scan fds n s)).present = 0) := by
  intro n
  induction n with
  | zero =>
    intro s
    exact ⟨Nat.le_refl _, Nat.le_refl _, fun j h1 h2 => absurd h2 (by simp only [open_scan]; omega),
      fun h => absurd h (by simp only [open_scan]; omega)⟩
  | succ n ih =>
    intro s
    rw [open_scan]
    by_cases h : (fds s).present = 0
    · rw [if_pos h]
      exact ⟨Nat.le_refl _, by omega, fun j h1 h2 => by omega, fun _ => h⟩
    · rw [if_neg h]
      obtain ⟨h1, h2, h3, h4⟩ := ih (s + 1)
      refine ⟨by omega, by omega, fun j hj1 hj2 => ?_, fun hlt => h4 (by omega)⟩
      by_cases hjs : j = s
      · rw [hjs]; exact h
      · exact h3 j (by omega) hj2

/-- The scan finds the smallest absent slot. -/
theorem open_scan_first (fds : Nat → fd_info_t) (i : Nat) (hi : i < 8)
    (habs : (fds i).present = 0) (hbefore : ∀ j, j < i → (fds j).present ≠ 0) :
    open_scan fds 8 0 = i := by
  obtain ⟨_, h2, h3, h4⟩ := open_scan_spec fds 8 0
  by_cases hlt : open_scan fds 8 0 < i
  · exact absurd (h4 (by omega)) (hbefore _ hlt)
  · by_cases hgt : i < open_scan fds 8 0
    · exact absurd habs (h3 i (Nat.zero_le _) hgt)
    · omega

/-- The scan runs to the end when every slot is present. -/
theorem open_scan_full (fds : Nat → fd_info_t) (hall : ∀ j, j < 8 → (fds j).present ≠ 0) :
    open_scan fds 8 0 = 8 := by
  obtain ⟨_, h2, _, h4⟩ := open_scan_spec fds 8 0
  by_cases hlt : open_scan fds 8 0 < 8
  · exact absurd (h4 (by omega)) (hall _ hlt)
  · omega

/-- The descriptor at `q` after `rtc_open` on the descriptor at `p`. -/
theorem get_fd_rtc_open (k : kernel_t) (p q : fd_ptr) (fname : Nat → Nat) :
    (rtc_open k (some p) (some fname)).1 = 0 ∧
    get_fd (rtc_open k (some p) (some fname)).2 q =
      if q = p then
        { file_ops := some fd_driver_t.rtc_fd_driver, inode := 0, file_pos := 0,
          present := (get_fd k p).present, flags := (get_fd k p).flags,
          driver_data := ⟨k.rtc_driver_data_head, none, freq_to_mask 2, 1⟩ }
      else if k.rtc_driver_data_head = some q then
        { (get_fd k q) with driver_data := { (get_fd k q).driver_data with prev := some p } }
      else get_fd k q := by
  refine ⟨rfl, ?_⟩
  unfold rtc_open
  cases hh : k.rtc_driver_data_head with
  | none =>
    by_cases hqp : q = p
    · subst hqp
      simp [get_fd_head_update, get_fd_set_fd, set_fd_head, hh]
    · simp [get_fd_head_update, get_fd_set_fd, set_fd_head, hh, hqp]
  | some h =>
    by_cases hqp : q = p
    · subst hqp
      by_cases hqh : q = h
      · subst hqh
        simp [get_fd_head_update, get_fd_set_fd, set_fd_head, hh]
      · simp [get_fd_head_update, get_fd_set_fd, set_fd_head, hh, hqh]
    · by_cases hqh : q = h
      · subst hqh
        simp [get_fd_head_update, get_fd_set_fd, set_fd_head, hh, hqp]
      · have hhq : ¬ h = q := fun e => hqh e.symm
        simp [get_fd_head_update, get_fd_set_fd, set_fd_head, hh, hqp, hqh, hhq]

theorem read_dentry_by_name_cases (img : fs_image) (fname : Nat → Nat) (dentry : dentry_t) :
    (∃ i, read_dentry_by_name img (some fname) (some dentry) = (0, some (img.dentries i))) ∨
    read_dentry_by_name img (some fname) (some dentry) = (-1, some dentry) := by
  cases hr : read_dentry_by_name_loop img fname img.num_dentries 0 with
  | none =>
    right
    simp only [read_dentry_by_name, hr]
  | some i =>
    left
    exact ⟨i, by simp only [read_dentry_by_name, hr]⟩

/-- A successful `file_open`: the target slot is initialised for the
selected driver; the only other descriptor touched is the previous head of
the RTC list, whose `prev` link is set, when the driver is the RTC. -/
theorem file_open_ok (dentry : dentry_t) (img : fs_image) (k : kernel_t) (p : fd_ptr)
    (fname : Nat → Nat) (d : dentry_t) (drv : fd_driver_t)
    (hl : read_dentry_by_name img (some fname) (some dentry) = (0, some d))
    (hd : driver_of_dentry d = some drv) :
    (file_open dentry img k (some p) (some fname)).1 = 0 ∧
    ∀ q, get_fd (file_open dentry img k (some p) (some fname)).2 q =
      if q = p then opened_fd drv d (get_fd k p) k.rtc_driver_data_head
      else if drv = fd_driver_t.rtc_fd_driver ∧ k.rtc_driver_data_head = some q then
        { (get_fd k q) with driver_data := { (get_fd k q).driver_data with prev := some p } }
      else get_fd k q := by
  unfold file_open
  simp only [hl, FS_DENTRY_RTC, FS_DENTRY_DIR, FS_DENTRY_FILE]
  rw [if_neg (by simp)]
  unfold driver_of_dentry at hd
  by_cases h0 : d.type = 0
  · rw [if_pos h0] at hd
    rw [if_pos h0]
    by_cases hi : d.inode = 0
    · rw [if_pos hi] at hd
      have hdrv : drv = fd_driver_t.rtc_fd_driver := (Option.some.inj hd).symm
      subst hdrv
      rw [if_neg (by simp [hi])]
      refine ⟨rfl, fun q => ?_⟩
      rw [(get_fd_rtc_open k p q fname).2]
      unfold opened_fd
      by_cases hqp : q = p
      · simp [hqp]
      · simp [hqp]
    · rw [if_neg hi] at hd; cases hd
  · rw [if_neg h0] at hd
    rw [if_neg h0]
    by_cases h1 : d.type = 1
    · rw [if_pos h1] at hd
      rw [if_pos h1]
      by_cases hi : d.inode = 0
      · rw [if_pos hi] at hd
        have hdrv : drv = fd_driver_t.directory_fd_driver := (Option.some.inj hd).symm
        subst hdrv
        rw [if_neg (by simp [hi])]
        refine ⟨rfl, fun q => ?_⟩
        unfold directory_open opened_fd
        simp only [get_fd_set_fd]
        by_cases hqp : q = p
        · simp [hqp]
        · simp [hqp]
      · rw [if_neg hi] at hd; cases hd
    · rw [if_neg h1] at hd
      rw [if_neg h1]
      by_cases h2 : d.type = 2
      · rw [if_pos h2] at hd
        rw [if_pos h2]
        have hdrv : drv = fd_driver_t.file_fd_driver := (Option.some.inj hd).symm
        subst hdrv
        refine ⟨rfl, fun q => ?_⟩
        unfold opened_fd
        simp only [get_fd_set_fd]
        by_cases hqp : q = p
        · simp [hqp]
        · simp [hqp]
      · rw [if_neg h2] at hd; cases hd

/-- A failing `file_open` changes nothing. -/
theorem file_open_fail (dentry : dentry_t) (img : fs_image) (k : kernel_t) (p : fd_ptr)
    (fname : Nat → Nat)
    (h : (read_dentry_by_name img (some fname) (some dentry)).1 ≠ 0 ∨
      ∃ d, read_dentry_by_name img (some fname) (some dentry) = (0, some d) ∧
        driver_of_dentry d = none) :
    file_open dentry img k (some p) (some fname) = (-1, k) := by
  unfold file_open
  rcases h with h | ⟨d, hl, hd⟩
  · rcases read_dentry_by_name_cases img fname dentry with ⟨i, hi⟩ | hn
    · rw [hi] at h; exact absurd rfl h
    · simp only [hn]
      rw [if_pos (by decide)]
  · simp only [hl, FS_DENTRY_RTC, FS_DENTRY_DIR, FS_DENTRY_FILE]
    rw [if_neg (by simp)]
    unfold driver_of_dentry at hd
    by_cases h0 : d.type = 0
    · rw [if_pos h0] at hd
      rw [if_pos h0]
      by_cases hi : d.inode = 0
      · rw [if_pos hi] at hd; cases hd
      · rw [if_pos hi]
    · rw [if_neg h0] at hd
      rw [if_neg h0]
      by_cases h1 : d.type = 1
      · rw [if_pos h1] at hd
        rw [if_pos h1]
        by_cases hi : d.inode = 0
        · rw [if_pos hi] at hd; cases hd
        · rw [if_pos hi]
      · rw [if_neg h1] at hd
        rw [if_neg h1]
        by_cases h2 : d.type = 2
        · rw [if_pos h2] at hd; cases hd
        · rw [if_neg h2]

theorem get_fd_open_prepared (k : kernel_t) (cur i : Nat) (q : fd_ptr) :
    get_fd (open_prepared k cur i) q =
      if q = (cur, i) then { fd_info_zero with present := 1 } else get_fd k q := by
  unfold open_prepared
  by_cases h : q = (cur, i)
  · simp [get_fd_set_fd, h]
  · simp [get_fd_set_fd, h]

/-- What `syscall_open` returns once its argument checks have passed, with
`i` the slot its scan stops at and `r` the result of `file_open`. -/
theorem syscall_open_unfold (dentry : dentry_t) (img : fs_image) (k : kernel_t) (mem : Mem)
    (cur : Nat) (arg1 arg2 arg3 : Int)
    (hwin : USER_VMEM_START ≤ ofInt32 arg1) (hstr : str_terminated mem (ofInt32 arg1) 33)
    (i : Nat) (hi : i = open_scan (k.pcbs cur).fds 8 0) (r : Int × kernel_t)
    (hr : r = file_open dentry img (open_prepared k cur i) (some (cur, i))
      (some (fun j => mem (ofInt32 arg1 + j)))) :
    syscall_open dentry img k mem cur arg1 arg2 arg3 =
      if i = 8 then ((-1 : Int), k)
      else if r.1 ≠ 0 then
        ((-1 : Int), set_fd r.2 (cur, i) { (get_fd r.2 (cur, i)) with present := 0 })
      else ((i : Int), r.2) := by
  have hne : ofInt32 arg1 ≠ 0 := by
    rw [USER_VMEM_START_eq] at hwin; omega
  have hchk : check_user_str_bounds mem (ofInt32 arg1) 32 = 0 :=
    (check_user_str_bounds_below_max mem (ofInt32 arg1) 32 (ofInt32_lt arg1) (by decide)).1.mpr
      ⟨hwin, hstr⟩
  subst hi hr
  unfold syscall_open FS_MAX_FNAME_LEN FD_PER_PROC
  simp only
  rw [if_neg hne, hchk, if_neg (by decide)]
  rfl

/-- C7 as stated fails: a process that holds an open RTC descriptor in slot
2 opens `rtc` again.  The name is a valid user string, slot 3 is the smallest
absent slot and is returned, yet slot 2 is changed: `rtc_open` stores the new
node in the `prev` link of the old head of the RTC list, which lives in slot 2. -/
theorem syscall_open_rtc_relinks :
    USER_VMEM_START ≤ ofInt32 134217728 ∧
    str_terminated (user_string [114, 116, 99]) (ofInt32 134217728) 33 ∧
    ((rtc_kernel.pcbs 0).fds 3).present = 0 ∧
    (syscall_open absent_dentry sample_image rtc_kernel (user_string [114, 116, 99]) 0
      134217728 0 0).1 = 3 ∧
    ((syscall_open absent_dentry sample_image rtc_kernel (user_string [114, 116, 99]) 0
      134217728 0 0).2.pcbs 0).fds 2 ≠ (rtc_kernel.pcbs 0).fds 2 :=
  ⟨by decide, ⟨3, by decide, by decide, by decide, by decide⟩, by decide, by decide, by decide⟩

/-- C7, amended: `syscall_open` on a valid user string of at most 32 bytes.
If slot `i` is the smallest absent slot and `file_open` succeeds with driver
`drv`, the call returns `i`, slot `i` becomes present with `file_pos` 0 and
driver `drv`, and every other slot is unchanged, except that when `drv` is
the RTC driver the slot holding the previous head of the RTC list has its
`prev` link set to the new descriptor.  If all 8 slots are present or
`file_open` fails, the call returns -1 and every present bit is as before. -/
theorem syscall_open_spec (dentry : dentry_t) (img : fs_image) (k : kernel_t) (mem : Mem)
    (cur : Nat) (arg1 arg2 arg3 : Int)
    (hwin : USER_VMEM_START ≤ ofInt32 arg1) (hstr : str_terminated mem (ofInt32 arg1) 33) :
    (∀ i d drv, i < 8 → ((k.pcbs cur).fds i).present = 0 →
      (∀ j, j < i → ((k.pcbs cur).fds j).present ≠ 0) →
      read_dentry_by_name img (some (fun j => mem (ofInt32 arg1 + j))) (some dentry)
        = (0, some d) →
      driver_of_dentry d = some drv →
      (syscall_open dentry img k mem cur arg1 arg2 arg3).1 = (i : Int) ∧
      (((syscall_open dentry img k mem cur arg1 arg2 arg3).2.pcbs cur).fds i).present = 1 ∧
      (((syscall_open dentry img k mem cur arg1 arg2 arg3).2.pcbs cur).fds i).file_pos = 0 ∧
      (((syscall_open dentry img k mem cur arg1 arg2 arg3).2.pcbs cur).fds i).file_ops
        = some drv ∧
      ∀ j, j ≠ i →
        (((syscall_open dentry img k mem cur arg1 arg2 arg3).2.pcbs cur).fds j
            = (k.pcbs cur).fds j ∨
          (drv = fd_driver_t.rtc_fd_driver ∧ k.rtc_driver_data_head = some (cur, j) ∧
            ((syscall_open dentry img k mem cur arg1 arg2 arg3).2.pcbs cur).fds j
              = { ((k.pcbs cur).fds j) with
                  driver_data := { ((k.pcbs cur).fds j).driver_data with
                    prev := some (cur, i) } }))) ∧
    (((∀ j, j < 8 → ((k.pcbs cur).fds j).present ≠ 0) ∨
        (read_dentry_by_name img (some (fun j => mem (ofInt32 arg1 + j))) (some dentry)).1 ≠ 0 ∨
        (∃ d, read_dentry_by_name img (some (fun j => mem (ofInt32 arg1 + j))) (some dentry)
            = (0, some d) ∧ driver_of_dentry d = none)) →
      (syscall_open dentry img k mem cur arg1 arg2 arg3).1 = -1 ∧
      ∀ j, (((syscall_open dentry img k mem cur arg1 arg2 arg3).2.pcbs cur).fds j).present
        = ((k.pcbs cur).fds j).present) := by
  have hun := fun i hi r hr =>
    syscall_open_unfold dentry img k mem cur arg1 arg2 arg3 hwin hstr i hi r hr
  refine ⟨?_, ?_⟩
  · intro i d drv hi8 habs hbefore hl hd
    have hscan : i = open_scan (k.pcbs cur).fds 8 0 :=
      (open_scan_first _ i hi8 habs hbefore).symm
    obtain ⟨hok1, hok2⟩ := file_open_ok dentry img (open_prepared k cur i) (cur, i)
      (fun j => mem (ofInt32 arg1 + j)) d drv hl hd
    rw [hun i hscan _ rfl, if_neg (by omega), if_neg (by rw [hok1]; simp)]
    have hslot : ∀ j, ((file_open dentry img (open_prepared k cur i) (some (cur, i))
        (some (fun j => mem (ofInt32 arg1 + j)))).2.pcbs cur).fds j
        = get_fd (file_open dentry img (open_prepared k cur i) (some (cur, i))
          (some (fun j => mem (ofInt32 arg1 + j)))).2 (cur, j) := fun _ => rfl
    have hhead : (open_prepared k cur i).rtc_driver_data_head = k.rtc_driver_data_head := rfl
    refine ⟨rfl, ?_, ?_, ?_, ?_⟩
    · simp only [hslot, hok2, if_pos, get_fd_open_prepared, opened_fd]
    · simp only [hslot, hok2, if_pos, opened_fd]
    · simp only [hslot, hok2, if_pos, opened_fd]
    · intro j hj
      have hne : ¬ ((cur, j) : fd_ptr) = (cur, i) := fun e => hj (congrArg Prod.snd e)
      simp only [hslot, hok2, if_neg hne, get_fd_open_prepared, hhead]
      by_cases hr : drv = fd_driver_t.rtc_fd_driver ∧ k.rtc_driver_data_head = some (cur, j)
      · rw [if_pos hr]
        exact Or.inr ⟨hr.1, hr.2, rfl⟩
      · rw [if_neg hr]
        exact Or.inl rfl
  · intro hfail
    by_cases hfull : open_scan (k.pcbs cur).fds 8 0 = 8
    · rw [hun 8 hfull.symm _ rfl, if_pos rfl]
      exact ⟨rfl, fun _ => rfl⟩
    · obtain ⟨_, hle, hbefore, habs⟩ := open_scan_spec (k.pcbs cur).fds 8 0
      have hlt : open_scan (k.pcbs cur).fds 8 0 < 8 := by omega
      have habs' := habs (by omega)
      have hlook : (read_dentry_by_name img (some (fun j => mem (ofInt32 arg1 + j)))
            (some dentry)).1 ≠ 0 ∨
          (∃ d, read_dentry_by_name img (some (fun j => mem (ofInt32 arg1 + j))) (some dentry)
              = (0, some d) ∧ driver_of_dentry d = none) := by
        rcases hfail with h | h | h
        · exact absurd habs' (h _ hlt)
        · exact Or.inl h
        · exact Or.inr h
      generalize open_scan (k.pcbs cur).fds 8 0 = i at *
      have hff := file_open_fail dentry img (open_prepared k cur i) (cur, i)
        (fun j => mem (ofInt32 arg1 + j)) hlook
      rw [hun i rfl _ rfl, if_neg hfull, hff, if_pos (show ((-1 : Int)) ≠ 0 by decide)]
      refine ⟨rfl, fun j => ?_⟩
      show (get_fd (set_fd _ (cur, i) _) (cur, j)).present = (get_fd k (cur, j)).present
      rw [get_fd_set_fd]
      by_cases hji : j = i
      · subst hji
        rw [if_pos rfl]
        exact habs'.symm
      · rw [if_neg (fun e => hji (congrArg Prod.snd e)), get_fd_open_prepared,
          if_neg (fun e => hji (congrArg Prod.snd e))]

/-! ### `alloc_process`: failure leaves the process table as it was -/

theorem alloc_scan_spec (pcbs : Nat → pcb_t) :
    ∀ n s, s ≤ alloc_scan pcbs n s ∧ alloc_scan pcbs n s ≤ s + n ∧
      (∀ j, s ≤ j → j < alloc_scan pcbs n s → (pcbs j).present ≠ 0) ∧
      (alloc_scan pcbs n s < s + n → (pcbs (alloc_scan pcbs n s)).present = 0) := by
  intro n
  induction n with
  | zero =>
    intro s
    exact ⟨Nat.le_refl _, Nat.le_refl _,
      fun j h1 h2 => absurd h2 (by simp only [alloc_scan]; omega),
      fun h => absurd h (by simp only [alloc_scan]; omega)⟩
  | succ n ih =>
    intro s
    rw [alloc_scan]
    by_cases h : (pcbs s).present ≠ 0
    · rw [if_pos h]
      obtain ⟨h1, h2, h3, h4⟩ := ih (s + 1)
      refine ⟨by omega, by omega, fun j hj1 hj2 => ?_, fun hlt => h4 (by omega)⟩
      by_cases hjs : j = s
      · rw [hjs]; exact h
      · exact h3 j (by omega) hj2
    · rw [if_neg h]
      exact ⟨Nat.le_refl _, by omega, fun j h1 h2 => by omega, fun _ => not_not.mp h⟩

theorem same_but_absent_frame (k k' : kernel_t) (h : same_but_absent k k') :
    (∀ pid, (k'.pcbs pid).present = (k.pcbs pid).present) ∧
    (∀ pid, (k.pcbs pid).present ≠ 0 → k'.pcbs pid = k.pcbs pid) := by
  rcases h with h | ⟨q, pcb, hq, hp, h⟩
  · subst h
    exact ⟨fun _ => rfl, fun _ _ => rfl⟩
  · subst h
    unfold set_pcb
    refine ⟨fun pid => ?_, fun pid hpid => ?_⟩
    · by_cases e : pid = q
      · subst e
        simp only [Function.update_same]
        rw [hp, hq]
      · simp only [Function.update_noteq e]
    · have e : pid ≠ q := fun e => hpid (e ▸ hq)
      simp only [Function.update_noteq e]

theorem alloc_finish_null (loc : alloc_locals) (img : fs_image) (k : kernel_t) (pid : Nat)
    (pcb : pcb_t) (dentry : dentry_t) (k' : kernel_t)
    (h : alloc_finish loc img k pid pcb dentry = some (none, k')) :
    k' = set_pcb k pid { pcb with present := 0 } := by
  unfold alloc_finish at h
  split at h
  · exact (Prod.mk.inj (Option.some.inj h)).2.symm
  · split at h
    · cases h
    · split at h
      · exact (Prod.mk.inj (Option.some.inj h)).2.symm
      · split at h
        · exact (Prod.mk.inj (Option.some.inj h)).2.symm
        · split at h
          · exact (Prod.mk.inj (Option.some.inj h)).2.symm
          · have := (Prod.mk.inj (Option.some.inj h)).1
            cases this

theorem alloc_process_null (loc : alloc_locals) (img : fs_image) (k : kernel_t)
    (parent : Option Nat) (cmdline : Nat → Nat) (terminal : Int) (k' : kernel_t)
    (h : alloc_process loc img k parent cmdline terminal = some (none, k')) :
    same_but_absent k k' := by
  unfold alloc_process at h
  simp only at h
  by_cases hfull : alloc_scan k.pcbs NUM_PROCESSES 0 = NUM_PROCESSES
  · rw [if_pos hfull] at h
    exact Or.inl (Prod.mk.inj (Option.some.inj h)).2.symm
  · rw [if_neg hfull] at h
    obtain ⟨_, hle, _, habs⟩ := alloc_scan_spec k.pcbs NUM_PROCESSES 0
    have habs' : (k.pcbs (alloc_scan k.pcbs NUM_PROCESSES 0)).present = 0 := habs (by omega)
    right
    split at h
    · exact ⟨_, _, habs', rfl, (Prod.mk.inj (Option.some.inj h)).2.symm⟩
    · split at h
      · cases h
      · split at h
        · split at h
          · exact ⟨_, _, habs', rfl, (Prod.mk.inj (Option.some.inj h)).2.symm⟩
          · exact ⟨_, _, habs', rfl, alloc_finish_null _ _ _ _ _ _ _ h⟩
        · exact ⟨_, _, habs', rfl, (Prod.mk.inj (Option.some.inj h)).2.symm⟩

/-! ### `alloc_process`: parsing the command line -/

theorem skip_spaces_spec (cmdline : Nat → Nat) :
    ∀ n i, i ≤ skip_spaces cmdline n i ∧ skip_spaces cmdline n i ≤ i + n ∧
      (∀ t, i ≤ t → t < skip_spaces cmdline n i → is_ws (cmdline t)) ∧
      (skip_spaces cmdline n i < i + n → ¬ is_ws (cmdline (skip_spaces cmdline n i))) := by
  intro n
  induction n with
  | zero =>
    intro i
    exact ⟨Nat.le_refl _, Nat.le_refl _,
      fun t h1 h2 => absurd h2 (by simp only [skip_spaces]; omega),
      fun h => absurd h (by simp only [skip_spaces]; omega)⟩
  | succ n ih =>
    intro i
    rw [skip_spaces]
    by_cases h : cmdline i = 32 ∨ cmdline i = 9
    · rw [if_pos h]
      obtain ⟨h1, h2, h3, h4⟩ := ih (i + 1)
      refine ⟨by omega, by omega, fun t ht1 ht2 => ?_, fun hlt => h4 (by omega)⟩
      by_cases hti : t = i
      · rw [hti]; exact h
      · exact h3 t (by omega) ht2
    · rw [if_neg h]
      exact ⟨Nat.le_refl _, by omega, fun t h1 h2 => by omega, fun _ => h⟩

theorem copy_prog_name_spec (cmdline : Nat → Nat) :
    ∀ n i j (pn : Nat → Nat),
      i ≤ (copy_prog_name cmdline n i j pn).1 ∧ (copy_prog_name cmdline n i j pn).1 ≤ i + n ∧
      (copy_prog_name cmdline n i j pn).2.1 = j + ((copy_prog_name cmdline n i j pn).1 - i) ∧
      (∀ t, i ≤ t → t < (copy_prog_name cmdline n i j pn).1 →
        ¬ is_ws (cmdline t) ∧ cmdline t ≠ 0) ∧
      ((copy_prog_name cmdline n i j pn).1 < i + n →
        (is_ws (cmdline (copy_prog_name cmdline n i j pn).1) ∨
          cmdline (copy_prog_name cmdline n i j pn).1 = 0) ∧
        (copy_prog_name cmdline n i j pn).2.2 (copy_prog_name cmdline n i j pn).2.1 = 0) ∧
      (∀ t, t < (copy_prog_name cmdline n i j pn).1 - i →
        (copy_prog_name cmdline n i j pn).2.2 (j + t) = cmdline (i + t)) ∧
      (∀ a, a < j → (copy_prog_name cmdline n i j pn).2.2 a = pn a) := by
  intro n
  induction n with
  | zero =>
    intro i j pn
    have e : copy_prog_name cmdline 0 i j pn = (i, j, pn) := rfl
    rw [e]
    exact ⟨Nat.le_refl _, Nat.le_refl _, by simp, fun t h1 h2 => by simp only at h2; omega,
      fun h => by simp only at h; omega, fun t h => by simp only at h; omega, fun _ _ => rfl⟩
  | succ n ih =>
    intro i j pn
    rw [copy_prog_name]
    by_cases h : cmdline i = 0 ∨ cmdline i = 32 ∨ cmdline i = 9
    · rw [if_pos h]
      refine ⟨Nat.le_refl _, by omega, by simp, fun t h1 h2 => by omega, fun _ => ⟨?_, ?_⟩,
        fun t ht => ?_, fun a ha => ?_⟩
      · unfold is_ws
        rcases h with h | h | h
        · exact Or.inr h
        · exact Or.inl (Or.inl h)
        · exact Or.inl (Or.inr h)
      · simp only [Function.update_same]
      · simp only at ht; omega
      · simp only
        rw [Function.update_noteq (by omega)]
    · rw [if_neg h]
      obtain ⟨h1, h2, h3, h4, h5, h6, h7⟩ :=
        ih (i + 1) (j + 1) (Function.update pn j (cmdline i))
      have hnw : ¬ is_ws (cmdline i) ∧ cmdline i ≠ 0 := by
        unfold is_ws
        exact ⟨fun e => h (Or.inr e), fun e => h (Or.inl e)⟩
      refine ⟨by omega, by omega, by omega, fun t ht1 ht2 => ?_, fun hlt => h5 (by omega),
        fun t ht => ?_, fun a ha => ?_⟩
      · by_cases hti : t = i
        · rw [hti]; exact hnw
        · exact h4 t (by omega) ht2
      · by_cases ht0 : t = 0
        · subst ht0
          have e := h7 j (by omega)
          rw [Function.update_same] at e
          exact e
        · have := h6 (t - 1) (by omega)
          have e1 : j + 1 + (t - 1) = j + t := by omega
          have e2 : i + 1 + (t - 1) = i + t := by omega
          rw [e1, e2] at this
          exact this
      · rw [h7 a (by omega), Function.update_noteq (by omega)]

theorem copy_args_spec (cmdline : Nat → Nat) :
    ∀ n i j (ab : Nat → Nat),
      i ≤ (copy_args cmdline n i j ab).1 ∧ (copy_args cmdline n i j ab).1 ≤ i + n ∧
      (copy_args cmdline n i j ab).2.1 = j + ((copy_args cmdline n i j ab).1 - i) ∧
      (∀ t, i ≤ t → t < (copy_args cmdline n i j ab).1 → cmdline t ≠ 0) ∧
      ((copy_args cmdline n i j ab).1 < i + n → cmdline (copy_args cmdline n i j ab).1 = 0) ∧
      (∀ t, t < (copy_args cmdline n i j ab).1 - i →
        (copy_args cmdline n i j ab).2.2 (j + t) = cmdline (i + t)) ∧
      (∀ a, a < j → (copy_args cmdline n i j ab).2.2 a = ab a) := by
  intro n
  induction n with
  | zero =>
    intro i j ab
    have e : copy_args cmdline 0 i j ab = (i, j, ab) := rfl
    rw [e]
    exact ⟨Nat.le_refl _, Nat.le_refl _, by simp, fun t h1 h2 => by simp only at h2; omega,
      fun h => by simp only at h; omega, fun t h => by simp only at h; omega, fun _ _ => rfl⟩
  | succ n ih =>
    intro i j ab
    rw [copy_args]
    by_cases h : cmdline i = 0
    · rw [if_pos h]
      exact ⟨Nat.le_refl _, by omega, by simp, fun t h1 h2 => by omega, fun _ => h,
        fun t ht => by simp only at ht; omega, fun _ _ => rfl⟩
    · rw [if_neg h]
      obtain ⟨h1, h2, h3, h4, h5, h6, h7⟩ :=
        ih (i + 1) (j + 1) (Function.update ab j (cmdline i))
      refine ⟨by omega, by omega, by omega, fun t ht1 ht2 => ?_, fun hlt => h5 (by omega),
        fun t ht => ?_, fun a ha => ?_⟩
      · by_cases hti : t = i
        · rw [hti]; exact h
        · exact h4 t (by omega) ht2
      · by_cases ht0 : t = 0
        · subst ht0
          have e := h7 j (by omega)
          rw [Function.update_same] at e
          exact e
        · have := h6 (t - 1) (by omega)
          have e1 : j + 1 + (t - 1) = j + t := by omega
          have e2 : i + 1 + (t - 1) = i + t := by omega
          rw [e1, e2] at this
          exact this
      · rw [h7 a (by omega), Function.update_noteq (by omega)]

/-- The parse of a command line whose first NUL is at `z < 128`: leading
blanks up to `s0`, the program name in `[s0, e0)`, blanks up to `s1`, the
arguments in `[s1, z)`. -/
theorem parse_cmdline_terminated (loc : alloc_locals) (cmdline : Nat → Nat) (z : Nat)
    (hz : z < 128) (hz0 : cmdline z = 0) (hmin : ∀ t, t < z → cmdline t ≠ 0) :
    ∃ s0 e0 s1, s0 ≤ e0 ∧ e0 ≤ s1 ∧ s1 ≤ z ∧
      (∀ t, t < s0 → is_ws (cmdline t)) ∧ ¬ is_ws (cmdline s0) ∧
      (∀ t, s0 ≤ t → t < e0 → ¬ is_ws (cmdline t) ∧ cmdline t ≠ 0) ∧
      (is_ws (cmdline e0) ∨ cmdline e0 = 0) ∧
      (∀ t, e0 ≤ t → t < s1 → is_ws (cmdline t)) ∧ ¬ is_ws (cmdline s1) ∧
      (parse_cmdline loc cmdline).i = z ∧ (parse_cmdline loc cmdline).j = z - s1 ∧
      (∀ t, t < e0 - s0 → (parse_cmdline loc cmdline).prog_name t = cmdline (s0 + t)) ∧
      (parse_cmdline loc cmdline).prog_name (e0 - s0) = 0 ∧
      (∀ t, t < z - s1 → (parse_cmdline loc cmdline).arg_buffer t = cmdline (s1 + t)) := by
  have hnz : ¬ is_ws (cmdline z) := by
    unfold is_ws; rw [hz0]; omega
  unfold parse_cmdline ARG_LENGTH
  simp only
  obtain ⟨a1, a2, a3, a4⟩ := skip_spaces_spec cmdline 128 0
  generalize skip_spaces cmdline 128 0 = s0 at *
  have hs0 : s0 ≤ z := by
    by_contra hc
    exact hnz (a3 z (Nat.zero_le _) (by omega))
  obtain ⟨b1, b2, b3, b4, b5, b6, _⟩ := copy_prog_name_spec cmdline (128 - s0) s0 0 loc.prog_name
  generalize copy_prog_name cmdline (128 - s0) s0 0 loc.prog_name = r at *
  have he0 : r.1 ≤ z := by
    by_contra hc
    exact (b4 z hs0 (by omega)).2 hz0
  obtain ⟨c1, c2, c3, c4⟩ := skip_spaces_spec cmdline (128 - r.1) r.1
  generalize skip_spaces cmdline (128 - r.1) r.1 = s1 at *
  have hs1 : s1 ≤ z := by
    by_contra hc
    exact hnz (c3 z he0 (by omega))
  obtain ⟨d1, d2, d3, d4, d5, d6, _⟩ := copy_args_spec cmdline (128 - s1) s1 0 loc.arg_buffer
  generalize copy_args cmdline (128 - s1) s1 0 loc.arg_buffer = a at *
  have hz1 : a.1 ≤ z := by
    by_contra hc
    exact d4 z hs1 (by omega) hz0
  have hz2 : a.1 = z := by
    by_contra hc
    exact hmin a.1 (by omega) (d5 (by omega))
  have hb5 := b5 (by omega)
  refine ⟨s0, r.1, s1, b1, c1, hs1, fun t ht => a3 t (Nat.zero_le _) ht, a4 (by omega), b4,
    hb5.1, c3, c4 (by omega), hz2, by omega, fun t ht => ?_, ?_, fun t ht => ?_⟩
  · have := b6 t ht
    rw [Nat.zero_add] at this
    exact this
  · have := hb5.2
    rw [b3, Nat.zero_add] at this
    exact this
  · have := d6 t (by omega)
    rw [Nat.zero_add] at this
    exact this

/-- Without a NUL among the first 128 bytes the parse ends with `i = 128`. -/
theorem parse_cmdline_unterminated (loc : alloc_locals) (cmdline : Nat → Nat)
    (hno : ∀ t, t < 128 → cmdline t ≠ 0) : (parse_cmdline loc cmdline).i = 128 := by
  unfold parse_cmdline ARG_LENGTH
  simp only
  obtain ⟨_, a2, _, _⟩ := skip_spaces_spec cmdline 128 0
  generalize skip_spaces cmdline 128 0 = s0 at *
  obtain ⟨_, b2, _, _, _, _, _⟩ := copy_prog_name_spec cmdline (128 - s0) s0 0 loc.prog_name
  generalize copy_prog_name cmdline (128 - s0) s0 0 loc.prog_name = r at *
  obtain ⟨_, c2, _, _⟩ := skip_spaces_spec cmdline (128 - r.1) r.1
  generalize skip_spaces cmdline (128 - r.1) r.1 = s1 at *
  obtain ⟨_, d2, _, _, d5, _, _⟩ := copy_args_spec cmdline (128 - s1) s1 0 loc.arg_buffer
  generalize copy_args cmdline (128 - s1) s1 0 loc.arg_buffer = a at *
  by_contra hc
  exact hno a.1 (by omega) (d5 (by omega))

/-- The parse always ends with `i ≤ 128`, and with `j < 128` when `i < 128`. -/
theorem parse_cmdline_bounds (loc : alloc_locals) (cmdline : Nat → Nat) :
    (parse_cmdline loc cmdline).i ≤ 128 ∧
    ((parse_cmdline loc cmdline).i < 128 → (parse_cmdline loc cmdline).j < 128) := by
  unfold parse_cmdline ARG_LENGTH
  simp only
  obtain ⟨_, a2, _, _⟩ := skip_spaces_spec cmdline 128 0
  generalize skip_spaces cmdline 128 0 = s0 at *
  obtain ⟨_, b2, _, _, _, _, _⟩ := copy_prog_name_spec cmdline (128 - s0) s0 0 loc.prog_name
  generalize copy_prog_name cmdline (128 - s0) s0 0 loc.prog_name = r at *
  obtain ⟨_, c2, _, _⟩ := skip_spaces_spec cmdline (128 - r.1) r.1
  generalize skip_spaces cmdline (128 - r.1) r.1 = s1 at *
  obtain ⟨d1, d2, d3, _, _, _, _⟩ := copy_args_spec cmdline (128 - s1) s1 0 loc.arg_buffer
  generalize copy_args cmdline (128 - s1) s1 0 loc.arg_buffer = a at *
  constructor <;> omega

theorem strnlen_eq (s : Nat → Nat) :
    ∀ n i z, i ≤ z → z < i + n → s z = 0 → (∀ t, i ≤ t → t < z → s t ≠ 0) →
      strnlen s n i = z := by
  intro n
  induction n with
  | zero => intro i z h1 h2; omega
  | succ n ih =>
    intro i z h1 h2 h3 h4
    rw [strnlen]
    by_cases h : s i = 0
    · rw [if_pos h]
      by_contra hne
      exact h4 i (Nat.le_refl _) (by omega) h
    · rw [if_neg h]
      have hiz : i ≠ z := fun e => h (e ▸ h3)
      exact ih (i + 1) z (by omega) (by omega) h3 (fun t ht1 ht2 => h4 t (by omega) ht2)

/-- `alloc_process` on a free slot and a terminated command line. -/
theorem alloc_process_unfold (loc : alloc_locals) (img : fs_image) (k : kernel_t)
    (parent : Option Nat) (cmdline : Nat → Nat) (terminal : Int)
    (hfree : alloc_scan k.pcbs NUM_PROCESSES 0 ≠ NUM_PROCESSES)
    (hterm : (parse_cmdline loc cmdline).i ≠ 128) :
    alloc_process loc img k parent cmdline terminal =
      match read_dentry_by_name img (some (parse_cmdline loc cmdline).prog_name)
          (some loc.dentry) with
      | (r, some dentry) =>
        if r ≠ 0 then
          some (none, set_pcb k (alloc_scan k.pcbs NUM_PROCESSES 0)
            { (alloc_pcb loc k parent cmdline terminal) with present := 0 })
        else alloc_finish loc img k (alloc_scan k.pcbs NUM_PROCESSES 0)
          (alloc_pcb loc k parent cmdline terminal) dentry
      | (_, none) =>
        some (none, set_pcb k (alloc_scan k.pcbs NUM_PROCESSES 0)
          { (alloc_pcb loc k parent cmdline terminal) with present := 0 }) := by
  have hb := parse_cmdline_bounds loc cmdline
  have hj : ¬ (parse_cmdline loc cmdline).j ≥ ARG_LENGTH := by
    unfold ARG_LENGTH
    have := hb.2 (by omega)
    omega
  unfold alloc_process
  simp only
  rw [if_neg hfree, if_neg (by unfold ARG_LENGTH; exact hterm), if_neg hj]
  rfl

/-- What a successful `alloc_process` has established. -/
theorem alloc_process_some (loc : alloc_locals) (img : fs_image) (k : kernel_t)
    (parent : Option Nat) (cmdline : Nat → Nat) (terminal : Int) (pid : Nat) (k' : kernel_t)
    (h : alloc_process loc img k parent cmdline terminal = some (some pid, k')) :
    pid = alloc_scan k.pcbs NUM_PROCESSES 0 ∧ pid < 6 ∧ (k.pcbs pid).present = 0 ∧
    (parse_cmdline loc cmdline).i ≠ 128 ∧
    ∃ d, read_dentry_by_name img (some (parse_cmdline loc cmdline).prog_name) (some loc.dentry)
        = (0, some d) ∧
      d.type = 2 ∧
      (∃ r stack, read_data img loc.stack d.inode 0 (loc.magic_off + 1) 4 = some (r, stack) ∧
        ofInt32 r = 4 ∧ le32 stack (loc.magic_off + 1) = 0x464c457f) ∧
      (img.inodes d.inode).file_length ≤ 0x3B8000 ∧
      (k'.pcbs pid).args = (alloc_pcb loc k parent cmdline terminal).args ∧
      (k'.pcbs pid).inode = d.inode ∧ (k'.pcbs pid).present = 1 := by
  have hfree : alloc_scan k.pcbs NUM_PROCESSES 0 ≠ NUM_PROCESSES := by
    intro hfull
    unfold alloc_process at h
    simp only at h
    rw [if_pos hfull] at h
    cases h
  have hterm : (parse_cmdline loc cmdline).i ≠ 128 := by
    intro hi
    unfold alloc_process at h
    simp only at h
    rw [if_neg hfree, if_pos (by unfold ARG_LENGTH; exact hi)] at h
    cases h
  rw [alloc_process_unfold loc img k parent cmdline terminal hfree hterm] at h
  obtain ⟨_, hle, _, habs⟩ := alloc_scan_spec k.pcbs NUM_PROCESSES 0
  have hlt : alloc_scan k.pcbs NUM_PROCESSES 0 < 6 := by
    unfold NUM_PROCESSES at hfree hle ⊢; omega
  have habs' := habs (by unfold NUM_PROCESSES at hlt ⊢; omega)
  rcases read_dentry_by_name_cases img (parse_cmdline loc cmdline).prog_name loc.dentry
    with ⟨i, hi⟩ | hn
  · rw [hi] at h
    simp only at h
    rw [if_neg (by simp)] at h
    unfold alloc_finish at h
    split at h
    · cases h
    · rename_i htype
      split at h
      · cases h
      · rename_i r stack hrd
        split at h
        · cases h
        · rename_i h4
          split at h
          · cases h
          · rename_i hmagic
            split at h
            · cases h
            · rename_i hlen
              have hpid := (Prod.mk.inj (Option.some.inj h)).1
              have hk := (Prod.mk.inj (Option.some.inj h)).2
              have hpid' : alloc_scan k.pcbs NUM_PROCESSES 0 = pid := Option.some.inj hpid
              subst hpid'
              subst hk
              refine ⟨rfl, hlt, habs', hterm, img.dentries i, hi, ?_, ⟨r, stack, hrd, ?_, ?_⟩,
                ?_, ?_, ?_, ?_⟩
              · unfold FS_DENTRY_FILE at htype
                exact not_not.mp htype
              · exact (not_not.mp h4).symm
              · exact not_not.mp hmagic
              · have e : sub32 USER_VMEM_END USER_PROG_START = 0x3B8000 := by decide
                rw [e] at hlen
                omega
              · simp only [set_pcb, Function.update_same]
              · simp only [set_pcb, Function.update_same]
              · simp only [set_pcb, Function.update_same]
                rfl
  · rw [hn] at h
    simp only at h
    rw [if_pos (by decide)] at h
    cases h

/-! ### The lookup reads a name only up to its terminator -/

theorem fname_loop_congr (f g : Nat → Nat) (d : dentry_t) (z : Nat) (hz : f z = 0)
    (hfg : ∀ t, t ≤ z → f t = g t) :
    ∀ n j, j ≤ z → fname_loop f d n j = fname_loop g d n j := by
  intro n
  induction n with
  | zero => intro j _; rfl
  | succ n ih =>
    intro j hj
    rw [fname_loop, fname_loop, ← hfg j hj]
    by_cases h1 : f j ≠ d.filename j
    · rw [if_pos h1, if_pos h1]
    · rw [if_neg h1, if_neg h1]
      by_cases h2 : f j = 0
      · rw [if_pos h2, if_pos h2]
      · rw [if_neg h2, if_neg h2]
        have hjz : j ≠ z := fun e => h2 (e ▸ hz)
        exact ih (j + 1) (by omega)

theorem read_dentry_by_name_loop_congr (img : fs_image) (f g : Nat → Nat) (z : Nat)
    (hz : f z = 0) (hfg : ∀ t, t ≤ z → f t = g t) :
    ∀ n i, read_dentry_by_name_loop img f n i = read_dentry_by_name_loop img g n i := by
  intro n
  induction n with
  | zero => intro i; rfl
  | succ n ih =>
    intro i
    rw [read_dentry_by_name_loop, read_dentry_by_name_loop,
      ← fname_loop_congr f g (img.dentries i) z hz hfg FS_MAX_FNAME_LEN 0 (Nat.zero_le _)]
    cases hs : fname_loop f (img.dentries i) FS_MAX_FNAME_LEN 0 with
    | next_outer_loop => exact ih (i + 1)
    | matched => rfl
    | full =>
      have hall := (fname_loop_full f (img.dentries i) FS_MAX_FNAME_LEN 0).mp hs
      have hz32 : 32 ≤ z := by
        by_contra hc
        exact (hall z (Nat.zero_le _) (by unfold FS_MAX_FNAME_LEN; omega)).2 hz
      have e : f FS_MAX_FNAME_LEN = g FS_MAX_FNAME_LEN := hfg _ (by unfold FS_MAX_FNAME_LEN; omega)
      simp only [e, ih (i + 1)]

/-- Two names that agree up to and including a NUL of the first are looked
up alike. -/
theorem read_dentry_by_name_congr (img : fs_image) (f g : Nat → Nat) (dentry : dentry_t)
    (z : Nat) (hz : f z = 0) (hfg : ∀ t, t ≤ z → f t = g t) :
    read_dentry_by_name img (some f) (some dentry)
      = read_dentry_by_name img (some g) (some dentry) := by
  unfold read_dentry_by_name
  simp only [read_dentry_by_name_loop_congr img f g z hz hfg]

/-! ### C8 -/

/-- C8: `alloc_process` parses a command line whose first NUL is at `z < 128`
as: blanks `[0, s0)`, program name `[s0, e0)` (the maximal run up to the next
space, tab or NUL), blanks `[e0, s1)`, argument string `[s1, z)`.  The name
looked up in the filesystem is the program name; when allocation succeeds the
`args` field of the new PCB holds the argument string followed by NULs.  A
command line without a NUL among its first 128 bytes makes `alloc_process`
return `NULL`. -/
theorem alloc_process_parses (loc : alloc_locals) (img : fs_image) (k : kernel_t)
    (parent : Option Nat) (cmdline : Nat → Nat) (terminal : Int) :
    (∀ z, z < 128 → cmdline z = 0 → (∀ t, t < z → cmdline t ≠ 0) →
      ∃ s0 e0 s1, s0 ≤ e0 ∧ e0 ≤ s1 ∧ s1 ≤ z ∧
        (∀ t, t < s0 → is_ws (cmdline t)) ∧ ¬ is_ws (cmdline s0) ∧
        (∀ t, s0 ≤ t → t < e0 → ¬ is_ws (cmdline t) ∧ cmdline t ≠ 0) ∧
        (is_ws (cmdline e0) ∨ cmdline e0 = 0) ∧
        (∀ t, e0 ≤ t → t < s1 → is_ws (cmdline t)) ∧ ¬ is_ws (cmdline s1) ∧
        read_dentry_by_name img (some (parse_cmdline loc cmdline).prog_name) (some loc.dentry)
          = read_dentry_by_name img (some (name_bytes cmdline s0 e0)) (some loc.dentry) ∧
        ∀ pid k', alloc_process loc img k parent cmdline terminal = some (some pid, k') →
          (∃ d, read_dentry_by_name img (some (name_bytes cmdline s0 e0)) (some loc.dentry)
              = (0, some d) ∧ (k'.pcbs pid).inode = d.inode) ∧
          (∀ t, t < z - s1 → (k'.pcbs pid).args t = cmdline (s1 + t)) ∧
          (∀ t, z - s1 ≤ t → t < 128 → (k'.pcbs pid).args t = 0)) ∧
    ((∀ t, t < 128 → cmdline t ≠ 0) →
      ∃ k', alloc_process loc img k parent cmdline terminal = some (none, k')) := by
  refine ⟨?_, ?_⟩
  · intro z hz hz0 hmin
    obtain ⟨s0, e0, s1, h1, h2, h3, h4, h5, h6, h7, h8, h9, hi, hj, hpn, hpn0, hab⟩ :=
      parse_cmdline_terminated loc cmdline z hz hz0 hmin
    have hcongr : read_dentry_by_name img (some (parse_cmdline loc cmdline).prog_name)
        (some loc.dentry)
        = read_dentry_by_name img (some (name_bytes cmdline s0 e0)) (some loc.dentry) := by
      apply read_dentry_by_name_congr img _ _ loc.dentry (e0 - s0) hpn0
      intro t ht
      unfold name_bytes
      by_cases hlt : t < e0 - s0
      · rw [if_pos hlt]; exact hpn t hlt
      · rw [if_neg hlt]
        have : t = e0 - s0 := by omega
        rw [this]; exact hpn0
    refine ⟨s0, e0, s1, h1, h2, h3, h4, h5, h6, h7, h8, h9, hcongr, ?_⟩
    intro pid k' hsome
    obtain ⟨_, _, _, _, d, hd, _, _, _, hargs, hino, _⟩ :=
      alloc_process_some loc img k parent cmdline terminal pid k' hsome
    rw [hcongr] at hd
    have hlen : strnlen (Function.update (parse_cmdline loc cmdline).arg_buffer
        (parse_cmdline loc cmdline).j 0) 128 0 = z - s1 := by
      apply strnlen_eq _ 128 0 (z - s1) (Nat.zero_le _) (by omega)
      · rw [hj, Function.update_same]
      · intro t _ ht
        rw [hj, Function.update_noteq (by omega), hab t ht]
        exact hmin (s1 + t) (by omega)
    refine ⟨⟨d, hd, hino⟩, fun t ht => ?_, fun t ht1 ht2 => ?_⟩
    · rw [hargs]
      unfold alloc_pcb ARG_LENGTH
      simp only [strncpy]
      rw [if_pos (by omega), hlen, if_pos ht, hj, Function.update_noteq (by omega), hab t ht]
    · rw [hargs]
      unfold alloc_pcb ARG_LENGTH
      simp only [strncpy]
      rw [if_pos ht2, hlen, if_neg (by omega)]
  · intro hno
    have hi := parse_cmdline_unterminated loc cmdline hno
    unfold alloc_process
    simp only
    by_cases hfull : alloc_scan k.pcbs NUM_PROCESSES 0 = NUM_PROCESSES
    · rw [if_pos hfull]
      exact ⟨k, rfl⟩
    · rw [if_neg hfull, if_pos (by unfold ARG_LENGTH; exact hi)]
      exact ⟨_, rfl⟩

theorem alloc_process_parses_witness :
    (∃ s0 e0 s1, s0 ≤ e0 ∧ e0 ≤ s1 ∧ s1 ≤ 9 ∧
      (∀ t, t < s0 → is_ws (bytes_of [99, 97, 116, 32, 104, 101, 108, 108, 111] t)) ∧
      ¬ is_ws (bytes_of [99, 97, 116, 32, 104, 101, 108, 108, 111] s0) ∧
      (∀ t, s0 ≤ t → t < e0 →
        ¬ is_ws (bytes_of [99, 97, 116, 32, 104, 101, 108, 108, 111] t) ∧
        bytes_of [99, 97, 116, 32, 104, 101, 108, 108, 111] t ≠ 0) ∧
      (is_ws (bytes_of [99, 97, 116, 32, 104, 101, 108, 108, 111] e0) ∨
        bytes_of [99, 97, 116, 32, 104, 101, 108, 108, 111] e0 = 0) ∧
      (∀ t, e0 ≤ t → t < s1 → is_ws (bytes_of [99, 97, 116, 32, 104, 101, 108, 108, 111] t)) ∧
      ¬ is_ws (bytes_of [99, 97, 116, 32, 104, 101, 108, 108, 111] s1) ∧
      read_dentry_by_name sample_image
          (some (parse_cmdline stale_locals
            (bytes_of [99, 97, 116, 32, 104, 101, 108, 108, 111])).prog_name)
          (some stale_locals.dentry)
        = read_dentry_by_name sample_image
          (some (name_bytes (bytes_of [99, 97, 116, 32, 104, 101, 108, 108, 111]) s0 e0))
          (some stale_locals.dentry) ∧
      ∀ pid k', alloc_process stale_locals sample_image boot_kernel none
          (bytes_of [99, 97, 116, 32, 104, 101, 108, 108, 111]) 0 = some (some pid, k') →
        (∃ d, read_dentry_by_name sample_image
            (some (name_bytes (bytes_of [99, 97, 116, 32, 104, 101, 108, 108, 111]) s0 e0))
            (some stale_locals.dentry) = (0, some d) ∧ (k'.pcbs pid).inode = d.inode) ∧
        (∀ t, t < 9 - s1 →
          (k'.pcbs pid).args t = bytes_of [99, 97, 116, 32, 104, 101, 108, 108, 111] (s1 + t)) ∧
        (∀ t, 9 - s1 ≤ t → t < 128 → (k'.pcbs pid).args t = 0)) ∧
    (alloc_process stale_locals sample_image boot_kernel none
        (bytes_of [99, 97, 116, 32, 104, 101, 108, 108, 111]) 0).map
      (fun r => (r.1, (List.range 7).map (fun t => (r.2.pcbs 0).args t), (r.2.pcbs 0).inode))
      = some (some 0, [104, 101, 108, 108, 111, 0, 0], 1) ∧
    (alloc_process stale_locals sample_image boot_kernel none
        (bytes_of [115, 104, 101, 108, 108]) 0).map
      (fun r => (r.1, (List.range 3).map (fun t => (r.2.pcbs 0).args t)))
      = some (some 0, [0, 0, 0]) :=
  ⟨(alloc_process_parses stale_locals sample_image boot_kernel none
      (bytes_of [99, 97, 116, 32, 104, 101, 108, 108, 111]) 0).1 9 (by decide) (by decide)
      (by decide), by decide, by decide⟩

/-! ### C9 -/

/-- On bytes, the magic number test of `alloc_process` is the test for the
four bytes 0x7F, `E`, `L`, `F`. -/
theorem le32_elf_magic (m : Mem) (a : Nat) (h0 : m a < 256) (h1 : m (a + 1) < 256)
    (h2 : m (a + 2) < 256) :
    le32 m a = 0x464c457f ↔ (m a = 127 ∧ m (a + 1) = 69 ∧ m (a + 2) = 76 ∧ m (a + 3) = 70) := by
  unfold le32
  omega

theorem sub32_user_prog : sub32 USER_VMEM_END USER_PROG_START = 0x3B8000 := by decide

/-- `alloc_finish` always returns on an image whose file lengths are 32-bit. -/
theorem alloc_finish_total (loc : alloc_locals) (img : fs_image) (k : kernel_t) (pid : Nat)
    (pcb : pcb_t) (dentry : dentry_t) (himg : ∀ i, (img.inodes i).file_length < 4294967296) :
    ∃ res, alloc_finish loc img k pid pcb dentry = some res := by
  unfold alloc_finish
  split
  · exact ⟨_, rfl⟩
  · obtain ⟨r, stack, he, _, _⟩ := read_data_safe img loc.stack dentry.inode 0
      (loc.magic_off + 1) 4 (by decide) himg
    rw [he]
    simp only
    split
    · exact ⟨_, rfl⟩
    · split
      · exact ⟨_, rfl⟩
      · split
        · exact ⟨_, rfl⟩
        · exact ⟨_, rfl⟩

/-- `alloc_process` always returns on an image whose file lengths are 32-bit. -/
theorem alloc_process_total (loc : alloc_locals) (img : fs_image) (k : kernel_t)
    (parent : Option Nat) (cmdline : Nat → Nat) (terminal : Int)
    (himg : ∀ i, (img.inodes i).file_length < 4294967296) :
    ∃ res, alloc_process loc img k parent cmdline terminal = some res := by
  by_cases hfull : alloc_scan k.pcbs NUM_PROCESSES 0 = NUM_PROCESSES
  · unfold alloc_process
    simp only
    rw [if_pos hfull]
    exact ⟨_, rfl⟩
  · by_cases hterm : (parse_cmdline loc cmdline).i = 128
    · unfold alloc_process
      simp only
      rw [if_neg hfull, if_pos (by unfold ARG_LENGTH; exact hterm)]
      exact ⟨_, rfl⟩
    · rw [alloc_process_unfold loc img k parent cmdline terminal hfull hterm]
      rcases read_dentry_by_name_cases img (parse_cmdline loc cmdline).prog_name loc.dentry
        with ⟨i, hi⟩ | hn
      · rw [hi]
        simp only
        rw [if_neg (by simp)]
        exact alloc_finish_total loc img k _ _ _ himg
      · rw [hn]
        simp only
        rw [if_pos (by decide)]
        exact ⟨_, rfl⟩

/-- C9: whenever `alloc_process` returns `NULL`, each PCB's present flag is
as before the call and no PCB that was present is changed.  It always
returns; it returns a PCB only if a PCB was free, the command line is
terminated within 128 bytes, the program name is found and names a regular
file whose first 4 bytes can be read and are the ELF magic, and whose length
is at most 0x3B8000.  Hence a `syscall_execute` that returns without having
switched to a child returns -1 and leaves a present caller's PCB, and so its
FD table and running flag, unchanged. -/
theorem alloc_process_failure (loc : alloc_locals) (img : fs_image) (k : kernel_t)
    (parent : Option Nat) (cmdline : Nat → Nat) (terminal : Int)
    (himg : ∀ i, (img.inodes i).file_length < 4294967296) :
    (∀ k', alloc_process loc img k parent cmdline terminal = some (none, k') →
      (∀ pid, pid < 6 → (k'.pcbs pid).present = (k.pcbs pid).present) ∧
      (∀ pid, pid < 6 → (k.pcbs pid).present ≠ 0 → k'.pcbs pid = k.pcbs pid)) ∧
    (∃ res, alloc_process loc img k parent cmdline terminal = some res) ∧
    (∀ pid k', alloc_process loc img k parent cmdline terminal = some (some pid, k') →
      (∃ q, q < 6 ∧ (k.pcbs q).present = 0) ∧
      (∃ z, z < 128 ∧ cmdline z = 0) ∧
      ∃ d, read_dentry_by_name img (some (parse_cmdline loc cmdline).prog_name) (some loc.dentry)
          = (0, some d) ∧
        d.type = 2 ∧
        (∃ r stack, read_data img loc.stack d.inode 0 (loc.magic_off + 1) 4 = some (r, stack) ∧
          ofInt32 r = 4 ∧ le32 stack (loc.magic_off + 1) = 0x464c457f) ∧
        (img.inodes d.inode).file_length ≤ 0x3B8000) ∧
    (∀ mem cur arg1 arg2 arg3 r k',
      syscall_execute loc img k mem cur arg1 arg2 arg3 = some (execute_outcome.returned r k') →
      r = -1 ∧
      ((k.pcbs cur).present ≠ 0 →
        (k'.pcbs cur).fds = (k.pcbs cur).fds ∧ (k'.pcbs cur).running = (k.pcbs cur).running)) := by
  refine ⟨?_, alloc_process_total loc img k parent cmdline terminal himg, ?_, ?_⟩
  · intro k' h
    obtain ⟨h1, h2⟩ := same_but_absent_frame k k'
      (alloc_process_null loc img k parent cmdline terminal k' h)
    exact ⟨fun pid _ => h1 pid, fun pid _ hp => h2 pid hp⟩
  · intro pid k' h
    obtain ⟨_, hlt, habs, hterm, d, hd, htype, hmagic, hlen, _⟩ :=
      alloc_process_some loc img k parent cmdline terminal pid k' h
    refine ⟨⟨pid, hlt, habs⟩, ?_, d, hd, htype, hmagic, hlen⟩
    by_contra hno
    apply hterm
    apply parse_cmdline_unterminated
    intro t ht h0
    exact hno ⟨t, ht, h0⟩
  · intro mem cur arg1 arg2 arg3 r k' h
    unfold syscall_execute at h
    simp only at h
    split at h
    · cases h
      exact ⟨rfl, fun _ => ⟨rfl, rfl⟩⟩
    · split at h
      · cases h
        exact ⟨rfl, fun _ => ⟨rfl, rfl⟩⟩
      · split at h
        · cases h
        · rename_i k1 ha
          cases h
          obtain ⟨_, h2⟩ := same_but_absent_frame k k' (alloc_process_null _ _ _ _ _ _ _ ha)
          exact ⟨rfl, fun hp => by rw [h2 cur hp]; exact ⟨rfl, rfl⟩⟩
        · cases h

theorem alloc_process_failure_witness :
    (∀ k', alloc_process stale_locals sample_image sample_kernel (some 0)
        (bytes_of [98, 111, 103, 117, 115]) 0 = some (none, k') →
      (∀ pid, pid < 6 → (k'.pcbs pid).present = (sample_kernel.pcbs pid).present) ∧
      (∀ pid, pid < 6 → (sample_kernel.pcbs pid).present ≠ 0 →
        k'.pcbs pid = sample_kernel.pcbs pid)) ∧
    returned_summary (syscall_execute stale_locals sample_image sample_kernel
        (user_string [98, 111, 103, 117, 115]) 0 134217728 0 0) 0 = some (-1, 1, 3) :=
  ⟨(alloc_process_failure stale_locals sample_image sample_kernel (some 0)
      (bytes_of [98, 111, 103, 117, 115]) 0 sample_image_lengths).1, by decide⟩

/-! ### C10 -/

/-- C10: `syscall_getargs(buf, n)` on a PCB whose argument string has length
`z` returns 0 iff `buf` is non-null, `n >= 0`, `[buf, buf+n)` lies inside the
user window, the current PCB is present, `z > 0` and `z + 1 <= n`; then `buf`
holds the argument string followed by a NUL and nothing outside `[buf, buf+n)`
is written.  In every other case it returns -1 and writes nothing; so it does
with a null buffer, with `n = 0` and with `buf = 1`. -/
theorem syscall_getargs_spec (k : kernel_t) (mem : Mem) (cur : Nat) (arg1 arg2 arg3 : Int)
    (z : Nat) (hn : arg2 < 2147483648)
    (hstr : (k.pcbs cur).present ≠ 0 →
      z < 128 ∧ (k.pcbs cur).args z = 0 ∧ ∀ t, t < z → (k.pcbs cur).args t ≠ 0) :
    ((syscall_getargs k mem cur arg1 arg2 arg3).map Prod.fst = some 0 ↔
      getargs_ok k cur arg1 arg2 z) ∧
    (getargs_ok k cur arg1 arg2 z →
      ∃ mem', syscall_getargs k mem cur arg1 arg2 arg3 = some (0, mem') ∧
        (∀ t, t < z → mem' (ofInt32 arg1 + t) = (k.pcbs cur).args t) ∧
        mem' (ofInt32 arg1 + z) = 0 ∧
        (∀ a, ¬ (ofInt32 arg1 ≤ a ∧ a < ofInt32 arg1 + arg2.toNat) → mem' a = mem a)) ∧
    (¬ getargs_ok k cur arg1 arg2 z → syscall_getargs k mem cur arg1 arg2 arg3 = some (-1, mem)) ∧
    ((ofInt32 arg1 = 0 ∨ arg2 = 0 ∨ ofInt32 arg1 = 1) →
      syscall_getargs k mem cur arg1 arg2 arg3 = some (-1, mem)) := by
  have hbad : ¬ getargs_ok k cur arg1 arg2 z →
      syscall_getargs k mem cur arg1 arg2 arg3 = some (-1, mem) := by
    intro hnot
    unfold syscall_getargs
    simp only
    by_cases h1 : ofInt32 arg1 = 0 ∨ arg2 < 0
    · rw [if_pos h1]
    · rw [if_neg h1]
      have h0 : 0 ≤ arg2 := by omega
      have hof : ofInt32 arg2 = arg2.toNat := ofInt32_of_nonneg h0 (by omega)
      rw [hof]
      rcases check_user_bounds_cases (ofInt32 arg1) arg2.toNat (ofInt32_lt arg1) (by omega)
        with ⟨hw, hc⟩ | ⟨hw, hc⟩
      · rw [hc, if_neg (by decide)]
        by_cases hp : (k.pcbs cur).present = 0
        · rw [if_pos hp]
        · rw [if_neg hp]
          obtain ⟨hz, hz0, hmin⟩ := hstr hp
          have hlen : strnlen (k.pcbs cur).args 128 0 = z :=
            strnlen_eq _ 128 0 z (Nat.zero_le _) (by omega) hz0 (fun t _ ht => hmin t ht)
          have hsl : strlen (k.pcbs cur).args ARG_LENGTH = some z := by
            unfold strlen ARG_LENGTH
            rw [hlen, if_pos hz]
          rw [hsl]
          simp only
          rw [add32_of_lt (by omega), if_pos]
          by_contra hc2
          apply hnot
          refine ⟨fun e => h1 (Or.inl e), h0, hw, hp, fun e => hc2 (Or.inr e), ?_⟩
          by_contra hc3
          apply hc2
          left
          omega
      · rw [hc, if_pos rfl]
  have hgood : getargs_ok k cur arg1 arg2 z →
      ∃ mem', syscall_getargs k mem cur arg1 arg2 arg3 = some (0, mem') ∧
        (∀ t, t < z → mem' (ofInt32 arg1 + t) = (k.pcbs cur).args t) ∧
        mem' (ofInt32 arg1 + z) = 0 ∧
        (∀ a, ¬ (ofInt32 arg1 ≤ a ∧ a < ofInt32 arg1 + arg2.toNat) → mem' a = mem a) := by
    rintro ⟨hb, h0, hw, hp, hzne, hzn⟩
    obtain ⟨hz, hz0, hmin⟩ := hstr hp
    have hof : ofInt32 arg2 = arg2.toNat := ofInt32_of_nonneg h0 (by omega)
    have hlen : strnlen (k.pcbs cur).args 128 0 = z :=
      strnlen_eq _ 128 0 z (Nat.zero_le _) (by omega) hz0 (fun t _ ht => hmin t ht)
    have hlen2 : strnlen (k.pcbs cur).args arg2.toNat 0 = z :=
      strnlen_eq _ arg2.toNat 0 z (Nat.zero_le _) (by omega) hz0 (fun t _ ht => hmin t ht)
    have hsl : strlen (k.pcbs cur).args ARG_LENGTH = some z := by
      unfold strlen ARG_LENGTH
      rw [hlen, if_pos hz]
    refine ⟨memcpy mem (ofInt32 arg1) (strncpy (fun _ => 0) (k.pcbs cur).args arg2.toNat)
      arg2.toNat, ?_, fun t ht => ?_, ?_, fun a ha => memcpy_outside _ _ _ _ _ ha⟩
    · unfold syscall_getargs
      simp only
      rw [if_neg (by omega), hof]
      rcases check_user_bounds_cases (ofInt32 arg1) arg2.toNat (ofInt32_lt arg1) (by omega)
        with ⟨_, hc⟩ | ⟨hw2, _⟩
      · rw [hc, if_neg (by decide), if_neg hp, hsl]
        simp only
        rw [add32_of_lt (by omega), if_neg (by omega)]
      · exact absurd hw hw2
    · rw [memcpy_inside _ _ _ _ _ (by omega)]
      unfold strncpy
      rw [if_pos (by omega), hlen2, if_pos ht]
    · rw [memcpy_inside _ _ _ _ _ (by omega)]
      unfold strncpy
      rw [if_pos (by omega), hlen2, if_neg (Nat.lt_irrefl _)]
  refine ⟨⟨fun h => ?_, fun h => ?_⟩, hgood, hbad, fun h => hbad ?_⟩
  · by_contra hnot
    rw [hbad hnot] at h
    have h' : (-1 : Int) = 0 := Option.some.inj h
    exact absurd h' (by decide)
  · obtain ⟨mem', he, _⟩ := hgood h
    rw [he]
    rfl
  · rintro ⟨hb, h0, hw, _, hzne, hzn⟩
    rcases h with h | h | h
    · exact hb h
    · rw [h] at hzn
      omega
    · rw [h] at hw
      omega

theorem syscall_getargs_spec_witness :
    ∃ mem', syscall_getargs sample_kernel (fun _ => 170) 0 134217728 6 0 = some (0, mem') ∧
      (∀ t, t < 5 → mem' (ofInt32 134217728 + t) = (sample_kernel.pcbs 0).args t) ∧
      mem' (ofInt32 134217728 + 5) = 0 ∧
      (∀ a, ¬ (ofInt32 134217728 ≤ a ∧ a < ofInt32 134217728 + (6 : Int).toNat) →
        mem' a = (fun _ => 170) a) :=
  (syscall_getargs_spec sample_kernel (fun _ => 170) 0 134217728 6 0 5 (by decide)
    (fun _ => ⟨by decide, by decide, by decide⟩)).2.1
    ⟨by decide, by decide, by decide, by decide, by decide, by decide⟩

theorem syscall_open_spec_witness :
    (syscall_open absent_dentry sample_image sample_kernel (user_string [99, 97, 116]) 0
      134217728 0 0).1 = 3 ∧
    (((syscall_open absent_dentry sample_image sample_kernel (user_string [99, 97, 116]) 0
      134217728 0 0).2.pcbs 0).fds 3).file_ops = some fd_driver_t.file_fd_driver :=
  have h := (syscall_open_spec absent_dentry sample_image sample_kernel
    (user_string [99, 97, 116]) 0 134217728 0 0 (by decide)
    ⟨3, by decide, by decide, by decide, by decide⟩).1 3 (sample_image.dentries 2)
    fd_driver_t.file_fd_driver (by decide) (by decide) (by decide) rfl rfl
  ⟨h.1, h.2.2.2.1⟩

/-! ### Kernel stacks and PCB pointers -/

/-- Masking a 32-bit value with `~(KERNEL_STACK_SIZE-1)` rounds it down to a
multiple of the stack size. -/
theorem and_stack_mask (x : Nat) (hx : x < 4294967296) :
    x &&& 4294959104 = x / 8192 * 8192 := by
  apply Nat.eq_of_testBit_eq
  intro i
  have e1 : (4294959104 : Nat) = (2 ^ 19 - 1) <<< 13 := by decide
  have e2 : x / 8192 * 8192 = (x >>> 13) <<< 13 := by
    rw [Nat.shiftLeft_eq, Nat.shiftRight_eq_div_pow]
  rw [e2, Nat.testBit_and, e1, Nat.testBit_shiftLeft, Nat.testBit_shiftLeft,
    Nat.testBit_shiftRight, Nat.testBit_two_pow_sub_one]
  by_cases h13 : 13 ≤ i
  · have e3 : 13 + (i - 13) = i := by omega
    rw [e3]
    by_cases h32 : i < 32
    · have : i - 13 < 19 := by omega
      simp [h13, this]
    · have hf : x.testBit i = false := by
        apply Nat.testBit_lt_two_pow
        calc x < 2 ^ 32 := hx
          _ ≤ 2 ^ i := Nat.pow_le_pow_right (by decide) (by omega)
      simp [hf]
  · simp [h13]

/-- Every stack pointer inside a stack (its empty top included) is mapped to
the base of that stack. -/
theorem get_current_pcb_eq (B esp : Nat) (hB : B % 8192 = 0) (h1 : B < esp)
    (h2 : esp ≤ B + 8192) (h3 : esp < 4294967296) : get_current_pcb esp = B := by
  have hs : sub32 esp 1 = esp - 1 := by
    unfold sub32 WORD; omega
  have hm : u32 (WORD - 1 - (KERNEL_STACK_SIZE - 1)) = 4294959104 := by decide
  unfold get_current_pcb
  rw [hs, hm, and_stack_mask _ (by omega)]
  omega

theorem pid_to_pcb_eq (pid : Nat) (h : pid < 6) :
    pid_to_pcb pid = 0x800000 - (pid + 1) * 0x2000 := by
  unfold pid_to_pcb sub32 u32 add32 kernel_stacks_start KERNEL_STACK_SIZE WORD
  omega

theorem pcb_to_pid_pid_to_pcb (pid : Nat) (h : pid < 6) : pcb_to_pid (pid_to_pcb pid) = pid := by
  interval_cases pid <;> decide

/-- The stack pointer a successful `alloc_process` stores in the new PCB's
context is the empty top of that PCB's stack. -/
theorem alloc_process_context (loc : alloc_locals) (img : fs_image) (k : kernel_t)
    (parent : Option Nat) (cmdline : Nat → Nat) (terminal : Int) (pid : Nat) (k' : kernel_t)
    (h : alloc_process loc img k parent cmdline terminal = some (some pid, k')) :
    (k'.pcbs pid).context.esp = 0x800000 - (pid + 1) * 0x2000 + 0x2000 ∧
    (k'.pcbs pid).context.eip = code_ptr.proc_entry0 := by
  have hfree : alloc_scan k.pcbs NUM_PROCESSES 0 ≠ NUM_PROCESSES := by
    intro hfull
    unfold alloc_process at h
    simp only at h
    rw [if_pos hfull] at h
    cases h
  have hterm : (parse_cmdline loc cmdline).i ≠ 128 := by
    intro hi
    unfold alloc_process at h
    simp only at h
    rw [if_neg hfree, if_pos (by unfold ARG_LENGTH; exact hi)] at h
    cases h
  rw [alloc_process_unfold loc img k parent cmdline terminal hfree hterm] at h
  rcases read_dentry_by_name_cases img (parse_cmdline loc cmdline).prog_name loc.dentry
    with ⟨i, hi⟩ | hn
  · rw [hi] at h
    simp only at h
    rw [if_neg (by simp)] at h
    unfold alloc_finish at h
    split at h
    · cases h
    · split at h
      · cases h
      · split at h
        · cases h
        · split at h
          · cases h
          · split at h
            · cases h
            · have hpid := (Prod.mk.inj (Option.some.inj h)).1
              have hk := (Prod.mk.inj (Option.some.inj h)).2
              have hpid' : alloc_scan k.pcbs NUM_PROCESSES 0 = pid := Option.some.inj hpid
              subst hpid'
              subst hk
              constructor
              · simp only [set_pcb, Function.update_same]
                rfl
              · simp only [set_pcb, Function.update_same]
  · rw [hn] at h
    simp only at h
    rw [if_pos (by decide)] at h
    cases h

/-- C13: with 8 KiB kernel stacks growing down from 0x800000, for every
pid < 6 the PCB pointer `pid_to_pcb pid` is the stack base
`B = 0x800000 - (pid+1)*0x2000`; `get_current_pcb` computed from any stack
pointer `esp` with `B < esp <= B + 0x2000` is `B`, in particular from the
value stored in `tss.esp0` and from the initial context `esp` that
`alloc_process` gives the PCB; and `pcb_to_pid (pid_to_pcb pid) = pid`. -/
theorem kernel_stack_pcb_aliasing (pid : Nat) (hpid : pid < 6) :
    pid_to_pcb pid = 0x800000 - (pid + 1) * 0x2000 ∧
    (∀ esp, pid_to_pcb pid < esp → esp ≤ pid_to_pcb pid + 0x2000 →
      get_current_pcb esp = pid_to_pcb pid) ∧
    tss_esp0 (pid_to_pcb pid) = pid_to_pcb pid + 0x2000 ∧
    get_current_pcb (tss_esp0 (pid_to_pcb pid)) = pid_to_pcb pid ∧
    (∀ loc img k parent cmdline terminal k',
      alloc_process loc img k parent cmdline terminal = some (some pid, k') →
      (k'.pcbs pid).context.esp = pid_to_pcb pid + 0x2000 ∧
      get_current_pcb (k'.pcbs pid).context.esp = pid_to_pcb pid) ∧
    pcb_to_pid (pid_to_pcb pid) = pid := by
  have hB := pid_to_pcb_eq pid hpid
  have hmod : pid_to_pcb pid % 8192 = 0 := by rw [hB]; omega
  have htop : tss_esp0 (pid_to_pcb pid) = pid_to_pcb pid + 0x2000 := by
    unfold tss_esp0 add32 KERNEL_STACK_SIZE WORD
    rw [hB]; omega
  have hrange : ∀ esp, pid_to_pcb pid < esp → esp ≤ pid_to_pcb pid + 0x2000 →
      get_current_pcb esp = pid_to_pcb pid := by
    intro esp h1 h2
    exact get_current_pcb_eq _ esp hmod h1 h2 (by rw [hB] at h2; omega)
  refine ⟨hB, hrange, htop, ?_, ?_, pcb_to_pid_pid_to_pcb pid hpid⟩
  · rw [htop]
    exact hrange _ (by omega) (by omega)
  · intro loc img k parent cmdline terminal k' h
    have hc := (alloc_process_context loc img k parent cmdline terminal pid k' h).1
    have he : (k'.pcbs pid).context.esp = pid_to_pcb pid + 0x2000 := by rw [hc, hB]
    refine ⟨he, ?_⟩
    rw [he]
    exact hrange _ (by omega) (by omega)

/-- C13 at pid 2: the stack base is 0x7FA000, a pointer in the middle of the
stack and the empty top both map to it, and the pid is recovered. -/
theorem kernel_stack_pcb_aliasing_witness :
    pid_to_pcb 2 = 0x7FA000 ∧ get_current_pcb 0x7FB234 = pid_to_pcb 2 ∧
    get_current_pcb 0x7FC000 = pid_to_pcb 2 ∧ pcb_to_pid (pid_to_pcb 2) = 2 :=
  ⟨(kernel_stack_pcb_aliasing 2 (by decide)).1,
   (kernel_stack_pcb_aliasing 2 (by decide)).2.1 0x7FB234 (by decide) (by decide),
   (kernel_stack_pcb_aliasing 2 (by decide)).2.1 0x7FC000 (by decide) (by decide),
   (kernel_stack_pcb_aliasing 2 (by decide)).2.2.2.2.2⟩

/-! ### `rtc_write` -/

set_option maxRecDepth 100000 in
/-- The bit test of `rtc_write` on the rates up to 1024. -/
theorem rate_test_small : ∀ r, r < 1025 →
    (((sub32 r 1 &&& r) = 0 ∧ 2 ≤ r) ↔ r ∈ [2, 4, 8, 16, 32, 64, 128, 256, 512, 1024]) := by
  decide

/-- The test `((rate-1) & rate) != 0 || rate > 1024 || rate < 2` fails exactly
on the powers of two between 2 and 1024. -/
theorem rate_test_iff (r : Nat) :
    ¬ ((sub32 r 1 &&& r) ≠ 0 ∨ r > 1024 ∨ r < 2) ↔ ((∃ e, r = 2 ^ e) ∧ 2 ≤ r ∧ r ≤ 1024) := by
  constructor
  · intro h
    have h1 : (sub32 r 1 &&& r) = 0 := by
      by_contra hc; exact h (Or.inl hc)
    have h2 : r ≤ 1024 := by
      by_contra hc; exact h (Or.inr (Or.inl (by omega)))
    have h3 : 2 ≤ r := by
      by_contra hc; exact h (Or.inr (Or.inr (by omega)))
    refine ⟨?_, h3, h2⟩
    have hm := (rate_test_small r (by omega)).mp ⟨h1, h3⟩
    simp only [List.mem_cons, List.mem_singleton, List.mem_nil_iff, or_false] at hm
    rcases hm with e | e | e | e | e | e | e | e | e | e
    · exact ⟨1, by rw [e]; rfl⟩
    · exact ⟨2, by rw [e]; rfl⟩
    · exact ⟨3, by rw [e]; rfl⟩
    · exact ⟨4, by rw [e]; rfl⟩
    · exact ⟨5, by rw [e]; rfl⟩
    · exact ⟨6, by rw [e]; rfl⟩
    · exact ⟨7, by rw [e]; rfl⟩
    · exact ⟨8, by rw [e]; rfl⟩
    · exact ⟨9, by rw [e]; rfl⟩
    · exact ⟨10, by rw [e]; rfl⟩
  · rintro ⟨⟨e, he⟩, h3, h2⟩
    have he10 : e < 11 := by
      by_contra hc
      have : 2 ^ 11 ≤ 2 ^ e := Nat.pow_le_pow_right (by decide) (by omega)
      omega
    have hm : r ∈ [2, 4, 8, 16, 32, 64, 128, 256, 512, 1024] := by
      subst he
      interval_cases e <;> simp at h3 ⊢
    have h := (rate_test_small r (by omega)).mpr hm
    intro hc
    rcases hc with hc | hc | hc
    · exact hc h.1
    · omega
    · omega

/-- The two outcomes of `rtc_write`. -/
theorem rtc_write_cases (k : kernel_t) (mem : Mem) (fd_info : Option fd_ptr) (buf : Nat)
    (nbytes : Int) :
    (rtc_write_accepts mem fd_info buf nbytes ∧ ∃ p, fd_info = some p ∧
      rtc_write k mem fd_info buf nbytes =
        (4, set_fd k p { (get_fd k p) with driver_data :=
          { (get_fd k p).driver_data with mask := 1024 / u32 (le32 mem buf) - 1 } })) ∨
    (¬ rtc_write_accepts mem fd_info buf nbytes ∧
      rtc_write k mem fd_info buf nbytes = (-1, k)) := by
  cases fd_info with
  | none =>
    right
    exact ⟨fun h => h.1 rfl, rfl⟩
  | some p =>
    unfold rtc_write
    simp only
    by_cases h1 : nbytes ≠ 4 ∨ buf = 0
    · right
      rw [if_pos h1]
      refine ⟨fun h => ?_, rfl⟩
      rcases h1 with h1 | h1
      · exact h1 h.2.2.1
      · exact h.2.1 h1
    · rw [if_neg h1]
      by_cases h2 : (sub32 (u32 (le32 mem buf)) 1 &&& u32 (le32 mem buf)) ≠ 0 ∨
          u32 (le32 mem buf) > 1024 ∨ u32 (le32 mem buf) < 2
      · right
        rw [if_pos h2]
        refine ⟨fun h => ?_, rfl⟩
        exact (rate_test_iff _).mpr h.2.2.2 h2
      · left
        rw [if_neg h2]
        have hr := (rate_test_iff _).mp h2
        refine ⟨⟨by simp, fun hb => h1 (Or.inr hb), ?_, hr⟩, p, rfl, ?_⟩
        · by_contra hn; exact h1 (Or.inl hn)
        · have hm : freq_to_mask (u32 (le32 mem buf)) = 1024 / u32 (le32 mem buf) - 1 := by
            have hpos : 1 ≤ 1024 / u32 (le32 mem buf) :=
              (Nat.one_le_div_iff (by omega)).mpr hr.2.2
            have hle : 1024 / u32 (le32 mem buf) ≤ 1024 := Nat.div_le_self _ _
            unfold freq_to_mask RTC_BASE_RATE sub32 WORD
            omega
          rw [hm]

/-- C19: `rtc_write` returns 4 exactly when `fd_info` and `buf` are non-null,
`nbytes` is 4 and the 32-bit rate stored at `buf` is a power of two between 2
and 1024; then the descriptor's mask becomes `1024/rate - 1` and nothing else
changes; in every other case it returns -1 and the kernel data, the mask
included, is as before. -/
theorem rtc_write_spec (k : kernel_t) (mem : Mem) (fd_info : Option fd_ptr) (buf : Nat)
    (nbytes : Int) :
    ((rtc_write k mem fd_info buf nbytes).1 = 4 ↔ rtc_write_accepts mem fd_info buf nbytes) ∧
    (rtc_write_accepts mem fd_info buf nbytes → ∃ p, fd_info = some p ∧
      (get_fd (rtc_write k mem fd_info buf nbytes).2 p).driver_data.mask
        = 1024 / u32 (le32 mem buf) - 1 ∧
      (rtc_write k mem fd_info buf nbytes).2 =
        set_fd k p { (get_fd k p) with driver_data :=
          { (get_fd k p).driver_data with mask := 1024 / u32 (le32 mem buf) - 1 } }) ∧
    (¬ rtc_write_accepts mem fd_info buf nbytes →
      rtc_write k mem fd_info buf nbytes = (-1, k)) := by
  rcases rtc_write_cases k mem fd_info buf nbytes with ⟨ha, p, hp, hw⟩ | ⟨hn, hw⟩
  · refine ⟨⟨fun _ => ha, fun _ => by rw [hw]⟩, fun _ => ⟨p, hp, ?_, by rw [hw]⟩,
      fun hn => absurd ha hn⟩
    rw [hw, get_fd_set_fd]
    simp
  · refine ⟨⟨fun h => ?_, fun ha => absurd ha hn⟩, fun ha => absurd ha hn, fun _ => hw⟩
    rw [hw] at h
    have h' : (-1 : Int) = 4 := h
    exact absurd h' (by decide)

/-- C19 on the rates of `rtc_write_test`: rate 2 on an open RTC descriptor is
accepted and sets the mask to 511, rate 4 sets it to 255; rates 0, 1, 300 and
2048, a length of 2, a null buffer and a null descriptor are refused. -/
theorem rtc_write_spec_witness :
    (rtc_write rtc_kernel (rate_mem 2) (some (0, 2)) 64 4).1 = 4 ∧
    (get_fd (rtc_write rtc_kernel (rate_mem 2) (some (0, 2)) 64 4).2 (0, 2)).driver_data.mask
      = 511 ∧
    rtc_write rtc_kernel (rate_mem 0) (some (0, 2)) 64 4 = (-1, rtc_kernel) ∧
    rtc_write rtc_kernel (rate_mem 1) (some (0, 2)) 64 4 = (-1, rtc_kernel) ∧
    rtc_write rtc_kernel (rate_mem 300) (some (0, 2)) 64 4 = (-1, rtc_kernel) ∧
    rtc_write rtc_kernel (rate_mem 2048) (some (0, 2)) 64 4 = (-1, rtc_kernel) ∧
    rtc_write rtc_kernel (rate_mem 2) (some (0, 2)) 64 2 = (-1, rtc_kernel) ∧
    rtc_write rtc_kernel (rate_mem 2) (some (0, 2)) 0 4 = (-1, rtc_kernel) ∧
    rtc_write rtc_kernel (rate_mem 2) none 64 4 = (-1, rtc_kernel) := by
  have acc : rtc_write_accepts (rate_mem 2) (some (0, 2)) 64 4 :=
    ⟨by simp, by decide, rfl, ⟨1, by decide⟩, by decide, by decide⟩
  have rej : ∀ v, ¬ ((∃ e, u32 (le32 (rate_mem v) 64) = 2 ^ e) ∧
      2 ≤ u32 (le32 (rate_mem v) 64) ∧ u32 (le32 (rate_mem v) 64) ≤ 1024) →
      ¬ rtc_write_accepts (rate_mem v) (some (0, 2)) 64 4 := fun v h a => h a.2.2.2
  refine ⟨(rtc_write_spec rtc_kernel (rate_mem 2) (some (0, 2)) 64 4).1.mpr acc, ?_,
    (rtc_write_spec rtc_kernel (rate_mem 0) (some (0, 2)) 64 4).2.2
      (rej 0 (fun h => absurd h.2.1 (by decide))),
    (rtc_write_spec rtc_kernel (rate_mem 1) (some (0, 2)) 64 4).2.2
      (rej 1 (fun h => absurd h.2.1 (by decide))),
    (rtc_write_spec rtc_kernel (rate_mem 300) (some (0, 2)) 64 4).2.2
      (rej 300 (fun h => absurd ((rate_test_iff _).mpr h) (by decide))),
    (rtc_write_spec rtc_kernel (rate_mem 2048) (some (0, 2)) 64 4).2.2
      (rej 2048 (fun h => absurd h.2.2 (by decide))),
    (rtc_write_spec rtc_kernel (rate_mem 2) (some (0, 2)) 64 2).2.2
      (fun a => absurd a.2.2.1 (by decide)),
    (rtc_write_spec rtc_kernel (rate_mem 2) (some (0, 2)) 0 4).2.2
      (fun a => a.2.1 rfl),
    (rtc_write_spec rtc_kernel (rate_mem 2) none 64 4).2.2 (fun a => a.1 rfl)⟩
  obtain ⟨p, hp, hm, _⟩ := (rtc_write_spec rtc_kernel (rate_mem 2) (some (0, 2)) 64 4).2.1 acc
  cases hp
  rw [hm]
  decide

/-! ### `directory_read` -/

/-- Writing back the descriptor that was read changes nothing. -/
theorem set_fd_get_fd (k : kernel_t) (p : fd_ptr) : set_fd k p (get_fd k p) = k := by
  unfold set_fd get_fd
  simp only [Function.update_eq_self]

/-- The two outcomes of `directory_read` on valid arguments. -/
theorem directory_read_eq (dentry : dentry_t) (env : irq_env) (img : fs_image) (k : kernel_t)
    (mem : Mem) (cur : Nat) (p : fd_ptr) (buf : Nat) (n : Int) (hbuf : buf ≠ 0) (hn : 0 ≤ n)
    (hnd : img.num_dentries < 4294967296) :
    directory_read dentry env img k mem cur (some p) buf n =
      if (get_fd k p).file_pos ≥ img.num_dentries then some (0, k, mem)
      else some (min n 32,
        set_fd k p { (get_fd k p) with file_pos := (get_fd k p).file_pos + 1 },
        memcpy mem buf (img.dentries (get_fd k p).file_pos).filename (min n 32).toNat) := by
  unfold directory_read
  simp only
  rw [if_neg hbuf, if_neg (by omega)]
  by_cases h3 : (get_fd k p).file_pos ≥ img.num_dentries
  · rw [if_pos h3, if_pos h3]
  · rw [if_neg h3, if_neg h3]
    unfold read_dentry_by_index
    simp only [if_neg h3]
    rw [if_neg (by simp), add32_of_lt (by omega)]
    by_cases h4 : n > 32
    · rw [if_pos h4, min_eq_right (by omega)]
    · rw [if_neg h4, min_eq_left (by omega)]

/-- Successive `directory_read` calls of at least 32 bytes each: 32 is
returned while entries remain, then 0. -/
theorem directory_read_seq (dentry : dentry_t) (env : irq_env) (img : fs_image) (cur : Nat)
    (p : fd_ptr) (hnd : img.num_dentries < 4294967296) :
    ∀ (ns : List Nat) (buf : Nat) (k : kernel_t) (mem : Mem), buf ≠ 0 →
      (∀ n, n ∈ ns → 32 ≤ n) →
      ∃ k' mem', read_seq (directory_read dentry) env img cur p ns buf k mem =
        some (List.replicate (min ns.length (img.num_dentries - (get_fd k p).file_pos)) 32 ++
          List.replicate (ns.length - (img.num_dentries - (get_fd k p).file_pos)) 0, k', mem') := by
  intro ns
  induction ns with
  | nil =>
    intro buf k mem _ _
    exact ⟨k, mem, by simp [read_seq]⟩
  | cons n ns ih =>
    intro buf k mem hbuf hns
    have hn : 32 ≤ n := hns n (List.mem_cons_self _ _)
    have hns' : ∀ m, m ∈ ns → 32 ≤ m := fun m hm => hns m (List.mem_cons_of_mem _ hm)
    rw [read_seq, directory_read_eq dentry env img k mem cur p buf n hbuf (by omega) hnd]
    by_cases h3 : (get_fd k p).file_pos ≥ img.num_dentries
    · rw [if_pos h3]
      simp only
      obtain ⟨k', mem', he⟩ := ih (buf + (0 : Int).toNat) k mem (by simp [hbuf]) hns'
      rw [he]
      refine ⟨k', mem', ?_⟩
      have e0 : img.num_dentries - (get_fd k p).file_pos = 0 := by omega
      simp [e0, List.replicate_succ]
    · rw [if_neg h3]
      simp only
      obtain ⟨k', mem', he⟩ := ih (buf + (min (n : Int) 32).toNat)
        (set_fd k p { (get_fd k p) with file_pos := (get_fd k p).file_pos + 1 })
        (memcpy mem buf (img.dentries (get_fd k p).file_pos).filename (min (n : Int) 32).toNat)
        (by omega) hns'
      rw [he]
      refine ⟨k', mem', ?_⟩
      rw [get_fd_set_fd, if_pos rfl]
      simp only
      have e1 : min (n : Int) 32 = 32 := min_eq_right (by omega)
      have e2 : img.num_dentries - (get_fd k p).file_pos
          = (img.num_dentries - ((get_fd k p).file_pos + 1)) + 1 := by omega
      have e3 : min (ns.length + 1) (img.num_dentries - ((get_fd k p).file_pos + 1) + 1)
          = min ns.length (img.num_dentries - ((get_fd k p).file_pos + 1)) + 1 := by omega
      have e4 : ns.length + 1 - (img.num_dentries - ((get_fd k p).file_pos + 1) + 1)
          = ns.length - (img.num_dentries - ((get_fd k p).file_pos + 1)) := by omega
      rw [e1, e2, List.length_cons, e3, e4, List.replicate_succ]
      rfl

/-- C17: `directory_read` on a directory descriptor with a non-null buffer
and `n >= 0`.  At or past the last entry it returns 0 and changes nothing.
Otherwise it returns `min(n, 32)`, the first `min(n, 32)` bytes of `buf` are
the first bytes of the raw name field of entry number `file_pos`, no other
byte is written (no terminator is added), and `file_pos` grows by exactly 1
with every other descriptor field as before.  Hence successive calls from
position 0 asking for at least 32 bytes each return 32 exactly `num_dentries`
times and 0 on every later call. -/
theorem directory_read_spec (dentry : dentry_t) (env : irq_env) (img : fs_image) (k : kernel_t)
    (mem : Mem) (cur : Nat) (p : fd_ptr) (buf : Nat) (n : Int) (hbuf : buf ≠ 0) (hn : 0 ≤ n)
    (hnd : img.num_dentries < 4294967296) :
    ((get_fd k p).file_pos ≥ img.num_dentries →
      directory_read dentry env img k mem cur (some p) buf n = some (0, k, mem)) ∧
    ((get_fd k p).file_pos < img.num_dentries →
      ∃ mem', directory_read dentry env img k mem cur (some p) buf n =
          some (min n 32,
            set_fd k p { (get_fd k p) with file_pos := (get_fd k p).file_pos + 1 }, mem') ∧
        (∀ j : Nat, (j : Int) < min n 32 →
          mem' (buf + j) = (img.dentries (get_fd k p).file_pos).filename j) ∧
        (∀ a, ¬ (buf ≤ a ∧ ((a - buf : Nat) : Int) < min n 32) → mem' a = mem a)) ∧
    ((get_fd k p).file_pos = 0 → ∀ ns : List Nat, (∀ m, m ∈ ns → 32 ≤ m) →
      ∃ k' mem', read_seq (directory_read dentry) env img cur p ns buf k mem =
        some (List.replicate (min ns.length img.num_dentries) 32 ++
          List.replicate (ns.length - img.num_dentries) 0, k', mem')) := by
  have he := directory_read_eq dentry env img k mem cur p buf n hbuf hn hnd
  refine ⟨fun h => ?_, fun h => ?_, fun h ns hns => ?_⟩
  · rw [he, if_pos h]
  · rw [he, if_neg (by omega)]
    refine ⟨_, rfl, fun j hj => ?_, fun a ha => ?_⟩
    · exact memcpy_inside _ _ _ _ _ (by omega)
    · apply memcpy_outside
      intro hc
      apply ha
      refine ⟨hc.1, ?_⟩
      omega
  · have hs := directory_read_seq dentry env img cur p hnd ns buf k mem hbuf hns
    rw [h, Nat.sub_zero] at hs
    exact hs

/-- C17 on the sample image (five entries), reading through descriptor 3 of
process 0 opened on the directory: a read of 40 bytes at position 2 returns
32, and seven successive reads of 32 bytes from position 0 return 32 five
times and then 0 twice. -/
theorem directory_read_spec_witness :
    (directory_read absent_dentry [] sample_image
        (set_fd sample_kernel (0, 3) { fd_info_zero with file_pos := 2 }) (fun _ => 0) 0
        (some (0, 3)) 1000 40).map (fun r => r.1) = some 32 ∧
    (read_seq (directory_read absent_dentry) [] sample_image 0 (0, 3) [32, 32, 32, 32, 32, 32, 32]
        1000 (set_fd sample_kernel (0, 3) fd_info_zero) (fun _ => 0)).map (fun r => r.1)
      = some [32, 32, 32, 32, 32, 0, 0] := by
  constructor
  · obtain ⟨mem', he, _⟩ := (directory_read_spec absent_dentry [] sample_image
      (set_fd sample_kernel (0, 3) { fd_info_zero with file_pos := 2 }) (fun _ => 0) 0 (0, 3)
      1000 40 (by decide) (by decide) (by decide)).2.1 (by decide)
    rw [he]
    rfl
  · obtain ⟨k', mem', he⟩ := (directory_read_spec absent_dentry [] sample_image
      (set_fd sample_kernel (0, 3) fd_info_zero) (fun _ => 0) 0 (0, 3)
      1000 32 (by decide) (by decide) (by decide)).2.2 (by decide)
      [32, 32, 32, 32, 32, 32, 32] (by decide)
    rw [he]
    rfl

/-! ### `file_read` -/

/-- One `file_read` on a well-formed file: the count, the new position and
the bytes delivered. -/
theorem file_read_at (env : irq_env) (img : fs_image) (k : kernel_t) (mem : Mem) (cur : Nat)
    (p : fd_ptr) (buf n : Nat) (hwf : well_formed_file img (get_fd k p).inode)
    (hbuf : buf ≠ 0) (hn : n ≤ 2147483647) :
    ∃ mem', file_read env img k mem cur (some p) buf (n : Int) =
        some (((min n ((img.inodes (get_fd k p).inode).file_length
            - min (get_fd k p).file_pos (img.inodes (get_fd k p).inode).file_length) : Nat) : Int),
          set_fd k p { (get_fd k p) with file_pos := ((get_fd k p).file_pos +
            min n ((img.inodes (get_fd k p).inode).file_length
              - min (get_fd k p).file_pos (img.inodes (get_fd k p).inode).file_length)) },
          mem') ∧
      (∀ j, j < min n ((img.inodes (get_fd k p).inode).file_length
            - min (get_fd k p).file_pos (img.inodes (get_fd k p).inode).file_length) →
        mem' (buf + j) = file_byte img (get_fd k p).inode ((get_fd k p).file_pos + j)) ∧
      (∀ a, ¬ (buf ≤ a ∧ a < buf + min n ((img.inodes (get_fd k p).inode).file_length
            - min (get_fd k p).file_pos (img.inodes (get_fd k p).inode).file_length)) →
        mem' a = mem a) := by
  obtain ⟨hino, hL, hblk⟩ := hwf
  generalize hkk : min n ((img.inodes (get_fd k p).inode).file_length
      - min (get_fd k p).file_pos (img.inodes (get_fd k p).inode).file_length) = kk
  have hr : read_data_rest (img.inodes (get_fd k p).inode) n 0 (get_fd k p).file_pos = kk := by
    unfold read_data_rest; rw [Nat.sub_zero]; exact hkk
  obtain ⟨mem', he, hin, hout⟩ := read_data_loop_spec img (img.inodes (get_fd k p).inode) n
    (by omega) hL n 0 (get_fd k p).file_pos buf mem (Nat.zero_le _)
    (by rw [hr, ← hkk]; exact Nat.min_le_left _ _)
    (by
      intro q hq1 hq2
      rw [hr] at hq2
      exact hblk q (by omega))
  rw [hr] at he hin hout
  rw [Nat.zero_add, toInt32_of_lt (by omega)] at he
  refine ⟨mem', ?_, hin, hout⟩
  unfold file_read
  simp only
  rw [if_neg hbuf, if_neg (by omega), ofInt32_of_nonneg (by omega) (by omega), Int.toNat_ofNat]
  unfold read_data
  rw [if_neg (by omega), if_neg hbuf, he]
  simp only
  by_cases h0 : (kk : Int) > 0
  · rw [if_pos h0, ofInt32_of_nonneg (by omega) (by omega), Int.toNat_ofNat,
      add32_of_lt (by omega)]
  · rw [if_neg h0]
    have hk0 : kk = 0 := by omega
    rw [hk0, Nat.add_zero, set_fd_get_fd]

/-- Successive `file_read` calls on a well-formed file deliver its bytes in
order. -/
theorem file_read_seq (env : irq_env) (img : fs_image) (cur : Nat) (p : fd_ptr) (ino : Nat)
    (hwf : well_formed_file img ino) :
    ∀ (ns : List Nat) (buf : Nat) (k : kernel_t) (mem : Mem), buf ≠ 0 →
      (get_fd k p).inode = ino → (∀ n, n ∈ ns → n ≤ 2147483647) →
      ∃ rs k' mem', read_seq file_read env img cur p ns buf k mem = some (rs, k', mem') ∧
        rs.sum = ((min ns.sum ((img.inodes ino).file_length
          - min (get_fd k p).file_pos (img.inodes ino).file_length) : Nat) : Int) ∧
        get_fd k' p = { (get_fd k p) with file_pos := ((get_fd k p).file_pos +
          min ns.sum ((img.inodes ino).file_length
            - min (get_fd k p).file_pos (img.inodes ino).file_length)) } ∧
        (∀ j, j < min ns.sum ((img.inodes ino).file_length
            - min (get_fd k p).file_pos (img.inodes ino).file_length) →
          mem' (buf + j) = file_byte img ino ((get_fd k p).file_pos + j)) ∧
        (∀ a, ¬ (buf ≤ a ∧ a < buf + min ns.sum ((img.inodes ino).file_length
            - min (get_fd k p).file_pos (img.inodes ino).file_length)) → mem' a = mem a) := by
  intro ns
  induction ns with
  | nil =>
    intro buf k mem _ _ _
    refine ⟨[], k, mem, rfl, by simp, by simp, fun j hj => ?_, fun _ _ => rfl⟩
    simp at hj
  | cons n ns ih =>
    intro buf k mem hbuf hino hns
    have hn : n ≤ 2147483647 := hns n (List.mem_cons_self _ _)
    have hns' : ∀ m, m ∈ ns → m ≤ 2147483647 := fun m hm => hns m (List.mem_cons_of_mem _ hm)
    obtain ⟨mem1, he1, hin1, hout1⟩ := file_read_at env img k mem cur p buf n
      (by rw [hino]; exact hwf) hbuf hn
    rw [hino] at he1 hin1 hout1
    generalize hL : (img.inodes ino).file_length = L at *
    generalize hpos : (get_fd k p).file_pos = pos at *
    generalize hk1 : min n (L - min pos L) = k1 at *
    have hfd1 : get_fd (set_fd k p { (get_fd k p) with file_pos := pos + k1 }) p
        = { (get_fd k p) with file_pos := pos + k1 } := by
      rw [get_fd_set_fd, if_pos rfl]
    obtain ⟨rs, k', mem', he2, hsum, hfd, hin2, hout2⟩ := ih (buf + k1)
      (set_fd k p { (get_fd k p) with file_pos := pos + k1 }) mem1 (by omega)
      (by rw [hfd1]; exact hino) hns'
    rw [hfd1] at hsum hfd hin2 hout2
    simp only at hsum hfd hin2 hout2
    generalize hk2 : min ns.sum (L - min (pos + k1) L) = k2 at *
    have htot : min (n :: ns).sum (L - min pos L) = k1 + k2 := by
      rw [List.sum_cons]; omega
    rw [htot]
    refine ⟨(k1 : Int) :: rs, k', mem', ?_, ?_, ?_, fun j hj => ?_, fun a ha => ?_⟩
    · rw [read_seq, he1]
      simp only [Int.toNat_ofNat]
      rw [he2]
    · rw [List.sum_cons, hsum]; push_cast; rfl
    · rw [hfd, Nat.add_assoc]
    · by_cases hj1 : j < k1
      · rw [hout2 (buf + j) (by omega)]
        exact hin1 j hj1
      · have e := hin2 (j - k1) (by omega)
        have e1 : buf + k1 + (j - k1) = buf + j := by omega
        have e2 : pos + k1 + (j - k1) = pos + j := by omega
        rw [e1, e2] at e
        exact e
    · rw [hout2 a (by omega)]
      exact hout1 a (by omega)
/-- A read of `L+10` bytes at position 0 of a well-formed file of length `L`
returns `L`; the following read of one byte returns 0 and leaves the position
at `L`. -/
theorem file_read_to_end (env : irq_env) (img : fs_image) (k : kernel_t) (mem : Mem) (cur : Nat)
    (p : fd_ptr) (buf : Nat) (hwf : well_formed_file img (get_fd k p).inode)
    (hbuf : buf ≠ 0) (hpos : (get_fd k p).file_pos = 0)
    (hL : (img.inodes (get_fd k p).inode).file_length + 10 ≤ 2147483647) :
    ∃ k1 mem1, file_read env img k mem cur (some p) buf
        (((img.inodes (get_fd k p).inode).file_length + 10 : Nat) : Int) =
        some ((((img.inodes (get_fd k p).inode).file_length : Nat) : Int), k1, mem1) ∧
      (∀ j, j < (img.inodes (get_fd k p).inode).file_length →
        mem1 (buf + j) = file_byte img (get_fd k p).inode j) ∧
      file_read env img k1 mem1 cur (some p) buf ((1 : Nat) : Int) = some (0, k1, mem1) ∧
      (get_fd k1 p).file_pos = (img.inodes (get_fd k p).inode).file_length := by
  obtain ⟨mem1, he1, hin1, _⟩ := file_read_at env img k mem cur p buf
    ((img.inodes (get_fd k p).inode).file_length + 10) hwf hbuf hL
  rw [hpos] at he1 hin1
  have e1 : min ((img.inodes (get_fd k p).inode).file_length + 10)
      ((img.inodes (get_fd k p).inode).file_length
        - min 0 (img.inodes (get_fd k p).inode).file_length)
      = (img.inodes (get_fd k p).inode).file_length := by omega
  rw [e1] at he1 hin1
  simp only [Nat.zero_add] at he1 hin1
  have hfd : get_fd (set_fd k p { (get_fd k p) with
      file_pos := (img.inodes (get_fd k p).inode).file_length }) p
      = { (get_fd k p) with file_pos := (img.inodes (get_fd k p).inode).file_length } := by
    rw [get_fd_set_fd, if_pos rfl]
  obtain ⟨mem2, he2, _, hout2⟩ := file_read_at env img
    (set_fd k p { (get_fd k p) with file_pos := (img.inodes (get_fd k p).inode).file_length })
    mem1 cur p buf 1 (by rw [hfd]; exact hwf) hbuf (by decide)
  rw [hfd] at he2 hout2
  simp only at he2 hout2
  have e2 : min 1 ((img.inodes (get_fd k p).inode).file_length
      - min (img.inodes (get_fd k p).inode).file_length
        (img.inodes (get_fd k p).inode).file_length) = 0 := by omega
  rw [e2] at he2 hout2
  have hmem : mem2 = mem1 := funext (fun a => hout2 a (by omega))
  rw [hmem, Nat.add_zero] at he2
  have hset : ∀ kk : kernel_t, ∀ f : fd_info_t, get_fd kk p = f →
      set_fd kk p { f with file_pos := f.file_pos } = kk := by
    intro kk f hf
    subst hf
    exact set_fd_get_fd kk p
  refine ⟨_, mem1, he1, hin1, ?_, ?_⟩
  · rw [he2]
    have := hset _ _ hfd
    simp only at this
    rw [this]
    rfl
  · rw [hfd]
/-- C16: `file_read` on a regular-file descriptor at position `p` over a
well-formed file of length `L`, with a non-null buffer and `0 <= n`: it
returns `k = min(n, L - min(p, L))`, delivers bytes `p .. p+k-1` of the file
at the start of `buf`, sets `file_pos` to `p + k` and changes no other
field of the descriptor nor anything else in the kernel data.  Hence
successive reads from position 0 deliver the bytes of the file in order;
and after `file_open` of a regular file of length `L`, a read of `L+10`
bytes returns `L` and the following read of one byte returns 0 with
`file_pos` still `L`. -/
theorem file_read_spec (env : irq_env) (img : fs_image) (cur : Nat) (p : fd_ptr) (buf : Nat)
    (hbuf : buf ≠ 0) :
    (∀ (k : kernel_t) (mem : Mem) (n : Nat), well_formed_file img (get_fd k p).inode →
      n ≤ 2147483647 →
      ∃ mem', file_read env img k mem cur (some p) buf (n : Int) =
          some (((min n ((img.inodes (get_fd k p).inode).file_length
              - min (get_fd k p).file_pos (img.inodes (get_fd k p).inode).file_length) : Nat)
              : Int),
            set_fd k p { (get_fd k p) with file_pos := ((get_fd k p).file_pos +
              min n ((img.inodes (get_fd k p).inode).file_length
                - min (get_fd k p).file_pos (img.inodes (get_fd k p).inode).file_length)) },
            mem') ∧
        (∀ j, j < min n ((img.inodes (get_fd k p).inode).file_length
              - min (get_fd k p).file_pos (img.inodes (get_fd k p).inode).file_length) →
          mem' (buf + j) = file_byte img (get_fd k p).inode ((get_fd k p).file_pos + j)) ∧
        (∀ a, ¬ (buf ≤ a ∧ a < buf + min n ((img.inodes (get_fd k p).inode).file_length
              - min (get_fd k p).file_pos (img.inodes (get_fd k p).inode).file_length)) →
          mem' a = mem a)) ∧
    (∀ (k : kernel_t) (mem : Mem) (ns : List Nat), well_formed_file img (get_fd k p).inode →
      (get_fd k p).file_pos = 0 → (∀ n, n ∈ ns → n ≤ 2147483647) →
      ∃ rs k' mem', read_seq file_read env img cur p ns buf k mem = some (rs, k', mem') ∧
        rs.sum = ((min ns.sum (img.inodes (get_fd k p).inode).file_length : Nat) : Int) ∧
        (get_fd k' p).file_pos = min ns.sum (img.inodes (get_fd k p).inode).file_length ∧
        (∀ j, j < min ns.sum (img.inodes (get_fd k p).inode).file_length →
          mem' (buf + j) = file_byte img (get_fd k p).inode j)) ∧
    (∀ (dentry d : dentry_t) (k : kernel_t) (mem : Mem) (fname : Nat → Nat),
      read_dentry_by_name img (some fname) (some dentry) = (0, some d) → d.type = 2 →
      well_formed_file img d.inode → (img.inodes d.inode).file_length + 10 ≤ 2147483647 →
      (file_open dentry img k (some p) (some fname)).1 = 0 ∧
      ∃ k1 mem1, file_read env img (file_open dentry img k (some p) (some fname)).2 mem cur
          (some p) buf ((((img.inodes d.inode).file_length + 10 : Nat)) : Int) =
          some ((((img.inodes d.inode).file_length : Nat) : Int), k1, mem1) ∧
        file_read env img k1 mem1 cur (some p) buf ((1 : Nat) : Int) = some (0, k1, mem1) ∧
        (get_fd k1 p).file_pos = (img.inodes d.inode).file_length) := by
  refine ⟨fun k mem n hwf hn => file_read_at env img k mem cur p buf n hwf hbuf hn,
    fun k mem ns hwf hpos hns => ?_, fun dentry d k mem fname hl ht hwf hL => ?_⟩
  · obtain ⟨rs, k', mem', he, hsum, hfd, hin, _⟩ := file_read_seq env img cur p
      (get_fd k p).inode hwf ns buf k mem hbuf rfl hns
    rw [hpos] at hsum hfd hin
    simp only [Nat.zero_min, Nat.sub_zero, Nat.zero_add] at hsum hfd hin
    refine ⟨rs, k', mem', he, hsum, ?_, hin⟩
    rw [hfd]
  · have hd : driver_of_dentry d = some fd_driver_t.file_fd_driver := by
      unfold driver_of_dentry
      rw [if_neg (by omega), if_neg (by omega), if_pos ht]
    obtain ⟨ho, hq⟩ := file_open_ok dentry img k p fname d _ hl hd
    have hfd := hq p
    rw [if_pos rfl] at hfd
    have hino : (get_fd (file_open dentry img k (some p) (some fname)).2 p).inode = d.inode := by
      rw [hfd]; rfl
    have hpos : (get_fd (file_open dentry img k (some p) (some fname)).2 p).file_pos = 0 := by
      rw [hfd]; rfl
    obtain ⟨k1, mem1, h1, _, h2, h3⟩ := file_read_to_end env img
      (file_open dentry img k (some p) (some fname)).2 mem cur p buf (by rw [hino]; exact hwf)
      hbuf hpos (by rw [hino]; exact hL)
    rw [hino] at h1 h3
    exact ⟨ho, k1, mem1, h1, h2, h3⟩

/-- The file `cat` of the sample image is well formed. -/
theorem sample_cat_well_formed : well_formed_file sample_image 1 := by
  refine ⟨by decide, by decide, fun q hq => ?_⟩
  have hq' : q < 5000 := hq
  have hc : q / 4096 = 0 ∨ q / 4096 = 1 := by omega
  rcases hc with hc | hc <;> rw [hc] <;> decide

/-- C16 on the sample image: descriptor 2 of the sample process is the file
`cat` (5000 bytes) at position 0.  A read of 100 bytes returns 100; reads of
3000, 3000 and 5 bytes deliver 5000 bytes in all; and opening `cat` in slot 3,
a read of 5010 bytes returns 5000 and the next read of one byte returns 0. -/
theorem file_read_spec_witness :
    (∃ k' mem', file_read [] sample_image sample_kernel (fun _ => 0) 0 (some (0, 2)) 1000
      ((100 : Nat) : Int) = some (((100 : Nat) : Int), k', mem')) ∧
    (∃ rs k' mem', read_seq file_read [] sample_image 0 (0, 2) [3000, 3000, 5] 1000
      sample_kernel (fun _ => 0) = some (rs, k', mem') ∧ rs.sum = ((5000 : Nat) : Int)) ∧
    (∃ k1 mem1, file_read [] sample_image
        (file_open absent_dentry sample_image sample_kernel (some (0, 3))
          (some (bytes_of [99, 97, 116]))).2 (fun _ => 0) 0 (some (0, 3)) 1000
          ((5010 : Nat) : Int) = some (((5000 : Nat) : Int), k1, mem1) ∧
      file_read [] sample_image k1 mem1 0 (some (0, 3)) 1000 ((1 : Nat) : Int)
        = some (0, k1, mem1)) := by
  have h := file_read_spec [] sample_image 0 (0, 2) 1000 (by decide)
  have h3 := file_read_spec [] sample_image 0 (0, 3) 1000 (by decide)
  refine ⟨?_, ?_, ?_⟩
  · obtain ⟨mem', he, _⟩ := h.1 sample_kernel (fun _ => 0) 100 sample_cat_well_formed
      (by decide)
    exact ⟨_, mem', he⟩
  · obtain ⟨rs, k', mem', he, hs, _⟩ := h.2.1 sample_kernel (fun _ => 0) [3000, 3000, 5]
      sample_cat_well_formed rfl (by decide)
    exact ⟨rs, k', mem', he, hs⟩
  · obtain ⟨_, k1, mem1, h1, h2, _⟩ := h3.2.2 absent_dentry (sample_image.dentries 2)
      sample_kernel (fun _ => 0) (bytes_of [99, 97, 116]) rfl rfl
      sample_cat_well_formed (by decide)
    exact ⟨k1, mem1, h1, h2⟩

/-! ### Termination of `read_data` -/

/-- The loop of `read_data` runs `read_data_body` while its condition holds. -/
theorem read_data_loop_body (img : fs_image) (in_ptr : inode_t) (length fuel i offset buf : Nat)
    (mem : Mem) (hc : i < length ∧ offset < in_ptr.file_length) :
    read_data_loop img in_ptr length fuel i offset buf mem =
      match read_data_body img in_ptr length i offset buf mem with
      | none => some (-1, mem)
      | some r =>
        match fuel with
        | 0 => none
        | fuel + 1 => read_data_loop img in_ptr length fuel r.2.1 r.2.2.1 r.2.2.2.1 r.2.2.2.2 := by
  rw [read_data_loop, if_pos hc]
  unfold read_data_body
  simp only
  split
  · rfl
  · split
    · rfl
    · cases fuel <;> rfl

/-- What one pass through the loop body computes on 32-bit arguments. -/
theorem read_data_body_cases (img : fs_image) (in_ptr : inode_t) (length i offset buf : Nat)
    (mem : Mem) (hlen : length < 4294967296) (hL : in_ptr.file_length < 4294967296)
    (hi : i < length) (ho : offset < in_ptr.file_length) :
    read_data_body img in_ptr length i offset buf mem = none ∨
    ∃ mem', read_data_body img in_ptr length i offset buf mem =
      some (read_data_count in_ptr length i offset,
        i + read_data_count in_ptr length i offset,
        offset + read_data_count in_ptr length i offset,
        buf + read_data_count in_ptr length i offset, mem') := by
  have hs : offset >>> FS_DATA_BLK_BITS = offset / 4096 := by
    unfold FS_DATA_BLK_BITS; rw [Nat.shiftRight_eq_div_pow]
  have hm : offset &&& (FS_BLOCK_SIZE - 1) = offset % 4096 := by
    have e : FS_BLOCK_SIZE - 1 = 2 ^ 12 - 1 := by decide
    rw [e, Nat.and_pow_two_sub_one_eq_mod]
  have hmlt : offset % 4096 < 4096 := Nat.mod_lt _ (by decide)
  unfold read_data_body
  simp only [hs, hm]
  by_cases hb : offset / 4096 ≥ FS_MAX_DBLKS
  · left
    rw [if_pos hb]
  · rw [if_neg hb]
    by_cases hd : in_ptr.data_blks (offset / 4096) ≥ img.num_data_blk
    · left
      rw [if_pos hd]
    · right
      rw [if_neg hd]
      have e1 : sub32 length i = length - i := sub32_of_le (by omega) hlen
      have e2 : sub32 FS_BLOCK_SIZE (offset % 4096) = 4096 - offset % 4096 := by
        unfold FS_BLOCK_SIZE
        exact sub32_of_le (by omega) (by decide)
      have e3 : sub32 in_ptr.file_length offset = in_ptr.file_length - offset :=
        sub32_of_le (by omega) hL
      rw [e1, e2, e3]
      have hcount : (if (if length - i > 4096 - offset % 4096 then 4096 - offset % 4096
            else length - i) > in_ptr.file_length - offset
          then in_ptr.file_length - offset
          else (if length - i > 4096 - offset % 4096 then 4096 - offset % 4096 else length - i))
          = read_data_count in_ptr length i offset := by
        unfold read_data_count
        split <;> split <;> omega
      rw [hcount]
      have hle1 : read_data_count in_ptr length i offset ≤ length - i := by
        unfold read_data_count; omega
      have hle2 : read_data_count in_ptr length i offset ≤ in_ptr.file_length - offset := by
        unfold read_data_count; omega
      rw [add32_of_lt (by omega), add32_of_lt (by omega)]
      exact ⟨_, rfl⟩

/-- More fuel than the bytes still asked for does not change the result of
the loop of `read_data`. -/
theorem read_data_loop_fuel (img : fs_image) (in_ptr : inode_t) (length : Nat)
    (hlen : length < 4294967296) (hL : in_ptr.file_length < 4294967296) :
    ∀ (fuel fuel2 i offset buf : Nat) (mem : Mem), i ≤ length → length - i ≤ fuel →
      length - i ≤ fuel2 →
      read_data_loop img in_ptr length fuel i offset buf mem =
        read_data_loop img in_ptr length fuel2 i offset buf mem := by
  intro fuel
  induction fuel with
  | zero =>
    intro fuel2 i offset buf mem hi hf _
    have hc : ¬ (i < length ∧ offset < in_ptr.file_length) := by omega
    rw [read_data_loop_exit _ _ _ _ _ _ _ _ hc, read_data_loop_exit _ _ _ _ _ _ _ _ hc]
  | succ fuel ih =>
    intro fuel2 i offset buf mem hi hf hf2
    by_cases hc : i < length ∧ offset < in_ptr.file_length
    · obtain ⟨hc1, hc2⟩ := hc
      by_cases hb : offset / 4096 < 1023
      · by_cases hd : in_ptr.data_blks (offset / 4096) < img.num_data_blk
        · have hmlt : offset % 4096 < 4096 := Nat.mod_lt _ (by decide)
          have hcnt1 : 1 ≤ read_data_count in_ptr length i offset := by
            unfold read_data_count; omega
          have hcntr : read_data_count in_ptr length i offset ≤ length - i := by
            unfold read_data_count; omega
          have e : fuel2 = (fuel2 - 1) + 1 := by omega
          rw [e, read_data_loop_step img in_ptr length fuel i offset buf mem hlen hL hc1 hc2 hb hd,
            read_data_loop_step img in_ptr length (fuel2 - 1) i offset buf mem hlen hL hc1
              hc2 hb hd]
          generalize read_data_count in_ptr length i offset = c at *
          exact ih (fuel2 - 1) (i + c) (offset + c) _ _ (by omega) (by omega) (by omega)
        · rw [read_data_loop_bad_block _ _ _ _ _ _ _ _ hc1 hc2 hb hd,
            read_data_loop_bad_block _ _ _ _ _ _ _ _ hc1 hc2 hb hd]
      · rw [read_data_loop_bad_index _ _ _ _ _ _ _ _ hc1 hc2 hb,
          read_data_loop_bad_index _ _ _ _ _ _ _ _ hc1 hc2 hb]
    · rw [read_data_loop_exit _ _ _ _ _ _ _ _ hc, read_data_loop_exit _ _ _ _ _ _ _ _ hc]

/-- Along a run of the loop of `read_data`, `i` stays within `length` and
`offset` within the file length after every pass, and there are at most
`length - i` passes however much fuel is given. -/
theorem read_data_trace_spec (img : fs_image) (in_ptr : inode_t) (length : Nat)
    (hlen : length < 4294967296) (hL : in_ptr.file_length < 4294967296) :
    ∀ (fuel i offset buf : Nat) (mem : Mem), i ≤ length →
      (read_data_trace img in_ptr length fuel i offset buf mem).length ≤ length - i ∧
      ∀ s, s ∈ read_data_trace img in_ptr length fuel i offset buf mem →
        i < s.1 ∧ s.1 ≤ length ∧ offset < s.2 ∧ s.2 ≤ in_ptr.file_length := by
  intro fuel
  induction fuel with
  | zero =>
    intro i offset buf mem _
    exact ⟨Nat.zero_le _, fun s hs => by simp [read_data_trace] at hs⟩
  | succ fuel ih =>
    intro i offset buf mem hi
    rw [read_data_trace]
    by_cases hc : i < length ∧ offset < in_ptr.file_length
    · rw [if_pos hc]
      have hmlt : offset % 4096 < 4096 := Nat.mod_lt _ (by decide)
      have hcnt1 : 1 ≤ read_data_count in_ptr length i offset := by
        unfold read_data_count; omega
      have hle1 : read_data_count in_ptr length i offset ≤ length - i := by
        unfold read_data_count; omega
      have hle2 : read_data_count in_ptr length i offset ≤ in_ptr.file_length - offset := by
        unfold read_data_count; omega
      rcases read_data_body_cases img in_ptr length i offset buf mem hlen hL hc.1 hc.2
        with hn | ⟨mem2, hs⟩
      · rw [hn]
        exact ⟨Nat.zero_le _, fun s hs => by simp at hs⟩
      · rw [hs]
        simp only
        generalize read_data_count in_ptr length i offset = c at *
        obtain ⟨h1, h2⟩ := ih (i + c) (offset + c) (buf + c) mem2 (by omega)
        refine ⟨by rw [List.length_cons]; omega, fun s hs => ?_⟩
        rcases List.mem_cons.mp hs with e | hmem
        · rw [e]
          exact ⟨by simp only; omega, by simp only; omega, by simp only; omega,
            by simp only; omega⟩
        · obtain ⟨a1, a2, a3, a4⟩ := h2 s hmem
          exact ⟨by omega, a2, by omega, a4⟩
    · rw [if_neg hc]
      exact ⟨Nat.zero_le _, fun s hs => by simp at hs⟩

/-- C18: `read_data` terminates and never wraps, on every image (the block
tables may be malformed) and for all 32-bit lengths.  From a loop state with
`i < length` and `offset < file_length`, one pass through the body either
returns -1 or copies `count` bytes with
`count = min(length - i, 4096 - offset mod 4096, file_length - offset) >= 1`,
and the 32-bit sums the code forms are the exact sums `i + count <= length`
and `offset + count <= file_length`; the loop is the iteration of that body;
the loop returns a result after at most `length - i` passes, more fuel
changing nothing, so `read_data` itself always returns; and along a run of
`read_data` there are at most `length` passes, after each of which
`i <= length` and `offset <= file_length`. -/
theorem read_data_terminates (img : fs_image) (inode length : Nat) (hlen : length < 4294967296)
    (hL : (img.inodes inode).file_length < 4294967296) :
    (∀ (i offset buf : Nat) (mem : Mem), i < length → offset < (img.inodes inode).file_length →
      (read_data_body img (img.inodes inode) length i offset buf mem = none ∧
        ∀ fuel, read_data_loop img (img.inodes inode) length fuel i offset buf mem
          = some (-1, mem)) ∨
      (∃ count mem', read_data_body img (img.inodes inode) length i offset buf mem
          = some (count, add32 i count, add32 offset count, buf + count, mem') ∧
        1 ≤ count ∧
        count = min (min (length - i) (4096 - offset % 4096))
          ((img.inodes inode).file_length - offset) ∧
        add32 i count = i + count ∧ i + count ≤ length ∧
        add32 offset count = offset + count ∧
        offset + count ≤ (img.inodes inode).file_length ∧
        ∀ fuel, read_data_loop img (img.inodes inode) length (fuel + 1) i offset buf mem
          = read_data_loop img (img.inodes inode) length fuel (i + count) (offset + count)
              (buf + count) mem')) ∧
    (∀ (fuel i offset buf : Nat) (mem : Mem), i ≤ length → length - i ≤ fuel →
      (∃ r mem', read_data_loop img (img.inodes inode) length fuel i offset buf mem
          = some (r, mem') ∧ (r = -1 ∨ ∃ i', i ≤ i' ∧ i' ≤ length ∧ r = toInt32 i')) ∧
      read_data_loop img (img.inodes inode) length fuel i offset buf mem
        = read_data_loop img (img.inodes inode) length (length - i) i offset buf mem) ∧
    (∀ (mem : Mem) (offset buf : Nat),
      ∃ r mem', read_data img mem inode offset buf length = some (r, mem')) ∧
    (∀ (fuel offset buf : Nat) (mem : Mem),
      (read_data_trace img (img.inodes inode) length fuel 0 offset buf mem).length ≤ length ∧
      ∀ s, s ∈ read_data_trace img (img.inodes inode) length fuel 0 offset buf mem →
        s.1 ≤ length ∧ s.2 ≤ (img.inodes inode).file_length) := by
  refine ⟨fun i offset buf mem hi ho => ?_, fun fuel i offset buf mem hi hf => ⟨?_, ?_⟩,
    fun mem offset buf => ?_, fun fuel offset buf mem => ?_⟩
  · have hmlt : offset % 4096 < 4096 := Nat.mod_lt _ (by decide)
    have hcnt1 : 1 ≤ read_data_count (img.inodes inode) length i offset := by
      unfold read_data_count; omega
    have hle1 : read_data_count (img.inodes inode) length i offset ≤ length - i := by
      unfold read_data_count; omega
    have hle2 : read_data_count (img.inodes inode) length i offset
        ≤ (img.inodes inode).file_length - offset := by
      unfold read_data_count; omega
    rcases read_data_body_cases img (img.inodes inode) length i offset buf mem hlen hL hi ho
      with hn | ⟨mem', hs⟩
    · left
      refine ⟨hn, fun fuel => ?_⟩
      rw [read_data_loop_body img (img.inodes inode) length fuel i offset buf mem ⟨hi, ho⟩, hn]
    · right
      have ea : add32 i (read_data_count (img.inodes inode) length i offset)
          = i + read_data_count (img.inodes inode) length i offset := add32_of_lt (by omega)
      have eb : add32 offset (read_data_count (img.inodes inode) length i offset)
          = offset + read_data_count (img.inodes inode) length i offset :=
        add32_of_lt (by omega)
      refine ⟨read_data_count (img.inodes inode) length i offset, mem', ?_, hcnt1, rfl, ea,
        by omega, eb, by omega, fun fuel => ?_⟩
      · rw [ea, eb]; exact hs
      · rw [read_data_loop_body img (img.inodes inode) length (fuel + 1) i offset buf mem
          ⟨hi, ho⟩, hs]
  · obtain ⟨r, mem', he, hr, _⟩ := read_data_loop_safe img (img.inodes inode) length hlen hL
      fuel i offset buf mem hi hf
    exact ⟨r, mem', he, hr⟩
  · exact read_data_loop_fuel img (img.inodes inode) length hlen hL fuel (length - i) i offset
      buf mem hi hf (Nat.le_refl _)
  · unfold read_data
    by_cases h1 : inode ≥ img.num_inode
    · rw [if_pos h1]; exact ⟨_, _, rfl⟩
    · rw [if_neg h1]
      by_cases h2 : buf = 0
      · rw [if_pos h2]; exact ⟨_, _, rfl⟩
      · rw [if_neg h2]
        obtain ⟨r, mem', he, _⟩ := read_data_loop_safe img (img.inodes inode) length hlen hL
          length 0 offset buf mem (Nat.zero_le _) (by omega)
        exact ⟨r, mem', he⟩
  · obtain ⟨h1, h2⟩ := read_data_trace_spec img (img.inodes inode) length hlen hL fuel 0 offset
      buf mem (Nat.zero_le _)
    exact ⟨h1, fun s hs => ⟨(h2 s hs).2.1, (h2 s hs).2.2.2⟩⟩

/-- C18 on the sample image, inode 1 (5000 bytes), for the largest length
`0xFFFFFFFF`: from `i = 0`, `offset = 4090` the pass copies 6 bytes, and
`read_data` returns for offset `0xFFFFFFFF` as well. -/
theorem read_data_terminates_witness :
    (∃ mem', read_data_body sample_image (sample_image.inodes 1) 4294967295 0 4090 1000
      (fun _ => 0) = some (6, 6, 4096, 1006, mem')) ∧
    (∃ r mem', read_data sample_image (fun _ => 0) 1 4294967295 1000 4294967295
      = some (r, mem')) := by
  have h := read_data_terminates sample_image 1 4294967295 (by decide) (by decide)
  refine ⟨?_, h.2.2.1 (fun _ => 0) 4294967295 1000⟩
  rcases h.1 0 4090 1000 (fun _ => 0) (by decide) (by decide) with ⟨hn, _⟩ | ⟨c, mem', hs, _, hc, _⟩
  · exact absurd hn (by simp [read_data_body]; decide)
  · have hc6 : c = 6 := by rw [hc]; decide
    subst hc6
    exact ⟨mem', hs⟩

/-! ### Round-robin selection in `do_schedule` -/

/-- The scan looks at the PCBs of pids below 6 only, and only at whether they
are runnable. -/
theorem sched_scan_congr (pcbs pcbs2 : Nat → pcb_t)
    (h : ∀ p, p < 6 → runnable pcbs p = runnable pcbs2 p) (c : Nat) :
    ∀ n i, sched_scan pcbs c n i = sched_scan pcbs2 c n i := by
  intro n
  induction n with
  | zero => intro i; rfl
  | succ n ih =>
    intro i
    have hlt : add32 (add32 c i) 1 % NUM_PROCESSES < 6 := Nat.mod_lt _ (by decide)
    have hr := h _ hlt
    unfold runnable at hr
    rw [sched_scan, sched_scan]
    by_cases hc : (pcbs (add32 (add32 c i) 1 % NUM_PROCESSES)).present ≠ 0 ∧
        (pcbs (add32 (add32 c i) 1 % NUM_PROCESSES)).running ≠ 0
    · have hc2 : (pcbs2 (add32 (add32 c i) 1 % NUM_PROCESSES)).present ≠ 0 ∧
          (pcbs2 (add32 (add32 c i) 1 % NUM_PROCESSES)).running ≠ 0 := by
        rw [decide_eq_true hc] at hr
        exact of_decide_eq_true hr.symm
      rw [if_pos hc, if_pos hc2]
    · have hc2 : ¬ ((pcbs2 (add32 (add32 c i) 1 % NUM_PROCESSES)).present ≠ 0 ∧
          (pcbs2 (add32 (add32 c i) 1 % NUM_PROCESSES)).running ≠ 0) := by
        rw [decide_eq_false hc] at hr
        exact of_decide_eq_false hr.symm
      rw [if_neg hc, if_neg hc2, ih]

theorem selections_congr (pcbs pcbs2 : Nat → pcb_t)
    (h : ∀ p, p < 6 → runnable pcbs p = runnable pcbs2 p) :
    ∀ n c, selections pcbs n c = selections pcbs2 n c := by
  intro n
  induction n with
  | zero => intro c; rfl
  | succ n ih =>
    intro c
    rw [selections, selections, sched_scan_congr pcbs pcbs2 h]
    cases sched_scan pcbs2 c NUM_PROCESSES 0 with
    | none => rfl
    | some next => simp only; rw [ih]

theorem runnable_set_congr (pcbs pcbs2 : Nat → pcb_t)
    (h : ∀ p, p < 6 → runnable pcbs p = runnable pcbs2 p) :
    runnable_set pcbs = runnable_set pcbs2 := by
  unfold runnable_set
  apply List.filter_congr
  intro p hp
  exact h p (by simpa [NUM_PROCESSES] using hp)

theorem mask_bits : ∀ b0 b1 b2 b3 b4 b5 : Bool,
    ((if b0 then 1 else 0) + ((if b1 then 2 else 0) + ((if b2 then 4 else 0) +
      ((if b3 then 8 else 0) + ((if b4 then 16 else 0) + (if b5 then 32 else 0))))) < 64) ∧
    ∀ p, p < 6 →
      Nat.testBit ((if b0 then 1 else 0) + ((if b1 then 2 else 0) + ((if b2 then 4 else 0) +
        ((if b3 then 8 else 0) + ((if b4 then 16 else 0) + (if b5 then 32 else 0)))))) p
      = [b0, b1, b2, b3, b4, b5].getD p false := by
  decide

/-- Every process table has the runnable pids of `mask_pcbs m` for its own
mask `m < 64`. -/
theorem runnable_mask_spec (pcbs : Nat → pcb_t) :
    runnable_mask pcbs < 64 ∧
    ∀ p, p < 6 → runnable pcbs p = runnable (mask_pcbs (runnable_mask pcbs)) p := by
  have hm : runnable_mask pcbs =
      (if runnable pcbs 0 then 1 else 0) + ((if runnable pcbs 1 then 2 else 0) +
        ((if runnable pcbs 2 then 4 else 0) + ((if runnable pcbs 3 then 8 else 0) +
          ((if runnable pcbs 4 then 16 else 0) + (if runnable pcbs 5 then 32 else 0))))) := by
    simp [runnable_mask, NUM_PROCESSES, List.range_succ]
  have hb := mask_bits (runnable pcbs 0) (runnable pcbs 1) (runnable pcbs 2) (runnable pcbs 3)
    (runnable pcbs 4) (runnable pcbs 5)
  rw [← hm] at hb
  refine ⟨hb.1, fun p hp => ?_⟩
  have ht := hb.2 p hp
  have hr : runnable (mask_pcbs (runnable_mask pcbs)) p = (runnable_mask pcbs).testBit p := by
    unfold runnable mask_pcbs
    cases (runnable_mask pcbs).testBit p <;> simp
  rw [hr, ht]
  interval_cases p <;> rfl

set_option maxRecDepth 1000000 in
theorem selections_mask : ∀ m, m < 64 → ∀ c, c < 6 → c ∈ runnable_set (mask_pcbs m) →
    (selections (mask_pcbs m) (runnable_set (mask_pcbs m)).length c).Perm
      (runnable_set (mask_pcbs m)) ∧
    (selections (mask_pcbs m) (runnable_set (mask_pcbs m)).length c).getLast? = some c := by
  decide

/-- Successive selections over a fixed set of runnable PCBs run through the
set once and come back to the start. -/
theorem selections_cycle (pcbs : Nat → pcb_t) (c : Nat) (hc : c ∈ runnable_set pcbs) :
    (selections pcbs (runnable_set pcbs).length c).Perm (runnable_set pcbs) ∧
    (selections pcbs (runnable_set pcbs).length c).getLast? = some c := by
  obtain ⟨hm, hr⟩ := runnable_mask_spec pcbs
  have hc6 : c < 6 := by
    unfold runnable_set at hc
    have := (List.mem_filter.mp hc).1
    simpa [NUM_PROCESSES] using this
  rw [runnable_set_congr pcbs _ hr] at hc ⊢
  rw [selections_congr pcbs _ hr]
  exact selections_mask _ hm c hc6 hc
/-- The scan of `do_schedule` stops at the first runnable pid after the
current one, in cyclic order. -/
theorem sched_scan_spec (pcbs : Nat → pcb_t) (c : Nat) (hc : c < 6) :
    ∀ n i0, i0 + n ≤ 6 →
      (∃ i, i0 ≤ i ∧ i < i0 + n ∧ runnable pcbs ((c + i + 1) % 6) = true ∧
        (∀ j, i0 ≤ j → j < i → runnable pcbs ((c + j + 1) % 6) = false) ∧
        sched_scan pcbs c n i0 = some ((c + i + 1) % 6)) ∨
      ((∀ i, i0 ≤ i → i < i0 + n → runnable pcbs ((c + i + 1) % 6) = false) ∧
        sched_scan pcbs c n i0 = none) := by
  intro n
  induction n with
  | zero =>
    intro i0 _
    right
    exact ⟨fun i h1 h2 => by omega, rfl⟩
  | succ n ih =>
    intro i0 hi0
    have hnext : add32 (add32 c i0) 1 % NUM_PROCESSES = (c + i0 + 1) % 6 := by
      have e1 : add32 c i0 = c + i0 := add32_of_lt (by omega)
      rw [e1, add32_of_lt (by omega)]
      rfl
    rw [sched_scan, hnext]
    by_cases hr : (pcbs ((c + i0 + 1) % 6)).present ≠ 0 ∧ (pcbs ((c + i0 + 1) % 6)).running ≠ 0
    · left
      rw [if_pos hr]
      exact ⟨i0, Nat.le_refl _, by omega, decide_eq_true hr, fun j h1 h2 => by omega, rfl⟩
    · rw [if_neg hr]
      have hr0 : runnable pcbs ((c + i0 + 1) % 6) = false := decide_eq_false hr
      rcases ih (i0 + 1) (by omega) with ⟨i, h1, h2, h3, h4, h5⟩ | ⟨h1, h2⟩
      · left
        refine ⟨i, by omega, by omega, h3, fun j hj1 hj2 => ?_, h5⟩
        by_cases hj : j = i0
        · rw [hj]; exact hr0
        · exact h4 j (by omega) hj2
      · right
        refine ⟨fun i hi1 hi2 => ?_, h2⟩
        by_cases hi : i = i0
        · rw [hi]; exact hr0
        · exact h1 i (by omega) (by omega)

/-- C12: round-robin selection in `do_schedule`, from the current pid
`c < 6`.  The entry test panics, and nothing is selected, on a switch
(`jump = 0`) from a PCB that is not present.  Otherwise `do_schedule` selects
pid `(c + i + 1) mod 6` for the smallest `i` in `0..5` whose PCB is present
and running, and transfers control to it by `jump_to_process` or
`switch_to_process`; it selects nothing, and halts, when there is no such
`i`.  When the current process is the only runnable one it selects that
process itself.  While the set `R` of runnable PCBs stays fixed with `k`
members, `k` successive selections starting from a member `c` of `R` visit
every member of `R` exactly once, the last one being `c` again; the first of
them is the one `do_schedule` makes from `c`. -/
theorem do_schedule_round_robin (k : kernel_t) (c : Nat) (hc : c < 6) (jump : Bool) :
    (jump = false ∧ (k.pcbs c).present = 0 → do_schedule k c jump = sched_pass.panic) ∧
    (jump = true ∨ (k.pcbs c).present ≠ 0 →
      (∃ i, i < 6 ∧ runnable k.pcbs ((c + i + 1) % 6) = true ∧
        (∀ j, j < i → runnable k.pcbs ((c + j + 1) % 6) = false) ∧
        sched_scan k.pcbs c NUM_PROCESSES 0 = some ((c + i + 1) % 6) ∧
        do_schedule k c jump =
          if jump then sched_pass.jump_to ((c + i + 1) % 6)
          else sched_pass.switch_to ((c + i + 1) % 6)) ∨
      ((∀ i, i < 6 → runnable k.pcbs ((c + i + 1) % 6) = false) ∧
        sched_scan k.pcbs c NUM_PROCESSES 0 = none ∧
        do_schedule k c jump = sched_pass.hlt)) ∧
    ((∀ p, p < 6 → (runnable k.pcbs p = true ↔ p = c)) →
      do_schedule k c jump = if jump then sched_pass.jump_to c else sched_pass.switch_to c) ∧
    (c ∈ runnable_set k.pcbs →
      (selections k.pcbs (runnable_set k.pcbs).length c).Perm (runnable_set k.pcbs) ∧
      (selections k.pcbs (runnable_set k.pcbs).length c).Nodup ∧
      (selections k.pcbs (runnable_set k.pcbs).length c).getLast? = some c ∧
      ∃ next, (selections k.pcbs (runnable_set k.pcbs).length c).head? = some next ∧
        do_schedule k c jump =
          if jump then sched_pass.jump_to next else sched_pass.switch_to next) := by
  have hs := sched_scan_spec k.pcbs c hc 6 0 (by omega)
  have hpass : (jump = true ∨ (k.pcbs c).present ≠ 0) → do_schedule k c jump =
      match sched_scan k.pcbs c NUM_PROCESSES 0 with
      | some next => if jump then sched_pass.jump_to next else sched_pass.switch_to next
      | none => sched_pass.hlt := by
    intro hok
    have hneg : ¬ (jump = false ∧ (k.pcbs c).present = 0) := by
      rintro ⟨h1, h2⟩
      rcases hok with h | h
      · rw [h1] at h
        cases h
      · exact h h2
    unfold do_schedule
    rw [if_neg hneg]
  have hpres : runnable k.pcbs c = true → (k.pcbs c).present ≠ 0 := by
    intro hr
    exact (of_decide_eq_true hr).1
  refine ⟨fun hbad => ?_, fun hok => ?_, fun honly => ?_, fun hmem => ?_⟩
  · unfold do_schedule
    rw [if_pos hbad]
  · rcases hs with ⟨i, _, h2, h3, h4, h5⟩ | ⟨h1, h2⟩
    · left
      refine ⟨i, by omega, h3, fun j hj => h4 j (Nat.zero_le _) hj, h5, ?_⟩
      have h5' : sched_scan k.pcbs c NUM_PROCESSES 0 = some ((c + i + 1) % 6) := h5
      rw [hpass hok, h5']
    · right
      refine ⟨fun i hi => h1 i (Nat.zero_le _) (by omega), h2, ?_⟩
      have h2' : sched_scan k.pcbs c NUM_PROCESSES 0 = none := h2
      rw [hpass hok, h2']
  · have hcr := (honly c hc).mpr rfl
    rw [hpass (Or.inr (hpres hcr))]
    rcases hs with ⟨i, _, h2, h3, _, h5⟩ | ⟨h1, _⟩
    · have hlt : (c + i + 1) % 6 < 6 := Nat.mod_lt _ (by decide)
      have he := (honly _ hlt).mp h3
      rw [he] at h5
      have h5' : sched_scan k.pcbs c NUM_PROCESSES 0 = some c := h5
      rw [h5']
    · have h5 := h1 5 (Nat.zero_le _) (by omega)
      have e : (c + 5 + 1) % 6 = c := by omega
      rw [e, hcr] at h5
      cases h5
  · obtain ⟨hp, hl⟩ := selections_cycle k.pcbs c hmem
    have hnd : (runnable_set k.pcbs).Nodup := by
      unfold runnable_set
      exact List.Nodup.filter _ (List.nodup_range _)
    refine ⟨hp, hp.nodup_iff.mpr hnd, hl, ?_⟩
    have hcr : runnable k.pcbs c = true := by
      unfold runnable_set at hmem
      exact (List.mem_filter.mp hmem).2
    have hlen : (runnable_set k.pcbs).length ≠ 0 := by
      intro h0
      rw [List.length_eq_zero] at h0
      rw [h0] at hmem
      cases hmem
    obtain ⟨n, hn⟩ := Nat.exists_eq_succ_of_ne_zero hlen
    rw [hn, hpass (Or.inr (hpres hcr))]
    rcases hs with ⟨i, _, _, _, _, h5⟩ | ⟨h1, _⟩
    · have h5' : sched_scan k.pcbs c NUM_PROCESSES 0 = some ((c + i + 1) % 6) := h5
      refine ⟨(c + i + 1) % 6, ?_, by rw [h5']⟩
      rw [selections, h5']
      rfl
    · have h5 := h1 5 (Nat.zero_le _) (by omega)
      have e : (c + 5 + 1) % 6 = c := by omega
      rw [e, hcr] at h5
      cases h5

/-- C12 on a table with pids 0, 2 and 5 runnable: from pid 2 the scheduler
switches to 5, and three selections from pid 2 give 5, 0, 2; from pid 1,
which is not present, a switch panics and a jump goes to pid 2. -/
theorem do_schedule_round_robin_witness :
    do_schedule
      { pcbs := mask_pcbs 37, terminals := sample_kernel.terminals,
        rtc_driver_data_head := none, rtc_driver_counter := 0 } 2 false
      = sched_pass.switch_to 5 ∧
    do_schedule
      { pcbs := mask_pcbs 37, terminals := sample_kernel.terminals,
        rtc_driver_data_head := none, rtc_driver_counter := 0 } 1 false
      = sched_pass.panic ∧
    do_schedule
      { pcbs := mask_pcbs 37, terminals := sample_kernel.terminals,
        rtc_driver_data_head := none, rtc_driver_counter := 0 } 1 true
      = sched_pass.jump_to 2 ∧
    selections (mask_pcbs 37) 3 2 = [5, 0, 2] ∧
    (selections (mask_pcbs 37) (runnable_set (mask_pcbs 37)).length 2).Perm
      (runnable_set (mask_pcbs 37)) := by
  have h := do_schedule_round_robin
    { pcbs := mask_pcbs 37, terminals := sample_kernel.terminals,
      rtc_driver_data_head := none, rtc_driver_counter := 0 } 2 (by decide) false
  have h1 := do_schedule_round_robin
    { pcbs := mask_pcbs 37, terminals := sample_kernel.terminals,
      rtc_driver_data_head := none, rtc_driver_counter := 0 } 1 (by decide) false
  refine ⟨by decide, h1.1 (by decide), by decide, by decide, (h.2.2.2 (by decide)).1⟩

/-! ### `term_putc` writes inside the video buffer of its terminal -/

theorem video_buffers_eq (t : Int) (ht : 0 ≤ t ∧ t < 3) :
    video_buffers t = (186 + t.toNat) * 4096 := by
  have h : t = 0 ∨ t = 1 ∨ t = 2 := by omega
  rcases h with e | e | e <;> rw [e] <;> decide

theorem term_putc_scroll_frame (t : Int) (k : kernel_t) (vmem : Mem)
    (hy : 0 ≤ (k.terminals t).screen_y) :
    (∀ a, ¬ (video_buffers t ≤ a ∧ a < video_buffers t + 4000) →
      (term_putc_scroll t k vmem).2 a = vmem a) ∧
    (term_putc_scroll t k vmem).1.pcbs = k.pcbs ∧
    ((term_putc_scroll t k vmem).1.terminals t).screen_x = (k.terminals t).screen_x ∧
    0 ≤ ((term_putc_scroll t k vmem).1.terminals t).screen_y ∧
    ((term_putc_scroll t k vmem).1.terminals t).screen_y < 25 := by
  unfold term_putc_scroll
  simp only
  by_cases h : (k.terminals t).screen_y ≥ (NUM_ROWS : Int)
  · rw [if_pos h]
    refine ⟨fun a ha => ?_, rfl, by simp [set_term], by simp [set_term, NUM_ROWS],
      by simp [set_term, NUM_ROWS]⟩
    have e1 : (NUM_ROWS - 1) * NUM_COLS * 2 = 3840 := by decide
    have e2 : ((NUM_ROWS - 1) * NUM_COLS) <<< 1 = 3840 := by decide
    have e3 : NUM_COLS <<< 1 = 160 := by decide
    have e4 : 2 * NUM_COLS = 160 := by decide
    simp only [memset_word, memmove, e1, e2, e3, e4]
    rw [if_neg (by omega), if_neg (by omega)]
  · rw [if_neg h]
    have h' : (k.terminals t).screen_y < 25 := by
      have : ((NUM_ROWS : Nat) : Int) = 25 := rfl
      omega
    exact ⟨fun _ _ => rfl, rfl, rfl, hy, h'⟩

theorem term_putc_char_frame (c : Nat) (t : Int) (k : kernel_t) (vmem : Mem)
    (ht : 0 ≤ t ∧ t < 3) (hc : cursor_on_screen k t) :
    (∀ a, ¬ (video_buffers t ≤ a ∧ a < video_buffers t + 4000) →
      (term_putc_char c t k vmem).2 a = vmem a) ∧
    (term_putc_char c t k vmem).1.pcbs = k.pcbs ∧
    cursor_on_screen (term_putc_char c t k vmem).1 t := by
  obtain ⟨hx0, hx1, hy0, hy1⟩ := hc
  have hv := video_buffers_eq t ht
  have ht3 : t.toNat < 3 := by omega
  unfold term_putc_char
  simp only
  by_cases hnl : c = 10 ∨ c = 13
  · rw [if_pos hnl]
    obtain ⟨h1, h2, h3, h4, h5⟩ := term_putc_scroll_frame t
      (set_term k t { (k.terminals t) with
        screen_y := (k.terminals t).screen_y + 1, screen_x := 0 }) vmem
      (by simp only [set_term, Function.update_same]; omega)
    refine ⟨h1, h2, ?_, ?_, h4, h5⟩
    · rw [h3]; simp [set_term]
    · rw [h3]; simp [set_term]
  · rw [if_neg hnl]
    have hcol : ((NUM_COLS : Nat) : Int) = 80 := rfl
    rw [hcol]
    have hq : Int.tdiv ((k.terminals t).screen_x + 1) 80 = 0 ∨
        Int.tdiv ((k.terminals t).screen_x + 1) 80 = 1 := by
      rw [Int.tdiv_eq_ediv (by omega) (by decide)]
      omega
    have hm0 : 0 ≤ Int.tmod ((k.terminals t).screen_x + 1) 80 := by
      rw [Int.tmod_eq_emod (by omega) (by decide)]
      omega
    have hm1 : Int.tmod ((k.terminals t).screen_x + 1) 80 < 80 := by
      rw [Int.tmod_eq_emod (by omega) (by decide)]
      omega
    obtain ⟨h1, h2, h3, h4, h5⟩ := term_putc_scroll_frame t
      (set_term k t { (k.terminals t) with
        screen_y := (k.terminals t).screen_y + Int.tdiv ((k.terminals t).screen_x + 1) 80,
        screen_x := Int.tmod ((k.terminals t).screen_x + 1) 80 })
      (Function.update (Function.update vmem
        (ofInt32 ((video_buffers t : Int)
          + (80 * (k.terminals t).screen_y + (k.terminals t).screen_x) * 2)) c)
        (add32 (ofInt32 ((video_buffers t : Int)
          + (80 * (k.terminals t).screen_y + (k.terminals t).screen_x) * 2)) 1) ATTRIB)
      (by simp only [set_term, Function.update_same]; omega)
    refine ⟨fun a ha => ?_, h2, ?_, ?_, h4, h5⟩
    · rw [h1 a ha]
      have hpos : ofInt32 ((video_buffers t : Int)
          + (80 * (k.terminals t).screen_y + (k.terminals t).screen_x) * 2)
          = video_buffers t
            + ((80 * (k.terminals t).screen_y + (k.terminals t).screen_x) * 2).toNat := by
        rw [ofInt32_of_nonneg (by omega) (by rw [hv]; omega)]
        omega
      rw [hpos, add32_of_lt (by rw [hv]; omega), Function.update_noteq (by omega),
        Function.update_noteq (by omega)]
    · rw [h3]; simp only [set_term, Function.update_same]; exact hm0
    · rw [h3]; simp only [set_term, Function.update_same]; exact hm1

/-- With the cursor on the screen, `term_putc` on terminal `t` writes inside
the first 4000 bytes of `video_buffers[t]` only, and leaves the cursor on the
screen. -/
theorem term_putc_frame (c : Nat) (t : Int) (k : kernel_t) (vmem : Mem)
    (ht : 0 ≤ t ∧ t < 3) (hc : cursor_on_screen k t) :
    ∃ s, term_putc c t k vmem = some s ∧
      (∀ a, ¬ (video_buffers t ≤ a ∧ a < video_buffers t + 4000) → s.2 a = vmem a) ∧
      cursor_on_screen s.1 t := by
  unfold term_putc
  rw [if_neg (by unfold NUM_TERMINALS; omega)]
  by_cases h9 : c = 9
  · rw [if_pos h9]
    obtain ⟨a1, _, c1⟩ := term_putc_char_frame 32 t k vmem ht hc
    obtain ⟨a2, _, c2⟩ := term_putc_char_frame 32 t _ (term_putc_char 32 t k vmem).2 ht c1
    obtain ⟨a3, _, c3⟩ := term_putc_char_frame 32 t _
      (term_putc_char 32 t (term_putc_char 32 t k vmem).1 (term_putc_char 32 t k vmem).2).2 ht c2
    obtain ⟨a4, _, c4⟩ := term_putc_char_frame 32 t _
      (term_putc_char 32 t
        (term_putc_char 32 t (term_putc_char 32 t k vmem).1 (term_putc_char 32 t k vmem).2).1
        (term_putc_char 32 t (term_putc_char 32 t k vmem).1 (term_putc_char 32 t k vmem).2).2).2
      ht c3
    obtain ⟨a5, _, x5, y5, z5⟩ := term_putc_scroll_frame t _
      (term_putc_char 32 t
        (term_putc_char 32 t
          (term_putc_char 32 t (term_putc_char 32 t k vmem).1 (term_putc_char 32 t k vmem).2).1
          (term_putc_char 32 t (term_putc_char 32 t k vmem).1 (term_putc_char 32 t k vmem).2).2).1
        (term_putc_char 32 t
          (term_putc_char 32 t (term_putc_char 32 t k vmem).1 (term_putc_char 32 t k vmem).2).1
          (term_putc_char 32 t (term_putc_char 32 t k vmem).1 (term_putc_char 32 t k vmem).2).2).2).2
      c4.2.2.1
    refine ⟨_, rfl, fun a ha => ?_, ?_⟩
    · rw [a5 a ha, a4 a ha, a3 a ha, a2 a ha, a1 a ha]
    · exact ⟨by rw [x5]; exact c4.1, by rw [x5]; exact c4.2.1, y5, z5⟩
  · rw [if_neg h9]
    obtain ⟨a1, _, c1⟩ := term_putc_char_frame c t k vmem ht hc
    exact ⟨_, rfl, a1, c1⟩

/-! ### `set_user_page` -/

/-- C14: `set_user_page(pid)` for `pid < 6` whose PCB is on terminal `t` in
`{0, 1, 2}`.  Afterwards the `base_4m` field of page-directory entry 32 is
`pid + 2`, the frame of physical address `(pid+2) * 4 MiB`, and the low 22
bits of that entry, which hold all its flags, are as before; in the user
vidmap page-table entry `present` is the PCB's one-bit `vidmap` flag, `base`
is frame `0xBA + t`, the frame of `video_buffers[t]`, and bits 1..11 are as
before; every other entry of the directory and of the vidmap table, and the
whole low page table, are unchanged.  The frame is the one `term_putc`
writes for terminal `t`: with the cursor on the screen, every byte it changes
lies in that frame. -/
theorem set_user_page_spec (k : kernel_t) (pg : paging_t) (pid : Nat) (hpid : pid < 6)
    (ht : (k.pcbs pid).terminal_id = 0 ∨ (k.pcbs pid).terminal_id = 1 ∨
      (k.pcbs pid).terminal_id = 2) :
    get_bits ((set_user_page k pg pid).kernel_page_dir 32) 22 10 = pid + 2 ∧
    get_bits ((set_user_page k pg pid).kernel_page_dir 32) 22 10 * PAGE_4M_SIZE
      = (pid + 2) * 4194304 ∧
    (set_user_page k pg pid).kernel_page_dir 32 % 4194304 = pg.kernel_page_dir 32 % 4194304 ∧
    get_bits ((set_user_page k pg pid).user_vidmap_page_table 0) 0 1
      = (k.pcbs pid).vidmap % 2 ∧
    get_bits ((set_user_page k pg pid).user_vidmap_page_table 0) 12 20
      = 0xBA + (k.pcbs pid).terminal_id.toNat ∧
    get_bits ((set_user_page k pg pid).user_vidmap_page_table 0) 12 20 * PAGE_SIZE
      = video_buffers (k.pcbs pid).terminal_id ∧
    get_bits ((set_user_page k pg pid).user_vidmap_page_table 0) 1 11
      = get_bits (pg.user_vidmap_page_table 0) 1 11 ∧
    (∀ i, i ≠ 32 → (set_user_page k pg pid).kernel_page_dir i = pg.kernel_page_dir i) ∧
    (∀ i, i ≠ 0 →
      (set_user_page k pg pid).user_vidmap_page_table i = pg.user_vidmap_page_table i) ∧
    (set_user_page k pg pid).low_page_table = pg.low_page_table ∧
    (∀ (c : Nat) (k2 : kernel_t) (vmem : Mem), cursor_on_screen k2 (k.pcbs pid).terminal_id →
      ∃ s, term_putc c (k.pcbs pid).terminal_id k2 vmem = some s ∧
        ∀ a, s.2 a ≠ vmem a →
          a / PAGE_SIZE = get_bits ((set_user_page k pg pid).user_vidmap_page_table 0) 12 20) := by
  have hx : ofInt32 (toInt32 (u32 (add32 pid 2 * PAGE_4M_SIZE)) >>> 22) = pid + 2 := by
    interval_cases pid <;> decide
  have hidx : (USER_VIDMAP &&& (PAGE_4M_SIZE - 1)) >>> 12 = 0 := by decide
  have hb : ofInt32 (((VIDEO >>> 12 : Nat) : Int) + (k.pcbs pid).terminal_id + 2)
      = 186 + (k.pcbs pid).terminal_id.toNat := by
    rcases ht with e | e | e <;> rw [e] <;> decide
  have hv : video_buffers (k.pcbs pid).terminal_id
      = (186 + (k.pcbs pid).terminal_id.toNat) * 4096 := by
    rcases ht with e | e | e <;> rw [e] <;> decide
  have ht3 : (k.pcbs pid).terminal_id.toNat < 3 := by
    rcases ht with e | e | e <;> rw [e] <;> decide
  have hpd : (set_user_page k pg pid).kernel_page_dir 32
      = set_bits (pg.kernel_page_dir 32) 22 10 (pid + 2) := by
    unfold set_user_page
    simp only [hx, Function.update_same]
  have hpt : (set_user_page k pg pid).user_vidmap_page_table 0
      = set_bits (set_bits (pg.user_vidmap_page_table 0) 0 1 (k.pcbs pid).vidmap) 12 20
          (186 + (k.pcbs pid).terminal_id.toNat) := by
    unfold set_user_page
    simp only
    rw [hidx, hb, Function.update_same]
  have ht03 : 0 ≤ (k.pcbs pid).terminal_id ∧ (k.pcbs pid).terminal_id < 3 := by omega
  have hputc : ∀ (c : Nat) (k2 : kernel_t) (vmem : Mem),
      cursor_on_screen k2 (k.pcbs pid).terminal_id →
      ∃ s, term_putc c (k.pcbs pid).terminal_id k2 vmem = some s ∧
        ∀ a, s.2 a ≠ vmem a → a / 4096 = 186 + (k.pcbs pid).terminal_id.toNat := by
    intro c k2 vmem hcs
    obtain ⟨s, hs, hw, _⟩ := term_putc_frame c (k.pcbs pid).terminal_id k2 vmem ht03 hcs
    refine ⟨s, hs, fun a ha => ?_⟩
    have hin : video_buffers (k.pcbs pid).terminal_id ≤ a ∧
        a < video_buffers (k.pcbs pid).terminal_id + 4000 := by
      by_contra hc
      exact ha (hw a hc)
    rw [hv] at hin
    omega
  rw [hpd, hpt, hv]
  generalize (k.pcbs pid).terminal_id.toNat = t at *
  generalize (k.pcbs pid).vidmap = v at *
  generalize pg.kernel_page_dir 32 = d at *
  generalize pg.user_vidmap_page_table 0 = e at *
  have p22 : (2 : Nat) ^ 22 = 4194304 := by decide
  have p10 : (2 : Nat) ^ 10 = 1024 := by decide
  have p32 : (2 : Nat) ^ (22 + 10) = 4294967296 := by decide
  have p32b : (2 : Nat) ^ (12 + 20) = 4294967296 := by decide
  have p12 : (2 : Nat) ^ 12 = 4096 := by decide
  have p20 : (2 : Nat) ^ 20 = 1048576 := by decide
  have p11 : (2 : Nat) ^ 11 = 2048 := by decide
  have p01 : (2 : Nat) ^ (0 + 1) = 2 := by decide
  simp only [get_bits, set_bits, p22, p10, p32, p32b, p12, p20, p11, p01, Nat.pow_zero,
    Nat.pow_one, Nat.mod_one, Nat.div_one, Nat.mul_one, Nat.zero_add, PAGE_4M_SIZE, PAGE_SIZE]
  refine ⟨by omega, by omega, by omega, by omega, by omega, by omega, by omega, ?_, ?_, rfl,
    ?_⟩
  · intro i hi
    unfold set_user_page
    simp only [Function.update_noteq hi]
  · intro i hi
    unfold set_user_page
    simp only
    rw [hidx, Function.update_noteq hi]
  · intro c k2 vmem hcs
    obtain ⟨s, hs, hw⟩ := hputc c k2 vmem hcs
    refine ⟨s, hs, fun a ha => ?_⟩
    have := hw a ha
    omega

/-- C14 on the tables of `paging_init`, for the sample process (pid 0 on
terminal 0, no vidmap): entry 32 becomes the 4 MiB page at 8 MiB with its
flags `0x87` kept, and the vidmap entry points at frame `0xBA`, not present. -/
theorem set_user_page_spec_witness :
    get_bits ((set_user_page sample_kernel boot_paging 0).kernel_page_dir 32) 22 10 = 2 ∧
    (set_user_page sample_kernel boot_paging 0).kernel_page_dir 32 % 4194304 = 0x87 ∧
    get_bits ((set_user_page sample_kernel boot_paging 0).user_vidmap_page_table 0) 12 20
      = 0xBA ∧
    get_bits ((set_user_page sample_kernel boot_paging 0).user_vidmap_page_table 0) 0 1 = 0 :=
  have h := set_user_page_spec sample_kernel boot_paging 0 (by decide) (Or.inl rfl)
  ⟨h.1, h.2.2.1, h.2.2.2.2.1, h.2.2.2.1⟩

/-! ### The terminal round trip -/

theorem same_line_refl (t : Int) (k : kernel_t) : same_line t k k := ⟨rfl, rfl, rfl, rfl⟩

theorem same_line_trans {t : Int} {k k2 k3 : kernel_t} (h1 : same_line t k k2)
    (h2 : same_line t k2 k3) : same_line t k k3 :=
  ⟨h2.1.trans h1.1, h2.2.1.trans h1.2.1, h2.2.2.1.trans h1.2.2.1, h2.2.2.2.trans h1.2.2.2⟩

theorem term_putc_scroll_line (t : Int) (k : kernel_t) (vmem : Mem) :
    same_line t k (term_putc_scroll t k vmem).1 := by
  unfold term_putc_scroll
  simp only
  split
  · exact ⟨rfl, by simp [set_term], by simp [set_term], by simp [set_term]⟩
  · exact same_line_refl t k

theorem term_putc_char_line (c : Nat) (t : Int) (k : kernel_t) (vmem : Mem) :
    same_line t k (term_putc_char c t k vmem).1 := by
  unfold term_putc_char
  simp only
  split
  · refine same_line_trans ?_ (term_putc_scroll_line t _ _)
    exact ⟨rfl, by simp [set_term], by simp [set_term], by simp [set_term]⟩
  · refine same_line_trans ?_ (term_putc_scroll_line t _ _)
    exact ⟨rfl, by simp [set_term], by simp [set_term], by simp [set_term]⟩

/-- On a terminal id in range `term_putc` returns, and it leaves the line
buffer alone. -/
theorem term_putc_line (c : Nat) (t : Int) (k : kernel_t) (vmem : Mem) (ht : 0 ≤ t ∧ t < 3) :
    ∃ s, term_putc c t k vmem = some s ∧ same_line t k s.1 := by
  unfold term_putc
  rw [if_neg (by unfold NUM_TERMINALS; omega)]
  by_cases hc : c = 9
  · rw [if_pos hc]
    refine ⟨_, rfl, ?_⟩
    exact same_line_trans (same_line_trans (same_line_trans (same_line_trans
      (term_putc_char_line 32 t k vmem) (term_putc_char_line 32 t _ _))
      (term_putc_char_line 32 t _ _)) (term_putc_char_line 32 t _ _))
      (term_putc_scroll_line t _ _)
  · rw [if_neg hc]
    exact ⟨_, rfl, term_putc_char_line c t k vmem⟩

/-- One byte that `term_recv_byte` stores: a byte other than NUL and newline
below the capacity of 127, or a newline up to it. -/
theorem term_recv_byte_stores (c : Nat) (t : Int) (k : kernel_t) (vmem : Mem) (i : Nat)
    (ht : 0 ≤ t ∧ t < 3) (hflag : (k.terminals t).term_in_flag = 0)
    (hidx : (k.terminals t).buffer_index = (i : Int)) (hc : c ≠ 0)
    (hi : i < 127 ∨ (i = 127 ∧ c = 10)) :
    ∃ k2 vmem2, term_recv_byte c t k vmem = some (k2, vmem2) ∧ k2.pcbs = k.pcbs ∧
      (k2.terminals t).keyboard_buffer = Function.update (k.terminals t).keyboard_buffer i c ∧
      (k2.terminals t).buffer_index = ((i + 1 : Nat) : Int) ∧
      (k2.terminals t).term_in_flag = if c = 10 then 1 else 0 := by
  unfold term_recv_byte
  rw [if_neg (by unfold NUM_TERMINALS; omega)]
  simp only
  rw [if_neg (by rw [hflag]; decide)]
  simp only
  rw [if_pos ⟨hc, by rw [hidx]; unfold KEYBOARD_BUFFER_SIZE; omega⟩,
    if_neg (by rw [hidx]; omega)]
  obtain ⟨s, hs, hl⟩ := term_putc_line c t (set_term k t { (k.terminals t) with
    keyboard_buffer := Function.update (k.terminals t).keyboard_buffer
      (k.terminals t).buffer_index.toNat c,
    buffer_index := (k.terminals t).buffer_index + 1 }) vmem ht
  rw [hs]
  obtain ⟨k3, vmem3⟩ := s
  obtain ⟨hl1, hl2, hl3, hl4⟩ := hl
  simp only [set_term, Function.update_same] at hl1 hl2 hl3 hl4
  rw [hidx] at hl2 hl3
  simp only [Int.toNat_ofNat] at hl2
  simp only
  by_cases h10 : c = 10
  · rw [if_pos h10, if_pos h10]
    refine ⟨_, _, rfl, hl1, ?_, ?_, ?_⟩
    · simp only [set_term, Function.update_same]; exact hl2
    · simp only [set_term, Function.update_same]; rw [hl3]; push_cast; rfl
    · simp only [set_term, Function.update_same]
  · rw [if_neg h10, if_neg h10]
    refine ⟨_, _, rfl, hl1, hl2, ?_, ?_⟩
    · rw [hl3]; push_cast; rfl
    · rw [hl4]; exact hflag

/-- At capacity a byte other than a newline is dropped. -/
theorem term_recv_byte_full (c : Nat) (t : Int) (k : kernel_t) (vmem : Mem)
    (ht : 0 ≤ t ∧ t < 3) (hflag : (k.terminals t).term_in_flag = 0)
    (hidx : (k.terminals t).buffer_index = 127) (hc : c ≠ 10) :
    term_recv_byte c t k vmem = some (k, vmem) := by
  unfold term_recv_byte
  rw [if_neg (by unfold NUM_TERMINALS; omega)]
  simp only
  rw [if_neg (by rw [hflag]; decide)]
  simp only
  rw [if_neg (by rw [hidx]; unfold KEYBOARD_BUFFER_SIZE; omega)]

theorem feed_append (t : Int) : ∀ (bs cs : List Nat) (k : kernel_t) (vmem : Mem),
    feed t (bs ++ cs) k vmem = (feed t bs k vmem).bind (fun s => feed t cs s.1 s.2) := by
  intro bs
  induction bs with
  | nil => intro cs k vmem; rfl
  | cons b bs ih =>
    intro cs k vmem
    rw [List.cons_append, feed, feed]
    cases term_recv_byte b t k vmem with
    | none => rfl
    | some s => exact ih cs s.1 s.2

/-- Feeding bytes other than NUL and newline to a terminal with no line
pending: they are stored in order until the buffer holds 127 bytes, and the
rest are dropped. -/
theorem feed_plain (t : Int) (ht : 0 ≤ t ∧ t < 3) :
    ∀ (bs : List Nat) (k : kernel_t) (vmem : Mem) (i0 : Nat), i0 ≤ 127 →
      (k.terminals t).term_in_flag = 0 → (k.terminals t).buffer_index = (i0 : Int) →
      (∀ b, b ∈ bs → b ≠ 0 ∧ b ≠ 10) →
      ∃ k2 vmem2, feed t bs k vmem = some (k2, vmem2) ∧ k2.pcbs = k.pcbs ∧
        (k2.terminals t).term_in_flag = 0 ∧
        (k2.terminals t).buffer_index = ((min (i0 + bs.length) 127 : Nat) : Int) ∧
        ∀ j, (k2.terminals t).keyboard_buffer j =
          if i0 ≤ j ∧ j < min (i0 + bs.length) 127 then bs.getD (j - i0) 0
          else (k.terminals t).keyboard_buffer j := by
  intro bs
  induction bs with
  | nil =>
    intro k vmem i0 hi0 hflag hidx _
    refine ⟨k, vmem, rfl, rfl, hflag, ?_, fun j => ?_⟩
    · rw [hidx, List.length_nil, Nat.add_zero, Nat.min_eq_left hi0]
    · rw [if_neg]
      rw [List.length_nil, Nat.add_zero, Nat.min_eq_left hi0]
      omega
  | cons b bs ih =>
    intro k vmem i0 hi0 hflag hidx hbs
    have hb := hbs b (List.mem_cons_self _ _)
    have hbs' : ∀ c, c ∈ bs → c ≠ 0 ∧ c ≠ 10 := fun c hc => hbs c (List.mem_cons_of_mem _ hc)
    rw [feed]
    by_cases hfull : i0 < 127
    · obtain ⟨k1, vmem1, he, hp, hkb, hix, hfl⟩ := term_recv_byte_stores b t k vmem i0 ht hflag
        hidx hb.1 (Or.inl hfull)
      rw [if_neg hb.2] at hfl
      rw [he]
      obtain ⟨k2, vmem2, he2, hp2, hfl2, hix2, hkb2⟩ := ih k1 vmem1 (i0 + 1) (by omega) hfl hix
        hbs'
      have hlen : i0 + 1 + bs.length = i0 + (b :: bs).length := by
        rw [List.length_cons]; omega
      rw [hlen] at hix2 hkb2
      refine ⟨k2, vmem2, he2, hp2.trans hp, hfl2, hix2, fun j => ?_⟩
      rw [hkb2 j, hkb]
      have hmin : i0 < min (i0 + (b :: bs).length) 127 := by
        rw [List.length_cons]; omega
      by_cases hj : j = i0
      · subst hj
        rw [if_neg (by omega), if_pos ⟨Nat.le_refl _, hmin⟩, Function.update_same,
          Nat.sub_self]
        rfl
      · rw [Function.update_noteq hj]
        by_cases hr : i0 + 1 ≤ j ∧ j < min (i0 + (b :: bs).length) 127
        · rw [if_pos hr, if_pos ⟨by omega, hr.2⟩]
          have e : j - i0 = (j - (i0 + 1)) + 1 := by omega
          rw [e, List.getD_cons_succ]
        · rw [if_neg hr, if_neg (by omega)]
    · have hi127 : i0 = 127 := by omega
      have hidx' : (k.terminals t).buffer_index = 127 := by rw [hidx, hi127]; rfl
      rw [term_recv_byte_full b t k vmem ht hflag hidx' hb.2]
      obtain ⟨k2, vmem2, he2, hp2, hfl2, hix2, hkb2⟩ := ih k vmem i0 hi0 hflag hidx hbs'
      refine ⟨k2, vmem2, he2, hp2, hfl2, ?_, fun j => ?_⟩
      · rw [hix2, List.length_cons]
        congr 1
        omega
      · rw [hkb2 j, if_neg (by omega), if_neg (by omega)]

/-- The copy loop of `term_read` delivers the bytes of the line buffer from
`i` up to the buffer index, at most `n` of them. -/
theorem term_read_loop_spec (term : terminal_t) (buf B : Nat)
    (hB : term.buffer_index = (B : Int)) :
    ∀ (n i : Nat) (mem : Mem), i ≤ B →
      (term_read_loop term buf n i mem).1 = min (i + n) B ∧
      (∀ j, i ≤ j → j < min (i + n) B →
        (term_read_loop term buf n i mem).2 (buf + j) = term.keyboard_buffer j) ∧
      (∀ a, ¬ (buf + i ≤ a ∧ a < buf + min (i + n) B) →
        (term_read_loop term buf n i mem).2 a = mem a) := by
  intro n
  induction n with
  | zero =>
    intro i mem hi
    refine ⟨by rw [term_read_loop]; omega, fun j h1 h2 => by omega, fun _ _ => rfl⟩
  | succ n ih =>
    intro i mem hi
    rw [term_read_loop]
    by_cases hge : (i : Int) ≥ term.buffer_index
    · rw [if_pos hge]
      rw [hB] at hge
      refine ⟨by simp only; omega, fun j h1 h2 => by omega, fun _ _ => rfl⟩
    · rw [if_neg hge]
      rw [hB] at hge
      obtain ⟨h1, h2, h3⟩ := ih (i + 1) (Function.update mem (buf + i) (term.keyboard_buffer i))
        (by omega)
      have e : i + 1 + n = i + (n + 1) := by omega
      rw [e] at h1 h2 h3
      refine ⟨h1, fun j hj1 hj2 => ?_, fun a ha => ?_⟩
      · by_cases hj : j = i
        · subst hj
          rw [h3 (buf + j) (by omega), Function.update_same]
        · exact h2 j (by omega) hj2
      · rw [h3 a (by omega), Function.update_noteq (by omega)]

theorem hlt_until_now (cond : kernel_t → Bool) (env : irq_env) (k : kernel_t)
    (h : cond k = true) : hlt_until cond env k = some k := by
  cases env with
  | nil => rw [hlt_until, if_pos h]
  | cons irq env => rw [hlt_until, if_pos h]

/-- A `term_read` with a line pending: the count, the bytes delivered, and
the cleared line buffer. -/
theorem term_read_line (env : irq_env) (img : fs_image) (k : kernel_t) (mem : Mem) (cur : Nat)
    (fd : Option fd_ptr) (buf : Nat) (n : Int) (B : Nat)
    (ht : 0 ≤ (k.pcbs cur).terminal_id ∧ (k.pcbs cur).terminal_id < 3)
    (hflag : (k.terminals (k.pcbs cur).terminal_id).term_in_flag ≠ 0)
    (hB : (k.terminals (k.pcbs cur).terminal_id).buffer_index = (B : Int))
    (hbuf : buf ≠ 0) (hn : 0 ≤ n) :
    ∃ k2 mem2, term_read env img k mem cur fd buf n = some (min n (B : Int), k2, mem2) ∧
      (∀ j : Nat, (j : Int) < min n (B : Int) →
        mem2 (buf + j) = (k.terminals (k.pcbs cur).terminal_id).keyboard_buffer j) ∧
      (∀ a, ¬ (buf ≤ a ∧ ((a - buf : Nat) : Int) < min n (B : Int)) → mem2 a = mem a) ∧
      k2.pcbs = k.pcbs ∧
      (k2.terminals (k.pcbs cur).terminal_id).buffer_index = 0 ∧
      (∀ j, (k2.terminals (k.pcbs cur).terminal_id).keyboard_buffer j = 0) ∧
      (k2.terminals (k.pcbs cur).terminal_id).term_in_flag = 0 := by
  unfold term_read
  rw [if_neg (by omega)]
  simp only
  rw [hlt_until_now _ env k (by simp [hflag])]
  simp only
  unfold term_clear_keyboard_buffer
  rw [if_neg (by unfold NUM_TERMINALS; omega)]
  simp only
  obtain ⟨h1, h2, h3⟩ := term_read_loop_spec (k.terminals (k.pcbs cur).terminal_id) buf B hB
    n.toNat 0 mem (Nat.zero_le _)
  rw [Nat.zero_add] at h1 h2 h3
  have hmin : ((min n.toNat B : Nat) : Int) = min n (B : Int) := by omega
  rw [h1, hmin]
  refine ⟨_, _, rfl, fun j hj => ?_, fun a ha => ?_, rfl, ?_, fun j => ?_, ?_⟩
  · exact h2 j (Nat.zero_le _) (by omega)
  · exact h3 a (by omega)
  · simp [set_term]
  · simp [set_term]
  · simp [set_term]

/-- C15: the terminal round trip.  Terminal `t` starts with an empty line
buffer and no line pending.  After `term_recv_byte` has been fed the bytes
`b1..bm`, none of them NUL or newline, and then a newline, a line is pending
(`term_in_flag = 1`).  A `term_read` of `n >= 0` bytes by a process on
terminal `t` then returns `min(n, m' + 1)` with `m' = min(m, 127)`, the
buffer holds the first `min(n, m' + 1)` bytes of `b1..bm', newline` and no
other byte of memory is written; after the read the buffer index is 0, the
line buffer is all zero and no line is pending. -/
theorem terminal_round_trip (env : irq_env) (img : fs_image) (k : kernel_t) (vmem mem : Mem)
    (t : Int) (cur : Nat) (fd : Option fd_ptr) (bs : List Nat) (buf : Nat) (n : Int)
    (ht : 0 ≤ t ∧ t < 3) (hcur : (k.pcbs cur).terminal_id = t)
    (hidx : (k.terminals t).buffer_index = 0) (hflag : (k.terminals t).term_in_flag = 0)
    (hbs : ∀ b, b ∈ bs → b ≠ 0 ∧ b ≠ 10) (hbuf : buf ≠ 0) (hn : 0 ≤ n) :
    ∃ k1 vmem1, feed t (bs ++ [10]) k vmem = some (k1, vmem1) ∧
      (k1.terminals t).term_in_flag = 1 ∧
      ∃ k2 mem2, term_read env img k1 mem cur fd buf n
          = some (min n ((min bs.length 127 + 1 : Nat) : Int), k2, mem2) ∧
        (∀ j : Nat, (j : Int) < min n ((min bs.length 127 + 1 : Nat) : Int) →
          mem2 (buf + j) = if j < min bs.length 127 then bs.getD j 0 else 10) ∧
        (∀ a, ¬ (buf ≤ a ∧ ((a - buf : Nat) : Int) < min n ((min bs.length 127 + 1 : Nat) : Int)) →
          mem2 a = mem a) ∧
        (k2.terminals t).buffer_index = 0 ∧
        (∀ j, (k2.terminals t).keyboard_buffer j = 0) ∧
        (k2.terminals t).term_in_flag = 0 := by
  obtain ⟨k0, vmem0, he0, hp0, hfl0, hix0, hkb0⟩ := feed_plain t ht bs k vmem 0 (by omega) hflag
    (by rw [hidx]; rfl) hbs
  rw [Nat.zero_add] at hix0 hkb0
  obtain ⟨k1, vmem1, he1, hp1, hkb1, hix1, hfl1⟩ := term_recv_byte_stores 10 t k0 vmem0
    (min bs.length 127) ht hfl0 hix0 (by decide) (by omega)
  rw [if_pos rfl] at hfl1
  have hcur1 : (k1.pcbs cur).terminal_id = t := by rw [hp1, hp0]; exact hcur
  refine ⟨k1, vmem1, ?_, hfl1, ?_⟩
  · rw [feed_append, he0]
    simp only [Option.bind, feed]
    rw [he1]
  · obtain ⟨k2, mem2, hr, hin, hout, _, h1, h2, h3⟩ := term_read_line env img k1 mem cur fd buf n
      (min bs.length 127 + 1) (by rw [hcur1]; exact ht) (by rw [hcur1, hfl1]; decide)
      (by rw [hcur1]; exact hix1) hbuf hn
    rw [hcur1] at hin h1 h2 h3
    refine ⟨k2, mem2, hr, fun j hj => ?_, hout, h1, h2, h3⟩
    rw [hin j hj, hkb1]
    by_cases hjm : j < min bs.length 127
    · rw [if_pos hjm, Function.update_noteq (by omega), hkb0 j, if_pos ⟨Nat.zero_le _, hjm⟩,
        Nat.sub_zero]
    · have hje : j = min bs.length 127 := by omega
      rw [if_neg hjm, hje, Function.update_same]

/-- C15 on the keys `h`, `i`, newline: a read of 8 bytes on terminal 0
returns 3 and delivers the bytes `h`, `i`, newline. -/
theorem terminal_round_trip_witness :
    ∃ k1 vmem1, feed 0 [104, 105, 10] idle_kernel (fun _ => 0) = some (k1, vmem1) ∧
      ∃ k2 mem2, term_read [] sample_image k1 (fun _ => 0) 0 none 1000 8 = some (3, k2, mem2) ∧
        mem2 1000 = 104 ∧ mem2 1001 = 105 ∧ mem2 1002 = 10 ∧ mem2 1003 = 0 ∧
        (k2.terminals 0).buffer_index = 0 ∧ (k2.terminals 0).term_in_flag = 0 := by
  obtain ⟨k1, vmem1, hf, _, k2, mem2, hr, hin, hout, h1, _, h3⟩ :=
    terminal_round_trip [] sample_image idle_kernel (fun _ => 0) (fun _ => 0) 0 0 none
      [104, 105] 1000 8 (by decide) rfl rfl rfl (by decide) (by decide) (by decide)
  refine ⟨k1, vmem1, hf, k2, mem2, hr, hin 0 (by decide), hin 1 (by decide), hin 2 (by decide),
    hout 1003 (by decide), h1, h3⟩

/-! ### `irq_register_handler` -/

/-- On a finite list the walk ends within as many steps as the list has
nodes, and finds `node` exactly when it is an element. -/
theorem irq_walk_spec (nodes : Nat → irq_handler_node_t) (node : Nat) :
    ∀ (l : List Nat) (p fuel : Nat), is_list nodes p l = true → l.length ≤ fuel →
      irq_walk nodes node fuel p = some (decide (node ∈ l)) := by
  intro l
  induction l with
  | nil =>
    intro p fuel hl _
    have hp : p = 0 := of_decide_eq_true hl
    subst hp
    cases fuel <;> simp [irq_walk]
  | cons a l ih =>
    intro p fuel hl hf
    simp only [is_list, Bool.and_eq_true, decide_eq_true_eq] at hl
    obtain ⟨⟨hp0, hpa⟩, hrest⟩ := hl
    subst hpa
    cases fuel with
    | zero => simp at hf
    | succ fuel =>
      rw [irq_walk, if_pos hp0]
      by_cases hn : p = node
      · rw [if_pos hn]
        simp [hn]
      · rw [if_neg hn, ih _ fuel hrest (by simpa using hf)]
        have hn' : ¬ node = p := fun e => hn e.symm
        simp [hn']

/-- A store to a node outside a list leaves the list as it is. -/
theorem is_list_update (nodes : Nat → irq_handler_node_t) (node : Nat) (x : irq_handler_node_t) :
    ∀ (l : List Nat) (p : Nat), node ∉ l → is_list nodes p l = true →
      is_list (Function.update nodes node x) p l = true := by
  intro l
  induction l with
  | nil => intro p _ hl; exact hl
  | cons a l ih =>
    intro p hn hl
    simp only [is_list, Bool.and_eq_true, decide_eq_true_eq] at hl ⊢
    obtain ⟨⟨hp0, hpa⟩, hrest⟩ := hl
    have hna : a ≠ node := fun e => hn (by rw [e]; exact List.mem_cons_self _ _)
    refine ⟨⟨hp0, hpa⟩, ?_⟩
    rw [Function.update_noteq hna]
    exact ih _ (fun hm => hn (List.mem_cons_of_mem _ hm)) hrest

/-- What `irq_register_handler` does when the handler list `l` of line `irq`
is finite: it panics exactly on the five conditions of `irq_rejects`;
otherwise it returns, the list of line `irq` is `node` followed by `l`, no
handler field changes, and every other line keeps its head and, when `node`
is not one of its elements, its list. -/
theorem irq_register_handler_cases (s : irq_state) (irq node : Nat) (l : List Nat) (fuel : Nat)
    (hl : irq < 16 → is_list s.nodes (s.irq_handlers irq) l = true) (hfuel : l.length ≤ fuel) :
    (irq_rejects s irq node l → irq_register_handler fuel s irq node = irq_outcome.panic) ∧
    (¬ irq_rejects s irq node l →
      ∃ s2, irq_register_handler fuel s irq node = irq_outcome.done s2 ∧
        is_list s2.nodes (s2.irq_handlers irq) (node :: l) = true ∧
        (∀ a, (s2.nodes a).handler = (s.nodes a).handler) ∧
        ∀ j l2, j ≠ irq → s2.irq_handlers j = s.irq_handlers j ∧
          (node ∉ l2 → is_list s.nodes (s.irq_handlers j) l2 = true →
            is_list s2.nodes (s2.irq_handlers j) l2 = true)) := by
  unfold irq_register_handler irq_rejects IDT_NUM_PIC_IRQ
  by_cases h1 : irq ≥ 16
  · rw [if_pos h1]
    exact ⟨fun _ => rfl, fun hn => absurd (Or.inl h1) hn⟩
  · rw [if_neg h1]
    by_cases h2 : node = 0
    · rw [if_pos h2]
      exact ⟨fun _ => rfl, fun hn => absurd (Or.inr (Or.inl h2)) hn⟩
    · rw [if_neg h2]
      by_cases h3 : (s.nodes node).handler = 0
      · rw [if_pos h3]
        exact ⟨fun _ => rfl, fun hn => absurd (Or.inr (Or.inr (Or.inl h3))) hn⟩
      · rw [if_neg h3]
        by_cases h4 : (s.nodes node).next ≠ 0
        · rw [if_pos h4]
          exact ⟨fun _ => rfl, fun hn => absurd (Or.inr (Or.inr (Or.inr (Or.inl h4)))) hn⟩
        · rw [if_neg h4]
          have hlist := hl (by omega)
          rw [irq_walk_spec s.nodes node l _ fuel hlist hfuel]
          by_cases h5 : node ∈ l
          · rw [decide_eq_true h5]
            exact ⟨fun _ => rfl, fun hn =>
              absurd (Or.inr (Or.inr (Or.inr (Or.inr h5)))) hn⟩
          · rw [decide_eq_false h5]
            refine ⟨fun hr => ?_, fun _ => ⟨_, rfl, ?_, fun a => ?_, fun j l2 hj => ⟨?_, ?_⟩⟩⟩
            · rcases hr with hr | hr | hr | hr | hr
              · exact absurd hr h1
              · exact absurd hr h2
              · exact absurd hr h3
              · exact absurd hr h4
              · exact absurd hr h5
            · simp only [is_list, Function.update_same, Bool.and_eq_true, decide_eq_true_eq]
              exact ⟨⟨h2, trivial⟩, is_list_update s.nodes node _ l _ h5 hlist⟩
            · by_cases ha : a = node
              · subst ha
                simp only [Function.update_same]
              · simp only [Function.update_noteq ha]
            · simp only
              rw [Function.update_noteq hj]
            · intro hn2 hl2
              simp only
              rw [Function.update_noteq hj]
              exact is_list_update s.nodes node _ l2 _ hn2 hl2

theorem irq_register_handler_cases_witness :
    ∃ s2, irq_register_handler 1 two_lines 4 300 = irq_outcome.done s2 ∧
      is_list s2.nodes (s2.irq_handlers 4) [300, 100] = true ∧
      is_list s2.nodes (s2.irq_handlers 5) [200] = true := by
  obtain ⟨s2, h1, h2, _, h4⟩ := (irq_register_handler_cases two_lines 4 300 [100] 1
    (fun _ => by decide) (by decide)).2 (by unfold irq_rejects; decide)
  exact ⟨s2, h1, h2, (h4 5 [200] (by decide)).2 (by decide) (by decide)⟩

/-- C20 fails on the code: lines 4 and 5 each hold one node, and the node of
line 5 is registered on line 4.  None of the five panic conditions holds (the
node is non-null, has a handler and a null link, and is not in the list of
line 4), the call does not panic and line 4 becomes that node followed by its
old list; but the list of line 5, which was the node alone, is now the node
followed by the old list of line 4. -/
theorem irq_register_handler_splices :
    is_list two_lines.nodes (two_lines.irq_handlers 4) [100] = true ∧
    is_list two_lines.nodes (two_lines.irq_handlers 5) [200] = true ∧
    ¬ irq_rejects two_lines 4 200 [100] ∧
    (irq_register_handler 1 two_lines 4 200).panicked = false ∧
    (irq_register_handler 1 two_lines 4 200).state.map
      (fun s => (is_list s.nodes (s.irq_handlers 4) [200, 100],
        is_list s.nodes (s.irq_handlers 5) [200],
        is_list s.nodes (s.irq_handlers 5) [200, 100])) = some (true, false, true) := by
  refine ⟨by decide, by decide, by unfold irq_rejects; decide, by decide, by decide⟩

/-! ### Exit codes -/

theorem same_processes_refl (k : kernel_t) : same_processes k k :=
  fun _ => ⟨rfl, rfl, rfl, rfl, rfl, fun _ => ⟨rfl, rfl⟩⟩

theorem same_processes_trans {k k2 k3 : kernel_t} (h1 : same_processes k k2)
    (h2 : same_processes k2 k3) : same_processes k k3 := by
  intro q
  obtain ⟨a1, a2, a3, a4, a5, a6⟩ := h1 q
  obtain ⟨b1, b2, b3, b4, b5, b6⟩ := h2 q
  exact ⟨b1.trans a1, b2.trans a2, b3.trans a3, b4.trans a4, b5.trans a5,
    fun i => ⟨(b6 i).1.trans (a6 i).1, (b6 i).2.trans (a6 i).2⟩⟩

/-- A store to a descriptor that keeps its present bit and its driver. -/
theorem same_processes_set_fd (k : kernel_t) (p : fd_ptr) (f : fd_info_t)
    (h1 : f.present = (get_fd k p).present) (h2 : f.file_ops = (get_fd k p).file_ops) :
    same_processes k (set_fd k p f) := by
  obtain ⟨p1, p2⟩ := p
  intro q
  by_cases hq : q = p1
  · subst hq
    have e : (set_fd k (q, p2) f).pcbs q
        = { (k.pcbs q) with fds := Function.update (k.pcbs q).fds p2 f } := by
      unfold set_fd
      simp only [Function.update_same]
    rw [e]
    refine ⟨rfl, rfl, rfl, rfl, rfl, fun i => ?_⟩
    by_cases hi : i = p2
    · subst hi
      exact ⟨by simp only [Function.update_same]; exact h1,
        by simp only [Function.update_same]; exact h2⟩
    · exact ⟨by simp only [Function.update_noteq hi], by simp only [Function.update_noteq hi]⟩
  · have e : (set_fd k (p1, p2) f).pcbs q = k.pcbs q := by
      unfold set_fd
      simp only [Function.update_noteq hq]
    rw [e]
    exact ⟨rfl, rfl, rfl, rfl, rfl, fun i => ⟨rfl, rfl⟩⟩

theorem same_processes_rtc_close (k : kernel_t) (fd : Option fd_ptr) :
    same_processes k (rtc_close k fd).2 := by
  unfold rtc_close
  cases fd with
  | none => exact same_processes_refl k
  | some p =>
    simp only
    have h1 : same_processes k
        (match (get_fd k p).driver_data.prev with
        | some q =>
          set_fd k q { (get_fd k q) with
            driver_data := { (get_fd k q).driver_data with next := (get_fd k p).driver_data.next } }
        | none => { k with rtc_driver_data_head := (get_fd k p).driver_data.next }) := by
      cases (get_fd k p).driver_data.prev with
      | none => exact fun _ => ⟨rfl, rfl, rfl, rfl, rfl, fun _ => ⟨rfl, rfl⟩⟩
      | some q => exact same_processes_set_fd k q _ rfl rfl
    refine same_processes_trans h1 ?_
    cases (get_fd k p).driver_data.next with
    | none => exact same_processes_refl _
    | some q => exact same_processes_set_fd _ q _ rfl rfl

theorem same_processes_close (drv : fd_driver_t) (k : kernel_t) (fd : Option fd_ptr) :
    same_processes k (fd_driver_close drv k fd).2 := by
  cases drv with
  | term_stdin_fd_driver => exact same_processes_refl k
  | term_stdout_fd_driver => exact same_processes_refl k
  | file_fd_driver =>
    cases fd with
    | none => exact same_processes_refl k
    | some p => exact same_processes_refl k
  | directory_fd_driver =>
    cases fd with
    | none => exact same_processes_refl k
    | some p => exact same_processes_refl k
  | rtc_fd_driver => exact same_processes_rtc_close k fd

/-- The PCB written by `alloc_finish`: the exit code is the one it was given,
and on success every present descriptor has a driver. -/
theorem alloc_finish_result (loc : alloc_locals) (img : fs_image) (k : kernel_t) (pid : Nat)
    (pcb : pcb_t) (dentry : dentry_t) (r : Option Nat) (k2 : kernel_t)
    (h : alloc_finish loc img k pid pcb dentry = some (r, k2)) :
    ∃ pcb2, k2 = set_pcb k pid pcb2 ∧ pcb2.exit_code = pcb.exit_code ∧
      (r ≠ none → r = some pid ∧
        ∀ i, i < 8 → (pcb2.fds i).present ≠ 0 → (pcb2.fds i).file_ops ≠ none) := by
  unfold alloc_finish at h
  split at h
  · have h' := Prod.mk.inj (Option.some.inj h)
    exact ⟨_, h'.2.symm, rfl, fun hr => absurd h'.1.symm hr⟩
  · split at h
    · cases h
    · split at h
      · have h' := Prod.mk.inj (Option.some.inj h)
        exact ⟨_, h'.2.symm, rfl, fun hr => absurd h'.1.symm hr⟩
      · split at h
        · have h' := Prod.mk.inj (Option.some.inj h)
          exact ⟨_, h'.2.symm, rfl, fun hr => absurd h'.1.symm hr⟩
        · split at h
          · have h' := Prod.mk.inj (Option.some.inj h)
            exact ⟨_, h'.2.symm, rfl, fun hr => absurd h'.1.symm hr⟩
          · have h' := Prod.mk.inj (Option.some.inj h)
            refine ⟨_, h'.2.symm, rfl, fun _ => ⟨h'.1.symm, fun i hi hp => ?_⟩⟩
            simp only at hp ⊢
            by_cases h0 : i = 0
            · rw [if_pos h0]; simp
            · rw [if_neg h0] at hp ⊢
              by_cases h1 : i = 1
              · rw [if_pos h1]; simp
              · rw [if_neg h1, if_pos (by unfold FD_PER_PROC; omega)] at hp
                exact absurd rfl hp

/-- The kernel data after `alloc_process`: at most one PCB is written, its
exit code is kept, and on success every present descriptor of the new PCB
has a driver. -/
theorem alloc_process_result (loc : alloc_locals) (img : fs_image) (k : kernel_t)
    (parent : Option Nat) (cmdline : Nat → Nat) (terminal : Int) (r : Option Nat)
    (k2 : kernel_t) (h : alloc_process loc img k parent cmdline terminal = some (r, k2)) :
    (r = none ∧ k2 = k) ∨
    ∃ pid pcb2, k2 = set_pcb k pid pcb2 ∧ pcb2.exit_code = (k.pcbs pid).exit_code ∧
      (r ≠ none → r = some pid ∧
        ∀ i, i < 8 → (pcb2.fds i).present ≠ 0 → (pcb2.fds i).file_ops ≠ none) := by
  unfold alloc_process at h
  simp only at h
  split at h
  · have h' := Prod.mk.inj (Option.some.inj h)
    exact Or.inl ⟨h'.1.symm, h'.2.symm⟩
  · right
    split at h
    · have h' := Prod.mk.inj (Option.some.inj h)
      exact ⟨_, _, h'.2.symm, rfl, fun hr => absurd h'.1.symm hr⟩
    · split at h
      · cases h
      · split at h
        · split at h
          · have h' := Prod.mk.inj (Option.some.inj h)
            exact ⟨_, _, h'.2.symm, rfl, fun hr => absurd h'.1.symm hr⟩
          · obtain ⟨pcb2, e1, e2, e3⟩ := alloc_finish_result _ _ _ _ _ _ _ _ h
            exact ⟨_, pcb2, e1, e2, e3⟩
        · have h' := Prod.mk.inj (Option.some.inj h)
          exact ⟨_, _, h'.2.symm, rfl, fun hr => absurd h'.1.symm hr⟩

theorem set_pcb_exit_code (k : kernel_t) (pid : Nat) (pcb : pcb_t)
    (h : pcb.exit_code = (k.pcbs pid).exit_code) (q : Nat) :
    ((set_pcb k pid pcb).pcbs q).exit_code = (k.pcbs q).exit_code := by
  unfold set_pcb
  by_cases e : q = pid
  · subst e
    simp only [Function.update_same]
    exact h
  · simp only [Function.update_noteq e]

theorem alloc_process_exit_code (loc : alloc_locals) (img : fs_image) (k : kernel_t)
    (parent : Option Nat) (cmdline : Nat → Nat) (terminal : Int) (r : Option Nat)
    (k2 : kernel_t) (h : alloc_process loc img k parent cmdline terminal = some (r, k2))
    (q : Nat) : (k2.pcbs q).exit_code = (k.pcbs q).exit_code := by
  rcases alloc_process_result loc img k parent cmdline terminal r k2 h with
    ⟨_, e⟩ | ⟨pid, pcb2, e, hx, _⟩
  · rw [e]
  · rw [e]
    exact set_pcb_exit_code k pid pcb2 hx q

theorem set_pcb_same (k : kernel_t) (pid : Nat) (pcb : pcb_t) :
    (set_pcb k pid pcb).pcbs pid = pcb := by
  unfold set_pcb
  simp only [Function.update_same]

theorem set_pcb_other (k : kernel_t) (pid : Nat) (pcb : pcb_t) (q : Nat) (h : q ≠ pid) :
    (set_pcb k pid pcb).pcbs q = k.pcbs q := by
  unfold set_pcb
  simp only [Function.update_noteq h]

/-- The closing loop leaves the processes as they are, however it ends. -/
theorem close_fds_same (pid : Nat) :
    ∀ (n i : Nat) (k : kernel_t), same_processes k (close_fds pid n i k).data := by
  intro n
  induction n with
  | zero => intro i k; exact same_processes_refl k
  | succ n ih =>
    intro i k
    rw [close_fds]
    by_cases hp : ((k.pcbs pid).fds i).present ≠ 0
    · rw [if_pos hp]
      cases hops : ((k.pcbs pid).fds i).file_ops with
      | none => exact same_processes_refl k
      | some drv =>
        exact same_processes_trans (same_processes_close drv k (some (pid, i))) (ih _ _)
    · rw [if_neg hp]
      exact ih _ _

/-- The closing loop runs to its end when the present descriptors it visits
have drivers. -/
theorem close_fds_closed (pid : Nat) :
    ∀ (n i : Nat) (k : kernel_t),
      (∀ j, i ≤ j → j < i + n → ((k.pcbs pid).fds j).present ≠ 0 →
        ((k.pcbs pid).fds j).file_ops ≠ none) →
      ∃ k2, close_fds pid n i k = close_outcome.closed k2 := by
  intro n
  induction n with
  | zero => intro i k _; exact ⟨k, rfl⟩
  | succ n ih =>
    intro i k h
    rw [close_fds]
    by_cases hp : ((k.pcbs pid).fds i).present ≠ 0
    · rw [if_pos hp]
      have hd := h i (Nat.le_refl _) (by omega) hp
      cases hops : ((k.pcbs pid).fds i).file_ops with
      | none => exact absurd hops hd
      | some drv =>
        simp only
        have hs := same_processes_close drv k (some (pid, i))
        exact ih (i + 1) (fd_driver_close drv k (some (pid, i))).2
          (fun j hj1 hj2 hjp => by
            obtain ⟨_, _, _, _, _, hf⟩ := hs pid
            rw [(hf j).1] at hjp
            rw [(hf j).2]
            exact h j (by omega) (by omega) hjp)
    · rw [if_neg hp]
      exact ih (i + 1) k (fun j hj1 hj2 hjp => h j (by omega) (by omega) hjp)

/-- The slot `alloc_process` writes: the kernel data afterwards are the old
ones with at most the PCB of the first slot that is not present replaced, and
the exit code of that PCB kept. -/
theorem alloc_process_slot (loc : alloc_locals) (img : fs_image) (k : kernel_t)
    (parent : Option Nat) (cmdline : Nat → Nat) (terminal : Int) (r : Option Nat)
    (k2 : kernel_t) (h : alloc_process loc img k parent cmdline terminal = some (r, k2)) :
    k2 = k ∨ ∃ pcb2, k2 = set_pcb k (alloc_scan k.pcbs NUM_PROCESSES 0) pcb2 := by
  unfold alloc_process at h
  simp only at h
  split at h
  · have h' := Prod.mk.inj (Option.some.inj h)
    exact Or.inl h'.2.symm
  · right
    split at h
    · have h' := Prod.mk.inj (Option.some.inj h)
      exact ⟨_, h'.2.symm⟩
    · split at h
      · cases h
      · split at h
        · split at h
          · have h' := Prod.mk.inj (Option.some.inj h)
            exact ⟨_, h'.2.symm⟩
          · obtain ⟨pcb2, e1, _, _⟩ := alloc_finish_result _ _ _ _ _ _ _ _ h
            exact ⟨pcb2, e1⟩
        · have h' := Prod.mk.inj (Option.some.inj h)
          exact ⟨_, h'.2.symm⟩

/-- What `kill_curr_process` does for a present process: it ends in one of
its four ways, with `exit_code` recorded in the PCB of the process and no
other exit code changed; when the present descriptors of the process have
drivers and its parent is another, present process, it jumps to the parent,
which is marked running, and the process itself stays present and is no
longer running. -/
theorem kill_curr_process_spec (loc : alloc_locals) (img : fs_image) (k : kernel_t) (cur : Nat)
    (exit_code : Int) (himg : ∀ i, (img.inodes i).file_length < 4294967296)
    (hp : (k.pcbs cur).present ≠ 0) :
    ∃ out, kill_curr_process loc img k cur exit_code = some out ∧
      (out.data.pcbs cur).exit_code = exit_code ∧
      (∀ q, q ≠ cur → (out.data.pcbs q).exit_code = (k.pcbs q).exit_code) ∧
      (∀ parent, (k.pcbs cur).parent = some parent → parent ≠ cur →
        (k.pcbs parent).present ≠ 0 →
        (∀ i, i < 8 → ((k.pcbs cur).fds i).present ≠ 0 →
          ((k.pcbs cur).fds i).file_ops ≠ none) →
        out = kill_outcome.jumped parent out.data ∧ (out.data.pcbs parent).running = 1 ∧
        (out.data.pcbs cur).running = 0 ∧
        (out.data.pcbs cur).present = (k.pcbs cur).present) := by
  unfold kill_curr_process
  rw [if_neg hp]
  simp only
  have hs := close_fds_same cur FD_PER_PROC 0
    (set_pcb k cur { (k.pcbs cur) with exit_code := exit_code, running := 0 })
  have hcl := close_fds_closed cur FD_PER_PROC 0
    (set_pcb k cur { (k.pcbs cur) with exit_code := exit_code, running := 0 })
  generalize close_fds cur FD_PER_PROC 0
    (set_pcb k cur { (k.pcbs cur) with exit_code := exit_code, running := 0 }) = co at hs hcl
  have hk2 : ∀ k2, co.data = k2 →
      (k2.pcbs cur).parent = (k.pcbs cur).parent ∧ (k2.pcbs cur).present = (k.pcbs cur).present ∧
      (k2.pcbs cur).running = 0 ∧ (k2.pcbs cur).exit_code = exit_code ∧
      ∀ q, q ≠ cur → (k2.pcbs q).exit_code = (k.pcbs q).exit_code ∧
        (k2.pcbs q).present = (k.pcbs q).present := by
    intro k2 hk2
    rw [hk2] at hs
    obtain ⟨s1, s2, s3, s4, _, _⟩ := hs cur
    rw [set_pcb_same] at s1 s2 s3 s4
    refine ⟨s1, s2, s3, s4, fun q hq => ?_⟩
    obtain ⟨_, t2, _, t4, _, _⟩ := hs q
    rw [set_pcb_other _ _ _ _ hq] at t2 t4
    exact ⟨t4, t2⟩
  cases co with
  | fault k2 =>
    obtain ⟨_, _, _, s4, hother⟩ := hk2 k2 rfl
    refine ⟨_, rfl, s4, fun q hq => (hother q hq).1, fun p _ _ _ hd => ?_⟩
    obtain ⟨k3, hk3⟩ := hcl (fun j _ hj hjp => by
      rw [set_pcb_same] at hjp ⊢
      exact hd j (by unfold FD_PER_PROC at hj; omega) hjp)
    cases hk3
  | closed k2 =>
    obtain ⟨s1, s2, s3, s4, hother⟩ := hk2 k2 rfl
    simp only
    generalize hk3 : set_pcb k2 cur { (k2.pcbs cur) with present := 0 } = k3
    have hk3x : ∀ q, (k3.pcbs q).exit_code = (k2.pcbs q).exit_code := by
      intro q
      rw [← hk3]
      exact set_pcb_exit_code k2 cur { (k2.pcbs cur) with present := 0 } rfl q
    cases hpar : (k2.pcbs cur).parent with
    | some parent =>
      simp only
      have hpar' : (k.pcbs cur).parent = some parent := by rw [← s1, hpar]
      by_cases hpc : parent = cur
      · subst hpc
        have hpres : ((set_pcb k2 parent { (k2.pcbs parent) with running := 1 }).pcbs
            parent).present ≠ 0 := by
          rw [set_pcb_same]
          simp only
          rw [s2]
          exact hp
        unfold jump_to_process
        simp only
        rw [if_neg hpres]
        refine ⟨_, rfl, ?_, fun q hq => ?_, fun p hp1 hp2 _ _ => ?_⟩
        · simp only [kill_outcome.data]
          rw [set_pcb_same]
          exact s4
        · simp only [kill_outcome.data]
          rw [set_pcb_other _ _ _ _ hq]
          exact (hother q hq).1
        · rw [hpar'] at hp1
          exact absurd (Option.some.inj hp1).symm hp2
      · have hcp : cur ≠ parent := fun e => hpc e.symm
        by_cases hpres : (k.pcbs parent).present = 0
        · have hpres2 : ((set_pcb k2 parent { (k2.pcbs parent) with running := 1 }).pcbs
              parent).present = 0 := by
            rw [set_pcb_same]
            simp only
            rw [(hother parent hpc).2]
            exact hpres
          unfold jump_to_process
          simp only
          rw [if_pos hpres2]
          refine ⟨_, rfl, ?_, fun q hq => ?_, fun p hp1 _ hp3 _ => ?_⟩
          · simp only [kill_outcome.data]
            rw [set_pcb_other _ _ _ _ hcp]
            exact s4
          · simp only [kill_outcome.data]
            by_cases hqp : q = parent
            · subst hqp
              rw [set_pcb_same]
              exact (hother q hq).1
            · rw [set_pcb_other _ _ _ _ hqp]
              exact (hother q hq).1
          · rw [hpar'] at hp1
            have : parent = p := Option.some.inj hp1
            subst this
            exact absurd hpres hp3
        · have hpres2 : ((set_pcb k2 parent { (k2.pcbs parent) with running := 1 }).pcbs
              parent).present ≠ 0 := by
            rw [set_pcb_same]
            simp only
            rw [(hother parent hpc).2]
            exact hpres
          unfold jump_to_process
          simp only
          rw [if_neg hpres2]
          refine ⟨_, rfl, ?_, fun q hq => ?_, fun p hp1 _ _ _ => ?_⟩
          · simp only [kill_outcome.data]
            rw [set_pcb_other _ _ _ _ hcp]
            exact s4
          · simp only [kill_outcome.data]
            by_cases hqp : q = parent
            · subst hqp
              rw [set_pcb_same]
              exact (hother q hq).1
            · rw [set_pcb_other _ _ _ _ hqp]
              exact (hother q hq).1
          · rw [hpar'] at hp1
            have : parent = p := Option.some.inj hp1
            subst this
            refine ⟨rfl, ?_, ?_, ?_⟩
            · simp only [kill_outcome.data]
              rw [set_pcb_same]
            · simp only [kill_outcome.data]
              rw [set_pcb_other _ _ _ _ hcp]
              exact s3
            · simp only [kill_outcome.data]
              rw [set_pcb_other _ _ _ _ hcp]
              exact s2
    | none =>
      simp only
      have hpar' : (k.pcbs cur).parent = none := by rw [← s1, hpar]
      obtain ⟨res, hres⟩ := alloc_process_total loc img k3 none shell_cmdline
        (k3.pcbs cur).terminal_id himg
      obtain ⟨r, k4⟩ := res
      have hx := alloc_process_exit_code _ _ _ _ _ _ r k4 hres
      rw [hres]
      have hdata : ∀ out : kill_outcome, out.data = k4 →
          (out.data.pcbs cur).exit_code = exit_code ∧
          (∀ q, q ≠ cur → (out.data.pcbs q).exit_code = (k.pcbs q).exit_code) ∧
          (∀ parent, (k.pcbs cur).parent = some parent → parent ≠ cur →
            (k.pcbs parent).present ≠ 0 →
            (∀ i, i < 8 → ((k.pcbs cur).fds i).present ≠ 0 →
              ((k.pcbs cur).fds i).file_ops ≠ none) →
            out = kill_outcome.jumped parent out.data ∧ (out.data.pcbs parent).running = 1 ∧
            (out.data.pcbs cur).running = 0 ∧
            (out.data.pcbs cur).present = (k.pcbs cur).present) := by
        intro out ho
        rw [ho]
        refine ⟨?_, fun q hq => ?_, fun p hp1 _ _ _ => ?_⟩
        · rw [hx cur, hk3x cur]
          exact s4
        · rw [hx q, hk3x q]
          exact (hother q hq).1
        · rw [hpar'] at hp1
          cases hp1
      cases r with
      | none => exact ⟨_, rfl, hdata _ rfl⟩
      | some new_shell =>
        simp only
        cases jump_to_process k4 (some new_shell) with
        | none => exact ⟨_, rfl, hdata _ rfl⟩
        | some pid => exact ⟨_, rfl, hdata _ rfl⟩

/-- One pass through the loop of `kill_term_process`: it ends; a PCB that is
running, present and on the active terminal gets `exit_code`, no other exit
code changes, and a PCB that fails the test leaves everything as it is.  Of
the PCBs of higher pid the pass changes at most the running flag, which it
may set. -/
theorem kill_term_step_spec (loc : alloc_locals) (img : fs_image) (cur : Nat) (active : Int)
    (exit_code : Int) (i : Nat) (k : kernel_t) (need : Bool)
    (himg : ∀ j, (img.inodes j).file_length < 4294967296) :
    ∃ s2, kill_term_step loc img cur active exit_code i (term_loop.going k need) = some s2 ∧
      (∀ q, q ≠ i → (s2.data.pcbs q).exit_code = (k.pcbs q).exit_code) ∧
      (on_active_terminal k active i → (s2.data.pcbs i).exit_code = exit_code) ∧
      (¬ on_active_terminal k active i → s2 = term_loop.going k need) ∧
      (∀ q, i < q → (s2.data.pcbs q).present = (k.pcbs q).present ∧
        (s2.data.pcbs q).terminal_id = (k.pcbs q).terminal_id ∧
        ((k.pcbs q).running ≠ 0 → (s2.data.pcbs q).running ≠ 0)) := by
  unfold kill_term_step
  simp only
  by_cases hcond : (k.pcbs i).running ≠ 0 ∧ (k.pcbs i).present ≠ 0 ∧
      (k.pcbs i).terminal_id = active
  · rw [if_pos hcond]
    have hs := close_fds_same i FD_PER_PROC 0
      (set_pcb k i { (k.pcbs i) with exit_code := exit_code, running := 0 })
    generalize close_fds i FD_PER_PROC 0
      (set_pcb k i { (k.pcbs i) with exit_code := exit_code, running := 0 }) = co at hs
    have hk2 : ∀ k2, co.data = k2 →
        (k2.pcbs i).exit_code = exit_code ∧
        (∀ q, q ≠ i → (k2.pcbs q).exit_code = (k.pcbs q).exit_code ∧
          (k2.pcbs q).present = (k.pcbs q).present ∧
          (k2.pcbs q).terminal_id = (k.pcbs q).terminal_id ∧
          (k2.pcbs q).running = (k.pcbs q).running) := by
      intro k2 hk2
      rw [hk2] at hs
      obtain ⟨_, _, _, s4, _, _⟩ := hs i
      rw [set_pcb_same] at s4
      refine ⟨s4, fun q hq => ?_⟩
      obtain ⟨_, t2, t3, t4, t5, _⟩ := hs q
      rw [set_pcb_other _ _ _ _ hq] at t2 t3 t4 t5
      exact ⟨t4, t2, t5, t3⟩
    cases co with
    | fault k2 =>
      obtain ⟨s4, hother⟩ := hk2 k2 rfl
      refine ⟨_, rfl, fun q hq => (hother q hq).1, fun _ => s4, fun h => absurd hcond h,
        fun q hq => ?_⟩
      obtain ⟨_, t2, t3, t4⟩ := hother q (by omega)
      exact ⟨t2, t3, fun h e => h (t4.symm.trans e)⟩
    | closed k2 =>
      obtain ⟨s4, hother⟩ := hk2 k2 rfl
      simp only
      generalize hk3 : set_pcb k2 i { (k2.pcbs i) with present := 0 } = k3
      cases hpar : (k2.pcbs i).parent with
      | some parent =>
        simp only
        refine ⟨_, rfl, fun q hq => ?_, fun _ => ?_, fun h => absurd hcond h, fun q hq => ?_⟩
        · simp only [term_loop.data]
          rw [set_pcb_exit_code k2 parent { (k2.pcbs parent) with running := 1 } rfl q]
          exact (hother q hq).1
        · simp only [term_loop.data]
          rw [set_pcb_exit_code k2 parent { (k2.pcbs parent) with running := 1 } rfl i]
          exact s4
        · simp only [term_loop.data]
          obtain ⟨_, t2, t3, t4⟩ := hother q (by omega)
          by_cases hqp : q = parent
          · subst hqp
            rw [set_pcb_same]
            exact ⟨t2, t3, fun _ => Nat.one_ne_zero⟩
          · rw [set_pcb_other _ _ _ _ hqp]
            exact ⟨t2, t3, fun h e => h (t4.symm.trans e)⟩
      | none =>
        simp only
        have hk3x : ∀ q, (k3.pcbs q).exit_code = (k2.pcbs q).exit_code := by
          intro q
          rw [← hk3]
          exact set_pcb_exit_code k2 i { (k2.pcbs i) with present := 0 } rfl q
        have hk3i : (k3.pcbs i).present = 0 := by
          rw [← hk3, set_pcb_same]
        have hk3o : ∀ q, q ≠ i → k3.pcbs q = k2.pcbs q := by
          intro q hq
          rw [← hk3, set_pcb_other _ _ _ _ hq]
        obtain ⟨res, hres⟩ := alloc_process_total loc img k3 none shell_cmdline
          (k3.pcbs i).terminal_id himg
        obtain ⟨r, k4⟩ := res
        have hx := alloc_process_exit_code _ _ _ _ _ _ r k4 hres
        have hslot : ∀ q, i < q → k4.pcbs q = k3.pcbs q := by
          intro q hq
          rcases alloc_process_slot _ _ _ _ _ _ r k4 hres with e | ⟨pcb2, e⟩
          · rw [e]
          · rw [e]
            apply set_pcb_other
            intro hqs
            have hsc := (alloc_scan_spec k3.pcbs NUM_PROCESSES 0).2.2.1 i (Nat.zero_le _)
              (by rw [← hqs]; exact hq)
            exact hsc hk3i
        rw [hres]
        have hdata : ∀ s2 : term_loop, s2.data = k4 →
            (∀ q, q ≠ i → (s2.data.pcbs q).exit_code = (k.pcbs q).exit_code) ∧
            (on_active_terminal k active i → (s2.data.pcbs i).exit_code = exit_code) ∧
            (∀ q, i < q → (s2.data.pcbs q).present = (k.pcbs q).present ∧
              (s2.data.pcbs q).terminal_id = (k.pcbs q).terminal_id ∧
              ((k.pcbs q).running ≠ 0 → (s2.data.pcbs q).running ≠ 0)) := by
          intro s2 hs2
          rw [hs2]
          refine ⟨fun q hq => ?_, fun _ => ?_, fun q hq => ?_⟩
          · rw [hx q, hk3x q]
            exact (hother q hq).1
          · rw [hx i, hk3x i]
            exact s4
          · rw [hslot q hq, hk3o q (by omega)]
            obtain ⟨_, t2, t3, t4⟩ := hother q (by omega)
            exact ⟨t2, t3, fun h e => h (t4.symm.trans e)⟩
        cases r with
        | none =>
          obtain ⟨d1, d2, d3⟩ := hdata (term_loop.panic k4) rfl
          exact ⟨_, rfl, d1, d2, fun h => absurd hcond h, d3⟩
        | some new_shell =>
          obtain ⟨d1, d2, d3⟩ := hdata (term_loop.going k4 (if cur = i then true else need)) rfl
          exact ⟨_, rfl, d1, d2, fun h => absurd hcond h, d3⟩
  · rw [if_neg hcond]
    exact ⟨_, rfl, fun _ _ => rfl, fun h => absurd h hcond, fun _ => rfl,
      fun _ _ => ⟨rfl, rfl, fun h => h⟩⟩

/-- A loop state that has stopped stays as it is. -/
theorem kill_term_step_stopped (loc : alloc_locals) (img : fs_image) (cur : Nat) (active : Int)
    (exit_code : Int) (i : Nat) (s : term_loop)
    (hs : ∀ k need, s ≠ term_loop.going k need) :
    kill_term_step loc img cur active exit_code i s = some s := by
  cases s with
  | going k need => exact absurd rfl (hs k need)
  | panic k => rfl
  | fault k => rfl

/-- The loop of `kill_term_process` ends.  Only `exit_code` is ever recorded;
the PCBs the loop has not reached keep their exit code, present flag and
terminal, and stay running if they were; every PCB that passes the test when
its turn comes has `exit_code` at the end; and a loop that is still going
has been going at every earlier turn. -/
theorem kill_term_loop_spec (loc : alloc_locals) (img : fs_image) (cur : Nat) (active : Int)
    (exit_code : Int) (k : kernel_t) (himg : ∀ j, (img.inodes j).file_length < 4294967296) :
    ∀ n, ∃ s, kill_term_loop loc img cur active exit_code n k = some s ∧
      (∀ q, (s.data.pcbs q).exit_code = exit_code ∨
        (s.data.pcbs q).exit_code = (k.pcbs q).exit_code) ∧
      (∀ q, n ≤ q → (s.data.pcbs q).exit_code = (k.pcbs q).exit_code ∧
        (s.data.pcbs q).present = (k.pcbs q).present ∧
        (s.data.pcbs q).terminal_id = (k.pcbs q).terminal_id ∧
        ((k.pcbs q).running ≠ 0 → (s.data.pcbs q).running ≠ 0)) ∧
      (∀ i, i < n → ∀ ki ni,
        kill_term_loop loc img cur active exit_code i k = some (term_loop.going ki ni) →
        on_active_terminal ki active i → (s.data.pcbs i).exit_code = exit_code) ∧
      (∀ kn nn, s = term_loop.going kn nn → ∀ i, i ≤ n →
        ∃ ki ni, kill_term_loop loc img cur active exit_code i k
          = some (term_loop.going ki ni)) := by
  intro n
  induction n with
  | zero =>
    refine ⟨_, rfl, fun q => Or.inr rfl, fun q _ => ⟨rfl, rfl, rfl, fun h => h⟩,
      fun i hi => absurd hi (Nat.not_lt_zero i), fun kn nn _ i hi => ?_⟩
    have : i = 0 := by omega
    subst this
    exact ⟨_, _, rfl⟩
  | succ n ih =>
    obtain ⟨s, hs, hA, hB, hC, hD⟩ := ih
    rw [kill_term_loop, hs]
    simp only
    cases s with
    | going kn nn =>
      obtain ⟨s2, hs2, hother, hthis, _, hlater⟩ := kill_term_step_spec loc img cur active
        exit_code n kn nn himg
      simp only [term_loop.data] at hA hB
      refine ⟨s2, hs2, fun q => ?_, fun q hq => ?_, fun i hi ki ni hki hon => ?_,
        fun k2 n2 _ i hi => ?_⟩
      · by_cases hqn : q = n
        · subst hqn
          by_cases hon : on_active_terminal kn active q
          · exact Or.inl (hthis hon)
          · have e := (kill_term_step_spec loc img cur active exit_code q kn nn himg)
            obtain ⟨s3, hs3, _, _, hid, _⟩ := e
            rw [hs2] at hs3
            have e3 : s2 = s3 := Option.some.inj hs3
            rw [e3, hid hon]
            exact hA q
        · rw [hother q hqn]
          exact hA q
      · obtain ⟨b1, b2, b3, b4⟩ := hB q (by omega)
        obtain ⟨l1, l2, l3⟩ := hlater q (by omega)
        refine ⟨by rw [hother q (by omega)]; exact b1, by rw [l1]; exact b2,
          by rw [l2]; exact b3, fun h => l3 (b4 h)⟩
      · by_cases hin : i = n
        · subst hin
          rw [hs] at hki
          have e := (term_loop.going.inj (Option.some.inj hki)).1
          rw [← e] at hon
          exact hthis hon
        · rw [hother i hin]
          exact hC i (by omega) ki ni hki hon
      · by_cases hin : i = n + 1
        · subst hin
          rw [kill_term_loop, hs]
          simp only
          rw [hs2]
          rename_i hk2
          exact ⟨k2, n2, by rw [hk2]⟩
        · exact hD kn nn rfl i (by omega)
    | panic kp =>
      rw [kill_term_step_stopped _ _ _ _ _ _ _ (fun _ _ h => by cases h)]
      refine ⟨_, rfl, hA, fun q hq => hB q (by omega), fun i hi ki ni hki hon => ?_,
        fun k2 n2 h => by cases h⟩
      by_cases hin : i = n
      · subst hin
        rw [hs] at hki
        cases hki
      · exact hC i (by omega) ki ni hki hon
    | fault kp =>
      rw [kill_term_step_stopped _ _ _ _ _ _ _ (fun _ _ h => by cases h)]
      refine ⟨_, rfl, hA, fun q hq => hB q (by omega), fun i hi ki ni hki hon => ?_,
        fun k2 n2 h => by cases h⟩
      by_cases hin : i = n
      · subst hin
        rw [hs] at hki
        cases hki
      · exact hC i (by omega) ki ni hki hon

/-- While no PCB passes its test the loop changes nothing. -/
theorem kill_term_loop_idle (loc : alloc_locals) (img : fs_image) (cur : Nat) (active : Int)
    (exit_code : Int) (k : kernel_t) :
    ∀ n, (∀ j, j < n → ¬ on_active_terminal k active j) →
      kill_term_loop loc img cur active exit_code n k = some (term_loop.going k false) := by
  intro n
  induction n with
  | zero => intro _; rfl
  | succ n ih =>
    intro h
    rw [kill_term_loop, ih (fun j hj => h j (by omega))]
    simp only
    unfold kill_term_step
    simp only
    have hn : ¬ ((k.pcbs n).running ≠ 0 ∧ (k.pcbs n).present ≠ 0 ∧
        (k.pcbs n).terminal_id = active) := h n (by omega)
    rw [if_neg hn]

/-- A PCB that is running, present and on the active terminal at the start
still is when the loop reaches it. -/
theorem kill_term_loop_reached (loc : alloc_locals) (img : fs_image) (cur : Nat) (active : Int)
    (exit_code : Int) (k : kernel_t) (himg : ∀ j, (img.inodes j).file_length < 4294967296)
    (i : Nat) (ki : kernel_t) (ni : Bool)
    (hki : kill_term_loop loc img cur active exit_code i k = some (term_loop.going ki ni))
    (hon : on_active_terminal k active i) : on_active_terminal ki active i := by
  obtain ⟨s, hs, _, hB, _, _⟩ := kill_term_loop_spec loc img cur active exit_code k himg i
  rw [hki] at hs
  have e : s = term_loop.going ki ni := (Option.some.inj hs).symm
  subst e
  obtain ⟨_, b2, b3, b4⟩ := hB i (Nat.le_refl _)
  simp only [term_loop.data] at b2 b3 b4
  obtain ⟨h1, h2, h3⟩ := hon
  exact ⟨b4 h1, by rw [b2]; exact h2, by rw [b3]; exact h3⟩

/-- The invariant `fds_have_drivers` only looks at present bits and drivers. -/
theorem fds_have_drivers_of_same (k k2 : kernel_t) (hinv : fds_have_drivers k)
    (h : ∀ q, (k2.pcbs q).present ≠ 0 → (k.pcbs q).present ≠ 0 ∧
      ∀ i, ((k2.pcbs q).fds i).present = ((k.pcbs q).fds i).present ∧
        ((k2.pcbs q).fds i).file_ops = ((k.pcbs q).fds i).file_ops) :
    fds_have_drivers k2 := by
  intro q i hq hi hp
  obtain ⟨h1, h2⟩ := h q hq
  rw [(h2 i).1] at hp
  rw [(h2 i).2]
  exact hinv q i h1 hi hp

/-- When every present descriptor of every present process has a driver, a
pass through the loop of `kill_term_process` calls through no null
`file_ops`, and that still holds after the pass. -/
theorem kill_term_step_drivers (loc : alloc_locals) (img : fs_image) (cur : Nat) (active : Int)
    (exit_code : Int) (i : Nat) (k : kernel_t) (need : Bool) (hinv : fds_have_drivers k)
    (s2 : term_loop)
    (h : kill_term_step loc img cur active exit_code i (term_loop.going k need) = some s2) :
    (∀ kf, s2 ≠ term_loop.fault kf) ∧
    (∀ k2 n2, s2 = term_loop.going k2 n2 → fds_have_drivers k2) := by
  unfold kill_term_step at h
  simp only at h
  by_cases hcond : (k.pcbs i).running ≠ 0 ∧ (k.pcbs i).present ≠ 0 ∧
      (k.pcbs i).terminal_id = active
  · rw [if_pos hcond] at h
    obtain ⟨k2, hc⟩ := close_fds_closed i FD_PER_PROC 0
      (set_pcb k i { (k.pcbs i) with exit_code := exit_code, running := 0 })
      (fun j _ hj hjp => by
        rw [set_pcb_same] at hjp ⊢
        exact hinv i j hcond.2.1 (by unfold FD_PER_PROC at hj; omega) hjp)
    have hs := close_fds_same i FD_PER_PROC 0
      (set_pcb k i { (k.pcbs i) with exit_code := exit_code, running := 0 })
    rw [hc] at hs h
    simp only [close_outcome.data] at hs
    simp only at h
    have hk2 : ∀ q, (k2.pcbs q).present = (k.pcbs q).present ∧
        ∀ j, ((k2.pcbs q).fds j).present = ((k.pcbs q).fds j).present ∧
          ((k2.pcbs q).fds j).file_ops = ((k.pcbs q).fds j).file_ops := by
      intro q
      obtain ⟨_, t2, _, _, _, t6⟩ := hs q
      by_cases hq : q = i
      · subst hq
        rw [set_pcb_same] at t2 t6
        exact ⟨t2, t6⟩
      · rw [set_pcb_other _ _ _ _ hq] at t2 t6
        exact ⟨t2, t6⟩
    generalize hk3 : set_pcb k2 i { (k2.pcbs i) with present := 0 } = k3 at h
    cases hpar : (k2.pcbs i).parent with
    | some parent =>
      rw [hpar] at h
      simp only at h
      have e := (Option.some.inj h).symm
      subst e
      refine ⟨fun kf hf => (by cases hf), fun k5 n5 h5 => ?_⟩
      have e5 := (term_loop.going.inj h5).1
      rw [← e5]
      apply fds_have_drivers_of_same k _ hinv
      intro q hq
      by_cases hqp : q = parent
      · subst hqp
        rw [set_pcb_same] at hq ⊢
        simp only at hq ⊢
        rw [(hk2 q).1] at hq
        exact ⟨hq, (hk2 q).2⟩
      · rw [set_pcb_other _ _ _ _ hqp] at hq ⊢
        rw [(hk2 q).1] at hq
        exact ⟨hq, (hk2 q).2⟩
    | none =>
      rw [hpar] at h
      simp only at h
      cases hres : alloc_process loc img k3 none shell_cmdline (k3.pcbs i).terminal_id with
      | none =>
        rw [hres] at h
        cases h
      | some res =>
        obtain ⟨r, k4⟩ := res
        rw [hres] at h
        cases r with
        | none =>
          simp only at h
          have e := (Option.some.inj h).symm
          subst e
          exact ⟨fun kf hf => (by cases hf), fun k5 n5 h5 => by cases h5⟩
        | some new_shell =>
          simp only at h
          have e := (Option.some.inj h).symm
          subst e
          refine ⟨fun kf hf => (by cases hf), fun k5 n5 h5 => ?_⟩
          have e5 := (term_loop.going.inj h5).1
          rw [← e5]
          rcases alloc_process_result _ _ _ _ _ _ _ _ hres with ⟨hr, _⟩ | ⟨pid, pcb2, e, _, hfds⟩
          · cases hr
          · obtain ⟨_, hgood⟩ := hfds (by simp)
            rw [e]
            intro q j hq hj hp
            by_cases hqp : q = pid
            · subst hqp
              rw [set_pcb_same] at hp ⊢
              exact hgood j hj hp
            · rw [set_pcb_other _ _ _ _ hqp] at hq hp ⊢
              by_cases hqi : q = i
              · subst hqi
                rw [← hk3, set_pcb_same] at hq
                exact absurd rfl hq
              · rw [← hk3, set_pcb_other _ _ _ _ hqi] at hq hp ⊢
                rw [(hk2 q).1] at hq
                rw [((hk2 q).2 j).1] at hp
                rw [((hk2 q).2 j).2]
                exact hinv q j hq hj hp
  · rw [if_neg hcond] at h
    have e := (Option.some.inj h).symm
    subst e
    exact ⟨fun kf hf => (by cases hf),
      fun k5 n5 h5 => by rw [← (term_loop.going.inj h5).1]; exact hinv⟩

/-- When every present descriptor of every present process has a driver, the
loop of `kill_term_process` calls through no null `file_ops`. -/
theorem kill_term_loop_drivers (loc : alloc_locals) (img : fs_image) (cur : Nat) (active : Int)
    (exit_code : Int) (k : kernel_t) (hinv : fds_have_drivers k) :
    ∀ n s, kill_term_loop loc img cur active exit_code n k = some s →
      (∀ kf, s ≠ term_loop.fault kf) ∧
      (∀ k2 n2, s = term_loop.going k2 n2 → fds_have_drivers k2) := by
  intro n
  induction n with
  | zero =>
    intro s h
    have e := (Option.some.inj h).symm
    subst e
    exact ⟨fun kf hf => (by cases hf),
      fun k5 n5 h5 => by rw [← (term_loop.going.inj h5).1]; exact hinv⟩
  | succ n ih =>
    intro s h
    rw [kill_term_loop] at h
    cases hn : kill_term_loop loc img cur active exit_code n k with
    | none =>
      rw [hn] at h
      cases h
    | some sn =>
      rw [hn] at h
      simp only at h
      obtain ⟨i1, i2⟩ := ih sn hn
      cases sn with
      | going kn nn =>
        exact kill_term_step_drivers loc img cur active exit_code n kn nn (i2 kn nn rfl) s h
      | panic kp =>
        have e : s = term_loop.panic kp := (Option.some.inj h).symm
        subst e
        exact ⟨fun kf hf => (by cases hf), fun k5 n5 h5 => by cases h5⟩
      | fault kf => exact absurd rfl (i1 kf)

/-- What `kill_term_process` returns, read from what its loop left. -/
theorem kill_term_process_of_loop (loc : alloc_locals) (img : fs_image) (k : kernel_t) (cur : Nat)
    (active : Int) (exit_code : Int) (s : term_loop)
    (hs : kill_term_loop loc img cur active exit_code NUM_PROCESSES k = some s) :
    ∃ out, kill_term_process loc img k cur active exit_code = some out ∧
      out.data = s.data ∧
      (out.completed = true → ∃ kn nn, s = term_loop.going kn nn) ∧
      (∀ kf, out = kill_term_outcome.fault kf → s = term_loop.fault kf) := by
  unfold kill_term_process
  rw [hs]
  cases s with
  | panic kp =>
    exact ⟨_, rfl, rfl, fun h => (by cases h), fun kf h => (by cases h)⟩
  | fault kp =>
    refine ⟨_, rfl, rfl, fun h => (by cases h), fun kf h => ?_⟩
    rw [kill_term_outcome.fault.inj h]
  | going kn nn =>
    simp only
    cases nn with
    | true => exact ⟨_, rfl, rfl, fun _ => ⟨_, _, rfl⟩, fun kf h => (by cases h)⟩
    | false => exact ⟨_, rfl, rfl, fun _ => ⟨_, _, rfl⟩, fun kf h => (by cases h)⟩

/-- C11: exit-code plumbing, for a present current process `cur`.
`syscall_halt(status)` always ends and leaves `status mod 256`, a value in
[0,255], in the `exit_code` of the current PCB (42 for `halt(42)`); a
user-mode exception leaves 256.  `kill_term_process(257)` always ends, and
of the kernel data it leaves: every `exit_code` is 257 or what it was; the
first PCB that is running and present on the active terminal holds 257
whatever happens later; when the loop has run to its end (the call returns
or goes to the scheduler) every PCB that was running and present on the
active terminal holds 257, and so does every PCB that passes the test of the
loop when the loop reaches it; and when every present descriptor has a
driver the loop calls through no null `file_ops`.  The end of
`syscall_execute` returns the `exit_code` of the child and clears its
`present` flag.  Hence when the current process has a present parent and
its present descriptors have drivers, `halt` jumps to the parent, whose
`execute` returns `status mod 256`, never 256 or 257. -/
theorem exit_code_plumbing (loc : alloc_locals) (img : fs_image) (k : kernel_t) (cur : Nat)
    (himg : ∀ j, (img.inodes j).file_length < 4294967296)
    (hp : (k.pcbs cur).present ≠ 0) :
    (∀ status arg2 arg3 : Int, ∃ out, syscall_halt loc img k cur status arg2 arg3 = some out ∧
      (out.data.pcbs cur).exit_code = ((ofInt32 status % 256 : Nat) : Int) ∧
      0 ≤ (out.data.pcbs cur).exit_code ∧ (out.data.pcbs cur).exit_code ≤ 255) ∧
    (∃ out, syscall_halt loc img k cur 42 0 0 = some out ∧
      (out.data.pcbs cur).exit_code = 42) ∧
    (∀ (vect : Nat) (context : iret_context_base_t), vect < 20 → context.cs = USER_CS →
      ∃ out, exception_handler_all loc img k cur vect context = some out ∧
        (out.data.pcbs cur).exit_code = 256) ∧
    (∀ active : Int, ∃ out,
      kill_term_process loc img k cur active TERMINATED_STATUS = some out ∧
      (∀ q, (out.data.pcbs q).exit_code = 257 ∨
        (out.data.pcbs q).exit_code = (k.pcbs q).exit_code) ∧
      (∀ f, f < 6 → on_active_terminal k active f →
        (∀ j, j < f → ¬ on_active_terminal k active j) →
        (out.data.pcbs f).exit_code = 257) ∧
      (out.completed = true → ∀ i, i < 6 → on_active_terminal k active i →
        (out.data.pcbs i).exit_code = 257) ∧
      (∀ i, i < 6 → ∀ ki ni,
        kill_term_loop loc img cur active TERMINATED_STATUS i k = some (term_loop.going ki ni) →
        on_active_terminal ki active i → (out.data.pcbs i).exit_code = 257) ∧
      (fds_have_drivers k → ∀ kf, out ≠ kill_term_outcome.fault kf)) ∧
    (∀ (k2 : kernel_t) (child : Nat),
      (syscall_execute_resume k2 child).1 = (k2.pcbs child).exit_code ∧
      ((syscall_execute_resume k2 child).2.pcbs child).present = 0 ∧
      ∀ q, q ≠ child → (syscall_execute_resume k2 child).2.pcbs q = k2.pcbs q) ∧
    (∀ (status arg2 arg3 : Int) (parent : Nat), (k.pcbs cur).parent = some parent →
      parent ≠ cur → (k.pcbs parent).present ≠ 0 →
      (∀ i, i < 8 → ((k.pcbs cur).fds i).present ≠ 0 → ((k.pcbs cur).fds i).file_ops ≠ none) →
      ∃ k2, syscall_halt loc img k cur status arg2 arg3 = some (kill_outcome.jumped parent k2) ∧
        (k2.pcbs parent).running = 1 ∧
        (syscall_execute_resume k2 cur).1 = ((ofInt32 status % 256 : Nat) : Int) ∧
        (syscall_execute_resume k2 cur).1 ≠ 256 ∧ (syscall_execute_resume k2 cur).1 ≠ 257) := by
  have hhalt : ∀ status arg2 arg3 : Int, ∃ out,
      syscall_halt loc img k cur status arg2 arg3 = some out ∧
      (out.data.pcbs cur).exit_code = ((ofInt32 status % 256 : Nat) : Int) ∧
      (∀ parent, (k.pcbs cur).parent = some parent → parent ≠ cur →
        (k.pcbs parent).present ≠ 0 →
        (∀ i, i < 8 → ((k.pcbs cur).fds i).present ≠ 0 →
          ((k.pcbs cur).fds i).file_ops ≠ none) →
        out = kill_outcome.jumped parent out.data ∧ (out.data.pcbs parent).running = 1) := by
    intro status arg2 arg3
    obtain ⟨out, ho, hx, _, hj⟩ := kill_curr_process_spec loc img k cur
      ((ofInt32 status % 256 : Nat) : Int) himg hp
    exact ⟨out, ho, hx, fun p h1 h2 h3 h4 => ⟨(hj p h1 h2 h3 h4).1, (hj p h1 h2 h3 h4).2.1⟩⟩
  refine ⟨fun status arg2 arg3 => ?_, ?_, fun vect context hv hcs => ?_, fun active => ?_,
    fun k2 child => ?_, fun status arg2 arg3 parent h1 h2 h3 h4 => ?_⟩
  · obtain ⟨out, ho, hx, _⟩ := hhalt status arg2 arg3
    refine ⟨out, ho, hx, ?_, ?_⟩
    · rw [hx]; omega
    · rw [hx]; omega
  · obtain ⟨out, ho, hx, _⟩ := hhalt 42 0 0
    exact ⟨out, ho, hx⟩
  · obtain ⟨out, ho, hx, _⟩ := kill_curr_process_spec loc img k cur EXCEPTION_STATUS himg hp
    refine ⟨out, ?_, hx⟩
    unfold exception_handler_all
    rw [if_neg (by unfold IDT_NUM_EXCEP; omega), if_pos hcs]
    exact ho
  · obtain ⟨s, hs, hA, _, hC, hD⟩ :=
      kill_term_loop_spec loc img cur active TERMINATED_STATUS k himg NUM_PROCESSES
    obtain ⟨out, ho, hd2, hcomp, hfault⟩ :=
      kill_term_process_of_loop loc img k cur active TERMINATED_STATUS s hs
    refine ⟨out, ho, fun q => ?_, fun f hf hon hfirst => ?_, fun hc i hi hon => ?_,
      fun i hi ki ni hki hon => ?_, fun hinv kf hkf => ?_⟩
    · rw [hd2]
      exact hA q
    · rw [hd2]
      exact hC f hf k false
        (kill_term_loop_idle loc img cur active TERMINATED_STATUS k f hfirst) hon
    · rw [hd2]
      obtain ⟨kn, nn, hsg⟩ := hcomp hc
      obtain ⟨ki, ni, hki⟩ := hD kn nn hsg i (Nat.le_of_lt hi)
      exact hC i hi ki ni hki
        (kill_term_loop_reached loc img cur active TERMINATED_STATUS k himg i ki ni hki hon)
    · rw [hd2]
      exact hC i hi ki ni hki hon
    · exact (kill_term_loop_drivers loc img cur active TERMINATED_STATUS k hinv
        NUM_PROCESSES s hs).1 kf (hfault kf hkf)
  · refine ⟨rfl, ?_, fun q hq => ?_⟩
    · unfold syscall_execute_resume
      simp only
      rw [set_pcb_same]
    · unfold syscall_execute_resume
      simp only
      rw [set_pcb_other _ _ _ _ hq]
  · obtain ⟨out, ho, hx, hj⟩ := hhalt status arg2 arg3
    obtain ⟨hj1, hj2⟩ := hj parent h1 h2 h3 h4
    refine ⟨out.data, ?_, hj2, hx, ?_, ?_⟩
    · rw [ho, ← hj1]
    · have e : (syscall_execute_resume out.data cur).1 = (out.data.pcbs cur).exit_code := rfl
      rw [e, hx]; omega
    · have e : (syscall_execute_resume out.data cur).1 = (out.data.pcbs cur).exit_code := rfl
      rw [e, hx]; omega

/-- C11 on two process tables.  For the child of `parent_child_kernel`
(pid 1, parent pid 0, terminal 0): `halt(42)` jumps to the parent, whose
`execute` then returns 42, and `halt(-1)` makes it return 255; a page fault
in user mode makes it return 256; Ctrl-C on terminal 0 tears the child down,
leaves the parent's `exit_code` alone and goes to the scheduler, which picks
the parent, whose `execute` returns 257.  For `half_open_kernel`, Ctrl-C
records 257 in the PCB before the call through the null `file_ops`. -/
theorem exit_code_plumbing_witness :
    (∃ k2, syscall_halt stale_locals sample_image parent_child_kernel 1 42 0 0
        = some (kill_outcome.jumped 0 k2) ∧ (syscall_execute_resume k2 1).1 = 42) ∧
    (∃ k2, syscall_halt stale_locals sample_image parent_child_kernel 1 (-1) 0 0
        = some (kill_outcome.jumped 0 k2) ∧ (syscall_execute_resume k2 1).1 = 255) ∧
    (∃ k2, exception_handler_all stale_locals sample_image parent_child_kernel 1 14
        ⟨43, 43, 43, 43, 0, 0, 0, 0, 0, 0, 0, 4, 134512640, 35, 0, 514⟩
        = some (kill_outcome.jumped 0 k2) ∧ (syscall_execute_resume k2 1).1 = 256) ∧
    (∃ k2, kill_term_process stale_locals sample_image parent_child_kernel 1 0 TERMINATED_STATUS
        = some (kill_term_outcome.scheduled k2 (sched_pass.jump_to 0)) ∧
      (k2.pcbs 1).exit_code = 257 ∧ (k2.pcbs 0).exit_code = 0 ∧
      (syscall_execute_resume k2 1).1 = 257) ∧
    (∃ kf, kill_term_process stale_locals sample_image half_open_kernel 0 0 TERMINATED_STATUS
        = some (kill_term_outcome.fault kf) ∧ (kf.pcbs 0).exit_code = 257) := by
  have h := exit_code_plumbing stale_locals sample_image parent_child_kernel 1
    sample_image_lengths (by decide)
  have hd : ∀ i, i < 8 → ((parent_child_kernel.pcbs 1).fds i).present ≠ 0 →
      ((parent_child_kernel.pcbs 1).fds i).file_ops ≠ none := by decide
  refine ⟨?_, ?_, ?_, ?_, ?_⟩
  · obtain ⟨k2, h1, _, h3, _⟩ := h.2.2.2.2.2 42 0 0 0 rfl (by decide) (by decide) hd
    exact ⟨k2, h1, h3⟩
  · obtain ⟨k2, h1, _, h3, _⟩ := h.2.2.2.2.2 (-1) 0 0 0 rfl (by decide) (by decide) hd
    exact ⟨k2, h1, h3⟩
  · obtain ⟨out, h1, h2⟩ := h.2.2.1 14
      ⟨43, 43, 43, 43, 0, 0, 0, 0, 0, 0, 0, 4, 134512640, 35, 0, 514⟩ (by decide) rfl
    have hex : ∃ k2, exception_handler_all stale_locals sample_image parent_child_kernel 1 14
        ⟨43, 43, 43, 43, 0, 0, 0, 0, 0, 0, 0, 4, 134512640, 35, 0, 514⟩
        = some (kill_outcome.jumped 0 k2) := ⟨_, rfl⟩
    obtain ⟨k2, hk2⟩ := hex
    rw [hk2] at h1
    have e := (Option.some.inj h1).symm
    subst e
    exact ⟨k2, hk2, h2⟩
  · obtain ⟨out, h1, ha, hb, _⟩ := h.2.2.2.1 0
    have hex : ∃ k2, kill_term_process stale_locals sample_image parent_child_kernel 1 0
        TERMINATED_STATUS = some (kill_term_outcome.scheduled k2 (sched_pass.jump_to 0)) ∧
        (k2.pcbs 0).exit_code = 0 := ⟨_, rfl, rfl⟩
    obtain ⟨k2, hk2, h0⟩ := hex
    rw [hk2] at h1
    have e := (Option.some.inj h1).symm
    subst e
    have h257 : (k2.pcbs 1).exit_code = 257 :=
      hb 1 (by decide) (by unfold on_active_terminal; decide)
        (by intro j hj; interval_cases j; unfold on_active_terminal; decide)
    exact ⟨k2, hk2, h257, h0, h257⟩
  · obtain ⟨out, h1, _, hb, _⟩ := (exit_code_plumbing stale_locals sample_image half_open_kernel 0
      sample_image_lengths (by decide)).2.2.2.1 0
    have hex : ∃ kf, kill_term_process stale_locals sample_image half_open_kernel 0 0
        TERMINATED_STATUS = some (kill_term_outcome.fault kf) := ⟨_, rfl⟩
    obtain ⟨kf, hkf⟩ := hex
    rw [hkf] at h1
    have e := (Option.some.inj h1).symm
    subst e
    exact ⟨kf, hkf, hb 0 (by decide) (by unfold on_active_terminal; decide)
      (fun j hj => absurd hj (Nat.not_lt_zero j))⟩

/-! ### A zero-length buffer and the user window -/

/-- C21 fails on the code: the null pointer with length 0 is rejected, the
test of the start address against the user window coming before any use of
the length. -/
theorem null_pointer_zero_length_rejected :
    ¬ ∀ ptr : Nat, ptr < 4294967296 → check_user_bounds ptr 0 = 0 := by
  intro h
  exact absurd (h 0 (by decide)) (by decide)

/-- C21, amended: for a 32-bit pointer `ptr`, `check_user_bounds(ptr, 0)`
returns 0 exactly when `0x08000000 <= ptr <= 0x08400000`, and -1 for every
other pointer. -/
theorem check_user_bounds_zero_length (ptr : Nat) (hp : ptr < 4294967296) :
    (check_user_bounds ptr 0 = 0 ↔ 134217728 ≤ ptr ∧ ptr ≤ 138412032) ∧
    (¬ (134217728 ≤ ptr ∧ ptr ≤ 138412032) → check_user_bounds ptr 0 = -1) := by
  rcases check_user_bounds_cases ptr 0 hp (by decide) with ⟨hw, hc⟩ | ⟨hw, hc⟩
  · refine ⟨⟨fun _ => ⟨hw.1, by omega⟩, fun _ => hc⟩, fun hn => absurd ⟨hw.1, by omega⟩ hn⟩
  · refine ⟨⟨fun h0 => ?_, fun hin => absurd ⟨hin.1, by omega⟩ hw⟩, fun _ => hc⟩
    rw [hc] at h0
    exact absurd h0 (by decide)

theorem check_user_bounds_zero_length_witness :
    ((check_user_bounds 138412032 0 = 0 ↔ 134217728 ≤ 138412032 ∧ 138412032 ≤ 138412032) ∧
      (¬ (134217728 ≤ 138412032 ∧ 138412032 ≤ 138412032) →
        check_user_bounds 138412032 0 = -1)) ∧
    check_user_bounds 138412033 0 = -1 :=
  ⟨check_user_bounds_zero_length 138412032 (by decide),
    (check_user_bounds_zero_length 138412033 (by decide)).2 (by decide)⟩

/-! ### `fs_init` -/

/-- Without wraparound `fs_init` is the test of the block counts of the
header against the size of the module: for a module of less than 2 GiB
between two 32-bit addresses and a header whose counts sum to less than
`2^32`, it returns exactly when both pointers are non-null, the module holds
a whole block and `1 + num_inode + num_data_blk` blocks fit in it; the blocks
the header counts then end at or before `fs_end`. -/
theorem fs_init_cases (img : fs_image) (fs_start fs_end : Nat) (he : fs_end < 4294967296)
    (hle : fs_start ≤ fs_end) (hsz : fs_end - fs_start < 2147483648)
    (hsum : 1 + img.num_inode + img.num_data_blk < 4294967296) :
    (fs_init img fs_start fs_end ≠ none ↔
      fs_start ≠ 0 ∧ fs_end ≠ 0 ∧ 1 ≤ (fs_end - fs_start) / 4096 ∧
      1 + img.num_inode + img.num_data_blk ≤ (fs_end - fs_start) / 4096) ∧
    (fs_init img fs_start fs_end ≠ none →
      fs_start + 4096 * (1 + img.num_inode + img.num_data_blk) ≤ fs_end) := by
  have hblocks : ofInt32 (toInt32 (sub32 fs_end fs_start) >>> (12 : Nat)) = (fs_end - fs_start) / 4096 := by
    rw [sub32_of_le hle he, toInt32_of_lt hsz, Int.shiftRight_eq_div_pow]
    have h4096 : (2 : Nat) ^ 12 = 4096 := by norm_num
    rw [h4096, ← Int.natCast_div]
    rw [ofInt32_of_nonneg (Int.natCast_nonneg _) (by
      have := Nat.div_le_self (fs_end - fs_start) 4096
      omega)]
    exact Int.toNat_natCast _
  have hadd : add32 (add32 1 img.num_inode) img.num_data_blk
      = 1 + img.num_inode + img.num_data_blk := by
    have e1 : add32 1 img.num_inode = 1 + img.num_inode := add32_of_lt (by omega)
    rw [e1, add32_of_lt (by omega)]
  have hiff : fs_init img fs_start fs_end ≠ none ↔
      fs_start ≠ 0 ∧ fs_end ≠ 0 ∧ 1 ≤ (fs_end - fs_start) / 4096 ∧
      1 + img.num_inode + img.num_data_blk ≤ (fs_end - fs_start) / 4096 := by
    unfold fs_init
    simp only
    rw [hblocks, hadd]
    by_cases h0 : fs_start = 0 ∨ fs_end = 0
    · rw [if_pos h0]
      constructor
      · intro h
        exact absurd rfl h
      · rintro ⟨h1, h2, _⟩
        rcases h0 with h0 | h0
        · exact absurd h0 h1
        · exact absurd h0 h2
    · rw [if_neg h0]
      by_cases h1 : (fs_end - fs_start) / 4096 < 1
      · rw [if_pos h1]
        constructor
        · intro h
          exact absurd rfl h
        · rintro ⟨_, _, h2, _⟩
          omega
      · rw [if_neg h1]
        by_cases h2 : (fs_end - fs_start) / 4096 < 1 + img.num_inode + img.num_data_blk
        · rw [if_pos h2]
          constructor
          · intro h
            exact absurd rfl h
          · rintro ⟨_, _, _, h3⟩
            omega
        · rw [if_neg h2]
          constructor
          · intro _
            exact ⟨fun e => h0 (Or.inl e), fun e => h0 (Or.inr e), by omega, by omega⟩
          · intro _ h
            cases h
  refine ⟨hiff, fun h => ?_⟩
  obtain ⟨_, _, _, h4⟩ := hiff.mp h
  have := Nat.div_mul_le_self (fs_end - fs_start) 4096
  have h5 : 4096 * (1 + img.num_inode + img.num_data_blk) ≤ 4096 * ((fs_end - fs_start) / 4096) :=
    Nat.mul_le_mul_left _ h4
  omega

theorem fs_init_cases_witness :
    fs_init sample_image 4194304 4227072 ≠ none ∧
    4194304 + 4096 * (1 + sample_image.num_inode + sample_image.num_data_blk) ≤ 4227072 :=
  have h := fs_init_cases sample_image 4194304 4227072 (by decide) (by decide) (by decide)
    (by decide)
  have h1 : fs_init sample_image 4194304 4227072 ≠ none :=
    h.1.mpr ⟨by decide, by decide, by decide, by decide⟩
  ⟨h1, h.2 h1⟩

/-- C22 fails on the code: a module of exactly one block whose header claims
0xFFFFFFFF inode blocks is accepted, `1 + num_inode + num_data_blk` being 0
in `uint32_t`; as a natural number the sum is 4294967296, and the first data
block is taken to start at `fs_start` itself. -/
theorem fs_init_sum_wraps :
    fs_init wrapped_image 4194304 4198400 = some ⟨4194304, 4198400, 4194304⟩ ∧
    (4198400 - 4194304) / 4096 = 1 ∧
    1 + wrapped_image.num_inode + wrapped_image.num_data_blk = 4294967296 ∧
    fs_init sample_image 4194304 4198400 = none := by
  refine ⟨by decide, by decide, by decide, by decide⟩

/-! ### The bound of the directory index -/

/-- The outer loop of `read_dentry_by_name` reads the entries `i .. i+n-1`
only. -/
theorem read_dentry_by_name_loop_window (img img2 : fs_image) (fname : Nat → Nat) :
    ∀ n i, (∀ l, i ≤ l → l < i + n → img2.dentries l = img.dentries l) →
      read_dentry_by_name_loop img2 fname n i = read_dentry_by_name_loop img fname n i := by
  intro n
  induction n with
  | zero => intro i _; rfl
  | succ n ih =>
    intro i h
    rw [read_dentry_by_name_loop, read_dentry_by_name_loop, h i (Nat.le_refl i) (by omega),
      ih (i + 1) (fun l h1 h2 => h l (by omega) (by omega))]

/-- C26 fails on the code: an eight-block module holding the sample image
with `num_dentries = 100` is accepted by `fs_init`, and `read_dentry_by_index`
with index 70, which is past the 63 entries of the boot block, returns 0 and
hands out the entry at that place.  The entries 63 to 99 of the image are
what the bytes of inode 0 spell at their places, all zero. -/
theorem read_dentry_past_boot_block :
    fs_init long_directory_image 4194304 4227072
      = some ⟨4194304, 4198400, 4210688⟩ ∧
    (∀ i, i < 100 → FS_MAX_DENTRIES ≤ i →
      (∀ j, j < 32 → (long_directory_image.dentries i).filename j
        = (dentry_past_boot_blk long_directory_image i).filename j) ∧
      (long_directory_image.dentries i).type
        = (dentry_past_boot_blk long_directory_image i).type ∧
      (long_directory_image.dentries i).inode
        = (dentry_past_boot_blk long_directory_image i).inode ∧
      (∀ j, j < 24 → (long_directory_image.dentries i).reserved j
        = (dentry_past_boot_blk long_directory_image i).reserved j)) ∧
    FS_MAX_DENTRIES ≤ 70 ∧
    read_dentry_by_index long_directory_image 70 (some (sample_image.dentries 2))
      = (0, some absent_dentry) ∧
    ¬ (∀ i out, FS_MAX_DENTRIES ≤ i →
      (read_dentry_by_index long_directory_image i (some out)).1 = -1) := by
  refine ⟨by decide, by decide, by decide, rfl, fun h => ?_⟩
  exact absurd (h 70 absent_dentry (by decide)) (by decide)

/-- C26, amended: the directory index is checked against the `num_dentries`
field of the image, which `fs_init` does not look at.  `read_dentry_by_index`
returns -1 for a null `dentry` and for every index that is not below
`num_dentries`, and 0 with the entry of that index otherwise;
`read_dentry_by_name` returns an entry of index below `num_dentries` or -1;
neither reads an entry of index `num_dentries` or more, as both give the
same on every image with the same `num_dentries` and the same entries below
it.  So when `num_dentries` is at most 63, `read_dentry_by_index` returns -1
for every index from 63 on. -/
theorem read_dentry_range_checked (img : fs_image) :
    (∀ n fs_start fs_end,
      fs_init { img with num_dentries := n } fs_start fs_end = fs_init img fs_start fs_end) ∧
    (∀ i, read_dentry_by_index img i none = (-1, none)) ∧
    (∀ i out, img.num_dentries ≤ i → read_dentry_by_index img i (some out) = (-1, some out)) ∧
    (∀ i out, i < img.num_dentries →
      read_dentry_by_index img i (some out) = (0, some (img.dentries i))) ∧
    (∀ fname out,
      (∃ i, i < img.num_dentries ∧
        read_dentry_by_name img (some fname) (some out) = (0, some (img.dentries i))) ∨
      read_dentry_by_name img (some fname) (some out) = (-1, some out)) ∧
    (∀ img2 : fs_image, img2.num_dentries = img.num_dentries →
      (∀ i, i < img.num_dentries → img2.dentries i = img.dentries i) →
      (∀ i out, read_dentry_by_index img2 i out = read_dentry_by_index img i out) ∧
      (∀ fname out, read_dentry_by_name img2 fname out = read_dentry_by_name img fname out)) ∧
    (img.num_dentries ≤ FS_MAX_DENTRIES → ∀ i out, FS_MAX_DENTRIES ≤ i →
      (read_dentry_by_index img i out).1 = -1) := by
  have hge : ∀ i out, img.num_dentries ≤ i →
      read_dentry_by_index img i (some out) = (-1, some out) := by
    intro i out h
    unfold read_dentry_by_index
    simp only
    rw [if_pos h]
  have hlt : ∀ (im : fs_image) i out, i < im.num_dentries →
      read_dentry_by_index im i (some out) = (0, some (im.dentries i)) := by
    intro im i out h
    unfold read_dentry_by_index
    simp only
    rw [if_neg (by omega)]
  refine ⟨fun n fs_start fs_end => rfl, fun i => rfl, hge, hlt img, fun fname out => ?_,
    fun img2 hn hd => ⟨fun i out => ?_, fun fname out => ?_⟩, fun h63 i out hi => ?_⟩
  · unfold read_dentry_by_name
    simp only
    cases hl : read_dentry_by_name_loop img fname img.num_dentries 0 with
    | none => exact Or.inr rfl
    | some r =>
      have hr := ((read_dentry_by_name_loop_some img fname img.num_dentries 0 r).1 hl).2.1
      exact Or.inl ⟨r, by omega, rfl⟩
  · cases out with
    | none => rfl
    | some d =>
      by_cases h : i < img.num_dentries
      · rw [hlt img i d h, hlt img2 i d (by omega), hd i h]
      · unfold read_dentry_by_index
        simp only
        rw [if_pos (by omega), if_pos (by omega)]
  · cases fname with
    | none => rfl
    | some f =>
      cases out with
      | none => rfl
      | some d =>
        unfold read_dentry_by_name
        simp only
        rw [hn, read_dentry_by_name_loop_window img img2 f img.num_dentries 0
          (fun l _ h2 => hd l (by omega))]
        cases hl : read_dentry_by_name_loop img f img.num_dentries 0 with
        | none => rfl
        | some r =>
          have hr := ((read_dentry_by_name_loop_some img f img.num_dentries 0 r).1 hl).2.1
          simp only
          rw [hd r (by omega)]
  · cases out with
    | none => rfl
    | some d =>
      rw [hge i d (by omega)]

/-- C26, amended, on the sample image, whose `num_dentries` is 5: index 4
gives the entry of `shell`, index 5 and index 70 give -1 and leave `dentry`
alone, and the same holds when the places from 5 on hold something else. -/
theorem read_dentry_range_checked_witness :
    (read_dentry_by_index sample_image 4 (some absent_dentry)).1 = 0 ∧
    (read_dentry_by_index sample_image 4 (some absent_dentry)).2.map
      (fun d => (d.type, d.inode)) = some (2, 1) ∧
    read_dentry_by_index sample_image 5 (some absent_dentry) = (-1, some absent_dentry) ∧
    (read_dentry_by_index sample_image 70 (some absent_dentry)).1 = -1 ∧
    (∀ fname out,
      read_dentry_by_name
        { sample_image with
          dentries := fun i => if i < 5 then sample_image.dentries i
            else sample_image.dentries 2 } fname out
      = read_dentry_by_name sample_image fname out) := by
  have h := read_dentry_range_checked sample_image
  refine ⟨?_, ?_, h.2.2.1 5 absent_dentry (by decide),
    h.2.2.2.2.2.2 (by decide) 70 (some absent_dentry) (by decide), ?_⟩
  · rw [h.2.2.2.1 4 absent_dentry (by decide)]
  · rw [h.2.2.2.1 4 absent_dentry (by decide)]
    decide
  · exact (h.2.2.2.2.2.1
      { sample_image with
        dentries := fun i => if i < 5 then sample_image.dentries i else sample_image.dentries 2 }
      rfl (fun i hi => if_pos hi)).2

/-! ### `syscall_close` and the `close` of the drivers -/

/-- The `close` of each of the five drivers returns 0 on a descriptor that
is not null. -/
theorem fd_driver_close_some (drv : fd_driver_t) (k : kernel_t) (p : fd_ptr) :
    (fd_driver_close drv k (some p)).1 = 0 := by
  cases drv <;> rfl

/-- With the drivers of the kernel, `syscall_close` on a present slot `fd`
with `2 <= fd < 8` that has a driver returns 0 and leaves the slot absent:
the return of -1 after the call of `close` is never taken. -/
theorem syscall_close_drivers (k : kernel_t) (cur : Nat) (fd arg2 arg3 : Int)
    (drv : fd_driver_t) (hfd : 2 ≤ fd ∧ fd < 8) (hp : (get_fd k (cur, fd.toNat)).present ≠ 0)
    (hops : (get_fd k (cur, fd.toNat)).file_ops = some drv) :
    ∃ k3, syscall_close fd_driver_close k cur fd arg2 arg3 = some (0, k3) ∧
      (get_fd k3 (cur, fd.toNat)).present = 0 := by
  unfold syscall_close
  simp only
  rw [if_neg (by unfold FD_PER_PROC; omega), if_neg hp, hops]
  simp only
  have h0 := fd_driver_close_some drv k (cur, fd.toNat)
  rw [if_neg (by simpa using h0)]
  refine ⟨_, rfl, ?_⟩
  rw [get_fd_set_fd]
  simp

/-- Closing the file in slot 2 of the sample process returns 0 and leaves
the slot absent. -/
theorem syscall_close_drivers_witness :
    (syscall_close fd_driver_close sample_kernel 0 2 0 0).map
      (fun r => (r.1, (get_fd r.2 (0, 2)).present)) = some (0, 0) := by
  obtain ⟨k3, h1, h2⟩ := syscall_close_drivers sample_kernel 0 2 0 0 fd_driver_t.file_fd_driver
    (by decide) (by decide) rfl
  rw [h1]
  exact congrArg (fun x => some ((0 : Int), x)) h2

/-! ### `irq_register_handler` and a node of another line -/

/-- C27 fails on the code: the node of line 4 is registered on line 5.  On
line 4 itself the call panics; on line 5 it returns, the walk having gone
through the list of line 5 only, and the node has become the head of line 5
while it still is the head of line 4. -/
theorem irq_register_handler_linked_elsewhere :
    is_list two_lines.nodes (two_lines.irq_handlers 4) [100] = true ∧
    (irq_register_handler 1 two_lines 4 100).panicked = true ∧
    (irq_register_handler 1 two_lines 5 100).panicked = false ∧
    (irq_register_handler 1 two_lines 5 100).state.map
      (fun s => (s.irq_handlers 4, s.irq_handlers 5)) = some (100, 100) := by
  refine ⟨by decide, by decide, by decide, by decide⟩

/-! ### Backspace -/

/-- After `term_recv_byte` the line buffer is in order: when `term_in_flag`
is 1, the call has just stored a newline as the most recent byte. -/
theorem term_recv_byte_line_ready (c : Nat) (t : Int) (k : kernel_t) (vmem : Mem)
    (s : kernel_t × Mem) (h : term_recv_byte c t k vmem = some s)
    (hflag : (s.1.terminals t).term_in_flag = 1) :
    1 ≤ (s.1.terminals t).buffer_index ∧
    (s.1.terminals t).keyboard_buffer ((s.1.terminals t).buffer_index - 1).toNat = 10 := by
  unfold term_recv_byte at h
  by_cases ht : t < 0 ∨ t ≥ NUM_TERMINALS
  · rw [if_pos ht] at h
    cases h
  · rw [if_neg ht] at h
    have ht3 : 0 ≤ t ∧ t < 3 := by
      unfold NUM_TERMINALS at ht
      omega
    simp only at h
    have key : ∀ k0 : kernel_t, (k0.terminals t).term_in_flag ≠ 1 →
        (if c ≠ 0 ∧ ((k0.terminals t).buffer_index < (KEYBOARD_BUFFER_SIZE : Int) - 1 ∨
            ((k0.terminals t).buffer_index = (KEYBOARD_BUFFER_SIZE : Int) - 1 ∧ c = 10)) then
          if (k0.terminals t).buffer_index < 0 then none
          else
            match term_putc c t (set_term k0 t { (k0.terminals t) with
                keyboard_buffer := Function.update (k0.terminals t).keyboard_buffer
                  (k0.terminals t).buffer_index.toNat c,
                buffer_index := (k0.terminals t).buffer_index + 1 }) vmem with
            | none => none
            | some (k, vmem) =>
              if c = 10 then
                some (set_term k t { (k.terminals t) with term_in_flag := 1 }, vmem)
              else some (k, vmem)
        else some (k0, vmem)) = some s →
        1 ≤ (s.1.terminals t).buffer_index ∧
        (s.1.terminals t).keyboard_buffer ((s.1.terminals t).buffer_index - 1).toNat = 10 := by
      intro k0 hk0 h0
      by_cases hacc : c ≠ 0 ∧ ((k0.terminals t).buffer_index < (KEYBOARD_BUFFER_SIZE : Int) - 1 ∨
          ((k0.terminals t).buffer_index = (KEYBOARD_BUFFER_SIZE : Int) - 1 ∧ c = 10))
      · rw [if_pos hacc] at h0
        by_cases hneg : (k0.terminals t).buffer_index < 0
        · rw [if_pos hneg] at h0
          cases h0
        · rw [if_neg hneg] at h0
          obtain ⟨s2, hs2, _, hl2, hl3, hl4⟩ := term_putc_line c t (set_term k0 t
            { (k0.terminals t) with
              keyboard_buffer := Function.update (k0.terminals t).keyboard_buffer
                (k0.terminals t).buffer_index.toNat c,
              buffer_index := (k0.terminals t).buffer_index + 1 }) vmem ht3
          rw [hs2] at h0
          obtain ⟨k3, vmem3⟩ := s2
          simp only at h0 hl2 hl3 hl4
          simp only [set_term, Function.update_same] at hl2 hl3 hl4
          by_cases h10 : c = 10
          · rw [if_pos h10] at h0
            have hs := Option.some.inj h0
            subst hs
            simp only [set_term, Function.update_same]
            rw [hl2, hl3]
            refine ⟨by omega, ?_⟩
            have : ((k0.terminals t).buffer_index + 1 - 1).toNat
                = (k0.terminals t).buffer_index.toNat := by
              congr 1
              omega
            rw [this, Function.update_same, h10]
          · rw [if_neg h10] at h0
            have hs := Option.some.inj h0
            subst hs
            simp only at hflag
            rw [hl4] at hflag
            exact absurd hflag hk0
      · rw [if_neg hacc] at h0
        have hs := Option.some.inj h0
        subst hs
        exact absurd hflag hk0
    by_cases hf1 : (k.terminals t).term_in_flag = 1
    · rw [if_pos hf1] at h
      unfold term_clear_keyboard_buffer at h
      rw [if_neg ht] at h
      simp only at h
      exact key _ (by simp [set_term]) h
    · rw [if_neg hf1] at h
      simp only at h
      exact key k hf1 h

/-- A `term_read` that has waited for a line leaves `term_in_flag` at 0. -/
theorem term_read_clears_flag (env : irq_env) (img : fs_image) (k : kernel_t) (mem : Mem)
    (cur : Nat) (p : Option fd_ptr) (buf : Nat) (n : Int) (res : Int × kernel_t × Mem)
    (hbuf : buf ≠ 0) (hn : 0 ≤ n) (h : term_read env img k mem cur p buf n = some res) :
    (res.2.1.terminals (k.pcbs cur).terminal_id).term_in_flag = 0 := by
  unfold term_read at h
  simp only at h
  rw [if_neg (by omega)] at h
  cases hw : hlt_until (fun k2 => decide ((k2.terminals (k.pcbs cur).terminal_id).term_in_flag ≠ 0))
      env k with
  | none =>
    rw [hw] at h
    cases h
  | some k1 =>
    rw [hw] at h
    simp only at h
    cases hcl : term_clear_keyboard_buffer k1 (k1.pcbs cur).terminal_id with
    | none =>
      rw [hcl] at h
      cases h
    | some k2 =>
      rw [hcl] at h
      simp only [Option.some.injEq] at h
      subst h
      simp only [set_term, Function.update_same]

/-- C25 fails on the code: `a` and a newline are typed on terminal 0 of the
boot state, then backspace.  The newline has set `term_in_flag`; the
keyboard handler finds `buffer_index = 2 > 0` and calls `term_bksp`, which
takes the newline off the line and leaves the flag at 1: the most recent
buffered byte is `a` and the buffer holds one byte of 128. -/
theorem term_bksp_keeps_input_flag :
    ((typed_a.bind (fun s => term_recv_byte 10 0 s.1 s.2)).bind
        (fun s => keyboard_handler_backspace 0 s.1 s.2)).map
      (fun s => [(s.1.terminals 0).term_in_flag, (s.1.terminals 0).buffer_index,
        (((s.1.terminals 0).keyboard_buffer 0 : Nat) : Int)]) = some [1, 1, 97] ∧
    (typed_a.bind (fun s => term_recv_byte 10 0 s.1 s.2)).map
      (fun s => [(s.1.terminals 0).term_in_flag, (s.1.terminals 0).buffer_index,
        (((s.1.terminals 0).keyboard_buffer 1 : Nat) : Int)]) = some [1, 2, 10] := by
  refine ⟨by decide, by decide⟩

/-- The steps back of `term_bksp` stay on the screen when the cursor has at
least as many cells in front of it: the cursor ends that many cells back, and
the blanks are stored inside the first 4000 bytes of `video_buffers[t]`. -/
theorem term_bksp_loop_frame (t : Int) (ht : 0 ≤ t ∧ t < 3) :
    ∀ (n : Nat) (k : kernel_t) (vmem : Mem), cursor_on_screen k t →
      (n : Int) ≤ 80 * (k.terminals t).screen_y + (k.terminals t).screen_x →
      cursor_on_screen (term_bksp_loop t n k vmem).1 t ∧
      80 * ((term_bksp_loop t n k vmem).1.terminals t).screen_y
          + ((term_bksp_loop t n k vmem).1.terminals t).screen_x
        = 80 * (k.terminals t).screen_y + (k.terminals t).screen_x - n ∧
      ∀ a, ¬ (video_buffers t ≤ a ∧ a < video_buffers t + 4000) →
        (term_bksp_loop t n k vmem).2 a = vmem a := by
  have hv := video_buffers_eq t ht
  have ht3 : t.toNat < 3 := by omega
  intro n
  induction n with
  | zero =>
    intro k vmem hc _
    exact ⟨hc, by simp [term_bksp_loop], fun _ _ => rfl⟩
  | succ n ih =>
    intro k vmem hc hn
    obtain ⟨hx0, hx1, hy0, hy1⟩ := hc
    rw [term_bksp_loop]
    have hcol : ((NUM_COLS : Nat) : Int) = 80 := rfl
    rw [hcol]
    by_cases hwrap : (k.terminals t).screen_x = 0 ∧ (k.terminals t).screen_y > 0
    · rw [if_pos hwrap]
      simp only
      obtain ⟨i1, i2, i3⟩ := ih
        (set_term k t { (k.terminals t) with
          screen_y := (k.terminals t).screen_y - 1, screen_x := 80 - 1 })
        (Function.update (Function.update vmem
          (ofInt32 ((video_buffers t : Int) + (80 * ((k.terminals t).screen_y - 1) + (80 - 1)) * 2))
          32)
          (add32 (ofInt32 ((video_buffers t : Int)
            + (80 * ((k.terminals t).screen_y - 1) + (80 - 1)) * 2)) 1) ATTRIB)
        (by
          simp only [cursor_on_screen, set_term, Function.update_same]
          omega)
        (by
          simp only [set_term, Function.update_same]
          push_cast at hn
          omega)
      refine ⟨i1, i2.trans ?_, fun a ha => ?_⟩
      · simp only [set_term, Function.update_same]
        push_cast
        omega
      rw [i3 a ha]
      have hpos : ofInt32 ((video_buffers t : Int)
          + (80 * ((k.terminals t).screen_y - 1) + (80 - 1)) * 2)
          = video_buffers t + ((80 * ((k.terminals t).screen_y - 1) + (80 - 1)) * 2).toNat := by
        rw [ofInt32_of_nonneg (by omega) (by rw [hv]; omega)]
        omega
      rw [hpos, add32_of_lt (by rw [hv]; omega), Function.update_noteq (by omega),
        Function.update_noteq (by omega)]
    · rw [if_neg hwrap]
      simp only
      have hxpos : 1 ≤ (k.terminals t).screen_x := by
        push_cast at hn
        omega
      obtain ⟨i1, i2, i3⟩ := ih
        (set_term k t { (k.terminals t) with screen_x := (k.terminals t).screen_x - 1 })
        (Function.update (Function.update vmem
          (ofInt32 ((video_buffers t : Int)
            + (80 * (k.terminals t).screen_y + ((k.terminals t).screen_x - 1)) * 2)) 32)
          (add32 (ofInt32 ((video_buffers t : Int)
            + (80 * (k.terminals t).screen_y + ((k.terminals t).screen_x - 1)) * 2)) 1) ATTRIB)
        (by
          simp only [cursor_on_screen, set_term, Function.update_same]
          omega)
        (by
          simp only [set_term, Function.update_same]
          push_cast at hn
          omega)
      refine ⟨i1, i2.trans ?_, fun a ha => ?_⟩
      · simp only [set_term, Function.update_same]
        push_cast
        omega
      rw [i3 a ha]
      have hpos : ofInt32 ((video_buffers t : Int)
          + (80 * (k.terminals t).screen_y + ((k.terminals t).screen_x - 1)) * 2)
          = video_buffers t
            + ((80 * (k.terminals t).screen_y + ((k.terminals t).screen_x - 1)) * 2).toNat := by
        rw [ofInt32_of_nonneg (by omega) (by rw [hv]; omega)]
        omega
      rw [hpos, add32_of_lt (by rw [hv]; omega), Function.update_noteq (by omega),
        Function.update_noteq (by omega)]

/-- `term_clear_screen` writes inside the frame and puts the cursor at the
origin; it leaves the keyboard buffer as it is. -/
theorem term_clear_screen_frame (t : Int) (k : kernel_t) (vmem : Mem) (ht : 0 ≤ t ∧ t < 3) :
    cursor_on_screen (term_clear_screen t k vmem).1 t ∧
    ((term_clear_screen t k vmem).1.terminals t).buffer_index = (k.terminals t).buffer_index ∧
    ∀ a, ¬ (video_buffers t ≤ a ∧ a < video_buffers t + 4000) →
      (term_clear_screen t k vmem).2 a = vmem a := by
  unfold term_clear_screen
  rw [if_neg (by unfold NUM_TERMINALS; omega)]
  simp only [cursor_on_screen, set_term, Function.update_same]
  refine ⟨⟨le_refl _, by decide, le_refl _, by decide⟩, trivial, fun a ha => ?_⟩
  unfold memset_word
  rw [if_neg]
  unfold NUM_ROWS NUM_COLS
  omega

/-- C30 fails on the code: `a` is typed on terminal 0 of the boot state, the
screen is cleared, which puts the cursor at (0, 0) and leaves the typed byte
in the keyboard buffer, and `term_bksp` is called.  The cursor is then at
column -1 of row 0, and the blank and its attribute have been stored in the
two bytes in front of `video_buffers[0]`, which is at 761856. -/
theorem term_bksp_leaves_screen :
    typed_a.map (fun s => [(s.1.terminals 0).screen_x, (s.1.terminals 0).screen_y,
      (s.1.terminals 0).buffer_index]) = some [1, 0, 1] ∧
    ((typed_a.map (fun s => term_clear_screen 0 s.1 s.2)).bind
        (fun s => term_bksp 0 s.1 s.2)).map
      (fun s => [(s.1.terminals 0).screen_x, (s.1.terminals 0).screen_y,
        ((s.2 761854 : Nat) : Int), ((s.2 761855 : Nat) : Int)]) = some [-1, 0, 32, 7] ∧
    (typed_a.map (fun s => term_clear_screen 0 s.1 s.2)).map
      (fun s => [(s.1.terminals 0).screen_x, (s.1.terminals 0).screen_y,
        ((s.2 761854 : Nat) : Int), ((s.2 761855 : Nat) : Int)]) = some [0, 0, 0, 0] ∧
    video_buffers 0 = 761856 := by
  refine ⟨by decide, by decide, by decide, by decide⟩

/-! ### `getargs` after `execute` -/

/-- The first case of `syscall_getargs` that fails on a size too small for
the argument string and its NUL, or on an empty argument string. -/
theorem syscall_getargs_short (k : kernel_t) (mem : Mem) (cur : Nat) (arg1 arg2 arg3 : Int)
    (z : Nat) (hz : z < 128) (hz0 : (k.pcbs cur).args z = 0)
    (hmin : ∀ t, t < z → (k.pcbs cur).args t ≠ 0)
    (hshort : z = 0 ∨ (0 ≤ arg2 ∧ arg2 < (z : Int) + 1)) :
    syscall_getargs k mem cur arg1 arg2 arg3 = some (-1, mem) := by
  unfold syscall_getargs
  simp only
  by_cases h1 : ofInt32 arg1 = 0 ∨ arg2 < 0
  · rw [if_pos h1]
  · rw [if_neg h1]
    by_cases h2 : check_user_bounds (ofInt32 arg1) (ofInt32 arg2) = -1
    · rw [if_pos h2]
    · rw [if_neg h2]
      by_cases hp : (k.pcbs cur).present = 0
      · rw [if_pos hp]
      · rw [if_neg hp]
        have hlen : strnlen (k.pcbs cur).args 128 0 = z :=
          strnlen_eq _ 128 0 z (Nat.zero_le _) (by omega) hz0 (fun t _ ht => hmin t ht)
        have hsl : strlen (k.pcbs cur).args ARG_LENGTH = some z := by
          unfold strlen ARG_LENGTH
          rw [hlen, if_pos hz]
        rw [hsl]
        simp only
        rw [if_pos]
        rcases hshort with h0 | ⟨h0, hlt⟩
        · exact Or.inr h0
        · left
          rw [add32_of_lt (by omega), ofInt32_of_nonneg h0 (by omega)]
          omega

/-- The case of `syscall_getargs` that succeeds. -/
theorem syscall_getargs_long (k : kernel_t) (mem : Mem) (cur : Nat) (arg1 arg2 arg3 : Int)
    (z : Nat) (hz : z < 128) (hz0 : (k.pcbs cur).args z = 0)
    (hmin : ∀ t, t < z → (k.pcbs cur).args t ≠ 0) (hzpos : z ≠ 0)
    (hn : (z : Int) + 1 ≤ arg2) (hn2 : arg2 < 2147483648)
    (hw : 134217728 ≤ ofInt32 arg1 ∧ ofInt32 arg1 + arg2.toNat ≤ 138412032)
    (hp : (k.pcbs cur).present ≠ 0) :
    ∃ mem2, syscall_getargs k mem cur arg1 arg2 arg3 = some (0, mem2) ∧
      (∀ t, t < z → mem2 (ofInt32 arg1 + t) = (k.pcbs cur).args t) ∧
      mem2 (ofInt32 arg1 + z) = 0 ∧
      (∀ a, ¬ (ofInt32 arg1 ≤ a ∧ a < ofInt32 arg1 + arg2.toNat) → mem2 a = mem a) := by
  have h0 : 0 ≤ arg2 := by omega
  have hof : ofInt32 arg2 = arg2.toNat := ofInt32_of_nonneg h0 (by omega)
  have hlen : strnlen (k.pcbs cur).args 128 0 = z :=
    strnlen_eq _ 128 0 z (Nat.zero_le _) (by omega) hz0 (fun t _ ht => hmin t ht)
  have hlen2 : strnlen (k.pcbs cur).args arg2.toNat 0 = z :=
    strnlen_eq _ arg2.toNat 0 z (Nat.zero_le _) (by omega) hz0 (fun t _ ht => hmin t ht)
  have hsl : strlen (k.pcbs cur).args ARG_LENGTH = some z := by
    unfold strlen ARG_LENGTH
    rw [hlen, if_pos hz]
  refine ⟨memcpy mem (ofInt32 arg1) (strncpy (fun _ => 0) (k.pcbs cur).args arg2.toNat)
    arg2.toNat, ?_, fun t ht => ?_, ?_, fun a ha => memcpy_outside _ _ _ _ _ ha⟩
  · unfold syscall_getargs
    simp only
    rw [if_neg (by omega), hof]
    rcases check_user_bounds_cases (ofInt32 arg1) arg2.toNat (ofInt32_lt arg1) (by omega)
      with ⟨_, hc⟩ | ⟨hw2, _⟩
    · rw [hc, if_neg (by decide), if_neg hp, hsl]
      simp only
      rw [add32_of_lt (by omega), if_neg (by omega)]
    · exact absurd hw hw2
  · rw [memcpy_inside _ _ _ _ _ (by omega)]
    unfold strncpy
    rw [if_pos (by omega), hlen2, if_pos ht]
  · rw [memcpy_inside _ _ _ _ _ (by omega)]
    unfold strncpy
    rw [if_pos (by omega), hlen2, if_neg (Nat.lt_irrefl _)]

/-- The argument string `alloc_process` leaves in the new PCB for a command
line whose first NUL is at `z < 128`: the bytes from the start `s1` of the
arguments to `z`, then NULs. -/
theorem alloc_process_args (loc : alloc_locals) (img : fs_image) (k : kernel_t)
    (parent : Option Nat) (cmdline : Nat → Nat) (terminal : Int) (pid : Nat) (k2 : kernel_t)
    (z : Nat) (hz : z < 128) (hz0 : cmdline z = 0) (hmin : ∀ t, t < z → cmdline t ≠ 0)
    (h : alloc_process loc img k parent cmdline terminal = some (some pid, k2)) :
    ∃ s0 e0 s1, s0 ≤ e0 ∧ e0 ≤ s1 ∧ s1 ≤ z ∧
      (∀ t, t < s0 → is_ws (cmdline t)) ∧ ¬ is_ws (cmdline s0) ∧
      (∀ t, s0 ≤ t → t < e0 → ¬ is_ws (cmdline t) ∧ cmdline t ≠ 0) ∧
      (is_ws (cmdline e0) ∨ cmdline e0 = 0) ∧
      (∀ t, e0 ≤ t → t < s1 → is_ws (cmdline t)) ∧ ¬ is_ws (cmdline s1) ∧
      (∀ t, t < z - s1 → (k2.pcbs pid).args t = cmdline (s1 + t)) ∧
      (∀ t, z - s1 ≤ t → t < 128 → (k2.pcbs pid).args t = 0) ∧
      (k2.pcbs pid).present = 1 := by
  obtain ⟨s0, e0, s1, h1, h2, h3, h4, h5, h6, h7, h8, h9, _, hj, _, _, hab⟩ :=
    parse_cmdline_terminated loc cmdline z hz hz0 hmin
  obtain ⟨_, _, _, _, d, _, _, _, _, hargs, _, hpres⟩ :=
    alloc_process_some loc img k parent cmdline terminal pid k2 h
  have hlen : strnlen (Function.update (parse_cmdline loc cmdline).arg_buffer
      (parse_cmdline loc cmdline).j 0) 128 0 = z - s1 := by
    apply strnlen_eq _ 128 0 (z - s1) (Nat.zero_le _) (by omega)
    · rw [hj, Function.update_same]
    · intro t _ ht
      rw [hj, Function.update_noteq (by omega), hab t ht]
      exact hmin (s1 + t) (by omega)
  refine ⟨s0, e0, s1, h1, h2, h3, h4, h5, h6, h7, h8, h9, fun t ht => ?_, fun t ht1 ht2 => ?_,
    hpres⟩
  · rw [hargs]
    unfold alloc_pcb ARG_LENGTH
    simp only [strncpy]
    rw [if_pos (by omega), hlen, if_pos ht, hj, Function.update_noteq (by omega), hab t ht]
  · rw [hargs]
    unfold alloc_pcb ARG_LENGTH
    simp only [strncpy]
    rw [if_pos ht2, hlen, if_neg (by omega)]

/-- An `execute` that has switched to a child has allocated it from the
command line in user memory; the caller's PCB differs afterwards in its
running flag only. -/
theorem syscall_execute_switched (loc : alloc_locals) (img : fs_image) (k : kernel_t) (mem : Mem)
    (cur : Nat) (arg1 arg2 arg3 : Int) (child : Nat) (k2 : kernel_t)
    (h : syscall_execute loc img k mem cur arg1 arg2 arg3
      = some (execute_outcome.switched child k2)) :
    ∃ k1, alloc_process loc img k (some cur) (fun j => mem (ofInt32 arg1 + j))
        (k.pcbs cur).terminal_id = some (some child, k1) ∧
      (k2.pcbs child).args = (k1.pcbs child).args ∧
      (k2.pcbs child).present = (k1.pcbs child).present := by
  unfold syscall_execute at h
  simp only at h
  by_cases h1 : ofInt32 arg1 = 0
  · rw [if_pos h1] at h
    cases h
  · rw [if_neg h1] at h
    by_cases h2 : check_user_str_bounds mem (ofInt32 arg1) (ARG_LENGTH - 1) ≠ 0
    · rw [if_pos h2] at h
      cases h
    · rw [if_neg h2] at h
      cases ha : alloc_process loc img k (some cur) (fun j => mem (ofInt32 arg1 + j))
          (k.pcbs cur).terminal_id with
      | none =>
        rw [ha] at h
        cases h
      | some r =>
        obtain ⟨o, k1⟩ := r
        rw [ha] at h
        cases o with
        | none => cases h
        | some c =>
          simp only [Option.some.injEq, execute_outcome.switched.injEq] at h
          obtain ⟨hc, hk⟩ := h
          subst hc
          subst hk
          refine ⟨k1, rfl, ?_, ?_⟩
          · by_cases hcc : c = cur
            · subst hcc
              rw [set_pcb_same]
            · rw [set_pcb_other _ _ _ _ hcc]
          · by_cases hcc : c = cur
            · subst hcc
              rw [set_pcb_same]
            · rw [set_pcb_other _ _ _ _ hcc]
/-- C23 fails on the code: `execute("cat hello")` from the sample process
switches to a child, and `getargs(buf, 4)` in that child returns -1 and
writes nothing, four bytes being too few for `hello` and its NUL. -/
theorem getargs_four_after_cat_hello :
    (match syscall_execute stale_locals sample_image sample_kernel
        (user_string [99, 97, 116, 32, 104, 101, 108, 108, 111]) 0 134217728 0 0 with
      | some (execute_outcome.switched child k2) =>
        (syscall_getargs k2 (fun _ => 170) child 134218752 4 0).map
          (fun r => (r.1, (List.range 6).map (fun j => r.2 (134218752 + j))))
      | _ => none) = some (-1, [170, 170, 170, 170, 170, 170]) := by
  decide

/-- C23, amended: in the child that `execute("cat hello")` has switched to,
`getargs(buf, 4)` returns -1 and writes nothing, whereas `getargs(buf, n)`
with `n >= 6` and `[buf, buf+n)` inside the user window returns 0 and `buf`
holds `hello` followed by a NUL; in the child that `execute("shell")` has
switched to, `getargs` returns -1 for every size. -/
theorem getargs_after_execute (loc : alloc_locals) (img : fs_image) (k : kernel_t) (mem : Mem)
    (cur : Nat) (arg1 arg2 arg3 : Int) (child : Nat) (k2 : kernel_t)
    (hex : syscall_execute loc img k mem cur arg1 arg2 arg3
      = some (execute_outcome.switched child k2)) :
    (holds_string mem (ofInt32 arg1) [99, 97, 116, 32, 104, 101, 108, 108, 111] →
      ∀ (mem2 : Mem) (buf a3 : Int),
        syscall_getargs k2 mem2 child buf 4 a3 = some (-1, mem2) ∧
        ∀ n : Int, 6 ≤ n → n < 2147483648 →
          134217728 ≤ ofInt32 buf ∧ ofInt32 buf + n.toNat ≤ 138412032 →
          ∃ mem3, syscall_getargs k2 mem2 child buf n a3 = some (0, mem3) ∧
            holds_string mem3 (ofInt32 buf) [104, 101, 108, 108, 111] ∧
            ∀ a, ¬ (ofInt32 buf ≤ a ∧ a < ofInt32 buf + n.toNat) → mem3 a = mem2 a) ∧
    (holds_string mem (ofInt32 arg1) [115, 104, 101, 108, 108] →
      ∀ (mem2 : Mem) (buf n a3 : Int),
        syscall_getargs k2 mem2 child buf n a3 = some (-1, mem2)) := by
  obtain ⟨k1, halloc, hargs, hpres⟩ :=
    syscall_execute_switched loc img k mem cur arg1 arg2 arg3 child k2 hex
  refine ⟨fun hs => ?_, fun hs => ?_⟩
  · have hc : ∀ j, j ≤ 9 → mem (ofInt32 arg1 + j)
        = bytes_of [99, 97, 116, 32, 104, 101, 108, 108, 111] j := fun j hj => hs j hj
    have c0 := hc 0 (by omega)
    have c1 := hc 1 (by omega)
    have c2 := hc 2 (by omega)
    have c3 := hc 3 (by omega)
    have c4 := hc 4 (by omega)
    have c5 := hc 5 (by omega)
    have c6 := hc 6 (by omega)
    have c7 := hc 7 (by omega)
    have c8 := hc 8 (by omega)
    have c9 := hc 9 (by omega)
    simp only [bytes_of, List.getD_cons_zero, List.getD_cons_succ, List.getD_nil] at c0 c1 c2 c3 c4 c5 c6 c7 c8 c9
    obtain ⟨s0, e0, s1, h1, h2, h3, h4, h5, h6, h7, h8, h9, ha, hb, hp⟩ :=
      alloc_process_args loc img k (some cur) (fun j => mem (ofInt32 arg1 + j))
        (k.pcbs cur).terminal_id child k1 9 (by omega) c9 (fun t ht => by
          have : t = 0 ∨ t = 1 ∨ t = 2 ∨ t = 3 ∨ t = 4 ∨ t = 5 ∨ t = 6 ∨ t = 7 ∨ t = 8 := by
            omega
          rcases this with e | e | e | e | e | e | e | e | e <;> subst e <;> simp only <;>
            omega) halloc
    simp only [is_ws] at h4 h5 h6 h7 h8 h9
    have hs0 : s0 = 0 := by
      by_contra hne
      have := h4 0 (by omega)
      omega
    subst hs0
    have he0 : e0 = 3 := by
      have hle : e0 ≤ 3 := by
        by_contra hgt
        have := (h6 3 (by omega) (by omega)).1
        omega
      have hx : e0 = 0 ∨ e0 = 1 ∨ e0 = 2 ∨ e0 = 3 := by omega
      rcases hx with e | e | e | e
      · subst e; omega
      · subst e; omega
      · subst e; omega
      · exact e
    subst he0
    have hs1 : s1 = 4 := by
      have hle : s1 ≤ 4 := by
        by_contra hgt
        have := h8 4 (by omega) (by omega)
        omega
      have hx : s1 = 3 ∨ s1 = 4 := by omega
      rcases hx with e | e
      · subst e; omega
      · exact e
    subst hs1
    have a0 := ha 0 (by omega)
    have a1 := ha 1 (by omega)
    have a2 := ha 2 (by omega)
    have a3' := ha 3 (by omega)
    have a4 := ha 4 (by omega)
    have a5 := hb 5 (by omega) (by omega)
    simp only [c4, c5, c6, c7, c8] at a0 a1 a2 a3' a4
    rw [← hargs] at a0 a1 a2 a3' a4 a5
    have hmin : ∀ t, t < 5 → (k2.pcbs child).args t ≠ 0 := by
      intro t ht
      have : t = 0 ∨ t = 1 ∨ t = 2 ∨ t = 3 ∨ t = 4 := by omega
      rcases this with e | e | e | e | e <;> subst e <;> omega
    intro mem2 buf a3
    refine ⟨syscall_getargs_short k2 mem2 child buf 4 a3 5 (by omega) a5 hmin
      (Or.inr ⟨by omega, by omega⟩), fun n hn6 hn hw => ?_⟩
    obtain ⟨mem3, hr, hcopy, hnul, hout⟩ := syscall_getargs_long k2 mem2 child buf n a3 5
      (by omega) a5 hmin (by omega) (by omega) hn hw (by rw [hpres, hp]; decide)
    refine ⟨mem3, hr, fun j hj => ?_, hout⟩
    have hj5 : j ≤ 5 := hj
    have : j = 0 ∨ j = 1 ∨ j = 2 ∨ j = 3 ∨ j = 4 ∨ j = 5 := by omega
    rcases this with e | e | e | e | e | e <;> subst e
    · rw [hcopy 0 (by omega), a0]; rfl
    · rw [hcopy 1 (by omega), a1]; rfl
    · rw [hcopy 2 (by omega), a2]; rfl
    · rw [hcopy 3 (by omega), a3']; rfl
    · rw [hcopy 4 (by omega), a4]; rfl
    · rw [hnul]; rfl
  · have hc : ∀ j, j ≤ 5 → mem (ofInt32 arg1 + j)
        = bytes_of [115, 104, 101, 108, 108] j := fun j hj => hs j hj
    have c0 := hc 0 (by omega)
    have c1 := hc 1 (by omega)
    have c2 := hc 2 (by omega)
    have c3 := hc 3 (by omega)
    have c4 := hc 4 (by omega)
    have c5 := hc 5 (by omega)
    simp only [bytes_of, List.getD_cons_zero, List.getD_cons_succ, List.getD_nil] at c0 c1 c2 c3 c4 c5
    obtain ⟨s0, e0, s1, h1, h2, h3, h4, h5, h6, h7, h8, h9, ha, hb, hp⟩ :=
      alloc_process_args loc img k (some cur) (fun j => mem (ofInt32 arg1 + j))
        (k.pcbs cur).terminal_id child k1 5 (by omega) c5 (fun t ht => by
          have : t = 0 ∨ t = 1 ∨ t = 2 ∨ t = 3 ∨ t = 4 := by omega
          rcases this with e | e | e | e | e <;> subst e <;> simp only <;> omega) halloc
    simp only [is_ws] at h4 h5 h6 h7 h8 h9
    have hs0 : s0 = 0 := by
      by_contra hne
      have := h4 0 (by omega)
      omega
    subst hs0
    have he0 : e0 = 5 := by
      have hx : e0 = 0 ∨ e0 = 1 ∨ e0 = 2 ∨ e0 = 3 ∨ e0 = 4 ∨ e0 = 5 := by omega
      rcases hx with e | e | e | e | e | e
      · subst e; omega
      · subst e; omega
      · subst e; omega
      · subst e; omega
      · subst e; omega
      · exact e
    subst he0
    have hs1 : s1 = 5 := by omega
    subst hs1
    have a0 := hb 0 (by omega) (by omega)
    rw [← hargs] at a0
    intro mem2 buf n a3
    exact syscall_getargs_short k2 mem2 child buf n a3 0 (by omega) a0
      (fun t ht => absurd ht (Nat.not_lt_zero t)) (Or.inl rfl)
theorem getargs_after_execute_witness :
    ∃ child k2,
      syscall_execute stale_locals sample_image sample_kernel
        (user_string [99, 97, 116, 32, 104, 101, 108, 108, 111]) 0 134217728 0 0
        = some (execute_outcome.switched child k2) ∧
      syscall_getargs k2 (fun _ => 170) child 134218752 4 0 = some (-1, fun _ => 170) ∧
      ∃ mem3, syscall_getargs k2 (fun _ => 170) child 134218752 6 0 = some (0, mem3) ∧
        holds_string mem3 (ofInt32 134218752) [104, 101, 108, 108, 111] ∧
        ∀ a, ¬ (ofInt32 134218752 ≤ a ∧ a < ofInt32 134218752 + (6 : Int).toNat) →
          mem3 a = (fun _ => 170) a :=
  have hex : syscall_execute stale_locals sample_image sample_kernel
      (user_string [99, 97, 116, 32, 104, 101, 108, 108, 111]) 0 134217728 0 0
      = some (execute_outcome.switched 1 _) := rfl
  have h := (getargs_after_execute stale_locals sample_image sample_kernel
    (user_string [99, 97, 116, 32, 104, 101, 108, 108, 111]) 0 134217728 0 0 1 _ hex).1
    (by unfold holds_string; decide) (fun _ => 170) 134218752 0
  ⟨1, _, hex, h.1, h.2 6 (by decide) (by decide) (by decide)⟩

/-! ### The list of open RTC descriptors -/

/-- The chain only depends on the links of its own descriptors. -/
theorem rtc_chain_congr (k k2 : kernel_t) :
    ∀ (l : List fd_ptr) (s pv : Option fd_ptr),
      (∀ q, q ∈ l → (get_fd k2 q).driver_data.next = (get_fd k q).driver_data.next ∧
        (get_fd k2 q).driver_data.prev = (get_fd k q).driver_data.prev) →
      rtc_chain k s pv l → rtc_chain k2 s pv l := by
  intro l
  induction l with
  | nil => intro s pv _ h; exact h
  | cons a l ih =>
    intro s pv hq h
    obtain ⟨h1, h2, h3⟩ := h
    obtain ⟨e1, e2⟩ := hq a (List.mem_cons_self _ _)
    refine ⟨h1, by rw [e2]; exact h2, ?_⟩
    rw [e1]
    exact ih _ _ (fun q hm => hq q (List.mem_cons_of_mem _ hm)) h3

/-- The `prev` link that starts a chain matters to its first descriptor
only. -/
theorem rtc_chain_head (k : kernel_t) (s : Option fd_ptr) (pv : Option fd_ptr) (l : List fd_ptr)
    (h : rtc_chain k s pv l) : s = l.head? := by
  cases l with
  | nil => exact h
  | cons a l => exact h.1

theorem set_fd_counter (k : kernel_t) (p : fd_ptr) (f : fd_info_t) :
    (set_fd k p f).rtc_driver_counter = k.rtc_driver_counter := rfl

/-- The descriptor at `q` after `rtc_close` on the descriptor at `p`. -/
theorem get_fd_rtc_close (k : kernel_t) (p q : fd_ptr) :
    (rtc_close k (some p)).1 = 0 ∧
    (rtc_close k (some p)).2.rtc_driver_data_head =
      (if (get_fd k p).driver_data.prev = none then (get_fd k p).driver_data.next
        else k.rtc_driver_data_head) ∧
    (rtc_close k (some p)).2.rtc_driver_counter = k.rtc_driver_counter ∧
    (get_fd (rtc_close k (some p)).2 q).driver_data.next =
      (if (get_fd k p).driver_data.prev = some q then (get_fd k p).driver_data.next
        else (get_fd k q).driver_data.next) ∧
    (get_fd (rtc_close k (some p)).2 q).driver_data.prev =
      (if (get_fd k p).driver_data.next = some q then (get_fd k p).driver_data.prev
        else (get_fd k q).driver_data.prev) ∧
    (get_fd (rtc_close k (some p)).2 q).driver_data.mask = (get_fd k q).driver_data.mask ∧
    (get_fd (rtc_close k (some p)).2 q).driver_data.fired = (get_fd k q).driver_data.fired ∧
    (get_fd (rtc_close k (some p)).2 q).file_ops = (get_fd k q).file_ops ∧
    (get_fd (rtc_close k (some p)).2 q).inode = (get_fd k q).inode ∧
    (get_fd (rtc_close k (some p)).2 q).file_pos = (get_fd k q).file_pos ∧
    (get_fd (rtc_close k (some p)).2 q).present = (get_fd k q).present ∧
    (get_fd (rtc_close k (some p)).2 q).flags = (get_fd k q).flags := by
  unfold rtc_close
  simp only
  cases hpv : (get_fd k p).driver_data.prev with
  | none =>
    cases hnx : (get_fd k p).driver_data.next with
    | none => simp [get_fd_head_update]
    | some b =>
      by_cases hqb : q = b
      · subst hqb
        simp [set_fd_counter, set_fd_head, get_fd_head_update, get_fd_set_fd]
      · have hbq : ¬ b = q := fun e => hqb e.symm
        simp [set_fd_counter, set_fd_head, get_fd_head_update, get_fd_set_fd, hqb, hbq]
  | some a =>
    cases hnx : (get_fd k p).driver_data.next with
    | none =>
      by_cases hqa : q = a
      · subst hqa
        simp [set_fd_counter, set_fd_head, get_fd_head_update, get_fd_set_fd]
      · have haq : ¬ a = q := fun e => hqa e.symm
        simp [set_fd_counter, set_fd_head, get_fd_head_update, get_fd_set_fd, hqa, haq]
    | some b =>
      by_cases hqa : q = a
      · subst hqa
        by_cases hqb : q = b
        · subst hqb
          simp [set_fd_counter, set_fd_head, get_fd_head_update, get_fd_set_fd]
        · have hbq : ¬ b = q := fun e => hqb e.symm
          simp [set_fd_counter, set_fd_head, get_fd_head_update, get_fd_set_fd, hqb, hbq]
      · have haq : ¬ a = q := fun e => hqa e.symm
        by_cases hqb : q = b
        · subst hqb
          simp [set_fd_counter, set_fd_head, get_fd_head_update, get_fd_set_fd, hqa, haq]
        · have hbq : ¬ b = q := fun e => hqb e.symm
          simp [set_fd_counter, set_fd_head, get_fd_head_update, get_fd_set_fd, hqb, hbq, hqa, haq]
theorem rtc_open_head (k : kernel_t) (p : fd_ptr) (fname : Nat → Nat) :
    (rtc_open k (some p) (some fname)).2.rtc_driver_data_head = some p ∧
    (rtc_open k (some p) (some fname)).2.rtc_driver_counter = k.rtc_driver_counter := by
  unfold rtc_open
  cases hh : k.rtc_driver_data_head with
  | none => simp [hh, set_fd_head, set_fd_counter]
  | some h => simp [hh, set_fd_head, set_fd_counter]

/-- After `rtc_open` on a descriptor that is not on the list, the list is
that descriptor followed by the old list. -/
theorem rtc_list_open (k : kernel_t) (l : List fd_ptr) (p : fd_ptr) (fname : Nat → Nat)
    (hl : rtc_list k l) (hp : p ∉ l) :
    rtc_list (rtc_open k (some p) (some fname)).2 (p :: l) := by
  obtain ⟨hnd, hch⟩ := hl
  refine ⟨List.nodup_cons.mpr ⟨hp, hnd⟩, (rtc_open_head k p fname).1, ?_, ?_⟩
  · rw [(get_fd_rtc_open k p p fname).2, if_pos rfl]
  · rw [(get_fd_rtc_open k p p fname).2, if_pos rfl]
    simp only
    cases l with
    | nil =>
      have h0 : k.rtc_driver_data_head = none := hch
      rw [h0]
      rfl
    | cons h t =>
      obtain ⟨h1, h2, h3⟩ := hch
      have hhp : h ≠ p := fun e => hp (by rw [e]; exact List.mem_cons_self _ _)
      have hh : get_fd (rtc_open k (some p) (some fname)).2 h
          = { (get_fd k h) with
              driver_data := { (get_fd k h).driver_data with prev := some p } } := by
        rw [(get_fd_rtc_open k p h fname).2, if_neg hhp, if_pos h1]
      refine ⟨h1, by rw [hh], ?_⟩
      rw [hh]
      simp only
      apply rtc_chain_congr k _ t _ _ _ h3
      intro q hq
      have hqp : q ≠ p := fun e => hp (by rw [← e]; exact List.mem_cons_of_mem _ hq)
      have hqh : q ≠ h := fun e => (List.nodup_cons.mp hnd).1 (by rw [← e]; exact hq)
      have hne : ¬ k.rtc_driver_data_head = some q := by
        rw [h1]
        intro e
        exact hqh (Option.some.inj e).symm
      rw [(get_fd_rtc_open k p q fname).2, if_neg hqp, if_neg hne]
      exact ⟨rfl, rfl⟩

/-- The last descriptor of `l1`, or `pv` when `l1` is empty. -/
theorem rtc_last_cases (l1 : List fd_ptr) :
    ∀ pv : Option fd_ptr,
      (l1 = [] ∧ l1.foldl (fun _ x => some x) pv = pv) ∨
      (l1 ≠ [] ∧ ∃ x, x ∈ l1 ∧ l1.foldl (fun _ x => some x) pv = some x) := by
  induction l1 with
  | nil => intro pv; exact Or.inl ⟨rfl, rfl⟩
  | cons a l1 ih =>
    intro pv
    right
    refine ⟨List.cons_ne_nil _ _, ?_⟩
    rcases ih (some a) with ⟨he, hf⟩ | ⟨_, x, hx, hf⟩
    · exact ⟨a, List.mem_cons_self _ _, by rw [List.foldl_cons, hf]⟩
    · exact ⟨x, List.mem_cons_of_mem _ hx, by rw [List.foldl_cons, hf]⟩

/-- Inside a chain: the `prev` link of a descriptor is the descriptor before
it, and the chain goes on from its `next` link. -/
theorem rtc_chain_mid (k : kernel_t) (p : fd_ptr) (l2 : List fd_ptr) :
    ∀ (l1 : List fd_ptr) (s pv : Option fd_ptr), rtc_chain k s pv (l1 ++ p :: l2) →
      (get_fd k p).driver_data.prev = l1.foldl (fun _ x => some x) pv ∧
      rtc_chain k (get_fd k p).driver_data.next (some p) l2 := by
  intro l1
  induction l1 with
  | nil =>
    intro s pv h
    exact ⟨h.2.1, h.2.2⟩
  | cons a l1 ih =>
    intro s pv h
    exact ih _ _ h.2.2

/-- Unlinking the descriptor `p` from a chain: with the `next` link of the
descriptor before `p` and the `prev` link of the one after it set as
`rtc_close` sets them, the chain runs through the other descriptors. -/
theorem rtc_chain_remove (k k2 : kernel_t) (p : fd_ptr) (l2 : List fd_ptr)
    (hN : ∀ q, (get_fd k2 q).driver_data.next =
      (if (get_fd k p).driver_data.prev = some q then (get_fd k p).driver_data.next
        else (get_fd k q).driver_data.next))
    (hP : ∀ q, (get_fd k2 q).driver_data.prev =
      (if (get_fd k p).driver_data.next = some q then (get_fd k p).driver_data.prev
        else (get_fd k q).driver_data.prev)) :
    ∀ (l1 : List fd_ptr) (s pv : Option fd_ptr), rtc_chain k s pv (l1 ++ p :: l2) →
      (l1 ++ p :: l2).Nodup → (∀ x, pv = some x → x ∉ l1 ++ p :: l2) →
      rtc_chain k2 (if l1 = [] then (get_fd k p).driver_data.next else s) pv (l1 ++ l2) := by
  intro l1
  induction l1 with
  | nil =>
    intro s pv h hnd hpv
    obtain ⟨_, hpp, hrest⟩ := h
    rw [if_pos rfl]
    simp only [List.nil_append] at hnd hpv ⊢
    cases l2 with
    | nil => exact hrest
    | cons b l2 =>
      obtain ⟨r1, r2, r3⟩ := hrest
      have hnb : ¬ (get_fd k p).driver_data.prev = some b := by
        rw [hpp]
        intro e
        exact hpv b e (List.mem_cons_of_mem _ (List.mem_cons_self _ _))
      refine ⟨r1, by rw [hP b, if_pos r1, hpp], ?_⟩
      rw [hN b, if_neg hnb]
      apply rtc_chain_congr k k2 l2 _ _ _ r3
      intro q hq
      have h1 : ¬ (get_fd k p).driver_data.prev = some q := by
        rw [hpp]
        intro e
        exact hpv q e (List.mem_cons_of_mem _ (List.mem_cons_of_mem _ hq))
      have h2 : ¬ (get_fd k p).driver_data.next = some q := by
        rw [r1]
        intro e
        have hbq : b = q := Option.some.inj e
        have hnd2 := (List.nodup_cons.mp (List.nodup_cons.mp hnd).2).1
        exact hnd2 (by rw [hbq]; exact hq)
      rw [hN q, hP q, if_neg h1, if_neg h2]
      exact ⟨rfl, rfl⟩
  | cons x l1 ih =>
    intro s pv h hnd hpv
    obtain ⟨hs, hpx, hrest⟩ := h
    rw [if_neg (List.cons_ne_nil _ _)]
    have hnd1 : (l1 ++ p :: l2).Nodup := (List.nodup_cons.mp hnd).2
    have hx : x ∉ l1 ++ p :: l2 := (List.nodup_cons.mp hnd).1
    obtain ⟨hmid1, hmid2⟩ := rtc_chain_mid k p l2 l1 _ _ hrest
    have hnx : ¬ (get_fd k p).driver_data.next = some x := by
      intro e
      have hh := rtc_chain_head k _ _ l2 hmid2
      rw [e] at hh
      have hm : x ∈ l2 := List.mem_of_mem_head? hh.symm
      exact hx (List.mem_append_right _ (List.mem_cons_of_mem _ hm))
    refine ⟨hs, by rw [hP x, if_neg hnx]; exact hpx, ?_⟩
    have hih := ih (get_fd k x).driver_data.next (some x) hrest hnd1
      (fun y e => by rw [← Option.some.inj e]; exact hx)
    rcases rtc_last_cases l1 (some x) with ⟨he, hf⟩ | ⟨hne, y, hy, hf⟩
    · rw [if_pos he] at hih
      rw [hN x, if_pos (by rw [hmid1, hf])]
      exact hih
    · rw [if_neg hne] at hih
      have hyx : ¬ (get_fd k p).driver_data.prev = some x := by
        rw [hmid1, hf]
        intro e
        have : y = x := Option.some.inj e
        exact hx (List.mem_append_left _ (by rw [← this]; exact hy))
      rw [hN x, if_neg hyx]
      exact hih

/-- After `rtc_close` on a descriptor of the list, the list is the old one
without that descriptor. -/
theorem rtc_list_close (k : kernel_t) (l : List fd_ptr) (p : fd_ptr)
    (hl : rtc_list k l) (hp : p ∈ l) :
    rtc_list (rtc_close k (some p)).2 (l.erase p) := by
  obtain ⟨hnd, hch⟩ := hl
  refine ⟨hnd.erase p, ?_⟩
  obtain ⟨l1, l2, hl12⟩ := List.append_of_mem hp
  subst hl12
  have hp1 : p ∉ l1 := by
    intro hm
    have := List.nodup_append.mp hnd
    exact this.2.2 hm (List.mem_cons_self _ _)
  have herase : (l1 ++ p :: l2).erase p = l1 ++ l2 := by
    rw [List.erase_append_right _ hp1, List.erase_cons_head]
  rw [herase]
  have hrem := rtc_chain_remove k (rtc_close k (some p)).2 p l2
    (fun q => (get_fd_rtc_close k p q).2.2.2.1) (fun q => (get_fd_rtc_close k p q).2.2.2.2.1)
    l1 _ none hch hnd (fun x e => by cases e)
  have hhead := (get_fd_rtc_close k p p).2.1
  obtain ⟨hmid1, _⟩ := rtc_chain_mid k p l2 l1 _ _ hch
  rcases rtc_last_cases l1 none with ⟨he, hf⟩ | ⟨hne, y, _, hf⟩
  · rw [if_pos he] at hrem
    rw [hhead, if_pos (by rw [hmid1, hf])]
    exact hrem
  · rw [if_neg hne] at hrem
    rw [hhead, if_neg (by rw [hmid1, hf]; exact Option.some_ne_none _)]
    exact hrem
/-- In a chain, the descriptor after `x` points back to `x`. -/
theorem rtc_chain_links (k : kernel_t) :
    ∀ (l : List fd_ptr) (s pv : Option fd_ptr), rtc_chain k s pv l →
      ∀ x, x ∈ l → ∀ y, (get_fd k x).driver_data.next = some y →
        y ∈ l ∧ (get_fd k y).driver_data.prev = some x := by
  intro l
  induction l with
  | nil => intro s pv _ x hx; cases hx
  | cons a t ih =>
    intro s pv h x hx y hy
    obtain ⟨_, _, h3⟩ := h
    rcases List.mem_cons.mp hx with e | hxt
    · subst e
      rw [hy] at h3
      cases t with
      | nil => cases h3
      | cons b t =>
        obtain ⟨r1, r2, _⟩ := h3
        have hyb : y = b := Option.some.inj r1
        subst hyb
        exact ⟨List.mem_cons_of_mem _ (List.mem_cons_self _ _), r2⟩
    · obtain ⟨m1, m2⟩ := ih _ _ h3 x hxt y hy
      exact ⟨List.mem_cons_of_mem _ m1, m2⟩

theorem fd_info_eq (a b : fd_info_t) (h1 : a.file_ops = b.file_ops) (h2 : a.inode = b.inode)
    (h3 : a.file_pos = b.file_pos) (h4 : a.present = b.present) (h5 : a.flags = b.flags)
    (h6 : a.driver_data.next = b.driver_data.next) (h7 : a.driver_data.prev = b.driver_data.prev)
    (h8 : a.driver_data.mask = b.driver_data.mask)
    (h9 : a.driver_data.fired = b.driver_data.fired) : a = b := by
  obtain ⟨a1, a2, a3, a4, a5, ⟨a6, a7, a8, a9⟩⟩ := a
  obtain ⟨b1, b2, b3, b4, b5, ⟨b6, b7, b8, b9⟩⟩ := b
  simp only at h1 h2 h3 h4 h5 h6 h7 h8 h9
  subst h1 h2 h3 h4 h5 h6 h7 h8 h9
  rfl

/-- The descriptor just opened has the mask of 2 Hz, and `rtc_close` on it
puts the head and every other descriptor back as they were. -/
theorem rtc_open_close (k : kernel_t) (l : List fd_ptr) (p : fd_ptr) (fname : Nat → Nat)
    (hl : rtc_list k l) :
    (rtc_open k (some p) (some fname)).1 = 0 ∧
    (get_fd (rtc_open k (some p) (some fname)).2 p).driver_data.mask = 511 ∧
    (rtc_close (rtc_open k (some p) (some fname)).2 (some p)).1 = 0 ∧
    (rtc_close (rtc_open k (some p) (some fname)).2 (some p)).2.rtc_driver_data_head
      = k.rtc_driver_data_head ∧
    ∀ q, q ≠ p →
      get_fd (rtc_close (rtc_open k (some p) (some fname)).2 (some p)).2 q = get_fd k q := by
  have hpp := (get_fd_rtc_open k p p fname).2
  rw [if_pos rfl] at hpp
  have hprev : (get_fd (rtc_open k (some p) (some fname)).2 p).driver_data.prev = none := by
    rw [hpp]
  have hnext : (get_fd (rtc_open k (some p) (some fname)).2 p).driver_data.next
      = k.rtc_driver_data_head := by
    rw [hpp]
  refine ⟨rfl, by rw [hpp]; rfl, rfl, ?_, fun q hq => ?_⟩
  · rw [(get_fd_rtc_close _ p p).2.1, if_pos hprev, hnext]
  · obtain ⟨_, _, _, c1, c2, c3, c4, c5, c6, c7, c8, c9⟩ :=
      get_fd_rtc_close (rtc_open k (some p) (some fname)).2 p q
    have hq1 := (get_fd_rtc_open k p q fname).2
    rw [if_neg hq] at hq1
    rw [hprev, hnext] at c1
    rw [hprev, hnext] at c2
    rw [if_neg (by exact fun e => Option.noConfusion e)] at c1
    by_cases hh : k.rtc_driver_data_head = some q
    · rw [if_pos hh] at hq1 c2
      have hq0 : (get_fd k q).driver_data.prev = none := by
        obtain ⟨_, hch⟩ := hl
        cases l with
        | nil =>
          have h0 : k.rtc_driver_data_head = none := hch
          rw [h0] at hh
          cases hh
        | cons a t =>
          obtain ⟨r1, r2, _⟩ := hch
          rw [hh] at r1
          rw [Option.some.inj r1]
          exact r2
      apply fd_info_eq
      · rw [c5, hq1]
      · rw [c6, hq1]
      · rw [c7, hq1]
      · rw [c8, hq1]
      · rw [c9, hq1]
      · rw [c1, hq1]
      · rw [c2, hq0]
      · rw [c3, hq1]
      · rw [c4, hq1]
    · rw [if_neg hh] at hq1 c2
      apply fd_info_eq
      · rw [c5, hq1]
      · rw [c6, hq1]
      · rw [c7, hq1]
      · rw [c8, hq1]
      · rw [c9, hq1]
      · rw [c1, hq1]
      · rw [c2, hq1]
      · rw [c3, hq1]
      · rw [c4, hq1]

/-- The invariant over a sequence of calls. -/
theorem rtc_list_calls :
    ∀ (cs : List rtc_call) (k : kernel_t) (l : List fd_ptr), rtc_list k l → rtc_admissible cs l →
      rtc_list (rtc_calls cs k) (rtc_opened_all cs l) := by
  intro cs
  induction cs with
  | nil => intro k l hl _; exact hl
  | cons c cs ih =>
    intro k l hl hadm
    cases c with
    | rtc_open p fname =>
      obtain ⟨h1, h2⟩ := hadm
      exact ih _ _ (rtc_list_open k l p fname hl h1) h2
    | rtc_close p =>
      obtain ⟨h1, h2⟩ := hadm
      exact ih _ _ (rtc_list_close k l p hl h1) h2

/-- C29: from kernel data whose RTC list is the doubly-linked list of the
descriptors of `l`, after any sequence of calls of `rtc_open` on descriptors
that are not open and of `rtc_close` on descriptors that are, the list at
`rtc_driver_data_head` is the doubly-linked list of the descriptors open
then, each once and the most recently opened first: it ends in `NULL`, the
`prev` link of its head is `NULL`, and the successor of a descriptor `x`
of the list is on the list and points back to `x`.  A descriptor opened in
that state gets the mask 511, and `rtc_close` on it right afterwards
restores the head and every other descriptor. -/
theorem rtc_list_invariant (k : kernel_t) (l : List fd_ptr) (cs : List rtc_call)
    (hl : rtc_list k l) (hcs : rtc_admissible cs l) :
    rtc_list (rtc_calls cs k) (rtc_opened_all cs l) ∧
    (rtc_calls cs k).rtc_driver_data_head = (rtc_opened_all cs l).head? ∧
    (∀ h, (rtc_calls cs k).rtc_driver_data_head = some h →
      (get_fd (rtc_calls cs k) h).driver_data.prev = none) ∧
    (∀ x, x ∈ rtc_opened_all cs l → ∀ y,
      (get_fd (rtc_calls cs k) x).driver_data.next = some y →
      y ∈ rtc_opened_all cs l ∧ (get_fd (rtc_calls cs k) y).driver_data.prev = some x) ∧
    ∀ (p : fd_ptr) (fname : Nat → Nat), p ∉ rtc_opened_all cs l →
      (rtc_open (rtc_calls cs k) (some p) (some fname)).1 = 0 ∧
      rtc_list (rtc_open (rtc_calls cs k) (some p) (some fname)).2 (p :: rtc_opened_all cs l) ∧
      (get_fd (rtc_open (rtc_calls cs k) (some p) (some fname)).2 p).driver_data.mask = 511 ∧
      (rtc_close (rtc_open (rtc_calls cs k) (some p) (some fname)).2 (some p)).1 = 0 ∧
      (rtc_close (rtc_open (rtc_calls cs k) (some p) (some fname)).2 (some p)).2.rtc_driver_data_head
        = (rtc_calls cs k).rtc_driver_data_head ∧
      ∀ q, q ≠ p →
        get_fd (rtc_close (rtc_open (rtc_calls cs k) (some p) (some fname)).2 (some p)).2 q
          = get_fd (rtc_calls cs k) q := by
  have hinv := rtc_list_calls cs k l hl hcs
  refine ⟨hinv, rtc_chain_head _ _ _ _ hinv.2, fun h hh => ?_,
    rtc_chain_links _ _ _ _ hinv.2, fun p fname hp => ?_⟩
  · obtain ⟨_, hch⟩ := hinv
    cases hcase : rtc_opened_all cs l with
    | nil =>
      rw [hcase] at hch
      have h0 : (rtc_calls cs k).rtc_driver_data_head = none := hch
      rw [h0] at hh
      cases hh
    | cons a t =>
      rw [hcase] at hch
      obtain ⟨r1, r2, _⟩ := hch
      rw [hh] at r1
      rw [Option.some.inj r1]
      exact r2
  · obtain ⟨o1, o2, o3, o4, o5⟩ := rtc_open_close (rtc_calls cs k) _ p fname hinv
    exact ⟨o1, rtc_list_open _ _ p fname hinv hp, o2, o3, o4, o5⟩

theorem rtc_list_invariant_witness :
    rtc_list
      (rtc_calls [rtc_call.rtc_open (0, 2) (bytes_of [114, 116, 99]),
        rtc_call.rtc_open (1, 3) (bytes_of [114, 116, 99]), rtc_call.rtc_close (0, 2)] boot_kernel)
      [(1, 3)] :=
  (rtc_list_invariant boot_kernel []
    [rtc_call.rtc_open (0, 2) (bytes_of [114, 116, 99]),
      rtc_call.rtc_open (1, 3) (bytes_of [114, 116, 99]), rtc_call.rtc_close (0, 2)]
    ⟨List.nodup_nil, rfl⟩ (by simp [rtc_admissible, rtc_opened])).1

/-! ### The virtual rates of the RTC -/

/-- The masks of the rates: for a power of two `r` from 2 to 1024 the mask
is `d - 1` for the power of two `d = 1024 / r`, which divides 1024 and
`2^32`. -/
theorem freq_to_mask_pow (r : Nat) (hr : ∃ j, r = 2 ^ j) (h2 : 2 ≤ r) (h1024 : r ≤ 1024) :
    ∃ i, i ≤ 9 ∧ 1024 / r = 2 ^ i ∧ freq_to_mask r = 2 ^ i - 1 ∧ 2 ^ i * r = 1024 := by
  obtain ⟨j, hj⟩ := hr
  subst hj
  have hj1 : 1 ≤ j := by
    by_contra hc
    have : j = 0 := by omega
    subst this
    omega
  have hj10 : j ≤ 10 := by
    by_contra hc
    have h11 : 2 ^ 11 ≤ 2 ^ j := Nat.pow_le_pow_right (by decide) (by omega)
    omega
  have hdiv : 1024 / 2 ^ j = 2 ^ (10 - j) := by
    have : (1024 : Nat) = 2 ^ 10 := by norm_num
    rw [this, Nat.pow_div hj10 (by decide)]
  have hle : 2 ^ (10 - j) ≤ 2 ^ 9 := Nat.pow_le_pow_right (by decide) (by omega)
  have hpos : 0 < 2 ^ (10 - j) := Nat.pow_pos (by decide)
  refine ⟨10 - j, by omega, hdiv, ?_, ?_⟩
  · unfold freq_to_mask RTC_BASE_RATE
    rw [hdiv, sub32_of_le (by omega) (by omega)]
  · rw [← pow_add]
    have : 10 - j + j = 10 := by omega
    rw [this]
    norm_num

/-- The test of the handler on a mask `2^i - 1`. -/
theorem rtc_mask_test (c i : Nat) : c &&& (2 ^ i - 1) = 0 ↔ 2 ^ i ∣ c := by
  rw [Nat.and_pow_two_sub_one_eq_mod, Nat.dvd_iff_mod_eq_zero]

/-- In a window of `d * r` consecutive numbers, `r` are multiples of `d`. -/
theorem count_multiples (d r c : Nat) (hd : 0 < d) :
    Nat.count (fun t => d ∣ (c + t)) (d * r) = r := by
  have h1 := Nat.count_add (fun x => x ≡ 0 [MOD d]) c (d * r)
  rw [Nat.count_modEq_card _ hd 0, Nat.count_modEq_card _ hd 0] at h1
  have hq : (c + d * r) / d = c / d + r := by
    rw [Nat.add_mul_div_left _ _ hd]
  have hm : (c + d * r) % d = c % d := Nat.add_mul_mod_self_left _ _ _
  rw [hq, hm] at h1
  have h2 : Nat.count (fun k => c + k ≡ 0 [MOD d]) (d * r) = r := by omega
  have h3 : Nat.count (fun t => d ∣ (c + t)) (d * r)
      = Nat.count (fun k => c + k ≡ 0 [MOD d]) (d * r) :=
    le_antisymm (Nat.count_mono_left (fun k hk => (Nat.modEq_zero_iff_dvd).mpr hk))
      (Nat.count_mono_left (fun k hk => (Nat.modEq_zero_iff_dvd).mp hk))
  rw [h3]
  exact h2

/-- One step of the walk of `rtc_handler`, at the descriptor `a`. -/
theorem rtc_handler_step (k : kernel_t) (a : fd_ptr) :
    ∃ k1, (if k.rtc_driver_counter &&& (get_fd k a).driver_data.mask = 0 then
        set_fd k a { (get_fd k a) with
          driver_data := { (get_fd k a).driver_data with fired := 1 } }
      else k) = k1 ∧
      k1.rtc_driver_data_head = k.rtc_driver_data_head ∧
      k1.rtc_driver_counter = k.rtc_driver_counter ∧
      ∀ q, (get_fd k1 q).driver_data.next = (get_fd k q).driver_data.next ∧
        (get_fd k1 q).driver_data.prev = (get_fd k q).driver_data.prev ∧
        (get_fd k1 q).driver_data.mask = (get_fd k q).driver_data.mask ∧
        (get_fd k1 q).driver_data.fired =
          (if q = a ∧ k.rtc_driver_counter &&& (get_fd k q).driver_data.mask = 0 then 1
            else (get_fd k q).driver_data.fired) := by
  by_cases htest : k.rtc_driver_counter &&& (get_fd k a).driver_data.mask = 0
  · rw [if_pos htest]
    refine ⟨_, rfl, rfl, rfl, fun q => ?_⟩
    rw [get_fd_set_fd]
    by_cases hqa : q = a
    · subst hqa
      simp [htest]
    · simp [hqa]
  · rw [if_neg htest]
    refine ⟨_, rfl, rfl, rfl, fun q => ⟨rfl, rfl, rfl, ?_⟩⟩
    by_cases hqa : q = a
    · subst hqa
      simp [htest]
    · simp [hqa]

/-- What the walk of `rtc_handler` does on a chain: it ends, and it sets the
fired flag of the descriptors of the chain whose mask has no bit in common
with the counter; no other field that the RTC driver uses changes. -/
theorem rtc_handler_walk_spec :
    ∀ (l : List fd_ptr) (k : kernel_t) (s pv : Option fd_ptr) (fuel : Nat),
      rtc_chain k s pv l → l.length ≤ fuel →
      ∃ k2, rtc_handler_walk fuel s k = some k2 ∧
        k2.rtc_driver_data_head = k.rtc_driver_data_head ∧
        k2.rtc_driver_counter = k.rtc_driver_counter ∧
        ∀ q, (get_fd k2 q).driver_data.next = (get_fd k q).driver_data.next ∧
          (get_fd k2 q).driver_data.prev = (get_fd k q).driver_data.prev ∧
          (get_fd k2 q).driver_data.mask = (get_fd k q).driver_data.mask ∧
          (get_fd k2 q).driver_data.fired =
            (if q ∈ l ∧ k.rtc_driver_counter &&& (get_fd k q).driver_data.mask = 0 then 1
              else (get_fd k q).driver_data.fired) := by
  intro l
  induction l with
  | nil =>
    intro k s pv fuel h _
    have hs : s = none := h
    subst hs
    refine ⟨k, by cases fuel <;> rfl, rfl, rfl, fun q => ⟨rfl, rfl, rfl, ?_⟩⟩
    rw [if_neg (fun h => by cases h.1)]
  | cons a t ih =>
    intro k s pv fuel h hf
    obtain ⟨hs, _, hrest⟩ := h
    subst hs
    cases fuel with
    | zero => simp at hf
    | succ fuel =>
      rw [rtc_handler_walk]
      simp only
      obtain ⟨k1, hk1, g1, g2, g3⟩ := rtc_handler_step k a
      rw [hk1]
      have hchain : rtc_chain k1 (get_fd k1 a).driver_data.next (some a) t := by
        rw [(g3 a).1]
        exact rtc_chain_congr k k1 t _ _ (fun q _ => ⟨(g3 q).1, (g3 q).2.1⟩) hrest
      obtain ⟨k2, hk2, e1, e2, e3⟩ := ih k1 _ _ fuel hchain (by simpa using hf)
      refine ⟨k2, hk2, by rw [e1, g1], by rw [e2, g2], fun q => ?_⟩
      obtain ⟨f1, f2, f3, f4⟩ := e3 q
      obtain ⟨f5, f6, f7, f8⟩ := g3 q
      refine ⟨by rw [f1, f5], by rw [f2, f6], by rw [f3, f7], ?_⟩
      rw [f4, f8, f7, g2]
      by_cases hqa : q = a
      · subst hqa
        by_cases hc : k.rtc_driver_counter &&& (get_fd k q).driver_data.mask = 0
        · simp [hc]
        · simp [hc]
      · simp [hqa]

/-- What `rtc_handler` does when the RTC list is the list of `l`: it
returns, the counter has gone up by one, the list is the same, and the fired
flag is set on the descriptors of `l` whose mask had no bit in common with
the counter. -/
theorem rtc_handler_spec (fuel : Nat) (k : kernel_t) (l : List fd_ptr) (hl : rtc_list k l)
    (hf : l.length ≤ fuel) :
    ∃ k2, rtc_handler fuel k = some k2 ∧ rtc_list k2 l ∧
      k2.rtc_driver_counter = add32 k.rtc_driver_counter 1 ∧
      ∀ q, (get_fd k2 q).driver_data.mask = (get_fd k q).driver_data.mask ∧
        (get_fd k2 q).driver_data.fired =
          (if q ∈ l ∧ k.rtc_driver_counter &&& (get_fd k q).driver_data.mask = 0 then 1
            else (get_fd k q).driver_data.fired) := by
  obtain ⟨k2, hk2, e1, e2, e3⟩ := rtc_handler_walk_spec l k _ _ fuel hl.2 hf
  unfold rtc_handler
  rw [hk2]
  refine ⟨_, rfl, ⟨hl.1, ?_⟩, ?_, fun q => ⟨(e3 q).2.2.1, (e3 q).2.2.2⟩⟩
  · show rtc_chain _ k2.rtc_driver_data_head none l
    rw [e1]
    apply rtc_chain_congr k _ l _ _ _ hl.2
    intro q _
    exact ⟨(e3 q).1, (e3 q).2.1⟩
  · show add32 k2.rtc_driver_counter 1 = _
    rw [e2]

/-- After `n` interrupts the counter has gone up by `n`, in `uint32_t`, and
the list and the masks are the same. -/
theorem rtc_ticks_spec (fuel : Nat) (l : List fd_ptr) (hf : l.length ≤ fuel) :
    ∀ (n : Nat) (k : kernel_t), rtc_list k l → k.rtc_driver_counter < 4294967296 →
      ∃ kn, rtc_ticks fuel n k = some kn ∧ rtc_list kn l ∧
        kn.rtc_driver_counter = (k.rtc_driver_counter + n) % 4294967296 ∧
        ∀ q, (get_fd kn q).driver_data.mask = (get_fd k q).driver_data.mask := by
  intro n
  induction n with
  | zero =>
    intro k hl hc
    exact ⟨k, rfl, hl, by rw [Nat.add_zero, Nat.mod_eq_of_lt hc], fun _ => rfl⟩
  | succ n ih =>
    intro k hl hc
    obtain ⟨k1, hk1, hl1, hc1, hm1⟩ := rtc_handler_spec fuel k l hl hf
    have hc1lt : k1.rtc_driver_counter < 4294967296 := by
      rw [hc1]
      unfold add32 WORD
      exact Nat.mod_lt _ (by decide)
    obtain ⟨kn, hkn, hln, hcn, hmn⟩ := ih k1 hl1 hc1lt
    refine ⟨kn, ?_, hln, ?_, fun q => by rw [hmn q, (hm1 q).1]⟩
    · rw [rtc_ticks, hk1]
      exact hkn
    · rw [hcn, hc1]
      unfold add32 WORD
      omega

/-- The interrupts that mark a descriptor of the list are those at which
its mask has no bit in common with the counter. -/
theorem rtc_marks_spec (fuel : Nat) (k : kernel_t) (l : List fd_ptr) (p : fd_ptr)
    (hl : rtc_list k l) (hp : p ∈ l) (hf : l.length ≤ fuel)
    (hc : k.rtc_driver_counter < 4294967296) (t : Nat) :
    rtc_marks fuel k p t = true ↔
      ((k.rtc_driver_counter + t) % 4294967296) &&& (get_fd k p).driver_data.mask = 0 := by
  obtain ⟨kt, hkt, hlt, hct, hmt⟩ := rtc_ticks_spec fuel l hf t k hl hc
  unfold rtc_marks
  rw [hkt]
  simp only
  have hl0 : rtc_list (set_fd kt p { (get_fd kt p) with
      driver_data := { (get_fd kt p).driver_data with fired := 0 } }) l := by
    refine ⟨hlt.1, ?_⟩
    rw [set_fd_head]
    apply rtc_chain_congr kt _ l _ _ _ hlt.2
    intro q _
    rw [get_fd_set_fd]
    by_cases hqp : q = p
    · subst hqp
      simp
    · simp [hqp]
  obtain ⟨k2, hk2, _, _, h2⟩ := rtc_handler_spec fuel _ l hl0 hf
  rw [hk2]
  simp only
  obtain ⟨_, hfired⟩ := h2 p
  rw [hfired, set_fd_counter, get_fd_set_fd, if_pos rfl]
  simp only
  rw [hct, hmt p]
  by_cases htest : ((k.rtc_driver_counter + t) % 4294967296) &&& (get_fd k p).driver_data.mask = 0
  · simp [htest, hp]
  · simp [htest]
/-- C28: for a power of two `r` from 2 to 1024 the mask `freq_to_mask r` is
`1024 / r - 1`, and a counter value has no bit in common with it exactly
when it is a multiple of `1024 / r`.  Hence, for a descriptor of the RTC
list with that mask, from any state of the counter: the interrupts that mark
the descriptor as fired are those at which the counter is a multiple of
`1024 / r`, so that after one of them the next is `1024 / r` interrupts
later, and of any 1024 interrupts in a row exactly `r` mark it. -/
theorem rtc_rate_arithmetic (r : Nat) (hr : ∃ j, r = 2 ^ j) (h2 : 2 ≤ r) (h1024 : r ≤ 1024) :
    freq_to_mask r = 1024 / r - 1 ∧
    (∀ c, c &&& freq_to_mask r = 0 ↔ (1024 / r) ∣ c) ∧
    ∀ (fuel : Nat) (k : kernel_t) (l : List fd_ptr) (p : fd_ptr),
      rtc_list k l → p ∈ l → l.length ≤ fuel → k.rtc_driver_counter < 4294967296 →
      (get_fd k p).driver_data.mask = freq_to_mask r →
      (∀ t, rtc_marks fuel k p t = true ↔ (1024 / r) ∣ (k.rtc_driver_counter + t)) ∧
      (∀ t, rtc_marks fuel k p t = true →
        rtc_marks fuel k p (t + 1024 / r) = true ∧
        ∀ s, 0 < s → s < 1024 / r → rtc_marks fuel k p (t + s) = false) ∧
      Nat.count (fun t => rtc_marks fuel k p t = true) 1024 = r := by
  obtain ⟨i, hi, hdiv, hmask, hprod⟩ := freq_to_mask_pow r hr h2 h1024
  have hpos : 0 < 2 ^ i := Nat.pow_pos (by decide)
  have hW : 2 ^ i ∣ 4294967296 := by
    have : (4294967296 : Nat) = 2 ^ 32 := by norm_num
    rw [this]
    exact pow_dvd_pow 2 (by omega)
  rw [hdiv, hmask]
  refine ⟨rfl, fun c => rtc_mask_test c i, ?_⟩
  intro fuel k l p hl hp hf hc hm
  have hiff : ∀ t, rtc_marks fuel k p t = true ↔ 2 ^ i ∣ (k.rtc_driver_counter + t) := by
    intro t
    rw [rtc_marks_spec fuel k l p hl hp hf hc t, hm, rtc_mask_test]
    exact (Nat.dvd_mod_iff hW).symm.symm
  refine ⟨hiff, fun t ht => ⟨?_, fun s hs0 hsd => ?_⟩, ?_⟩
  · rw [hiff] at ht ⊢
    rw [← Nat.add_assoc]
    exact (Nat.dvd_add_right ht).mpr (dvd_refl _)
  · rw [hiff] at ht
    cases hmk : rtc_marks fuel k p (t + s) with
    | false => rfl
    | true =>
      rw [hiff, ← Nat.add_assoc] at hmk
      have hds : 2 ^ i ∣ s := (Nat.dvd_add_right ht).mp hmk
      have := Nat.le_of_dvd hs0 hds
      omega
  · have h3 : Nat.count (fun t => rtc_marks fuel k p t = true) 1024
        = Nat.count (fun t => 2 ^ i ∣ (k.rtc_driver_counter + t)) 1024 :=
      le_antisymm (Nat.count_mono_left (fun t ht => (hiff t).mp ht))
        (Nat.count_mono_left (fun t ht => (hiff t).mpr ht))
    rw [h3, ← hprod]
    exact count_multiples (2 ^ i) r k.rtc_driver_counter hpos

theorem rtc_rate_arithmetic_witness :
    (freq_to_mask 2 = 1024 / 2 - 1 ∧ freq_to_mask 2 = 511) ∧
    (∀ c, c &&& freq_to_mask 2 = 0 ↔ (1024 / 2) ∣ c) ∧
    Nat.count (fun t => rtc_marks 1 rtc_kernel (0, 2) t = true) 1024 = 2 :=
  have h := rtc_rate_arithmetic 2 ⟨1, rfl⟩ (by decide) (by decide)
  ⟨⟨h.1, by decide⟩, h.2.1,
    (h.2.2 1 rtc_kernel [(0, 2)] (0, 2) ⟨by decide, rfl, rfl, rfl⟩ (by decide) (by decide)
      (by decide) (by decide)).2.2⟩

end MP3
